import Mathlib

/-!
# A shallow embedding of the immer draft/copy-on-write engine

This file embeds, in Lean, the core of the immer library (fork
`Fork-immer`): the JavaScript value model the engine manipulates, the
strict shallow-copy of `utils/common.ts`, the proxy traps of `proxy.ts`,
the `DraftMap`/`DraftSet` method wrappers of the MapSet plugin, the
finalization pass of `core/finalize.ts`, the patch generator and the
patch applier of the Patches plugin, and the `produce` run loop of
`core/immerClass.ts`.

The embedding works over an explicit heap (a list of nodes addressed by
position) so that object identity, in-place freezing and the engine's
promise never to write into pre-existing structure are all expressible.
Machine integers do not occur; JavaScript numbers are modelled as `Int`
plus a separate NaN constructor, which is all the engine's own equality
logic (`is`) distinguishes.
-/

set_option maxHeartbeats 1000000
set_option maxRecDepth 100000

namespace Immer

/-! ## JavaScript primitive values -/

/-- Primitive (non-object) JavaScript values.  `nan` is kept separate from
`num` because the engine's change detection distinguishes `===` (where
`NaN !== NaN`) from `Object.is` (where `is(NaN, NaN)` holds). -/
inductive Prim where
  | undef
  | null
  | bool (b : Bool)
  | num (n : Int)
  | nan
  | str (s : String)
  deriving DecidableEq, Repr

/-- Runtime values: primitives, references to heap objects, and references
to live drafts (proxy objects). -/
inductive Val where
  | prim (p : Prim)
  | ref (a : Nat)
  | draft (d : Nat)
  deriving DecidableEq, Repr

/-- JavaScript `===` on our values.  Identical except that `NaN === NaN` is
false.  Object references compare by identity (address). -/
def jsEq (x y : Val) : Bool :=
  match x, y with
  | .prim .nan, _ => false
  | _, .prim .nan => false
  | x, y => x = y

/-- `Object.is` semantics as implemented by `is` in `utils/common.ts`:
like `===` but `is(NaN, NaN)` is true.  (The `+0`/`-0` distinction does not
arise in the integer model.) -/
def jsIs (x y : Val) : Bool :=
  match x, y with
  | .prim .nan, .prim .nan => true
  | x, y => jsEq x y

/-! ## Pure value trees

Patches carry plain (draft-free, heap-free) values; `deepClonePatchValue`
in the Patches plugin clones any captured structure.  We model such plain
values as trees. -/

/-- A plain JavaScript value tree: the wire form of patch values and the
read-back of heap structure.  `func` models a function value (needed for
the patch applier's `prototype` guard), `opaque` a non-draftable object
(class instance without the immerable marker, `Date`, ...). -/
inductive Tree where
  | prim (p : Prim)
  | obj (fields : List (String × Tree))
  | arr (elems : List Tree)
  | tmap (entries : List (Tree × Tree))
  | tset (elems : List Tree)
  | func
  | opaq
  deriving Repr

/-- Structural (decidable) equality test on trees; `===` inside the patch
applier degenerates to this on plain cloned values. -/
def Tree.beq : Tree → Tree → Bool
  | .prim p, .prim q => p = q
  | .obj fs, .obj gs => beqFields fs gs
  | .arr xs, .arr ys => beqList xs ys
  | .tmap es, .tmap ds => beqEntries es ds
  | .tset xs, .tset ys => beqList xs ys
  | .func, .func => true
  | .opaq, .opaq => true
  | _, _ => false
where
  beqFields : List (String × Tree) → List (String × Tree) → Bool
    | [], [] => true
    | (k, v) :: fs, (l, w) :: gs => k = l && Tree.beq v w && beqFields fs gs
    | _, _ => false
  beqList : List Tree → List Tree → Bool
    | [], [] => true
    | x :: xs, y :: ys => Tree.beq x y && beqList xs ys
    | _, _ => false
  beqEntries : List (Tree × Tree) → List (Tree × Tree) → Bool
    | [], [] => true
    | (k, v) :: es, (l, w) :: ds =>
        Tree.beq k l && Tree.beq v w && beqEntries es ds
    | _, _ => false
termination_by structural t => t


/-! ### Lawfulness of `Tree.beq` (a decidable equality for trees) -/

mutual

theorem Tree.beq_refl : ∀ (t : Tree), Tree.beq t t = true
  | .prim p => by simp [Tree.beq]
  | .obj fs => by simpa [Tree.beq] using beqFields_refl fs
  | .arr xs => by simpa [Tree.beq] using beqList_refl xs
  | .tmap es => by simpa [Tree.beq] using beqEntries_refl es
  | .tset xs => by simpa [Tree.beq] using beqList_refl xs
  | .func => by simp [Tree.beq]
  | .opaq => by simp [Tree.beq]

theorem beqFields_refl : ∀ (l : List (String × Tree)),
    Tree.beq.beqFields l l = true
  | [] => rfl
  | (k, v) :: rest => by
      simp [Tree.beq.beqFields, Tree.beq_refl v, beqFields_refl rest]

theorem beqList_refl : ∀ (l : List Tree), Tree.beq.beqList l l = true
  | [] => rfl
  | x :: rest => by
      simp [Tree.beq.beqList, Tree.beq_refl x, beqList_refl rest]

theorem beqEntries_refl : ∀ (l : List (Tree × Tree)),
    Tree.beq.beqEntries l l = true
  | [] => rfl
  | (k, v) :: rest => by
      simp [Tree.beq.beqEntries, Tree.beq_refl k, Tree.beq_refl v,
        beqEntries_refl rest]

end

mutual

theorem Tree.eq_of_beq : ∀ (a b : Tree), Tree.beq a b = true → a = b
  | .prim p, .prim p2, h => by
      have hp : p = p2 := by simpa [Tree.beq] using h
      rw [hp]
  | .prim _, .obj _, h => nomatch h
  | .prim _, .arr _, h => nomatch h
  | .prim _, .tmap _, h => nomatch h
  | .prim _, .tset _, h => nomatch h
  | .prim _, .func, h => nomatch h
  | .prim _, .opaq, h => nomatch h
  | .obj _, .prim _, h => nomatch h
  | .obj fs, .obj fs2, h => congrArg Tree.obj (eqFields_of_beq fs fs2 h)
  | .obj _, .arr _, h => nomatch h
  | .obj _, .tmap _, h => nomatch h
  | .obj _, .tset _, h => nomatch h
  | .obj _, .func, h => nomatch h
  | .obj _, .opaq, h => nomatch h
  | .arr _, .prim _, h => nomatch h
  | .arr _, .obj _, h => nomatch h
  | .arr xs, .arr xs2, h => congrArg Tree.arr (eqList_of_beq xs xs2 h)
  | .arr _, .tmap _, h => nomatch h
  | .arr _, .tset _, h => nomatch h
  | .arr _, .func, h => nomatch h
  | .arr _, .opaq, h => nomatch h
  | .tmap _, .prim _, h => nomatch h
  | .tmap _, .obj _, h => nomatch h
  | .tmap _, .arr _, h => nomatch h
  | .tmap es, .tmap es2, h => congrArg Tree.tmap (eqEntries_of_beq es es2 h)
  | .tmap _, .tset _, h => nomatch h
  | .tmap _, .func, h => nomatch h
  | .tmap _, .opaq, h => nomatch h
  | .tset _, .prim _, h => nomatch h
  | .tset _, .obj _, h => nomatch h
  | .tset _, .arr _, h => nomatch h
  | .tset _, .tmap _, h => nomatch h
  | .tset ys, .tset ys2, h => congrArg Tree.tset (eqList_of_beq ys ys2 h)
  | .tset _, .func, h => nomatch h
  | .tset _, .opaq, h => nomatch h
  | .func, .prim _, h => nomatch h
  | .func, .obj _, h => nomatch h
  | .func, .arr _, h => nomatch h
  | .func, .tmap _, h => nomatch h
  | .func, .tset _, h => nomatch h
  | .func, .func, _ => rfl
  | .func, .opaq, h => nomatch h
  | .opaq, .prim _, h => nomatch h
  | .opaq, .obj _, h => nomatch h
  | .opaq, .arr _, h => nomatch h
  | .opaq, .tmap _, h => nomatch h
  | .opaq, .tset _, h => nomatch h
  | .opaq, .func, h => nomatch h
  | .opaq, .opaq, _ => rfl

theorem eqFields_of_beq : ∀ (l m : List (String × Tree)),
    Tree.beq.beqFields l m = true → l = m
  | [], [], _ => rfl
  | [], (_, _) :: _, h => nomatch h
  | (_, _) :: _, [], h => nomatch h
  | (k, v) :: l, (k2, v2) :: m, h => by
      simp only [Tree.beq.beqFields, Bool.and_eq_true, decide_eq_true_eq] at h
      obtain ⟨⟨hk, hv⟩, hrest⟩ := h
      rw [hk, Tree.eq_of_beq v v2 hv, eqFields_of_beq l m hrest]

theorem eqList_of_beq : ∀ (l m : List Tree),
    Tree.beq.beqList l m = true → l = m
  | [], [], _ => rfl
  | [], _ :: _, h => nomatch h
  | _ :: _, [], h => nomatch h
  | x :: l, y :: m, h => by
      simp only [Tree.beq.beqList, Bool.and_eq_true] at h
      rw [Tree.eq_of_beq x y h.1, eqList_of_beq l m h.2]

theorem eqEntries_of_beq : ∀ (l m : List (Tree × Tree)),
    Tree.beq.beqEntries l m = true → l = m
  | [], [], _ => rfl
  | [], (_, _) :: _, h => nomatch h
  | (_, _) :: _, [], h => nomatch h
  | (k, v) :: l, (k2, v2) :: m, h => by
      simp only [Tree.beq.beqEntries, Bool.and_eq_true] at h
      obtain ⟨⟨hk, hv⟩, hrest⟩ := h
      rw [Tree.eq_of_beq k k2 hk, Tree.eq_of_beq v v2 hv,
        eqEntries_of_beq l m hrest]

end

instance : DecidableEq Tree := fun a b =>
  if h : Tree.beq a b = true then isTrue (Tree.eq_of_beq a b h)
  else isFalse (fun he => h (he ▸ Tree.beq_refl a))


/-! ## Property descriptors and the strict shallow copy

`shallowCopy(base, strict)` in `utils/common.ts` has a descriptor-level
branch (strict mode) that works on `Object.getOwnPropertyDescriptors`.
The heap-level engine below only exercises the simple branch (the default
configuration `useStrictShallowCopy_ = false`); the strict branch is
embedded here at the descriptor level. -/

/-- An own-property key: a string, an arbitrary (non-internal) symbol, or
the library's internal `DRAFT_STATE` symbol. -/
inductive PKey where
  | s (name : String)
  | sym (id : Nat)
  | draftState
  deriving DecidableEq, Repr

/-- The data/accessor part of a property descriptor.  An accessor carries
`getter`: `none` when there is no `get` function (reading yields
`undefined`), `some v` when calling the getter on the *base* object yields
`v` — the engine always reads `base[key]`, never through a draft. -/
inductive DescKind where
  | data (value : Tree) (writable : Bool)
  | accessor (getter : Option Tree) (hasSetter : Bool)
  deriving Repr

/-- A property descriptor as produced by `Object.getOwnPropertyDescriptors`. -/
structure Desc where
  enumerable : Bool
  configurable : Bool
  kind : DescKind
  deriving Repr

/-- `desc.writable === false`: true only for a non-writable data
descriptor (an accessor has no `writable` field, and `undefined === false`
is false). -/
def Desc.writableIsFalse (d : Desc) : Bool :=
  match d.kind with
  | .data _ w => !w
  | .accessor _ _ => false

/-- The value `base[key]` reads for an accessor property: the getter's
result, or `undefined` when the property only has a setter. -/
def accessorRead (getter : Option Tree) : Tree :=
  getter.getD (.prim .undef)

/-- One descriptor of the strict copy, following the loop body of
`shallowCopy` (strict branch): first force `writable`/`configurable` to
`true` when `writable === false`, then collapse any accessor
(`desc.get || desc.set`) into a `configurable:true, writable:true` data
descriptor whose value is read through the base. -/
def copyDesc (d : Desc) : Desc :=
  let d1 :=
    if d.writableIsFalse then
      { d with configurable := true,
               kind := match d.kind with
                       | .data v _ => .data v true
                       | k => k }
    else d
  match d1.kind with
  | .accessor getter hasSetter =>
      if getter.isSome || hasSetter then
        { enumerable := d1.enumerable, configurable := true,
          kind := .data (accessorRead getter) true }
      else d1
  | .data _ _ => d1

/-- The strict branch of `shallowCopy`: take all own property descriptors,
delete the `DRAFT_STATE` entry, and rewrite each remaining descriptor with
`copyDesc`.  (The copy is created with `Object.create(getPrototypeOf base,
descriptors)`; the prototype is not part of the descriptor model.) -/
def shallowCopyStrict (props : List (PKey × Desc)) : List (PKey × Desc) :=
  (props.filter (fun kd => kd.1 ≠ PKey.draftState)).map
    (fun kd => (kd.1, copyDesc kd.2))

/-! ## Errors -/

/-- The engine's error conditions.  Numbered entries correspond to the
`die(n)` codes of `utils/errors.ts` (and, from `setReplacePatch` on, to
the patch plugin codes at `errorOffset = 16`); `typeError` stands for a
native `TypeError` the runtime itself raises (property access on
`null`/`undefined`, use of a revoked `Proxy`); `fuel` is the embedding's
recursion bound and never occurs on runs given sufficient fuel. -/
inductive Err where
  | notDraftable          -- die 1
  | frozenMutation        -- die 2
  | revoked               -- die 3, assertUnrevoked on a map/set draft
  | modifiedAndReturned   -- die 4
  | circular              -- die 5
  | definePropertyUnsupported  -- die 11
  | setPrototypeOfUnsupported  -- die 12
  | arrayDeleteNonIndex   -- die 13
  | arraySetNonIndex      -- die 14
  | setReplacePatch       -- die 16
  | pathUnresolved        -- die 18
  | reservedAttribute     -- die 19
  | typeError
  | fuel
  deriving DecidableEq, Repr

/-! ## Architecture types -/

/-- `ArchType` from the internal types: the four container kinds. -/
inductive ArchType where
  | object
  | array
  | map
  | set
  deriving DecidableEq, Repr

/-! ## The patch applier

`applyPatches_` in the Patches plugin mutates a draft (or, via
`Immer.applyPatches`, a fresh draft of a plain base inside `produce`).
Observably it transforms one plain value into another, so it is embedded
as a pure function on value trees; in-place mutation of an interior node
becomes a functional write-back along the walked path (trees have no
aliasing).  SameValueZero key/element equality degenerates to structural
equality on plain trees. -/

/-- Patch operations.  (`die(17)` for an unknown op is unreachable with a
three-valued op type and is not modelled.) -/
inductive POp where
  | replace
  | add
  | remove
  deriving DecidableEq, Repr

/-- A patch `{op, path, value?}`.  Path elements are arbitrary values
(object paths use strings, array paths numbers, map paths the map key);
`value` is `none` when the `value` field is absent. -/
structure Patch where
  op : POp
  path : List Tree
  value : Option Tree
  deriving Repr

/-- A loose model of JavaScript string coercion (`"" + p`), used by the
patch applier only for path segments that are neither strings nor
numbers. -/
def Tree.jsToString : Tree → String
  | .prim .undef => "undefined"
  | .prim .null => "null"
  | .prim (.bool b) => if b then "true" else "false"
  | .prim (.num n) => toString n
  | .prim .nan => "NaN"
  | .prim (.str s) => s
  | .obj _ => "[object Object]"
  | .arr xs => String.intercalate "," (jsToStringList xs)
  | .tmap _ => "[object Map]"
  | .tset _ => "[object Set]"
  | .func => "function"
  | .opaq => "[object Object]"
where
  jsToStringList : List Tree → List String
    | [] => []
    | x :: xs => x.jsToString :: jsToStringList xs

/-- Segment normalisation in the walk loop: a segment that is neither a
string nor a number is coerced to its string form (`p = "" + p`).
`typeof NaN` is `"number"`, so `NaN` segments are not coerced. -/
def normSeg (t : Tree) : Tree :=
  match t with
  | .prim (.str _) => t
  | .prim (.num _) => t
  | .prim .nan => t
  | _ => .prim (.str t.jsToString)

/-- `getArchtype` on a plain (non-draft) value: arrays, maps and sets by
runtime check, everything else `Object`.  Property access inside
`getArchtype` raises a native `TypeError` on `null`/`undefined`. -/
def archtypeT : Tree → Except Err ArchType
  | .prim .null => .error .typeError
  | .prim .undef => .error .typeError
  | .arr _ => .ok .array
  | .tmap _ => .ok .map
  | .tset _ => .ok .set
  | _ => .ok .object

/-- `typeof v === "object"` (true for `null`, false for functions and the
other primitives). -/
def typeofIsObject : Tree → Bool
  | .prim .null => true
  | .prim _ => false
  | .func => false
  | _ => true

/-- `typeof v === "function"`. -/
def typeofIsFunction : Tree → Bool
  | .func => true
  | _ => false

/-- The string a property key coerces to when used on a record or
sequence. -/
def keyToString (t : Tree) : String := t.jsToString

/-- Parse a string as an array index. -/
def parseIndex (s : String) : Option Nat := s.toNat?

/-- The `get(thing, prop)` utility of `utils/common.ts` as used during
path walking: `Map.get` for maps, indexed access for arrays (including
`"length"`), own-field access for records; everything else yields
`undefined`. -/
def getProp (base p : Tree) : Tree :=
  match base with
  | .obj fs =>
      match fs.find? (fun kv => kv.1 = keyToString p) with
      | some kv => kv.2
      | none => .prim .undef
  | .arr xs =>
      match p with
      | .prim (.num n) =>
          if h : 0 ≤ n ∧ n.toNat < xs.length then xs.get ⟨n.toNat, h.2⟩
          else .prim .undef
      | .prim (.str s) =>
          if s = "length" then .prim (.num xs.length)
          else match parseIndex s with
               | some i => if h : i < xs.length then xs.get ⟨i, h⟩ else .prim .undef
               | none => .prim .undef
      | _ => .prim .undef
  | .tmap es =>
      match es.find? (fun kv => Tree.beq kv.1 p) with
      | some kv => kv.2
      | none => .prim .undef
  | _ => (Tree.prim Prim.undef : Tree)

/-- Functional write-back of a walked-into child: the in-place mutation of
an interior node during the walk, expressed as replacement of the child
the walk read.  (The walk only descends into children that exist and are
objects, so the key is present.) -/
def setChild (base p child : Tree) : Tree :=
  match base with
  | .obj fs =>
      .obj (fs.map (fun kv => if kv.1 = keyToString p then (kv.1, child) else kv))
  | .arr xs =>
      match p with
      | .prim (.num n) =>
          if 0 ≤ n ∧ n.toNat < xs.length then .arr (xs.set n.toNat child) else .arr xs
      | .prim (.str s) =>
          match parseIndex s with
          | some i => .arr (xs.set i child)
          | none => .arr xs
      | _ => .arr xs
  | .tmap es =>
      .tmap (es.map (fun kv => if Tree.beq kv.1 p then (kv.1, child) else kv))
  | t => t

/-- `Map.set`: update in place when the key exists, else append (insertion
order). -/
def mapSetT (es : List (Tree × Tree)) (k v : Tree) : List (Tree × Tree) :=
  if es.any (fun kv => Tree.beq kv.1 k) then
    es.map (fun kv => if Tree.beq kv.1 k then (kv.1, v) else kv)
  else es ++ [(k, v)]

/-- `Map.delete`. -/
def mapDeleteT (es : List (Tree × Tree)) (k : Tree) : List (Tree × Tree) :=
  es.eraseP (fun kv => Tree.beq kv.1 k)

/-- `Set.add`: appended unless already present. -/
def setAddT (xs : List Tree) (v : Tree) : List Tree :=
  if xs.any (fun x => Tree.beq x v) then xs else xs ++ [v]

/-- `Set.delete`. -/
def setDeleteT (xs : List Tree) (v : Tree) : List Tree :=
  xs.eraseP (fun x => Tree.beq x v)

/-- Record field assignment: update in place or append. -/
def objSetT (fs : List (String × Tree)) (k : String) (v : Tree) :
    List (String × Tree) :=
  if fs.any (fun kv => kv.1 = k) then
    fs.map (fun kv => if kv.1 = k then (kv.1, v) else kv)
  else fs ++ [(k, v)]

/-- Record field deletion. -/
def objDeleteT (fs : List (String × Tree)) (k : String) :
    List (String × Tree) :=
  fs.filter (fun kv => kv.1 ≠ k)

/-- The start index `Array.prototype.splice` computes from a patch key
(`ToInteger(ToNumber(key))`, clamped into `[0, length]`; a non-numeric
string coerces through `NaN` to `0`). -/
def spliceIndex (k : Tree) (len : Nat) : Nat :=
  match k with
  | .prim (.num n) =>
      if n < 0 then ((len : Int) + n).toNat else min n.toNat len
  | .prim (.str s) =>
      match s.toNat? with
      | some i => min i len
      | none => 0
  | _ => 0

/-- `base[key] = value` on a sequence: an index write (extending with
`undefined` beyond the end), or a `length` write (truncate / extend).
Writes to other keys attach non-index properties, invisible in the
model. -/
def arrAssignT (xs : List Tree) (key value : Tree) : List Tree :=
  let setIdx : Nat → List Tree :=
    fun i =>
      if i < xs.length then xs.set i value
      else xs ++ List.replicate (i - xs.length) (.prim .undef) ++ [value]
  match key with
  | .prim (.num n) => if n < 0 then xs else setIdx n.toNat
  | .prim (.str s) =>
      if s = "length" then
        match value with
        | .prim (.num n) =>
            if n < 0 then xs
            else if n.toNat ≤ xs.length then xs.take n.toNat
            else xs ++ List.replicate (n.toNat - xs.length) (.prim .undef)
        | _ => xs
      else
        match parseIndex s with
        | some i => setIdx i
        | none => xs
  | _ => xs

/-- The switch on `op`/`getArchtype(base)` at the end of one
`applyPatches_` iteration.  `value` is the deep-cloned patch value (a
structural copy — the identity on plain trees), `key` the final,
uncoerced path element (`undefined` when the path is empty).  Assigning a
property of a primitive raises a `TypeError` in strict-mode code. -/
def applyOpT (base : Tree) (patch : Patch) : Except Err Tree := do
  let type ← archtypeT base
  let value : Tree := patch.value.getD (.prim .undef)
  let key : Tree := patch.path.getLast?.getD (.prim .undef)
  match patch.op with
  | .replace =>
      match type with
      | .map =>
          match base with
          | .tmap es => .ok (.tmap (mapSetT es key value))
          | _ => .error .typeError
      | .set => .error .setReplacePatch
      | _ =>
          match base with
          | .obj fs => .ok (.obj (objSetT fs (keyToString key) value))
          | .arr xs => .ok (.arr (arrAssignT xs key value))
          | .func => .ok .func
          | .opaq => .ok .opaq
          | _ => .error .typeError
  | .add =>
      match type with
      | .array =>
          match base with
          | .arr xs =>
              if Tree.beq key (.prim (.str "-")) then .ok (.arr (xs ++ [value]))
              else
                .ok (.arr (xs.take (spliceIndex key xs.length) ++ value ::
                      xs.drop (spliceIndex key xs.length)))
          | _ => .error .typeError
      | .map =>
          match base with
          | .tmap es => .ok (.tmap (mapSetT es key value))
          | _ => .error .typeError
      | .set =>
          match base with
          | .tset xs => .ok (.tset (setAddT xs value))
          | _ => .error .typeError
      | .object =>
          match base with
          | .obj fs => .ok (.obj (objSetT fs (keyToString key) value))
          | .func => .ok .func
          | .opaq => .ok .opaq
          | _ => .error .typeError
  | .remove =>
      match type with
      | .array =>
          match base with
          | .arr xs =>
              let i := spliceIndex key xs.length
              .ok (.arr (xs.take i ++ xs.drop (i + 1)))
          | _ => .error .typeError
      | .map =>
          match base with
          | .tmap es => .ok (.tmap (mapDeleteT es key))
          | _ => .error .typeError
      | .set =>
          match base with
          | .tset xs =>
              .ok (.tset (setDeleteT xs (patch.value.getD (.prim .undef))))
          | _ => .error .typeError
      | .object =>
          match base with
          | .obj fs => .ok (.obj (objDeleteT fs (keyToString key)))
          | _ => .ok base

/-- `p === "__proto__" || p === "constructor"`. -/
def reservedSeg (p : Tree) : Bool :=
  Tree.beq p (.prim (.str "__proto__")) || Tree.beq p (.prim (.str "constructor"))

/-- One iteration of the navigation loop of `applyPatches_` over a
non-final path segment: classify the parent (`getArchtype`), coerce the
segment, apply the prototype-pollution guards (issue #738), descend with
`get`, and fail with the path-resolution error unless the reached value
satisfies `typeof base === "object"`. -/
def stepInto (base seg : Tree) : Except Err Tree := do
  let parentType ← archtypeT base
  let p := normSeg seg
  if (parentType = ArchType.object || parentType = ArchType.array) &&
      reservedSeg p then
    .error .reservedAttribute
  else if typeofIsFunction base && Tree.beq p (.prim (.str "prototype")) then
    .error .reservedAttribute
  else
    let b := getProp base p
    if typeofIsObject b then .ok b
    else .error .pathUnresolved

/-- Application of one patch: walk the segments `path[0 .. n-2]` with
`stepInto`, then perform the op on the reached parent.  The recursion
rebuilds the walked spine (`setChild`), which is the pure rendering of
in-place child mutation. -/
def applyPatchAux (base : Tree) (segs : List Tree) (patch : Patch) :
    Except Err Tree :=
  match segs with
  | [] => applyOpT base patch
  | seg :: rest => do
      let b ← stepInto base seg
      let b2 ← applyPatchAux b rest patch
      .ok (setChild base (normSeg seg) b2)

/-- The read-only projection of the same loop: the value reached after
walking the given (non-final) segments. -/
def walkPre (base : Tree) : List Tree → Except Err Tree
  | [] => .ok base
  | seg :: rest => do
      let b ← stepInto base seg
      walkPre b rest

/-- `applyPatches_(draft, patches)`: apply each patch in order. -/
def applyPatchesT (base : Tree) (patches : List Patch) : Except Err Tree :=
  patches.foldlM (fun t p => applyPatchAux t p.path.dropLast p) base

/-- The tail-first scan of `Immer.applyPatches` for a root `replace`
patch: when found, its value becomes the new base and only the remaining
suffix is applied. -/
def scanRootReplace : List Patch → Option (Tree × List Patch)
  | [] => none
  | p :: rest =>
      match scanRootReplace rest with
      | some r => some r
      | none =>
          if p.path.isEmpty && p.op = POp.replace then
            some (p.value.getD (.prim .undef), rest)
          else none

/-- `Immer.applyPatches(base, patches)`: the root-replace scan, then the
plugin applier (run inside `produce` when the target is not a draft — the
pure tree semantics already). -/
def applyPatchesTop (base : Tree) (patches : List Patch) : Except Err Tree :=
  match scanRootReplace patches with
  | some (b, ps) => applyPatchesT b ps
  | none => applyPatchesT base patches

/-! ## The heap

The engine below works over an explicit heap so that object identity,
lazily allocated copies, in-place freezing and the frame property of the
run loop are all expressible.  Addresses are list positions; allocation
appends. -/

/-- Structural content of one heap object.  `opaque` is a non-draftable
object (untagged class instance, `Date`, ...): the engine never looks
inside it. -/
inductive NodeData where
  | obj (fields : List (String × Val))
  | arr (elems : List Val)
  | map (entries : List (Val × Val))
  | set (elems : List Val)
  | opaq
  deriving DecidableEq, Repr

/-- A heap node: structural data plus the `Object.freeze` flag. -/
structure Node where
  data : NodeData
  frozen : Bool
  deriving DecidableEq, Repr

abbrev Heap := List Node

/-- Read a node (a dangling address reads as an unfrozen opaque node;
well-formed runs never do). -/
def Heap.nodeAt (h : Heap) (a : Nat) : Node := h.getD a { data := .opaq, frozen := false }

/-- `getArchtype` of a plain heap object. -/
def NodeData.archtype : NodeData → ArchType
  | .obj _ => .object
  | .arr _ => .array
  | .map _ => .map
  | .set _ => .set
  | .opaq => .object

/-- `isDraftable`: plain objects, arrays, maps and sets are draftable, and
so is any draft (a proxy of a plain object is itself plain-looking);
primitives and opaque objects are not. -/
def isDraftableV (h : Heap) (v : Val) : Bool :=
  match v with
  | .prim _ => false
  | .draft _ => true
  | .ref a =>
      match (h.nodeAt a).data with
      | .opaq => false
      | _ => true

/-- `Object.isFrozen`: true on primitives, the node flag on references,
false on live drafts. -/
def isFrozenV (h : Heap) (v : Val) : Bool :=
  match v with
  | .prim _ => true
  | .draft _ => false
  | .ref a => (h.nodeAt a).frozen

/-! ## Draft states -/

/-- The per-draft bookkeeping record (`ImmerState`): the union of the
proxy-state and map/set-state shapes of the source.  `assignedS` is the
string-keyed `assigned_` of object/array drafts, `assignedV` the
value-keyed `assigned_` of map drafts, `setDrafts` the `drafts_`
original→draft table of set drafts.  `parent_` is the index of the parent
draft. -/
structure DraftState where
  type_ : ArchType
  base_ : Nat
  copy_ : Option Nat
  assignedS : List (String × Bool)
  assignedV : List (Val × Bool)
  setDrafts : List (Val × Val)
  parent_ : Option Nat
  modified_ : Bool
  finalized_ : Bool
  revoked_ : Bool
  isManual_ : Bool
  deriving DecidableEq, Repr

instance : Inhabited DraftState :=
  ⟨⟨.object, 0, none, [], [], [], none, false, false, false, false⟩⟩

/-- The engine state of one run: the heap, the scope's draft list (in
creation order, root first), the patch buffers, and the scope/config
flags.  The run loop models a single root scope (nested `produce` runs
are outside the recipe language), so the scope's `parent_` is always
absent and `canAutoFreeze` can only be cleared by the code paths that
also exist for a root scope. -/
structure EngineState where
  heap : Heap
  drafts : List DraftState
  patchesOn : Bool
  patches : List Patch
  inversePatches : List Patch
  canAutoFreeze : Bool
  unfinalized : Nat
  autoFreeze : Bool
  deriving Repr

namespace EngineState

def nodeAt (st : EngineState) (a : Nat) : Node := st.heap.nodeAt a

def draftAt (st : EngineState) (d : Nat) : DraftState := st.drafts.getD d default

/-- Allocate a fresh, unfrozen node. -/
def alloc (st : EngineState) (nd : NodeData) : EngineState × Nat :=
  ({ st with heap := st.heap ++ [⟨nd, false⟩] }, st.heap.length)

/-- Overwrite the structural data of a node (mutation of a copy). -/
def writeData (st : EngineState) (a : Nat) (nd : NodeData) : EngineState :=
  { st with heap := st.heap.set a ⟨nd, (st.heap.nodeAt a).frozen⟩ }

/-- `Object.freeze` on one node. -/
def freezeNode (st : EngineState) (a : Nat) : EngineState :=
  { st with heap := st.heap.set a ⟨(st.heap.nodeAt a).data, true⟩ }

def setDraft (st : EngineState) (d : Nat) (ds : DraftState) : EngineState :=
  { st with drafts := st.drafts.set d ds }

def modifyDraft (st : EngineState) (d : Nat) (f : DraftState → DraftState) :
    EngineState :=
  st.setDraft d (f (st.draftAt d))

/-- `latest(state)`: the copy when present, the base otherwise. -/
def latestAddr (st : EngineState) (d : Nat) : Nat :=
  (st.draftAt d).copy_.getD (st.draftAt d).base_

def latestData (st : EngineState) (d : Nat) : NodeData :=
  (st.nodeAt (st.latestAddr d)).data

end EngineState

/-- `createProxy` (dispatching on kind as `immerClass.ts` does) followed
by the scope-registration push: build the draft state record for a base
object and append it to the scope's draft list. -/
def createProxy (st : EngineState) (baseAddr : Nat) (parent : Option Nat) :
    EngineState × Nat :=
  let ds : DraftState :=
    { type_ := (st.nodeAt baseAddr).data.archtype
      base_ := baseAddr
      copy_ := none
      assignedS := []
      assignedV := []
      setDrafts := []
      parent_ := parent
      modified_ := false
      finalized_ := false
      revoked_ := false
      isManual_ := false }
  ({ st with drafts := st.drafts ++ [ds] }, st.drafts.length)

/-- `markChanged`: set `modified_` and propagate to the parent chain.
Fueled recursion; the run loop passes the draft count, which bounds every
parent chain (a parent always has a smaller index than its children). -/
def markChanged (st : EngineState) : Nat → Nat → EngineState
  | 0, _ => st
  | fuel + 1, d =>
      if (st.draftAt d).modified_ then st
      else
        match (st.draftAt d).parent_ with
        | some p =>
            markChanged (st.setDraft d { st.draftAt d with modified_ := true })
              fuel p
        | none => st.setDraft d { st.draftAt d with modified_ := true }

/-- `prepareCopy` of `proxy.ts`: lazily allocate the shallow copy of an
object/array draft.  The default configuration (`useStrictShallowCopy_ =
false`) makes `shallowCopy` a one-level structural copy (`{...base}`,
`slice`), i.e. a fresh node with the same data. -/
def prepareCopy (st : EngineState) (d : Nat) : EngineState :=
  let ds := st.draftAt d
  match ds.copy_ with
  | some _ => st
  | none =>
      let (st1, c) := st.alloc (st.nodeAt ds.base_).data
      st1.setDraft d { ds with copy_ := some c }

/-- `prepareMapCopy`: allocate `new Map(base)` and reset `assigned_`. -/
def prepareMapCopy (st : EngineState) (d : Nat) : EngineState :=
  let ds := st.draftAt d
  match ds.copy_ with
  | some _ => st
  | none =>
      let (st1, c) := st.alloc (st.nodeAt ds.base_).data
      st1.setDraft d { ds with copy_ := some c, assignedV := [] }

/-- One element step of `prepareSetCopy`'s walk over the base: draft a
draftable element (recording the original→draft pair), keep the rest. -/
def setCopyStep (d : Nat) (acc : EngineState × List Val × List (Val × Val))
    (v : Val) : EngineState × List Val × List (Val × Val) :=
  let (s, cs, dm) := acc
  match v with
  | .ref a =>
      if isDraftableV s.heap v then
        let (s2, nd) := createProxy s a (some d)
        (s2, cs ++ [Val.draft nd], dm ++ [(v, Val.draft nd)])
      else (s, cs ++ [v], dm)
  | _ => (s, cs ++ [v], dm)

/-- `prepareSetCopy`: build the copy by walking the base in order,
drafting every draftable element and recording the original→draft mapping
in `drafts_`. -/
def prepareSetCopy (st : EngineState) (d : Nat) : EngineState :=
  let ds := st.draftAt d
  match ds.copy_ with
  | some _ => st
  | none =>
      let elems :=
        match (st.nodeAt ds.base_).data with
        | .set xs => xs
        | _ => []
      let (st1, copyElems, dm) := elems.foldl (setCopyStep d) (st, [], [])
      let (st2, c) := st1.alloc (.set copyElems)
      st2.modifyDraft d
        (fun ds1 => { ds1 with copy_ := some c, setDrafts := ds1.setDrafts ++ dm })

/-! ## Property access on heap objects -/

/-- Own-property read (`has(source, prop)` + `source[prop]` combined):
`none` when the property is absent.  For an array the own properties are
the in-range indices and `length`. -/
def objGetRaw (nd : NodeData) (k : String) : Option Val :=
  match nd with
  | .obj fs => (fs.find? (fun kv => kv.1 = k)).map (fun kv => kv.2)
  | .arr xs =>
      if k = "length" then some (.prim (.num xs.length))
      else
        match k.toNat? with
        | some i => if h : i < xs.length then some (xs.get ⟨i, h⟩) else none
        | none => none
  | _ => none

/-- Property write on object/array data (`copy[prop] = value`): an array
write parses the index (extending with `undefined` past the end) or
resizes through `length`. -/
def writeDataProp (nd : NodeData) (k : String) (v : Val) : NodeData :=
  match nd with
  | .obj fs =>
      .obj (if fs.any (fun kv => kv.1 = k) then
              fs.map (fun kv => if kv.1 = k then (k, v) else kv)
            else fs ++ [(k, v)])
  | .arr xs =>
      if k = "length" then
        match v with
        | .prim (.num n) =>
            if n < 0 then .arr xs
            else if n.toNat ≤ xs.length then .arr (xs.take n.toNat)
            else .arr (xs ++ List.replicate (n.toNat - xs.length) (.prim .undef))
        | _ => .arr xs
      else
        match k.toNat? with
        | some i =>
            if i < xs.length then .arr (xs.set i v)
            else .arr (xs ++ List.replicate (i - xs.length) (.prim .undef) ++ [v])
        | none => .arr xs
  | nd => nd

/-- Property delete on object data (`delete copy[prop]`). -/
def deleteDataProp (nd : NodeData) (k : String) : NodeData :=
  match nd with
  | .obj fs => .obj (fs.filter (fun kv => kv.1 ≠ k))
  | nd => nd

/-- Write a property into a draft's copy (no-op when no copy exists; the
call sites allocate it first). -/
def writeCopy (st : EngineState) (d : Nat) (k : String) (v : Val) :
    EngineState :=
  match (st.draftAt d).copy_ with
  | some c => st.writeData c (writeDataProp (st.nodeAt c).data k v)
  | none => st

/-- Delete a property from a draft's copy. -/
def deleteCopy (st : EngineState) (d : Nat) (k : String) : EngineState :=
  match (st.draftAt d).copy_ with
  | some c => st.writeData c (deleteDataProp (st.nodeAt c).data k)
  | none => st

/-- `assigned_[prop] = b` for an object/array draft. -/
def setAssignedS (st : EngineState) (d : Nat) (k : String) (b : Bool) :
    EngineState :=
  st.modifyDraft d (fun ds =>
    { ds with assignedS :=
        if ds.assignedS.any (fun kb => kb.1 = k) then
          ds.assignedS.map (fun kb => if kb.1 = k then (k, b) else kb)
        else ds.assignedS ++ [(k, b)] })

/-- `delete assigned_[prop]` for an object/array draft. -/
def removeAssignedS (st : EngineState) (d : Nat) (k : String) : EngineState :=
  st.modifyDraft d (fun ds =>
    { ds with assignedS := ds.assignedS.filter (fun kb => kb.1 ≠ k) })

/-! ## The proxy traps (records and sequences) -/

/-- `Number.isNaN(v)`. -/
def isNaNV (v : Val) : Bool := v = Val.prim .nan

/-- The `get` trap of `objectTraps` (with the `arrayTraps` argument
rewrite folded in): read through `latest`, fall back to the (unmodelled)
prototype chain as `undefined`, return non-draftable or post-finalization
values as they are, and otherwise lazily draft a child on first read,
storing it in the copy.  A revoked proxy raises a native `TypeError`. -/
def proxyGet (st : EngineState) (d : Nat) (k : String) :
    Except Err (EngineState × Val) :=
  let ds := st.draftAt d
  if ds.revoked_ then .error .typeError
  else
    match objGetRaw (st.latestData d) k with
    | none => .ok (st, .prim .undef)
    | some value =>
        if ds.finalized_ || !isDraftableV st.heap value then .ok (st, value)
        else
          let baseVal := objGetRaw (st.nodeAt ds.base_).data k
          if baseVal = some value then
            match value with
            | .ref a =>
                let st1 := prepareCopy st d
                let (st2, nd) := createProxy st1 a (some d)
                .ok (writeCopy st2 d k (.draft nd), .draft nd)
            | _ => .ok (st, value)
          else .ok (st, value)

/-- The `set` trap of `objectTraps`, with the `arrayTraps.set` index check
in front.  Follows the source order: the assign-back-its-own-base branch,
the `is`-no-change branch, `prepareCopy`/`markChanged`, the
idempotent-write guard (NaN-tolerant), then the write plus
`assigned_[prop] = true`. -/
def proxySet (st : EngineState) (d : Nat) (k : String) (v : Val) :
    Except Err EngineState :=
  let ds := st.draftAt d
  if ds.revoked_ then .error .typeError
  else if ds.type_ = ArchType.array && !(k = "length") && (k.toNat?).isNone then
    .error .arraySetNonIndex
  else
    let finishWrite : EngineState → EngineState := fun st1 =>
      let copyVal := (st1.draftAt d).copy_.bind
        (fun c => objGetRaw (st1.nodeAt c).data k)
      let cur := copyVal.getD (.prim .undef)
      if (jsEq cur v && (!(v = Val.prim .undef) || copyVal.isSome)) ||
          (isNaNV v && isNaNV cur) then st1
      else setAssignedS (writeCopy st1 d k v) d k true
    if ds.modified_ then .ok (finishWrite st)
    else
      let current := (objGetRaw (st.latestData d) k).getD (.prim .undef)
      let selfAssign :=
        match current with
        | .draft cd => jsEq (.ref (st.draftAt cd).base_) v
        | _ => false
      if selfAssign then
        .ok (setAssignedS (writeCopy st d k v) d k false)
      else if jsIs v current &&
          (!(v = Val.prim .undef) ||
            (objGetRaw (st.nodeAt ds.base_).data k).isSome) then
        .ok st
      else
        .ok (finishWrite (markChanged (prepareCopy st d) st.drafts.length d))

/-- The `deleteProperty` trap: for sequences the non-index check plus the
rewrite into `set prop undefined`; for records the assigned/unassigned
bookkeeping plus removal from the copy. -/
def proxyDelete (st : EngineState) (d : Nat) (k : String) :
    Except Err EngineState :=
  let ds := st.draftAt d
  if ds.revoked_ then .error .typeError
  else if ds.type_ = ArchType.array then
    if (k.toNat?).isNone then .error .arrayDeleteNonIndex
    else proxySet st d k (.prim .undef)
  else
    let baseHas := (objGetRaw (st.nodeAt ds.base_).data k).isSome
    let st1 :=
      if baseHas then
        markChanged (prepareCopy (setAssignedS st d k false) d)
          st.drafts.length d
      else removeAssignedS st d k
    .ok (deleteCopy st1 d k)

/-! ## The MapSet plugin: `DraftMap` and `DraftSet`

Method-level wrappers; `assertUnrevoked` is placed exactly where the
source places it.  Key and element equality is SameValueZero (`jsIs`
here: `Object.is` without the `±0` split). -/

/-- Entries of a map node. -/
def mapEntriesOf (nd : NodeData) : List (Val × Val) :=
  match nd with
  | .map es => es
  | _ => []

/-- Elements of a set node. -/
def setElemsOf (nd : NodeData) : List Val :=
  match nd with
  | .set xs => xs
  | _ => []

/-- `Map.get` lookup (SameValueZero). -/
def mapFind (es : List (Val × Val)) (k : Val) : Option Val :=
  (es.find? (fun kv => jsIs kv.1 k)).map (fun kv => kv.2)

/-- `Map.set` on raw entries: in-place update or append. -/
def mapSetRaw (es : List (Val × Val)) (k v : Val) : List (Val × Val) :=
  if es.any (fun kv => jsIs kv.1 k) then
    es.map (fun kv => if jsIs kv.1 k then (kv.1, v) else kv)
  else es ++ [(k, v)]

/-- `Map.delete` on raw entries. -/
def mapDeleteRaw (es : List (Val × Val)) (k : Val) : List (Val × Val) :=
  es.filter (fun kv => !jsIs kv.1 k)

/-- `Set` membership (SameValueZero). -/
def setMem (xs : List Val) (v : Val) : Bool := xs.any (fun x => jsIs x v)

/-- `Set.add` on raw elements. -/
def setAddRaw (xs : List Val) (v : Val) : List Val :=
  if setMem xs v then xs else xs ++ [v]

/-- `Set.delete` on raw elements. -/
def setDeleteRaw (xs : List Val) (v : Val) : List Val :=
  xs.filter (fun x => !jsIs x v)

/-- `assigned_.set(key, b)` for a map draft. -/
def setAssignedV (st : EngineState) (d : Nat) (k : Val) (b : Bool) :
    EngineState :=
  st.modifyDraft d (fun ds =>
    { ds with assignedV :=
        if ds.assignedV.any (fun kb => jsIs kb.1 k) then
          ds.assignedV.map (fun kb => if jsIs kb.1 k then (kb.1, b) else kb)
        else ds.assignedV ++ [(k, b)] })

/-- `assigned_.delete(key)` for a map draft. -/
def removeAssignedV (st : EngineState) (d : Nat) (k : Val) : EngineState :=
  st.modifyDraft d (fun ds =>
    { ds with assignedV := ds.assignedV.filter (fun kb => !jsIs kb.1 k) })

/-- Write one entry into a map draft's copy. -/
def writeMapCopy (st : EngineState) (d : Nat) (k v : Val) : EngineState :=
  match (st.draftAt d).copy_ with
  | some c => st.writeData c (.map (mapSetRaw (mapEntriesOf (st.nodeAt c).data) k v))
  | none => st

/-- Delete one entry from a map draft's copy. -/
def deleteMapCopy (st : EngineState) (d : Nat) (k : Val) : EngineState :=
  match (st.draftAt d).copy_ with
  | some c => st.writeData c (.map (mapDeleteRaw (mapEntriesOf (st.nodeAt c).data) k))
  | none => st

/-- `DraftMap.size`: reads `latest` with *no* revocation check. -/
def draftMapSize (st : EngineState) (d : Nat) : Nat :=
  (mapEntriesOf (st.latestData d)).length

/-- `DraftMap.has`: reads `latest` with *no* revocation check. -/
def draftMapHas (st : EngineState) (d : Nat) (k : Val) : Bool :=
  (mapFind (mapEntriesOf (st.latestData d)) k).isSome

/-- `DraftMap.keys`: serves `latest`'s keys with *no* revocation check. -/
def draftMapKeys (st : EngineState) (d : Nat) : List Val :=
  (mapEntriesOf (st.latestData d)).map (fun kv => kv.1)

/-- `DraftMap.set`: check revocation, then copy-on-write only when the
key is absent or the stored value differs (`!==`).  (The source records
`assigned_.set(key, true)` twice around the copy write; the duplicate is
idempotent and written once here.) -/
def draftMapSet (st : EngineState) (d : Nat) (k v : Val) :
    Except Err EngineState :=
  let ds := st.draftAt d
  if ds.revoked_ then .error .revoked
  else
    let latest := mapEntriesOf (st.latestData d)
    let isChange :=
      match mapFind latest k with
      | none => true
      | some cur => !jsEq cur v
    if isChange then
      let st1 := markChanged (prepareMapCopy st d) st.drafts.length d
      .ok (writeMapCopy (setAssignedV st1 d k true) d k v)
    else .ok st

/-- `DraftMap.delete`: the absent-key fast path goes through `has`
*before* the revocation check; afterwards record the deletion (or forget
a never-in-base assignment) and delete from the copy. -/
def draftMapDelete (st : EngineState) (d : Nat) (k : Val) :
    Except Err (EngineState × Bool) :=
  if !draftMapHas st d k then .ok (st, false)
  else
    let ds := st.draftAt d
    if ds.revoked_ then .error .revoked
    else
      let st1 := markChanged (prepareMapCopy st d) st.drafts.length d
      let baseHas :=
        (mapFind (mapEntriesOf (st.nodeAt ds.base_).data) k).isSome
      let st2 :=
        if baseHas then setAssignedV st1 d k false
        else removeAssignedV st1 d k
      .ok (deleteMapCopy st2 d k, true)

/-- `DraftMap.clear`: check revocation; when non-empty, reset `assigned_`
to mark every base key deleted and empty the copy. -/
def draftMapClear (st : EngineState) (d : Nat) : Except Err EngineState :=
  let ds := st.draftAt d
  if ds.revoked_ then .error .revoked
  else if (mapEntriesOf (st.latestData d)).length ≠ 0 then
    let st1 := markChanged (prepareMapCopy st d) st.drafts.length d
    let baseKeys := (mapEntriesOf (st1.nodeAt ds.base_).data).map (fun kv => kv.1)
    let st2 := st1.modifyDraft d (fun ds1 =>
      { ds1 with assignedV := baseKeys.map (fun k => (k, false)) })
    match (st2.draftAt d).copy_ with
    | some c => .ok (st2.writeData c (.map []))
    | none => .ok st2
  else .ok st

/-- `DraftMap.get`: check revocation, then mirror the record `get` trap:
draft a draftable value on first read (when it still equals the base's)
and cache it in the copy. -/
def draftMapGet (st : EngineState) (d : Nat) (k : Val) :
    Except Err (EngineState × Val) :=
  let ds := st.draftAt d
  if ds.revoked_ then .error .revoked
  else
    let value := (mapFind (mapEntriesOf (st.latestData d)) k).getD (.prim .undef)
    if ds.finalized_ || !isDraftableV st.heap value then .ok (st, value)
    else
      let baseVal :=
        (mapFind (mapEntriesOf (st.nodeAt ds.base_).data) k).getD (.prim .undef)
      if !jsEq value baseVal then .ok (st, value)
      else
        match value with
        | .ref a =>
            let (st1, nd) := createProxy st a (some d)
            let st2 := prepareMapCopy st1 d
            .ok (writeMapCopy st2 d k (.draft nd), .draft nd)
        | _ => .ok (st, value)

/-- `DraftMap.forEach`: iterate `latest`'s keys, reading each value
through `get` (so values are drafted); no revocation check of its own. -/
def draftMapForEach (st : EngineState) (d : Nat) :
    Except Err (EngineState × List (Val × Val)) :=
  (draftMapKeys st d).foldlM
    (fun (acc : EngineState × List (Val × Val)) k => do
      let (st1, v) ← draftMapGet acc.1 d k
      .ok (st1, acc.2 ++ [(k, v)]))
    (st, [])

/-- `DraftSet.size`: reads `latest` with *no* revocation check. -/
def draftSetSize (st : EngineState) (d : Nat) : Nat :=
  (setElemsOf (st.latestData d)).length

/-- The membership test of `DraftSet.has`, shared by `add`/`delete`:
without a copy consult the base; with one, look for the value or for its
previously issued draft. -/
def setHasRaw (st : EngineState) (d : Nat) (v : Val) : Bool :=
  let ds := st.draftAt d
  match ds.copy_ with
  | none => setMem (setElemsOf (st.nodeAt ds.base_).data) v
  | some c =>
      let xs := setElemsOf (st.nodeAt c).data
      if setMem xs v then true
      else
        match (ds.setDrafts.find? (fun kv => jsIs kv.1 v)).map (fun kv => kv.2) with
        | some dv => setMem xs dv
        | none => false

/-- `DraftSet.has`: revocation check, then the two-level membership
test. -/
def draftSetHas (st : EngineState) (d : Nat) (v : Val) : Except Err Bool :=
  if (st.draftAt d).revoked_ then .error .revoked
  else .ok (setHasRaw st d v)

/-- `DraftSet.add`. -/
def draftSetAdd (st : EngineState) (d : Nat) (v : Val) :
    Except Err EngineState :=
  if (st.draftAt d).revoked_ then .error .revoked
  else if setHasRaw st d v then .ok st
  else
    let st1 := markChanged (prepareSetCopy st d) st.drafts.length d
    match (st1.draftAt d).copy_ with
    | some c =>
        .ok (st1.writeData c (.set (setAddRaw (setElemsOf (st1.nodeAt c).data) v)))
    | none => .ok st1

/-- `DraftSet.delete`: the absent-value fast path calls `has`, which (for
sets) performs the revocation check. -/
def draftSetDelete (st : EngineState) (d : Nat) (v : Val) :
    Except Err (EngineState × Bool) := do
  let hv ← draftSetHas st d v
  if !hv then .ok (st, false)
  else
    let st1 := markChanged (prepareSetCopy st d) st.drafts.length d
    let ds := st1.draftAt d
    match ds.copy_ with
    | some c =>
        let xs := setElemsOf (st1.nodeAt c).data
        if setMem xs v then
          .ok (st1.writeData c (.set (setDeleteRaw xs v)), true)
        else
          match (ds.setDrafts.find? (fun kv => jsIs kv.1 v)).map (fun kv => kv.2) with
          | some dv =>
              .ok (st1.writeData c (.set (setDeleteRaw xs dv)),
                setMem xs dv)
          | none => .ok (st1, false)
    | none => .ok (st1, false)

/-- `DraftSet.clear`. -/
def draftSetClear (st : EngineState) (d : Nat) : Except Err EngineState :=
  if (st.draftAt d).revoked_ then .error .revoked
  else if (setElemsOf (st.latestData d)).length ≠ 0 then
    let st1 := markChanged (prepareSetCopy st d) st.drafts.length d
    match (st1.draftAt d).copy_ with
    | some c => .ok (st1.writeData c (.set []))
    | none => .ok st1
  else .ok st

/-- `DraftSet.values` (also `keys`, `entries` and the default iterator):
revocation check, then force the copy and serve its elements. -/
def draftSetValues (st : EngineState) (d : Nat) :
    Except Err (EngineState × List Val) :=
  if (st.draftAt d).revoked_ then .error .revoked
  else
    let st1 := prepareSetCopy st d
    match (st1.draftAt d).copy_ with
    | some c => .ok (st1, setElemsOf (st1.nodeAt c).data)
    | none => .ok (st1, [])

/-! ## Recipes

A recipe is deep-embedded as a list of draft operations addressed by
paths, plus a return directive.  Paths are resolved through the traps
(each read lazily drafts children exactly as `get` does); literal values
are allocated as fresh heap structure, so a recipe cannot alias
pre-existing objects — matching the spec's no-aliasing contract. -/

/-- A literal value constructed inside a recipe.  Map literals use
primitive keys. -/
inductive RTree where
  | prim (p : Prim)
  | obj (fields : List (String × RTree))
  | arr (elems : List RTree)
  | rmap (entries : List (Prim × RTree))
  | rset (elems : List RTree)
  | opaq
  deriving Repr

/-- Allocate a literal as fresh heap structure. -/
def allocTree : EngineState → RTree → EngineState × Val
  | st, .prim p => (st, .prim p)
  | st, .obj fs =>
      let (st1, fields) := allocFields st fs
      let (st2, a) := st1.alloc (.obj fields)
      (st2, .ref a)
  | st, .arr xs =>
      let (st1, elems) := allocList st xs
      let (st2, a) := st1.alloc (.arr elems)
      (st2, .ref a)
  | st, .rmap es =>
      let (st1, entries) := allocEntries st es
      let (st2, a) := st1.alloc (.map entries)
      (st2, .ref a)
  | st, .rset xs =>
      let (st1, elems) := allocList st xs
      let (st2, a) := st1.alloc (.set elems)
      (st2, .ref a)
  | st, .opaq =>
      let (st1, a) := st.alloc .opaq
      (st1, .ref a)
where
  allocFields : EngineState → List (String × RTree) →
      EngineState × List (String × Val)
    | st, [] => (st, [])
    | st, (k, t) :: rest =>
        let (st1, v) := allocTree st t
        let (st2, vs) := allocFields st1 rest
        (st2, (k, v) :: vs)
  allocList : EngineState → List RTree → EngineState × List Val
    | st, [] => (st, [])
    | st, t :: rest =>
        let (st1, v) := allocTree st t
        let (st2, vs) := allocList st1 rest
        (st2, v :: vs)
  allocEntries : EngineState → List (Prim × RTree) →
      EngineState × List (Val × Val)
    | st, [] => (st, [])
    | st, (k, t) :: rest =>
        let (st1, v) := allocTree st t
        let (st2, vs) := allocEntries st1 rest
        (st2, (.prim k, v) :: vs)

/-- One navigation step inside a recipe: a record/sequence property read
(the `get` trap), a keyed-map read (`DraftMap.get`), or picking the i-th
element of a set's `values()` iteration. -/
inductive Seg where
  | prop (k : String)
  | mkey (k : Prim)
  | selem (i : Nat)
  deriving DecidableEq, Repr

/-- Resolve one segment against a draft. -/
def navigate (st : EngineState) (d : Nat) : Seg → Except Err (EngineState × Val)
  | .prop k =>
      match (st.draftAt d).type_ with
      | .object | .array => proxyGet st d k
      | _ => .ok (st, .prim .undef)
  | .mkey k =>
      match (st.draftAt d).type_ with
      | .map => draftMapGet st d (.prim k)
      | _ => .ok (st, .prim .undef)
  | .selem i =>
      match (st.draftAt d).type_ with
      | .set => do
          let (st1, xs) ← draftSetValues st d
          .ok (st1, xs.getD i (.prim .undef))
      | _ => .ok (st, .prim .undef)

/-- Walk a path expecting to land on a draft (a recipe that keeps
navigating into a plain value and then mutates it is outside the modelled
language; such a walk fails like a strict-mode primitive write). -/
def walkDraft (st : EngineState) (d : Nat) :
    List Seg → Except Err (EngineState × Nat)
  | [] => .ok (st, d)
  | seg :: rest => do
      let (st1, v) ← navigate st d seg
      match v with
      | .draft d2 => walkDraft st1 d2 rest
      | _ => .error .typeError

/-- A read-only walk: navigation stops silently at a non-draft value
(plain reads do not touch engine state). -/
def execRead (st : EngineState) (d : Nat) :
    List Seg → Except Err EngineState
  | [] => .ok st
  | seg :: rest => do
      let (st1, v) ← navigate st d seg
      match v with
      | .draft d2 => execRead st1 d2 rest
      | _ => .ok st1

/-- Recipe commands: reads and the mutating operations of all four
container kinds, each at a path from the root draft. -/
inductive Cmd where
  | get (path : List Seg)
  | setProp (path : List Seg) (k : String) (v : RTree)
  | delProp (path : List Seg) (k : String)
  | mapSet (path : List Seg) (k : Prim) (v : RTree)
  | mapDelete (path : List Seg) (k : Prim)
  | mapClear (path : List Seg)
  | setAdd (path : List Seg) (v : RTree)
  | setDelete (path : List Seg) (v : Prim)
  | setClear (path : List Seg)
  deriving Repr

/-- Execute one command against the root draft. -/
def execCmd (st : EngineState) (c : Cmd) : Except Err EngineState :=
  match c with
  | .get path => execRead st 0 path
  | .setProp path k v => do
      let (st1, d) ← walkDraft st 0 path
      match (st1.draftAt d).type_ with
      | .object | .array =>
          let (st2, w) := allocTree st1 v
          proxySet st2 d k w
      | _ => .error .typeError
  | .delProp path k => do
      let (st1, d) ← walkDraft st 0 path
      match (st1.draftAt d).type_ with
      | .object | .array => proxyDelete st1 d k
      | _ => .error .typeError
  | .mapSet path k v => do
      let (st1, d) ← walkDraft st 0 path
      match (st1.draftAt d).type_ with
      | .map =>
          let (st2, w) := allocTree st1 v
          draftMapSet st2 d (.prim k) w
      | _ => .error .typeError
  | .mapDelete path k => do
      let (st1, d) ← walkDraft st 0 path
      match (st1.draftAt d).type_ with
      | .map => do
          let (st2, _) ← draftMapDelete st1 d (.prim k)
          .ok st2
      | _ => .error .typeError
  | .mapClear path => do
      let (st1, d) ← walkDraft st 0 path
      match (st1.draftAt d).type_ with
      | .map => draftMapClear st1 d
      | _ => .error .typeError
  | .setAdd path v => do
      let (st1, d) ← walkDraft st 0 path
      match (st1.draftAt d).type_ with
      | .set =>
          let (st2, w) := allocTree st1 v
          draftSetAdd st2 d w
      | _ => .error .typeError
  | .setDelete path v => do
      let (st1, d) ← walkDraft st 0 path
      match (st1.draftAt d).type_ with
      | .set => do
          let (st2, _) ← draftSetDelete st1 d (.prim v)
          .ok st2
      | _ => .error .typeError
  | .setClear path => do
      let (st1, d) ← walkDraft st 0 path
      match (st1.draftAt d).type_ with
      | .set => draftSetClear st1 d
      | _ => .error .typeError

/-- Run the command list, keeping the last good state when a command
throws (the `try`/`finally` of `produce` needs the state at throw time to
revoke the scope). -/
def execCmds (st : EngineState) : List Cmd → EngineState × Option Err
  | [] => (st, none)
  | c :: cs =>
      match execCmd st c with
      | .ok st1 => execCmds st1 cs
      | .error e => (st, some e)

/-- What a recipe returns: `undefined`, the root draft, or a fresh
value (the *nothing* sentinel is not needed by any claim and is
omitted). -/
inductive RRet where
  | undef
  | root
  | val (t : RTree)
  deriving Repr

/-- A recipe: commands plus a return directive. -/
structure Recipe where
  cmds : List Cmd
  ret : RRet
  deriving Repr

/-- `revokeScope`: mark every draft of the scope revoked (the proxy
`revoke_()` for records/sequences, the `revoked_` flag for maps/sets —
both render every subsequent trap an error of the corresponding kind). -/
def revokeScope (st : EngineState) : EngineState :=
  { st with drafts := st.drafts.map (fun ds => { ds with revoked_ := true }) }

/-! ## Read-back and freezing -/

/-- Read heap structure back as a plain tree.  This is what a deep clone
of the captured value (`deepClonePatchValue`, `clonePatchValueIfNeeded`)
delivers to a patch consumer: patch values are plain trees.  For a draft
the clone reads through the proxy, i.e. from `latest`.  Fueled; the run
loop passes the heap size, which bounds every chain on the forward-only
heaps the engine builds. -/
def readbackV : Nat → EngineState → Val → Tree
  | 0, _, _ => .opaq
  | fuel + 1, st, v =>
      match v with
      | .prim p => .prim p
      | .draft d => readbackV fuel st (.ref (st.latestAddr d))
      | .ref a =>
          match (st.nodeAt a).data with
          | .obj fs => .obj (fs.map (fun kv => (kv.1, readbackV fuel st kv.2)))
          | .arr xs => .arr (xs.map (fun x => readbackV fuel st x))
          | .opaq => .opaq
          | .map es =>
              .tmap (es.map (fun kv =>
                (readbackV fuel st kv.1, readbackV fuel st kv.2)))
          | .set xs => .tset (xs.map (fun x => readbackV fuel st x))

/-- Iteration keys during finalization: record fields, sequence indices,
map keys, set elements (`each` hands the element itself as the key for
sets). -/
inductive EKey where
  | s (k : String)
  | n (i : Nat)
  | v (k : Val)
  deriving DecidableEq, Repr

/-- The entries `each` iterates for one node. -/
def entriesOf (nd : NodeData) : List (EKey × Val) :=
  match nd with
  | .obj fs => fs.map (fun kv => (.s kv.1, kv.2))
  | .arr xs => xs.enum.map (fun p => (.n p.1, p.2))
  | .map es => es.map (fun kv => (.v kv.1, kv.2))
  | .set xs => xs.map (fun x => (.v x, x))
  | .opaq => []

/-- A patch-path element for an iteration key (map keys are captured by
reference in the source; delivered to the consumer they read back as
trees). -/
def ekeyTree (st : EngineState) (k : EKey) : Tree :=
  match k with
  | .s k => .prim (.str k)
  | .n i => .prim (.num i)
  | .v v => readbackV (st.heap.length + 1) st v

/-- `has(parentState.assigned_, prop)`. -/
def assignedHas (ds : DraftState) (prop : EKey) : Bool :=
  match prop with
  | .s k => ds.assignedS.any (fun kb => kb.1 = k)
  | .n i => ds.assignedS.any (fun kb => kb.1 = toString i)
  | .v k => ds.assignedV.any (fun kb => jsIs kb.1 k)

/-- The `set(thing, propOrOldValue, value)` utility of `utils/common.ts`:
`Map.set`, `Set.add` (ignoring the key), plain assignment otherwise. -/
def setUtil (st : EngineState) (a : Nat) (prop : EKey) (v : Val) :
    EngineState :=
  match (st.nodeAt a).data with
  | .map es =>
      match prop with
      | .v k => st.writeData a (.map (mapSetRaw es k v))
      | _ => st
  | .set xs => st.writeData a (.set (setAddRaw xs v))
  | _ =>
      match prop with
      | .s k => st.writeData a (writeDataProp (st.nodeAt a).data k v)
      | .n i => st.writeData a (writeDataProp (st.nodeAt a).data (toString i) v)
      | .v _ => st

/-- `targetObject.add(childValue)` for the set add-back. -/
def setUtilAdd (st : EngineState) (a : Nat) (v : Val) : EngineState :=
  match (st.nodeAt a).data with
  | .set xs => st.writeData a (.set (setAddRaw xs v))
  | _ => st

/-- `Object.prototype.propertyIsEnumerable.call(targetObject, prop)`:
true for a present record field or sequence index; map entries and set
elements are not properties. -/
def propEnumerable (st : EngineState) (a : Nat) (prop : EKey) : Bool :=
  match (st.nodeAt a).data, prop with
  | .obj fs, .s k => fs.any (fun kv => kv.1 = k)
  | .arr xs, .n i => i < xs.length
  | _, _ => false

/-- The own enumerable string-keyed values `Object.values` returns — what
deep freezing recurses into (record fields and sequence elements; map
entries and set elements are not own properties, issue #590). -/
def deepFreezeValues (nd : NodeData) : List Val :=
  match nd with
  | .obj fs => fs.map (fun kv => kv.2)
  | .arr xs => xs
  | _ => []

/-- `freeze(obj, deep)` of `utils/common.ts`: skip frozen values, drafts
and non-draftables; freeze the node (for maps and sets the source also
swaps the mutating methods for throwing ones — behaviour the frozen flag
already captures); when deep, recurse into `Object.values`. -/
def freezeVal (fuel : Nat) (st : EngineState) (v : Val) (deep : Bool) :
    EngineState :=
  match fuel with
  | 0 => st
  | fuel + 1 =>
      if isFrozenV st.heap v || (match v with | .draft _ => true | _ => false)
          || !isDraftableV st.heap v then st
      else
        match v with
        | .ref a =>
            let st1 := st.freezeNode a
            if deep then
              (deepFreezeValues (st1.nodeAt a).data).foldl
                (fun s c => freezeVal fuel s c true) st1
            else st1
        | _ => st

/-- `maybeFreeze`: only for a root scope (always, here), only when the
config enables auto-freeze, only while the scope still allows it. -/
def maybeFreeze (st : EngineState) (v : Val) (deep : Bool) : EngineState :=
  if st.autoFreeze && st.canAutoFreeze then
    freezeVal (st.heap.length + 1) st v deep
  else st

/-! ## The patch generator -/

/-- Lookup in a string-keyed `assigned_`. -/
def assignedLookup (l : List (String × Bool)) (k : String) : Option Bool :=
  (l.find? (fun kb => kb.1 = k)).map (fun kb => kb.2)

/-- `generatePatchesFromAssigned` for a record draft: for each recorded
key resolve the op (`false` → remove; present in base → replace; else
add), skip reference-equal replaces, emit the forward patch with the
(cloned) new value and the mirrored inverse with the old one. -/
def generatePatchesObj (st : EngineState) (d : Nat) (basePath : List Tree) :
    EngineState :=
  let ds := st.draftAt d
  let baseNd := (st.nodeAt ds.base_).data
  let copyNd := (st.nodeAt (ds.copy_.getD ds.base_)).data
  let F := st.heap.length + 1
  ds.assignedS.foldl
    (fun st1 kb =>
      let (key, assignedValue) := kb
      let origValue := (objGetRaw baseNd key).getD (.prim .undef)
      let value := (objGetRaw copyNd key).getD (.prim .undef)
      let op : POp :=
        if !assignedValue then .remove
        else if (objGetRaw baseNd key).isSome then .replace
        else .add
      if jsEq origValue value && op = POp.replace then st1
      else
        let path := basePath ++ [Tree.prim (.str key)]
        let fwd : Patch :=
          if op = POp.remove then ⟨op, path, none⟩
          else ⟨op, path, some (readbackV F st1 value)⟩
        let inv : Patch :=
          if op = POp.add then ⟨.remove, path, none⟩
          else if op = POp.remove then
            ⟨.add, path, some (readbackV F st1 origValue)⟩
          else ⟨.replace, path, some (readbackV F st1 origValue)⟩
        { st1 with patches := st1.patches ++ [fwd],
                   inversePatches := st1.inversePatches ++ [inv] })
    st

/-- `generatePatchesFromAssigned` for a keyed-map draft (same logic over
the value-keyed `assigned_`). -/
def generatePatchesMap (st : EngineState) (d : Nat) (basePath : List Tree) :
    EngineState :=
  let ds := st.draftAt d
  let baseEs := mapEntriesOf (st.nodeAt ds.base_).data
  let copyEs := mapEntriesOf (st.nodeAt (ds.copy_.getD ds.base_)).data
  let F := st.heap.length + 1
  ds.assignedV.foldl
    (fun st1 kb =>
      let (key, assignedValue) := kb
      let origValue := (mapFind baseEs key).getD (.prim .undef)
      let value := (mapFind copyEs key).getD (.prim .undef)
      let op : POp :=
        if !assignedValue then .remove
        else if (mapFind baseEs key).isSome then .replace
        else .add
      if jsEq origValue value && op = POp.replace then st1
      else
        let path := basePath ++ [readbackV F st1 key]
        let fwd : Patch :=
          if op = POp.remove then ⟨op, path, none⟩
          else ⟨op, path, some (readbackV F st1 value)⟩
        let inv : Patch :=
          if op = POp.add then ⟨.remove, path, none⟩
          else if op = POp.remove then
            ⟨.add, path, some (readbackV F st1 origValue)⟩
          else ⟨.replace, path, some (readbackV F st1 origValue)⟩
        { st1 with patches := st1.patches ++ [fwd],
                   inversePatches := st1.inversePatches ++ [inv] })
    st

/-- `generateArrayPatches`: when the copy is shorter than the base, swap
base/copy *and* the two patch buffers; then emit index-stable replace
pairs for assigned indices with changed values, forward `add`s for the
tail growth, and inverse `remove`s for the tail in decreasing index
order. -/
def generateArrayPatches (st : EngineState) (d : Nat) (basePath : List Tree) :
    EngineState :=
  let ds := st.draftAt d
  let baseXs :=
    match (st.nodeAt ds.base_).data with | .arr xs => xs | _ => []
  let copyXs :=
    match (st.nodeAt (ds.copy_.getD ds.base_)).data with | .arr xs => xs | _ => []
  let swapped := copyXs.length < baseXs.length
  let b := if swapped then copyXs else baseXs
  let c := if swapped then baseXs else copyXs
  let F := st.heap.length + 1
  let replPairs : List (Patch × Patch) :=
    (List.range b.length).filterMap (fun (i : Nat) =>
      let bi := b.getD i (.prim .undef)
      let ci := c.getD i (.prim .undef)
      if assignedLookup ds.assignedS (toString i) = some true && !jsEq ci bi then
        let path := basePath ++ [Tree.prim (.num (Int.ofNat i))]
        some (⟨.replace, path, some (readbackV F st ci)⟩,
              ⟨.replace, path, some (readbackV F st bi)⟩)
      else none)
  let adds : List Patch :=
    (List.range' b.length (c.length - b.length)).map (fun (i : Nat) =>
      ⟨.add, basePath ++ [Tree.prim (.num (Int.ofNat i))],
        some (readbackV F st (c.getD i (.prim .undef)))⟩)
  let removes : List Patch :=
    ((List.range' b.length (c.length - b.length)).reverse).map (fun (i : Nat) =>
      ⟨.remove, basePath ++ [Tree.prim (.num (Int.ofNat i))], none⟩)
  let la := replPairs.map (fun p => p.1) ++ adds
  let lb := replPairs.map (fun p => p.2) ++ removes
  if swapped then
    { st with patches := st.patches ++ lb,
              inversePatches := st.inversePatches ++ la }
  else
    { st with patches := st.patches ++ la,
              inversePatches := st.inversePatches ++ lb }

/-- `generateSetPatches`: per-element set difference; forward patches are
pushed, inverse patches are *unshifted* onto the whole inverse buffer so
that replay restores the original order. -/
def generateSetPatches (st : EngineState) (d : Nat) (basePath : List Tree) :
    EngineState :=
  let ds := st.draftAt d
  let baseXs :=
    match (st.nodeAt ds.base_).data with | .set xs => xs | _ => []
  let copyXs :=
    match (st.nodeAt (ds.copy_.getD ds.base_)).data with | .set xs => xs | _ => []
  let F := st.heap.length + 1
  let st1 := baseXs.enum.foldl
    (fun st1 p =>
      let (i, value) := p
      if !setMem copyXs value then
        let path := basePath ++ [Tree.prim (.num (Int.ofNat i))]
        let rb := readbackV F st1 value
        { st1 with patches := st1.patches ++ [⟨.remove, path, some rb⟩],
                   inversePatches := ⟨.add, path, some rb⟩ :: st1.inversePatches }
      else st1)
    st
  copyXs.enum.foldl
    (fun st2 p =>
      let (i, value) := p
      if !setMem baseXs value then
        let path := basePath ++ [Tree.prim (.num (Int.ofNat i))]
        let rb := readbackV F st2 value
        { st2 with patches := st2.patches ++ [⟨.add, path, some rb⟩],
                   inversePatches := ⟨.remove, path, some rb⟩ :: st2.inversePatches }
      else st2)
    st1

/-- `generatePatches_`: dispatch on the draft's kind. -/
def generatePatches (st : EngineState) (d : Nat) (basePath : List Tree) :
    EngineState :=
  match (st.draftAt d).type_ with
  | .object => generatePatchesObj st d basePath
  | .map => generatePatchesMap st d basePath
  | .array => generateArrayPatches st d basePath
  | .set => generateSetPatches st d basePath

/-- `generateReplacementPatches_`: a single root replace pair. -/
def generateReplacementPatches (st : EngineState) (baseValue result : Tree) :
    EngineState :=
  { st with
    patches := st.patches ++ [⟨.replace, [], some result⟩],
    inversePatches := st.inversePatches ++ [⟨.replace, [], some baseValue⟩] }

/-! ## Finalization -/

/-- `finalize(rootScope, value, path)` of `core/finalize.ts`, with
`finalizeProperty` as an inner function (it closes over the recursive
call at the next fuel level): frozen values pass through; a plain
draftable value is walked for buried drafts; an unmodified draft yields
its base (conditionally deep-frozen); a modified draft is finalized once
— for sets the copy is snapshotted and cleared so `finalizeProperty`
re-adds membership — then conditionally frozen, and patches are
generated when a path is tracked.  `finalizeProperty` performs the
self-containment (circular) check, the draft branch (sub-path
bookkeeping — no deep patches below sets or below explicitly assigned
keys — recursive finalization and write-back, with auto-freeze
suppression when the result is still a draft), the set re-add, and the
shared tail (recursion into draftable unfrozen children, skippable when
auto-freeze is off and no drafts remain, then conditional freezing of
enumerable own-property children).  (The cross-scope early return of the
source cannot fire in the single-scope run loop and has no residue
here.) -/
def finalize (fuel : Nat) (st : EngineState) (value : Val)
    (path : Option (List Tree)) : Except Err (EngineState × Val) :=
  match fuel with
  | 0 => .error .fuel
  | fuel + 1 =>
      let finPropTail : EngineState → Nat → EKey → Val →
          Except Err EngineState :=
        fun st targetAddr prop childValue =>
          if isDraftableV st.heap childValue &&
              !isFrozenV st.heap childValue then
            if !st.autoFreeze && st.unfinalized < 1 then .ok st
            else do
              let (st1, _) ← finalize fuel st childValue none
              if propEnumerable st1 targetAddr prop then
                .ok (maybeFreeze st1 childValue false)
              else .ok st1
          else .ok st
      let finProp : EngineState → Option Nat → Nat → EKey → Val →
          Option (List Tree) → Bool → Except Err EngineState :=
        fun st parent targetAddr prop childValue rootPath targetIsSet =>
          if childValue = Val.ref targetAddr then .error .circular
          else
            match childValue with
            | .draft cd => do
                let subPath :=
                  match rootPath, parent with
                  | some rp, some p =>
                      let pds := st.draftAt p
                      if pds.type_ ≠ ArchType.set ∧ ¬assignedHas pds prop then
                        some (rp ++ [ekeyTree st prop])
                      else none
                  | _, _ => none
                let (st1, res) ← finalize fuel st (.draft cd) subPath
                let st2 := setUtil st1 targetAddr prop res
                match res with
                | .draft _ =>
                    finPropTail { st2 with canAutoFreeze := false }
                      targetAddr prop childValue
                | _ => .ok st2
            | _ =>
                let st1 :=
                  if targetIsSet then setUtilAdd st targetAddr childValue
                  else st
                finPropTail st1 targetAddr prop childValue
      let finProps : EngineState → Option Nat → Nat → List (EKey × Val) →
          Option (List Tree) → Bool → Except Err EngineState :=
        fun st parent targetAddr entries path isSet =>
          entries.foldlM
            (fun s e => finProp s parent targetAddr e.1 e.2 path isSet) st
      if isFrozenV st.heap value then .ok (st, value)
      else
        match value with
        | .prim _ => .ok (st, value)
        | .ref a => do
            let st1 ← finProps st none a (entriesOf (st.nodeAt a).data)
              path false
            .ok (st1, value)
        | .draft d =>
            let ds := st.draftAt d
            if !ds.modified_ then
              .ok (maybeFreeze st (.ref ds.base_) true, .ref ds.base_)
            else if ds.finalized_ then
              .ok (st, .ref (ds.copy_.getD ds.base_))
            else
              let st1 := st.setDraft d { ds with finalized_ := true }
              let st2 := { st1 with unfinalized := st1.unfinalized - 1 }
              let copyAddr := ds.copy_.getD ds.base_
              let isSet := ds.type_ = ArchType.set
              let entries := entriesOf (st2.nodeAt copyAddr).data
              let st3 :=
                if isSet then st2.writeData copyAddr (.set []) else st2
              do
                let st4 ← finProps st3 (some d) copyAddr entries path isSet
                let st5 := maybeFreeze st4 (.ref copyAddr) false
                let st6 :=
                  match path with
                  | some p =>
                      if st5.patchesOn then generatePatches st5 d p else st5
                  | none => st5
                .ok (st6, .ref copyAddr)

/-! ## The run loop (`produce`) -/

/-- `processResult(result, scope)`: count the unfinalized drafts, detect
replacement (defined result other than the root draft), fail with
`die(4)` after revoking when the root was also modified, finalize the
replacement or the root draft (the latter with the empty patch path),
revoke the scope, and emit replacement patches when a sink is active.
The state is returned alongside either outcome. -/
def processResult (st : EngineState) (result : Val) :
    Except Err Val × EngineState :=
  let st := { st with unfinalized := st.drafts.length }
  let baseDraft : Val := .draft 0
  let fuel := st.heap.length + st.drafts.length + 1
  let isReplaced := !(result = Val.prim .undef) && !(result = baseDraft)
  if isReplaced then
    if (st.draftAt 0).modified_ then
      (.error .modifiedAndReturned, revokeScope st)
    else
      let fin : Except Err (EngineState × Val) :=
        if isDraftableV st.heap result then
          match finalize fuel st result none with
          | .error e => .error e
          | .ok (st1, r1) => .ok (maybeFreeze st1 r1 false, r1)
        else .ok (st, result)
      match fin with
      | .error e => (.error e, st)
      | .ok (st1, r1) =>
          let st2 :=
            if st1.patchesOn then
              generateReplacementPatches st1
                (readbackV (st1.heap.length + 1) st1
                  (.ref (st1.draftAt 0).base_))
                (readbackV (st1.heap.length + 1) st1 r1)
            else st1
          (.ok r1, revokeScope st2)
  else
    match finalize fuel st baseDraft (some []) with
    | .error e => (.error e, st)
    | .ok (st1, r1) => (.ok r1, revokeScope st1)

/-- `Run` — the draftable branch of `Immer.produce`: enter a fresh scope,
create the root draft, run the recipe (revoking on a throw), activate the
patch buffers when a sink is supplied, and hand the recipe's result to
`processResult`.  Returns the outcome together with the final engine
state (heap, drafts, patch buffers). -/
def produceRun (h : Heap) (baseAddr : Nat) (r : Recipe)
    (autoFreeze : Bool) (withPatches : Bool) :
    Except Err Val × EngineState :=
  let st0 : EngineState :=
    { heap := h, drafts := [], patchesOn := false, patches := [],
      inversePatches := [], canAutoFreeze := true, unfinalized := 0,
      autoFreeze := autoFreeze }
  if isDraftableV h (.ref baseAddr) then
    let (st1, _root) := createProxy st0 baseAddr none
    match execCmds st1 r.cmds with
    | (st2, some e) => (.error e, revokeScope st2)
    | (st2, none) =>
        let st3 := if withPatches then { st2 with patchesOn := true } else st2
        let (st4, resVal) :=
          match r.ret with
          | .undef => (st3, Val.prim .undef)
          | .root => (st3, Val.draft 0)
          | .val t => allocTree st3 t
        processResult st4 resVal
  else (.error .notDraftable, st0)

/-- The engine state at an intermediate point of `produceRun`: the same
setup (initial scope state, root proxy creation), after the first `m`
commands of the recipe have run.  `produceRun`'s own execution passes
through exactly these states. -/
def produceRunPoint (h : Heap) (baseAddr : Nat) (auto : Bool)
    (cmds : List Cmd) (m : Nat) : EngineState :=
  let st0 : EngineState :=
    { heap := h, drafts := [], patchesOn := false, patches := [],
      inversePatches := [], canAutoFreeze := true, unfinalized := 0,
      autoFreeze := auto }
  (execCmds (createProxy st0 baseAddr none).1 (cmds.take m)).1

/-! ## Invariants of the draft table -/

/-- Parent links point to earlier-created drafts. -/
def ParentLT (st : EngineState) : Prop :=
  ∀ d p, (st.draftAt d).parent_ = some p → p < d

/-- The one-step modified invariant: a modified draft's parent is
modified. -/
def ModInv (st : EngineState) : Prop :=
  ∀ d p, (st.draftAt d).modified_ = true →
    (st.draftAt d).parent_ = some p → (st.draftAt p).modified_ = true

/-- `p` is an ancestor of `d` along parent links. -/
inductive IsAncestor (st : EngineState) : Nat → Nat → Prop where
  | parent {d p : Nat} : (st.draftAt d).parent_ = some p → IsAncestor st p d
  | trans {d p q : Nat} : (st.draftAt d).parent_ = some p →
      IsAncestor st q p → IsAncestor st q d

/-- No draft is modified (the state of a run whose recipe performed no
writes). -/
def AllUnmodified (st : EngineState) : Prop :=
  ∀ d, (st.draftAt d).modified_ = false

/-- The two structural invariants of the draft table together. -/
def DraftInv (st : EngineState) : Prop := ParentLT st ∧ ModInv st

/-- Every draft value stored in `v` names a draft below index `n`. -/
def Val.draftLT (n : Nat) : Val → Bool
  | .draft i => decide (i < n)
  | _ => true

/-- Every draft value stored in a node's data names a draft below `n`. -/
def NodeData.draftLT (n : Nat) : NodeData → Bool
  | .obj fs => fs.all (fun kv => kv.2.draftLT n)
  | .arr xs => xs.all (fun v => v.draftLT n)
  | .map es => es.all (fun kv => kv.1.draftLT n && kv.2.draftLT n)
  | .set xs => xs.all (fun v => v.draftLT n)
  | .opaq => true

/-- Every draft value reachable from the heap names an existing draft. -/
def HeapOK (st : EngineState) : Prop :=
  ∀ a, (st.nodeAt a).data.draftLT st.drafts.length = true

/-- A caller-supplied heap holds no draft values at all (the engine's
proxies never leak into the plain data handed to `produce`). -/
def heapNoDrafts (h : Heap) : Bool :=
  h.all (fun node => node.data.draftLT 0)

/-- Copies live at or above address `n`: lazy shallow copies are always
allocated past the caller's heap, whose size is `n` at entry. -/
def CopyHigh (n : Nat) (st : EngineState) : Prop :=
  ∀ d c, (st.draftAt d).copy_ = some c → n ≤ c

/-- The structural data of every heap node below `n` agrees between two
states: the frame the engine keeps over the caller's heap (freezing may
still flip the `frozen` bit, which is not structural). -/
def LowHeapEq (n : Nat) (st st' : EngineState) : Prop :=
  ∀ a, a < n → (st'.heap.nodeAt a).data = (st.heap.nodeAt a).data

/-- The run invariant, relative to the size `n` of the caller's heap. -/
def InvAt (n : Nat) (st : EngineState) : Prop :=
  ParentLT st ∧ ModInv st ∧ HeapOK st ∧ CopyHigh n st ∧ n ≤ st.heap.length

/-- One engine step seen from outside: drafts are only appended, the heap
only grows, and the caller's heap region keeps its structural data. -/
def Evolves (n : Nat) (st st' : EngineState) : Prop :=
  st.drafts.length ≤ st'.drafts.length ∧
  st.heap.length ≤ st'.heap.length ∧ LowHeapEq n st st'

/-- No draft of the scope is revoked (true throughout a run until
`revokeScope` fires). -/
def NoneRevoked (st : EngineState) : Prop :=
  ∀ x, (st.draftAt x).revoked_ = false

/-- What a read-only step leaves untouched: the root draft's base address
and both patch buffers. -/
def ReadFrame (st st' : EngineState) : Prop :=
  (st'.draftAt 0).base_ = (st.draftAt 0).base_ ∧
  st'.patches = st.patches ∧
  st'.inversePatches = st.inversePatches

/-- What no recipe command ever touches: the per-node `Object.freeze`
flags and the two auto-freeze switches (only `freeze` sets a flag, only
`finalizeProperty` clears `canAutoFreeze`, and the config's `autoFreeze`
is immutable). -/
def FreezeFrame (st st' : EngineState) : Prop :=
  (∀ a, (st'.heap.nodeAt a).frozen = (st.heap.nodeAt a).frozen) ∧
  st'.canAutoFreeze = st.canAutoFreeze ∧
  st'.autoFreeze = st.autoFreeze

/-- Every node of the heap carries a cleared frozen flag. -/
def heapUnfrozen (h : Heap) : Bool := h.all (fun n => !n.frozen)

/-- How many nodes of a heap are frozen — the measure showing that the
heap size bounds the depth of `freeze`'s recursion (each level of the
active call chain has just frozen a previously unfrozen node). -/
def frozenCount (h : Heap) : Nat :=
  (List.range h.length).countP (fun a => (h.nodeAt a).frozen)

/-- The addresses `freeze(obj, true)` visits: from the root through
`Object.values` (record fields and sequence elements) of draftable
nodes. -/
inductive DeepReach (h : Heap) (root : Nat) : Nat → Prop where
  | refl : DeepReach h root root
  | step (b c : Nat) : DeepReach h root b →
      Val.ref c ∈ deepFreezeValues (h.nodeAt b).data →
      isDraftableV h (.ref c) = true → DeepReach h root c

/-- Frozen-closedness modulo an exempt edge set `X`: every draftable
enumerable own child of a frozen node is frozen, except for the edges in
`X` (the still-pending children of the freeze recursion's active
nodes). -/
def FrozenClosedX (X : Nat → Val → Prop) (h : Heap) : Prop :=
  ∀ b v c, (h.nodeAt b).frozen = true →
    v ∈ deepFreezeValues (h.nodeAt b).data →
    isDraftableV h v = true → ¬ X b v → v = Val.ref c →
    (h.nodeAt c).frozen = true

/-- The copy bookkeeping invariant of the draft table: a draft that has
a child draft has a copy (every trap that creates a child proxy runs the
parent's `prepareCopy` in the same step), and a modified draft has a
copy (`prepareCopy` always precedes `markChanged`). -/
def ModCopy (st : EngineState) : Prop :=
  (∀ d p, (st.draftAt d).parent_ = some p →
    ((st.draftAt p).copy_).isSome = true) ∧
  (∀ d, (st.draftAt d).modified_ = true →
    ((st.draftAt d).copy_).isSome = true)

/-- Nodes below `n` (the caller's heap) hold no draft values. -/
def LowND (n : Nat) (st : EngineState) : Prop :=
  ∀ a, a < n → (st.heap.nodeAt a).data.draftLT 0 = true

/-- `finalizeProperty`'s shared tail, lifted out of `finalize` (it is
definitionally the closure `finalize` builds, one fuel level down). -/
def finPropTailD (fuel : Nat) (st : EngineState) (targetAddr : Nat)
    (prop : EKey) (childValue : Val) : Except Err EngineState :=
  if isDraftableV st.heap childValue &&
      !isFrozenV st.heap childValue then
    if !st.autoFreeze && st.unfinalized < 1 then .ok st
    else do
      let (st1, _) ← finalize fuel st childValue none
      if propEnumerable st1 targetAddr prop then
        .ok (maybeFreeze st1 childValue false)
      else .ok st1
  else .ok st

/-- `finalizeProperty`, lifted out of `finalize`. -/
def finPropD (fuel : Nat) (st : EngineState) (parent : Option Nat)
    (targetAddr : Nat) (prop : EKey) (childValue : Val)
    (rootPath : Option (List Tree)) (targetIsSet : Bool) :
    Except Err EngineState :=
  if childValue = Val.ref targetAddr then .error .circular
  else
    match childValue with
    | .draft cd => do
        let subPath :=
          match rootPath, parent with
          | some rp, some p =>
              let pds := st.draftAt p
              if pds.type_ ≠ ArchType.set ∧ ¬assignedHas pds prop then
                some (rp ++ [ekeyTree st prop])
              else none
          | _, _ => none
        let (st1, res) ← finalize fuel st (.draft cd) subPath
        let st2 := setUtil st1 targetAddr prop res
        match res with
        | .draft _ =>
            finPropTailD fuel { st2 with canAutoFreeze := false }
              targetAddr prop childValue
        | _ => .ok st2
    | _ =>
        let st1 :=
          if targetIsSet then setUtilAdd st targetAddr childValue
          else st
        finPropTailD fuel st1 targetAddr prop childValue

/-- The `each` fold of `finalize`, lifted out. -/
def finPropsD (fuel : Nat) (st : EngineState) (parent : Option Nat)
    (targetAddr : Nat) (entries : List (EKey × Val))
    (path : Option (List Tree)) (isSet : Bool) :
    Except Err EngineState :=
  entries.foldlM
    (fun s e => finPropD fuel s parent targetAddr e.1 e.2 path isSet) st

/-! # Theorems -/

@[simp] theorem jsIs_refl (x : Val) : jsIs x x = true := by
  cases x with
  | prim p => cases p <;> simp [jsIs, jsEq]
  | ref a => simp [jsIs, jsEq]
  | draft d => simp [jsIs, jsEq]

/-! ## Claim C7 — strict shallow copy of property descriptors -/

/-- Membership transfer into the strict copy: every non-internal own
property reappears, rewritten by `copyDesc`. -/
theorem mem_shallowCopyStrict {props : List (PKey × Desc)} {k : PKey}
    {d : Desc} (hk : k ≠ PKey.draftState) (h : (k, d) ∈ props) :
    (k, copyDesc d) ∈ shallowCopyStrict props := by
  unfold shallowCopyStrict
  exact List.mem_map_of_mem _ (List.mem_filter.mpr ⟨h, by simpa using hk⟩)

/-- Claim C7, counterexample.  The claim says every copied descriptor ends
up `writable:true, configurable:true`; but the strict copy only forces
those flags when `writable === false`, so a writable, *non-configurable*
data property is copied with `configurable:false` intact. -/
theorem shallowCopyStrict_not_all_configurable :
    (shallowCopyStrict
        [(PKey.s "x", ⟨true, false, .data (.prim (.num 1)) true⟩)]).map
      (fun kd => kd.2.configurable) = [false] := rfl

/-- Claim C7, amended: for every record copied in strict mode, the copy
replicates every own property descriptor (symbol keys included), omits the
internal state key, forces `writable:true, configurable:true` on
descriptors whose `writable` flag was `false`, collapses every accessor
descriptor into a `writable:true, configurable:true` data descriptor whose
value is read through the base, and copies already-writable data
descriptors verbatim (their `configurable` flag is *not* forced). -/
theorem shallowCopyStrict_spec (props : List (PKey × Desc)) :
    ((shallowCopyStrict props).map Prod.fst
        = (props.filter (fun kd => kd.1 ≠ PKey.draftState)).map Prod.fst)
    ∧ (∀ kd ∈ shallowCopyStrict props, kd.1 ≠ PKey.draftState)
    ∧ (∀ (k : PKey) (e c : Bool) (v : Tree),
        (k, ⟨e, c, .data v false⟩) ∈ props → k ≠ PKey.draftState →
        (k, ⟨e, true, .data v true⟩) ∈ shallowCopyStrict props)
    ∧ (∀ (k : PKey) (e c : Bool) (g : Option Tree) (hs : Bool),
        (g.isSome || hs) = true →
        (k, ⟨e, c, .accessor g hs⟩) ∈ props → k ≠ PKey.draftState →
        (k, ⟨e, true, .data (accessorRead g) true⟩) ∈ shallowCopyStrict props)
    ∧ (∀ (k : PKey) (e c : Bool) (v : Tree),
        (k, ⟨e, c, .data v true⟩) ∈ props → k ≠ PKey.draftState →
        (k, ⟨e, c, .data v true⟩) ∈ shallowCopyStrict props) := by
  refine ⟨?_, ?_, ?_, ?_, ?_⟩
  · simp [shallowCopyStrict, List.map_map, Function.comp]
  · intro kd hkd
    simp only [shallowCopyStrict, List.mem_map] at hkd
    obtain ⟨x, hx, rfl⟩ := hkd
    simpa using (List.mem_filter.mp hx).2
  · intro k e c v hmem hk
    simpa [copyDesc, Desc.writableIsFalse] using mem_shallowCopyStrict hk hmem
  · intro k e c g hs hgs hmem hk
    simpa [copyDesc, Desc.writableIsFalse, hgs]
      using mem_shallowCopyStrict hk hmem
  · intro k e c v hmem hk
    simpa [copyDesc, Desc.writableIsFalse] using mem_shallowCopyStrict hk hmem

/-- Claim C7, witness: the amended theorem applied to a one-property
record holding a getter under a symbol key. -/
theorem shallowCopyStrict_spec_witness :
    PKey.sym 7 ≠ PKey.draftState ∧
    (PKey.sym 7, (⟨true, true, .data (.prim (.str "g")) true⟩ : Desc)) ∈
      shallowCopyStrict
        [(PKey.sym 7, ⟨true, false, .accessor (some (.prim (.str "g"))) false⟩)] :=
  ⟨by decide,
    (shallowCopyStrict_spec _).2.2.2.1 (PKey.sym 7) true false
      (some (.prim (.str "g"))) false rfl (List.Mem.head _) (by decide)⟩

/-! ## Claim C9 — path walking guards in the patch applier -/

@[simp] theorem ebind_ok {α β : Type} (a : α) (f : α → Except Err β) :
    (Except.ok a >>= f) = f a := rfl

@[simp] theorem ebind_error {α β : Type} (e : Err) (f : α → Except Err β) :
    ((Except.error e : Except Err α) >>= f) = Except.error e := rfl

theorem ebind_eq_ok {α β : Type} {x : Except Err α} {f : α → Except Err β}
    {v : β} (h : (x >>= f) = .ok v) : ∃ a, x = .ok a ∧ f a = .ok v := by
  cases x with
  | ok a => exact ⟨a, rfl, h⟩
  | error e => exact Except.noConfusion h

/-- An error raised by a `stepInto` iteration surfaces as the result of
the whole patch application. -/
theorem applyPatchAux_step_error {pre : List Tree} {target b seg : Tree}
    {post : List Tree} {patch : Patch} {e : Err}
    (hw : walkPre target pre = .ok b) (hs : stepInto b seg = .error e) :
    applyPatchAux target (pre ++ seg :: post) patch = .error e := by
  induction pre generalizing target with
  | nil =>
      simp only [walkPre, Except.ok.injEq] at hw
      subst hw
      simp [applyPatchAux, hs]
  | cons s pre2 ih =>
      simp only [walkPre] at hw
      cases hstep : stepInto target s with
      | error e2 => rw [hstep] at hw; simp at hw
      | ok b1 =>
          rw [hstep] at hw
          simp only [ebind_ok] at hw
          simp [applyPatchAux, hstep, ih hw]

/-- A reserved segment under a record/sequence parent stops the walk. -/
theorem stepInto_reserved {b seg : Tree} {pt : ArchType}
    (hpt : archtypeT b = .ok pt) (hor : pt = .object ∨ pt = .array)
    (hres : normSeg seg = .prim (.str "__proto__") ∨
            normSeg seg = .prim (.str "constructor")) :
    stepInto b seg = .error .reservedAttribute := by
  have hr : reservedSeg (normSeg seg) = true := by
    rcases hres with h | h <;> simp [reservedSeg, h, Tree.beq]
  rcases hor with h | h <;> simp [stepInto, hpt, h, hr]

/-- A `"prototype"` segment under a function parent stops the walk. -/
theorem stepInto_function_prototype {b seg : Tree}
    (hf : typeofIsFunction b = true)
    (hp : normSeg seg = .prim (.str "prototype")) :
    stepInto b seg = .error .reservedAttribute := by
  have hb : b = Tree.func := by cases b <;> simp [typeofIsFunction] at hf ⊢
  subst hb
  simp [stepInto, archtypeT, hp, reservedSeg, Tree.beq, typeofIsFunction]

/-- When neither guard fires but the reached value is not an object, the
walk fails with the path-resolution error. -/
theorem stepInto_non_object {b seg : Tree} {pt : ArchType}
    (hpt : archtypeT b = .ok pt)
    (hc1 : ¬((pt = ArchType.object ∨ pt = ArchType.array) ∧
        reservedSeg (normSeg seg) = true))
    (hc2 : ¬(typeofIsFunction b = true ∧
        Tree.beq (normSeg seg) (.prim (.str "prototype")) = true))
    (hno : typeofIsObject (getProp b (normSeg seg)) = false) :
    stepInto b seg = .error .pathUnresolved := by
  simp [stepInto, hpt, hc1, hc2, hno]

/-- An erroring first patch makes the whole list error. -/
theorem applyPatchesT_cons_error {t : Tree} {p : Patch} {more : List Patch}
    {e : Err} (h : applyPatchAux t p.path.dropLast p = .error e) :
    applyPatchesT t (p :: more) = .error e := by
  simp [applyPatchesT, List.foldlM_cons, h]

/-- Claim C9, amended.  For every patch list passed to `ApplyPatches`,
path walking rejects (with the reserved-attribute error) every *non-final*
path segment equal to `"__proto__"` or `"constructor"` when the parent
reached at that point is a record or sequence, rejects walking into a
function's `"prototype"`, and fails with the path-resolution error when
the value reached by a non-final segment is not an object.  (The original
claim said *every* path segment is checked; the final segment is applied
without the reserved-name check — see the counterexample.) -/
theorem applyPatches_path_guard
    (target : Tree) (patch : Patch) (more : List Patch) (pre post : List Tree)
    (seg b : Tree) (pt : ArchType)
    (hpath : patch.path.dropLast = pre ++ seg :: post)
    (hw : walkPre target pre = .ok b)
    (hpt : archtypeT b = .ok pt) :
    ((pt = ArchType.object ∨ pt = ArchType.array) →
      (normSeg seg = .prim (.str "__proto__") ∨
       normSeg seg = .prim (.str "constructor")) →
      applyPatchesT target (patch :: more) = .error .reservedAttribute)
  ∧ (typeofIsFunction b = true → normSeg seg = .prim (.str "prototype") →
      applyPatchesT target (patch :: more) = .error .reservedAttribute)
  ∧ (¬((pt = ArchType.object ∨ pt = ArchType.array) ∧
        reservedSeg (normSeg seg) = true) →
      ¬(typeofIsFunction b = true ∧
        Tree.beq (normSeg seg) (.prim (.str "prototype")) = true) →
      typeofIsObject (getProp b (normSeg seg)) = false →
      applyPatchesT target (patch :: more) = .error .pathUnresolved) := by
  refine ⟨?_, ?_, ?_⟩
  · intro hor hres
    refine applyPatchesT_cons_error ?_
    rw [hpath]
    exact applyPatchAux_step_error hw (stepInto_reserved hpt hor hres)
  · intro hf hp
    refine applyPatchesT_cons_error ?_
    rw [hpath]
    exact applyPatchAux_step_error hw (stepInto_function_prototype hf hp)
  · intro hc1 hc2 hno
    refine applyPatchesT_cons_error ?_
    rw [hpath]
    exact applyPatchAux_step_error hw (stepInto_non_object hpt hc1 hc2 hno)

/-- Claim C9, counterexample.  The claim as stated demands rejection of
*every* `"constructor"` segment under a record parent, but a reserved name
in the final path position is not checked: the patch succeeds and stores a
`"constructor"` field. -/
theorem applyPatches_final_segment_unchecked :
    applyPatchesT (.obj [("a", .prim (.num 1))])
        [⟨.replace, [.prim (.str "constructor")], some (.prim (.num 7))⟩]
      = .ok (.obj [("a", .prim (.num 1)), ("constructor", .prim (.num 7))]) :=
  rfl

/-- Claim C9, witness: the amended theorem applied to a concrete
`__proto__` path. -/
theorem applyPatches_path_guard_witness :
    normSeg (.prim (.str "__proto__")) = .prim (.str "__proto__") ∧
    applyPatchesT (.obj [("a", .obj [("x", .prim (.num 1))])])
        [⟨.replace,
          [.prim (.str "__proto__"), .prim (.str "x"), .prim (.str "y")],
          some (.prim (.num 0))⟩]
      = .error .reservedAttribute :=
  ⟨rfl,
    (applyPatches_path_guard (.obj [("a", .obj [("x", .prim (.num 1))])])
        ⟨.replace,
          [.prim (.str "__proto__"), .prim (.str "x"), .prim (.str "y")],
          some (.prim (.num 0))⟩ [] [] [.prim (.str "x")]
        (.prim (.str "__proto__")) _ .object rfl rfl rfl).1
      (Or.inl rfl) (Or.inl rfl)⟩

/-! ## Claim C8 — the array length-shrink scenario -/

/-- When no root-replace patch is present, `Immer.applyPatches` is the
plugin applier. -/
theorem applyPatchesTop_of_no_root_replace (b : Tree) (ps : List Patch)
    (h : scanRootReplace ps = none) :
    applyPatchesTop b ps = applyPatchesT b ps := by
  unfold applyPatchesTop
  rw [h]


/-- Claim C8: for base `[1,2,3,4]` and a recipe that sets the draft's
`length` to `2`, a run with a patch sink returns `[1,2]`; the forward
patches are exactly two removes at paths `[3]` then `[2]`, the inverse
patches exactly `add {path:[2], value:3}` then `add {path:[3], value:4}`;
and applying the inverse patches to `[1,2]` restores `[1,2,3,4]`. -/
theorem array_length_shrink_scenario :
    (produceRun
        [⟨.arr [.prim (.num 1), .prim (.num 2), .prim (.num 3),
                .prim (.num 4)], false⟩] 0
        ⟨[.setProp [] "length" (.prim (.num 2))], .undef⟩ true true).1
      = Except.ok (Val.ref 1)
  ∧ readbackV 10
      (produceRun
        [⟨.arr [.prim (.num 1), .prim (.num 2), .prim (.num 3),
                .prim (.num 4)], false⟩] 0
        ⟨[.setProp [] "length" (.prim (.num 2))], .undef⟩ true true).2
      (Val.ref 1)
      = .arr [.prim (.num 1), .prim (.num 2)]
  ∧ (produceRun
        [⟨.arr [.prim (.num 1), .prim (.num 2), .prim (.num 3),
                .prim (.num 4)], false⟩] 0
        ⟨[.setProp [] "length" (.prim (.num 2))], .undef⟩ true true).2.patches
      = [⟨.remove, [.prim (.num 3)], none⟩, ⟨.remove, [.prim (.num 2)], none⟩]
  ∧ (produceRun
        [⟨.arr [.prim (.num 1), .prim (.num 2), .prim (.num 3),
                .prim (.num 4)], false⟩] 0
        ⟨[.setProp [] "length" (.prim (.num 2))], .undef⟩ true
        true).2.inversePatches
      = [⟨.add, [.prim (.num 2)], some (.prim (.num 3))⟩,
         ⟨.add, [.prim (.num 3)], some (.prim (.num 4))⟩]
  ∧ applyPatchesTop (.arr [.prim (.num 1), .prim (.num 2)])
        [⟨.add, [.prim (.num 2)], some (.prim (.num 3))⟩,
         ⟨.add, [.prim (.num 3)], some (.prim (.num 4))⟩]
      = .ok (.arr [.prim (.num 1), .prim (.num 2), .prim (.num 3),
                   .prim (.num 4)]) :=
  ⟨rfl, rfl, rfl, rfl, rfl⟩

/-! ## Claim C6 — revocation checks on map/set drafts -/

/-- Claim C6, counterexample.  After a run has revoked its scope, the
live map draft still answers `has`, `size` and `keys` from its stale
state, and `delete` of an absent key still returns `false`, with no
revoked-proxy error; only operations that call `assertUnrevoked`
(here `get`) fail.  So the revoked flag is *not* verified before every
operation. -/
theorem revoked_map_reads_succeed :
    ((produceRun [⟨.map [(.prim (.str "k"), .prim (.num 1))], false⟩] 0
        ⟨[.mapSet [] (.str "j") (.prim (.num 2))], .undef⟩ false
        false).2.draftAt 0).revoked_ = true
  ∧ draftMapHas
      (produceRun [⟨.map [(.prim (.str "k"), .prim (.num 1))], false⟩] 0
        ⟨[.mapSet [] (.str "j") (.prim (.num 2))], .undef⟩ false false).2
      0 (.prim (.str "k")) = true
  ∧ draftMapSize
      (produceRun [⟨.map [(.prim (.str "k"), .prim (.num 1))], false⟩] 0
        ⟨[.mapSet [] (.str "j") (.prim (.num 2))], .undef⟩ false false).2
      0 = 2
  ∧ draftMapKeys
      (produceRun [⟨.map [(.prim (.str "k"), .prim (.num 1))], false⟩] 0
        ⟨[.mapSet [] (.str "j") (.prim (.num 2))], .undef⟩ false false).2
      0 = [.prim (.str "k"), .prim (.str "j")]
  ∧ (draftMapDelete
      (produceRun [⟨.map [(.prim (.str "k"), .prim (.num 1))], false⟩] 0
        ⟨[.mapSet [] (.str "j") (.prim (.num 2))], .undef⟩ false false).2
      0 (.prim (.str "absent"))).isOk = true
  ∧ draftMapGet
      (produceRun [⟨.map [(.prim (.str "k"), .prim (.num 1))], false⟩] 0
        ⟨[.mapSet [] (.str "j") (.prim (.num 2))], .undef⟩ false false).2
      0 (.prim (.str "k")) = .error .revoked :=
  ⟨rfl, rfl, rfl, rfl, rfl, rfl⟩

/-- Claim C6, amended: once a map/set draft's scope has been revoked,
every operation that performs the `assertUnrevoked` check fails with the
revoked error — for a keyed map: `get`, `set`, `clear`, `delete` of a
*present* key, and any entry-reading `forEach`; for a unique set: `has`,
`add`, `delete`, `clear` and every iteration (`values`, `keys`,
`entries`, `forEach`).  The revoked flag is *not* checked by the map's
`size`, `has` and `keys`, by `delete` of an absent key, or by the set's
`size` (see the counterexample). -/
theorem revoked_mapset_ops_fail (st : EngineState) (d : Nat) (k v : Val)
    (h : (st.draftAt d).revoked_ = true) :
    draftMapGet st d k = .error .revoked
  ∧ draftMapSet st d k v = .error .revoked
  ∧ draftMapClear st d = .error .revoked
  ∧ (draftMapHas st d k = true →
      draftMapDelete st d k = .error .revoked)
  ∧ (∀ k1 ks, draftMapKeys st d = k1 :: ks →
      draftMapForEach st d = .error .revoked)
  ∧ draftSetHas st d v = .error .revoked
  ∧ draftSetAdd st d v = .error .revoked
  ∧ draftSetDelete st d v = .error .revoked
  ∧ draftSetClear st d = .error .revoked
  ∧ draftSetValues st d = .error .revoked := by
  refine ⟨?_, ?_, ?_, ?_, ?_, ?_, ?_, ?_, ?_, ?_⟩
  · simp [draftMapGet, h]
  · simp [draftMapSet, h]
  · simp [draftMapClear, h]
  · intro hk
    simp [draftMapDelete, hk, h]
  · intro k1 ks hks
    simp [draftMapForEach, hks, List.foldlM_cons, draftMapGet, h]
  · simp [draftSetHas, h]
  · simp [draftSetAdd, h]
  · simp [draftSetDelete, draftSetHas, h]
  · simp [draftSetClear, h]
  · simp [draftSetValues, h]

/-- Claim C6, witness: the amended theorem applied to the revoked draft
left behind by a concrete run. -/
theorem revoked_mapset_ops_fail_witness :
    ((produceRun [⟨.map [(.prim (.str "k"), .prim (.num 1))], false⟩] 0
        ⟨[.mapClear []], .undef⟩ false false).2.draftAt 0).revoked_ = true
  ∧ draftMapGet
      (produceRun [⟨.map [(.prim (.str "k"), .prim (.num 1))], false⟩] 0
        ⟨[.mapClear []], .undef⟩ false false).2 0 (.prim (.str "k"))
      = .error .revoked :=
  ⟨by decide,
    (revoked_mapset_ops_fail
      (produceRun [⟨.map [(.prim (.str "k"), .prim (.num 1))], false⟩] 0
        ⟨[.mapClear []], .undef⟩ false false).2 0 (.prim (.str "k"))
      (.prim (.num 0)) (by decide)).1⟩

/-! ## Claim C5 — toolbox: effects of the primitive operations on the
draft table -/

theorem draftAt_setDraft (st : EngineState) (d : Nat) (ds : DraftState)
    (x : Nat) :
    (st.setDraft d ds).draftAt x =
      if d = x ∧ d < st.drafts.length then ds else st.draftAt x := by
  unfold EngineState.setDraft EngineState.draftAt
  simp only [List.getD_eq_getElem?_getD, List.getElem?_set]
  by_cases h : d = x
  · subst h
    by_cases hlt : d < st.drafts.length
    · simp [hlt]
    · have hnone : st.drafts[d]? = none := List.getElem?_eq_none (by omega)
      simp [hlt, hnone]
  · simp [h]

theorem parentLT_of_parents_eq {st st' : EngineState}
    (h : ∀ x, (st'.draftAt x).parent_ = (st.draftAt x).parent_)
    (hp : ParentLT st) : ParentLT st' := by
  intro d p hdp
  exact hp d p (by rw [← h d]; exact hdp)

/-- Unfolding equation: a draft already marked modified stops the walk. -/
theorem markChanged_of_modified {st : EngineState} {d : Nat} (fuel : Nat)
    (hm : (st.draftAt d).modified_ = true) :
    markChanged st (fuel + 1) d = st := by
  unfold markChanged; simp [hm]

/-- Unfolding equation: marking a parentless draft just sets its flag. -/
theorem markChanged_of_root {st : EngineState} {d : Nat} (fuel : Nat)
    (hm : ¬ (st.draftAt d).modified_ = true)
    (hpar : (st.draftAt d).parent_ = none) :
    markChanged st (fuel + 1) d =
      st.setDraft d { st.draftAt d with modified_ := true } := by
  unfold markChanged; simp [hm, hpar]

/-- Unfolding equation: marking a child sets its flag and recurses on the
parent. -/
theorem markChanged_of_parent {st : EngineState} {d p : Nat} (fuel : Nat)
    (hm : ¬ (st.draftAt d).modified_ = true)
    (hpar : (st.draftAt d).parent_ = some p) :
    markChanged st (fuel + 1) d =
      markChanged (st.setDraft d { st.draftAt d with modified_ := true })
        fuel p := by
  conv_lhs => unfold markChanged
  simp [hm, hpar]

/-- The one-step write of `markChanged` keeps every parent link. -/
theorem setDraft_mark_parent (st : EngineState) (d x : Nat) :
    ((st.setDraft d
        { st.draftAt d with modified_ := true }).draftAt x).parent_ =
      (st.draftAt x).parent_ := by
  rw [draftAt_setDraft]
  by_cases hdy : d = x ∧ d < st.drafts.length
  · rw [if_pos hdy]
    obtain ⟨rfl, -⟩ := hdy
    rfl
  · rw [if_neg hdy]

/-- The one-step write of `markChanged` keeps the draft-table length. -/
theorem setDraft_mark_length (st : EngineState) (d : Nat) (ds : DraftState) :
    (st.setDraft d ds).drafts.length = st.drafts.length := by
  unfold EngineState.setDraft
  simp

/-- `markChanged` never changes a parent link. -/
theorem markChanged_parent : ∀ (fuel : Nat) (st : EngineState) (d x : Nat),
    ((markChanged st fuel d).draftAt x).parent_ = (st.draftAt x).parent_
  | 0, _, _, _ => rfl
  | fuel + 1, st, d, x => by
      by_cases hm : (st.draftAt d).modified_ = true
      · rw [markChanged_of_modified fuel hm]
      · cases hpar : (st.draftAt d).parent_ with
        | none =>
            rw [markChanged_of_root fuel hm hpar]
            exact setDraft_mark_parent st d x
        | some p =>
            rw [markChanged_of_parent fuel hm hpar,
              markChanged_parent fuel _ p x]
            exact setDraft_mark_parent st d x

/-- `markChanged` never changes the number of drafts. -/
theorem markChanged_length : ∀ (fuel : Nat) (st : EngineState) (d : Nat),
    (markChanged st fuel d).drafts.length = st.drafts.length
  | 0, _, _ => rfl
  | fuel + 1, st, d => by
      by_cases hm : (st.draftAt d).modified_ = true
      · rw [markChanged_of_modified fuel hm]
      · cases hpar : (st.draftAt d).parent_ with
        | none =>
            rw [markChanged_of_root fuel hm hpar]
            exact setDraft_mark_length st d _
        | some p =>
            rw [markChanged_of_parent fuel hm hpar,
              markChanged_length fuel _ p]
            exact setDraft_mark_length st d _

/-- `markChanged` never touches the heap. -/
theorem markChanged_heap : ∀ (fuel : Nat) (st : EngineState) (d : Nat),
    (markChanged st fuel d).heap = st.heap
  | 0, _, _ => rfl
  | fuel + 1, st, d => by
      by_cases hm : (st.draftAt d).modified_ = true
      · rw [markChanged_of_modified fuel hm]
      · cases hpar : (st.draftAt d).parent_ with
        | none => rw [markChanged_of_root fuel hm hpar]; rfl
        | some p =>
            rw [markChanged_of_parent fuel hm hpar,
              markChanged_heap fuel _ p]
            rfl

/-- Once modified, a draft stays modified through `markChanged`. -/
theorem markChanged_mono :
    ∀ (fuel : Nat) (st : EngineState) (d x : Nat),
    (st.draftAt x).modified_ = true →
    ((markChanged st fuel d).draftAt x).modified_ = true
  | 0, _, _, _, hx => hx
  | fuel + 1, st, d, x, hx => by
      by_cases hm : (st.draftAt d).modified_ = true
      · rw [markChanged_of_modified fuel hm]; exact hx
      · have hx1 : ((st.setDraft d
            { st.draftAt d with modified_ := true }).draftAt x).modified_
            = true := by
          rw [draftAt_setDraft]
          by_cases hdy : d = x ∧ d < st.drafts.length
          · rw [if_pos hdy]
          · rw [if_neg hdy]; exact hx
        cases hpar : (st.draftAt d).parent_ with
        | none => rw [markChanged_of_root fuel hm hpar]; exact hx1
        | some p =>
            rw [markChanged_of_parent fuel hm hpar]
            exact markChanged_mono fuel _ p x hx1

/-- With enough fuel (always supplied by call sites) and an in-range
target, `markChanged` marks its target. -/
theorem markChanged_marks :
    ∀ (fuel : Nat) (st : EngineState) (d : Nat), d < fuel →
    d < st.drafts.length →
    ((markChanged st fuel d).draftAt d).modified_ = true
  | 0, _, _, hf, _ => absurd hf (by omega)
  | fuel + 1, st, d, _, hd => by
      by_cases hm : (st.draftAt d).modified_ = true
      · rw [markChanged_of_modified fuel hm]; exact hm
      · have hx1 : ((st.setDraft d
            { st.draftAt d with modified_ := true }).draftAt d).modified_
            = true := by
          rw [draftAt_setDraft, if_pos ⟨rfl, hd⟩]
        cases hpar : (st.draftAt d).parent_ with
        | none => rw [markChanged_of_root fuel hm hpar]; exact hx1
        | some p =>
            rw [markChanged_of_parent fuel hm hpar]
            exact markChanged_mono fuel _ p d hx1

/-- After `markChanged`, a modified draft with a parent either was
modified before the call or its parent is modified afterwards. -/
theorem markChanged_modInv_step :
    ∀ (fuel : Nat) (st : EngineState) (d : Nat), d < fuel →
    d < st.drafts.length → ParentLT st →
    ∀ x p, ((markChanged st fuel d).draftAt x).modified_ = true →
      ((markChanged st fuel d).draftAt x).parent_ = some p →
      (st.draftAt x).modified_ = true ∨
      ((markChanged st fuel d).draftAt p).modified_ = true
  | 0, _, _, hf, _, _ => absurd hf (by omega)
  | fuel + 1, st, d, hf, hd, hplt => by
      intro x p hx hp
      by_cases hm : (st.draftAt d).modified_ = true
      · rw [markChanged_of_modified fuel hm] at hx
        exact Or.inl hx
      · cases hpar : (st.draftAt d).parent_ with
        | none =>
            rw [markChanged_of_root fuel hm hpar] at hx
            by_cases hxd : x = d
            · subst hxd
              rw [markChanged_parent, hpar] at hp
              cases hp
            · rw [draftAt_setDraft,
                if_neg (fun h => hxd h.1.symm)] at hx
              exact Or.inl hx
        | some p0 =>
            rw [markChanged_of_parent fuel hm hpar] at hx hp ⊢
            have hp0d : p0 < d := hplt d p0 hpar
            have hlen1 : (st.setDraft d
                { st.draftAt d with modified_ := true }).drafts.length
                = st.drafts.length := setDraft_mark_length st d _
            have hplt1 : ParentLT (st.setDraft d
                { st.draftAt d with modified_ := true }) :=
              parentLT_of_parents_eq (fun y => setDraft_mark_parent st d y)
                hplt
            have hih := markChanged_modInv_step fuel _ p0 (by omega)
              (by omega) hplt1 x p hx hp
            cases hih with
            | inr h => exact Or.inr h
            | inl h1 =>
                by_cases hxd : x = d
                · subst hxd
                  have hpp : p = p0 := by
                    rw [markChanged_parent, setDraft_mark_parent, hpar]
                      at hp
                    exact (Option.some_inj.mp hp).symm
                  subst hpp
                  exact Or.inr (markChanged_marks fuel _ p (by omega)
                    (by omega))
                · rw [draftAt_setDraft,
                    if_neg (fun h => hxd h.1.symm)] at h1
                  exact Or.inl h1

/-- `ModInv` is preserved by a well-fuelled `markChanged`. -/
theorem modInv_markChanged {st : EngineState} {d : Nat} {fuel : Nat}
    (hf : d < fuel) (hd : d < st.drafts.length) (hplt : ParentLT st)
    (hmi : ModInv st) : ModInv (markChanged st fuel d) := by
  intro x p hx hp
  have hpx : (st.draftAt x).parent_ = some p := by
    rw [markChanged_parent] at hp; exact hp
  cases markChanged_modInv_step fuel st d hf hd hplt x p hx hp with
  | inl h => exact markChanged_mono fuel st d p (hmi x p h hpx)
  | inr h => exact h

/-- `ParentLT` is preserved by `markChanged`. -/
theorem parentLT_markChanged {st : EngineState} {d fuel : Nat}
    (hplt : ParentLT st) : ParentLT (markChanged st fuel d) :=
  parentLT_of_parents_eq
    (fun x => markChanged_parent fuel st d x) hplt

/-! ## Access lemmas for the run invariant -/

theorem Val.draftLT_mono {n m : Nat} (h : n ≤ m) :
    ∀ {v : Val}, v.draftLT n = true → v.draftLT m = true
  | .draft i, hv => by
      simp [Val.draftLT] at hv ⊢
      omega
  | .prim _, _ => rfl
  | .ref _, _ => rfl

theorem NodeData.draftLT_monoND {n m : Nat} (h : n ≤ m) :
    ∀ {nd : NodeData}, nd.draftLT n = true → nd.draftLT m = true
  | .obj fs, hv => by
      simp only [NodeData.draftLT, List.all_eq_true] at hv ⊢
      exact fun kv hk => Val.draftLT_mono h (hv kv hk)
  | .arr xs, hv => by
      simp only [NodeData.draftLT, List.all_eq_true] at hv ⊢
      exact fun v hk => Val.draftLT_mono h (hv v hk)
  | .map es, hv => by
      simp only [NodeData.draftLT, List.all_eq_true, Bool.and_eq_true] at hv ⊢
      exact fun kv hk =>
        ⟨Val.draftLT_mono h (hv kv hk).1, Val.draftLT_mono h (hv kv hk).2⟩
  | .set xs, hv => by
      simp only [NodeData.draftLT, List.all_eq_true] at hv ⊢
      exact fun v hk => Val.draftLT_mono h (hv v hk)
  | .opaq, _ => rfl

theorem nodeAt_set (h : Heap) (a : Nat) (node : Node) (x : Nat) :
    Heap.nodeAt (h.set a node) x =
      if a = x ∧ a < h.length then node else h.nodeAt x := by
  unfold Heap.nodeAt
  simp only [List.getD_eq_getElem?_getD, List.getElem?_set]
  by_cases hax : a = x
  · subst hax
    by_cases hlt : a < h.length
    · simp [hlt]
    · have hnone : h[a]? = none := List.getElem?_eq_none (by omega)
      simp [hlt, hnone]
  · simp [hax]

theorem nodeAt_append (h : Heap) (node : Node) (x : Nat) :
    Heap.nodeAt (h ++ [node]) x =
      if x = h.length then node else h.nodeAt x := by
  unfold Heap.nodeAt
  simp only [List.getD_eq_getElem?_getD]
  by_cases hx : x = h.length
  · subst hx
    simp
  · rw [if_neg hx]
    by_cases hlt : x < h.length
    · rw [List.getElem?_append, if_pos hlt]
    · have hge : h.length ≤ x := by omega
      rw [List.getElem?_append_right hge]
      have h1 : ([node] : List Node)[x - h.length]? = none :=
        List.getElem?_eq_none (by simp; omega)
      have h2 : h[x]? = none := List.getElem?_eq_none (by omega)
      rw [h1, h2]

theorem draftAt_modifyDraft (st : EngineState) (d : Nat)
    (f : DraftState → DraftState) (x : Nat) :
    (st.modifyDraft d f).draftAt x =
      if d = x ∧ d < st.drafts.length then f (st.draftAt d)
      else st.draftAt x :=
  draftAt_setDraft st d (f (st.draftAt d)) x

theorem modInv_of_fields_eq {st st' : EngineState}
    (hp : ∀ x, (st'.draftAt x).parent_ = (st.draftAt x).parent_)
    (hm : ∀ x, (st'.draftAt x).modified_ = (st.draftAt x).modified_)
    (hmi : ModInv st) : ModInv st' := by
  intro d p hd hpar
  rw [hm] at hd
  rw [hp] at hpar
  rw [hm]
  exact hmi d p hd hpar

theorem heapOK_of_heap_eq {st st' : EngineState} (hok : HeapOK st)
    (hh : st'.heap = st.heap)
    (hl : st.drafts.length ≤ st'.drafts.length) : HeapOK st' := by
  intro a
  have h1 := hok a
  unfold EngineState.nodeAt at h1 ⊢
  rw [hh]
  exact NodeData.draftLT_monoND hl h1

theorem copyHigh_of_copies_eq {n : Nat} {st st' : EngineState}
    (hc : ∀ x, (st'.draftAt x).copy_ = (st.draftAt x).copy_)
    (h : CopyHigh n st) : CopyHigh n st' := by
  intro d c hdc
  rw [hc] at hdc
  exact h d c hdc

theorem lowHeapEq_refl (n : Nat) (st : EngineState) : LowHeapEq n st st :=
  fun _ _ => rfl

theorem lowHeapEq_trans {n : Nat} {s1 s2 s3 : EngineState}
    (h12 : LowHeapEq n s1 s2) (h23 : LowHeapEq n s2 s3) :
    LowHeapEq n s1 s3 := by
  intro a ha
  rw [h23 a ha, h12 a ha]

theorem evolves_refl (n : Nat) (st : EngineState) : Evolves n st st :=
  ⟨Nat.le_refl _, Nat.le_refl _, lowHeapEq_refl n st⟩

theorem evolves_trans {n : Nat} {s1 s2 s3 : EngineState}
    (h12 : Evolves n s1 s2) (h23 : Evolves n s2 s3) : Evolves n s1 s3 :=
  ⟨Nat.le_trans h12.1 h23.1, Nat.le_trans h12.2.1 h23.2.1,
    lowHeapEq_trans h12.2.2 h23.2.2⟩

/-! ## Draft-index bounds of reads and writes -/

theorem objGetRaw_draftLT {n : Nat} {nd : NodeData} {k : String} {v : Val}
    (hnd : nd.draftLT n = true) (hget : objGetRaw nd k = some v) :
    v.draftLT n = true := by
  cases nd with
  | obj fs =>
      simp only [objGetRaw, Option.map_eq_some'] at hget
      obtain ⟨kv, hfind, rfl⟩ := hget
      have hmem := List.mem_of_find?_eq_some hfind
      simp only [NodeData.draftLT, List.all_eq_true] at hnd
      exact hnd kv hmem
  | arr xs =>
      simp only [objGetRaw] at hget
      split at hget
      · exact (Option.some_inj.mp hget) ▸ rfl
      · split at hget
        · split at hget
          · have hv : xs.get _ = v := Option.some_inj.mp hget
            simp only [NodeData.draftLT, List.all_eq_true] at hnd
            exact hv ▸ hnd _ (List.get_mem xs _ _)
          · cases hget
        · cases hget
  | map es => cases hget
  | set xs => cases hget
  | opaq => cases hget

theorem mapFind_draftLT {n : Nat} {es : List (Val × Val)} {k v : Val}
    (hes : es.all (fun kv => kv.1.draftLT n && kv.2.draftLT n) = true)
    (hf : mapFind es k = some v) : v.draftLT n = true := by
  simp only [mapFind, Option.map_eq_some'] at hf
  obtain ⟨kv, hfind, rfl⟩ := hf
  have hmem := List.mem_of_find?_eq_some hfind
  simp only [List.all_eq_true, Bool.and_eq_true] at hes
  exact (hes kv hmem).2

theorem all_draftLT_getD {n : Nat} {xs : List Val} {i : Nat} {dflt : Val}
    (hxs : xs.all (fun v => v.draftLT n) = true)
    (hd : dflt.draftLT n = true) : (xs.getD i dflt).draftLT n = true := by
  rw [List.getD_eq_getElem?_getD]
  cases hx : xs[i]? with
  | none => simpa using hd
  | some y =>
      obtain ⟨hlt, rfl⟩ := List.getElem?_eq_some.mp hx
      simp only [List.all_eq_true] at hxs
      simpa using hxs _ (List.getElem_mem hlt)

theorem writeDataProp_draftLT {n : Nat} {nd : NodeData} {k : String} {v : Val}
    (hnd : nd.draftLT n = true) (hv : v.draftLT n = true) :
    (writeDataProp nd k v).draftLT n = true := by
  cases nd with
  | obj fs =>
      simp only [writeDataProp, NodeData.draftLT, List.all_eq_true] at hnd ⊢
      split
      · intro kv hkv
        obtain ⟨kv0, hk0, rfl⟩ := List.mem_map.mp hkv
        by_cases hkk : kv0.1 = k
        · simp only [hkk, if_pos rfl]
          exact hv
        · rw [if_neg hkk]
          exact hnd kv0 hk0
      · intro kv hkv
        rcases List.mem_append.mp hkv with h1 | h2
        · exact hnd kv h1
        · simp only [List.mem_singleton] at h2
          subst h2
          exact hv
  | arr xs =>
      simp only [writeDataProp]
      split
      · split
        · split
          · exact hnd
          · split
            · simp only [NodeData.draftLT, List.all_eq_true] at hnd ⊢
              exact fun x hx => hnd x (List.mem_of_mem_take hx)
            · simp only [NodeData.draftLT, List.all_eq_true] at hnd ⊢
              intro x hx
              rcases List.mem_append.mp hx with h1 | h2
              · exact hnd x h1
              · rw [List.eq_of_mem_replicate h2]
                rfl
        · exact hnd
      · split
        · split
          · simp only [NodeData.draftLT, List.all_eq_true] at hnd ⊢
            intro x hx
            rcases List.mem_or_eq_of_mem_set hx with h1 | rfl
            · exact hnd x h1
            · exact hv
          · simp only [NodeData.draftLT, List.all_eq_true] at hnd ⊢
            intro x hx
            rcases List.mem_append.mp hx with h1 | h2
            · rcases List.mem_append.mp h1 with h3 | h4
              · exact hnd x h3
              · rw [List.eq_of_mem_replicate h4]
                rfl
            · simp only [List.mem_singleton] at h2
              subst h2
              exact hv
        · exact hnd
  | map es => exact hnd
  | set xs => exact hnd
  | opaq => exact hnd

theorem deleteDataProp_draftLT {n : Nat} {nd : NodeData} {k : String}
    (hnd : nd.draftLT n = true) : (deleteDataProp nd k).draftLT n = true := by
  cases nd with
  | obj fs =>
      simp only [deleteDataProp, NodeData.draftLT, List.all_eq_true] at hnd ⊢
      exact fun kv hkv => hnd kv (List.mem_of_mem_filter hkv)
  | arr xs => exact hnd
  | map es => exact hnd
  | set xs => exact hnd
  | opaq => exact hnd

theorem mapSetRaw_draftLT {n : Nat} {es : List (Val × Val)} {k v : Val}
    (hes : es.all (fun kv => kv.1.draftLT n && kv.2.draftLT n) = true)
    (hk : k.draftLT n = true) (hv : v.draftLT n = true) :
    (mapSetRaw es k v).all (fun kv => kv.1.draftLT n && kv.2.draftLT n)
      = true := by
  simp only [mapSetRaw]
  split
  · simp only [List.all_eq_true, Bool.and_eq_true] at hes ⊢
    intro kv hkv
    obtain ⟨kv0, hk0, rfl⟩ := List.mem_map.mp hkv
    by_cases hkk : jsIs kv0.1 k = true
    · rw [if_pos hkk]
      exact ⟨(hes kv0 hk0).1, hv⟩
    · rw [if_neg hkk]
      exact hes kv0 hk0
  · simp only [List.all_eq_true, Bool.and_eq_true] at hes ⊢
    intro kv hkv
    rcases List.mem_append.mp hkv with h1 | h2
    · exact hes kv h1
    · simp only [List.mem_singleton] at h2
      subst h2
      exact ⟨hk, hv⟩

theorem mapDeleteRaw_draftLT {n : Nat} {es : List (Val × Val)} {k : Val}
    (hes : es.all (fun kv => kv.1.draftLT n && kv.2.draftLT n) = true) :
    (mapDeleteRaw es k).all (fun kv => kv.1.draftLT n && kv.2.draftLT n)
      = true := by
  simp only [mapDeleteRaw, List.all_eq_true] at hes ⊢
  exact fun kv hkv => hes kv (List.mem_of_mem_filter hkv)

theorem setAddRaw_draftLT {n : Nat} {xs : List Val} {v : Val}
    (hxs : xs.all (fun x => x.draftLT n) = true)
    (hv : v.draftLT n = true) :
    (setAddRaw xs v).all (fun x => x.draftLT n) = true := by
  simp only [setAddRaw]
  split
  · exact hxs
  · simp only [List.all_eq_true] at hxs ⊢
    intro x hx
    rcases List.mem_append.mp hx with h1 | h2
    · exact hxs x h1
    · simp only [List.mem_singleton] at h2
      subst h2
      exact hv

theorem setDeleteRaw_draftLT {n : Nat} {xs : List Val} {v : Val}
    (hxs : xs.all (fun x => x.draftLT n) = true) :
    (setDeleteRaw xs v).all (fun x => x.draftLT n) = true := by
  simp only [setDeleteRaw, List.all_eq_true] at hxs ⊢
  exact fun x hx => hxs x (List.mem_of_mem_filter hx)

/-! ## Heap-write preservation lemmas -/

theorem heapOK_writeData {st : EngineState} {a : Nat} {nd : NodeData}
    (hok : HeapOK st) (hnd : nd.draftLT st.drafts.length = true) :
    HeapOK (st.writeData a nd) := by
  intro x
  show (Heap.nodeAt (st.heap.set a
    ⟨nd, (st.heap.nodeAt a).frozen⟩) x).data.draftLT st.drafts.length = true
  rw [nodeAt_set]
  by_cases hc : a = x ∧ a < st.heap.length
  · rw [if_pos hc]
    exact hnd
  · rw [if_neg hc]
    exact hok x

theorem lowHeapEq_writeData {n : Nat} {st : EngineState} {a : Nat}
    {nd : NodeData} (ha : n ≤ a) : LowHeapEq n st (st.writeData a nd) := by
  intro x hx
  show (Heap.nodeAt (st.heap.set a ⟨nd, (st.heap.nodeAt a).frozen⟩) x).data
    = (st.heap.nodeAt x).data
  rw [nodeAt_set, if_neg (by omega)]

theorem writeData_evolves {n : Nat} {st : EngineState} {a : Nat}
    {nd : NodeData} (ha : n ≤ a) : Evolves n st (st.writeData a nd) :=
  ⟨Nat.le_refl _, by simp [EngineState.writeData], lowHeapEq_writeData ha⟩

theorem heapOK_alloc {st : EngineState} {nd : NodeData}
    (hok : HeapOK st) (hnd : nd.draftLT st.drafts.length = true) :
    HeapOK (st.alloc nd).1 := by
  intro x
  show (Heap.nodeAt (st.heap ++ [⟨nd, false⟩]) x).data.draftLT
    st.drafts.length = true
  rw [nodeAt_append]
  by_cases hc : x = st.heap.length
  · rw [if_pos hc]
    exact hnd
  · rw [if_neg hc]
    exact hok x

theorem lowHeapEq_alloc {n : Nat} {st : EngineState} {nd : NodeData}
    (hn : n ≤ st.heap.length) : LowHeapEq n st (st.alloc nd).1 := by
  intro x hx
  show (Heap.nodeAt (st.heap ++ [⟨nd, false⟩]) x).data
    = (st.heap.nodeAt x).data
  rw [nodeAt_append, if_neg (by omega)]

theorem alloc_evolves {n : Nat} {st : EngineState} {nd : NodeData}
    (hn : n ≤ st.heap.length) : Evolves n st (st.alloc nd).1 :=
  ⟨Nat.le_refl _, by simp [EngineState.alloc], lowHeapEq_alloc hn⟩

/-! ## Per-operation preservation of the run invariant -/

theorem draftAt_oob {st : EngineState} {x : Nat}
    (h : st.drafts.length ≤ x) : st.draftAt x = default := by
  unfold EngineState.draftAt
  rw [List.getD_eq_getElem?_getD, List.getElem?_eq_none h]
  rfl

theorem getD_snoc {α : Type} (l : List α) (a dflt : α) (x : Nat) :
    (l ++ [a]).getD x dflt = if x = l.length then a else l.getD x dflt := by
  simp only [List.getD_eq_getElem?_getD]
  by_cases hx : x = l.length
  · subst hx
    simp
  · rw [if_neg hx]
    by_cases hlt : x < l.length
    · rw [List.getElem?_append, if_pos hlt]
    · have hge : l.length ≤ x := by omega
      rw [List.getElem?_append_right hge]
      have h1 : ([a] : List α)[x - l.length]? = none :=
        List.getElem?_eq_none (by simp; omega)
      have h2 : l[x]? = none := List.getElem?_eq_none (by omega)
      rw [h1, h2]

theorem draftAt_congr {st st' : EngineState} (hd : st'.drafts = st.drafts)
    (x : Nat) : st'.draftAt x = st.draftAt x := by
  unfold EngineState.draftAt
  rw [hd]

theorem invAt_of_drafts_eq {n : Nat} {st st' : EngineState}
    (hinv : InvAt n st) (hd : st'.drafts = st.drafts) (hok' : HeapOK st')
    (hn' : n ≤ st'.heap.length) : InvAt n st' := by
  obtain ⟨hplt, hmi, _, hch, _⟩ := hinv
  exact ⟨parentLT_of_parents_eq (fun x => by rw [draftAt_congr hd]) hplt,
    modInv_of_fields_eq (fun x => by rw [draftAt_congr hd])
      (fun x => by rw [draftAt_congr hd]) hmi,
    hok',
    copyHigh_of_copies_eq (fun x => by rw [draftAt_congr hd]) hch,
    hn'⟩

theorem createProxy_draftAt (st : EngineState) (a : Nat) (par : Option Nat)
    (x : Nat) :
    (createProxy st a par).1.draftAt x =
      if x = st.drafts.length then
        { type_ := (st.nodeAt a).data.archtype, base_ := a, copy_ := none,
          assignedS := [], assignedV := [], setDrafts := [], parent_ := par,
          modified_ := false, finalized_ := false, revoked_ := false,
          isManual_ := false }
      else st.draftAt x := by
  unfold createProxy EngineState.draftAt
  simp only
  rw [getD_snoc]

theorem createProxy_heap (st : EngineState) (a : Nat) (par : Option Nat) :
    (createProxy st a par).1.heap = st.heap := rfl

theorem createProxy_len (st : EngineState) (a : Nat) (par : Option Nat) :
    (createProxy st a par).1.drafts.length = st.drafts.length + 1 := by
  unfold createProxy
  simp

theorem createProxy_snd (st : EngineState) (a : Nat) (par : Option Nat) :
    (createProxy st a par).2 = st.drafts.length := rfl

theorem invAt_createProxy {n : Nat} {st : EngineState} (a : Nat)
    (par : Option Nat)
    (hpar : ∀ p, par = some p → p < st.drafts.length)
    (hinv : InvAt n st) :
    InvAt n (createProxy st a par).1 ∧
      Evolves n st (createProxy st a par).1 := by
  obtain ⟨hplt, hmi, hok, hch, hn⟩ := hinv
  refine ⟨⟨?_, ?_, ?_, ?_, ?_⟩, ?_, ?_, ?_⟩
  · intro d p hdp
    rw [createProxy_draftAt] at hdp
    by_cases hd : d = st.drafts.length
    · rw [if_pos hd] at hdp
      simp only at hdp
      have := hpar p hdp
      omega
    · rw [if_neg hd] at hdp
      exact hplt d p hdp
  · intro d p hd hp
    rw [createProxy_draftAt] at hd hp
    rw [createProxy_draftAt]
    by_cases hdl : d = st.drafts.length
    · rw [if_pos hdl] at hd
      cases hd
    · rw [if_neg hdl] at hd hp
      have hmod := hmi d p hd hp
      by_cases hpl : p = st.drafts.length
      · rw [draftAt_oob (by omega)] at hmod
        cases hmod
      · rw [if_neg hpl]
        exact hmod
  · refine heapOK_of_heap_eq hok (createProxy_heap st a par) ?_
    rw [createProxy_len]
    omega
  · intro d c hdc
    rw [createProxy_draftAt] at hdc
    by_cases hd : d = st.drafts.length
    · rw [if_pos hd] at hdc
      cases hdc
    · rw [if_neg hd] at hdc
      exact hch d c hdc
  · rw [createProxy_heap]
    exact hn
  · rw [createProxy_len]
    omega
  · rw [createProxy_heap]
  · intro x hx
    rw [createProxy_heap]

theorem prepareCopy_of_some {st : EngineState} {d c : Nat}
    (hc : (st.draftAt d).copy_ = some c) : prepareCopy st d = st := by
  unfold prepareCopy
  simp only [hc]

theorem prepareCopy_of_none {st : EngineState} {d : Nat}
    (hc : (st.draftAt d).copy_ = none) :
    prepareCopy st d =
      (st.alloc (st.nodeAt (st.draftAt d).base_).data).1.setDraft d
        { st.draftAt d with copy_ := some st.heap.length } := by
  unfold prepareCopy
  simp only [hc]
  rfl

theorem invAt_prepareCopy {n : Nat} {st : EngineState} (d : Nat)
    (hinv : InvAt n st) :
    InvAt n (prepareCopy st d) ∧ Evolves n st (prepareCopy st d) ∧
      (prepareCopy st d).drafts.length = st.drafts.length := by
  obtain ⟨hplt, hmi, hok, hch, hn⟩ := hinv
  cases hc : (st.draftAt d).copy_ with
  | some c =>
      rw [prepareCopy_of_some hc]
      exact ⟨⟨hplt, hmi, hok, hch, hn⟩, evolves_refl _ _, rfl⟩
  | none =>
      rw [prepareCopy_of_none hc]
      have hatx : ∀ x,
          ((st.alloc (st.nodeAt (st.draftAt d).base_).data).1.setDraft d
            { st.draftAt d with copy_ := some st.heap.length }).draftAt x =
          if d = x ∧ d < st.drafts.length then
            { st.draftAt d with copy_ := some st.heap.length }
          else st.draftAt x := by
        intro x
        rw [draftAt_setDraft]
        rfl
      have hpar : ∀ x,
          (((st.alloc (st.nodeAt (st.draftAt d).base_).data).1.setDraft d
            { st.draftAt d with copy_ := some st.heap.length }).draftAt
              x).parent_ = (st.draftAt x).parent_ := by
        intro x
        rw [hatx x]
        by_cases h : d = x ∧ d < st.drafts.length
        · rw [if_pos h]
          obtain ⟨rfl, -⟩ := h
          rfl
        · rw [if_neg h]
      have hmod : ∀ x,
          (((st.alloc (st.nodeAt (st.draftAt d).base_).data).1.setDraft d
            { st.draftAt d with copy_ := some st.heap.length }).draftAt
              x).modified_ = (st.draftAt x).modified_ := by
        intro x
        rw [hatx x]
        by_cases h : d = x ∧ d < st.drafts.length
        · rw [if_pos h]
          obtain ⟨rfl, -⟩ := h
          rfl
        · rw [if_neg h]
      have hok1 : HeapOK (st.alloc (st.nodeAt (st.draftAt d).base_).data).1 :=
        heapOK_alloc hok (hok (st.draftAt d).base_)
      refine ⟨⟨parentLT_of_parents_eq hpar hplt,
        modInv_of_fields_eq hpar hmod hmi, ?_, ?_, ?_⟩, ⟨?_, ?_, ?_⟩, ?_⟩
      · exact heapOK_of_heap_eq hok1 rfl
          (le_of_eq (setDraft_mark_length _ _ _).symm)
      · intro d' c' hdc
        rw [hatx d'] at hdc
        by_cases h : d = d' ∧ d < st.drafts.length
        · rw [if_pos h] at hdc
          simp only at hdc
          cases hdc
          exact hn
        · rw [if_neg h] at hdc
          exact hch d' c' hdc
      · show n ≤ (st.heap ++
          [(Node.mk (st.nodeAt (st.draftAt d).base_).data false)]).length
        simp only [List.length_append]
        omega
      · exact le_of_eq (setDraft_mark_length _ _ _).symm
      · show st.heap.length ≤ (st.heap ++
          [(Node.mk (st.nodeAt (st.draftAt d).base_).data false)]).length
        simp
      · intro x hx
        show (Heap.nodeAt (st.heap ++
          [(Node.mk (st.nodeAt (st.draftAt d).base_).data false)]) x).data
          = (st.heap.nodeAt x).data
        rw [nodeAt_append, if_neg (by omega)]
      · exact setDraft_mark_length _ _ _

theorem setDraft_mark_copy (st : EngineState) (d x : Nat) :
    ((st.setDraft d
        { st.draftAt d with modified_ := true }).draftAt x).copy_ =
      (st.draftAt x).copy_ := by
  rw [draftAt_setDraft]
  by_cases hdy : d = x ∧ d < st.drafts.length
  · rw [if_pos hdy]
    obtain ⟨rfl, -⟩ := hdy
    rfl
  · rw [if_neg hdy]

theorem markChanged_copy : ∀ (fuel : Nat) (st : EngineState) (d x : Nat),
    ((markChanged st fuel d).draftAt x).copy_ = (st.draftAt x).copy_
  | 0, _, _, _ => rfl
  | fuel + 1, st, d, x => by
      by_cases hm : (st.draftAt d).modified_ = true
      · rw [markChanged_of_modified fuel hm]
      · cases hpar : (st.draftAt d).parent_ with
        | none =>
            rw [markChanged_of_root fuel hm hpar]
            exact setDraft_mark_copy st d x
        | some p =>
            rw [markChanged_of_parent fuel hm hpar,
              markChanged_copy fuel _ p x]
            exact setDraft_mark_copy st d x

theorem writeData_heap_length (st : EngineState) (a : Nat) (nd : NodeData) :
    (st.writeData a nd).heap.length = st.heap.length := by
  simp [EngineState.writeData]

theorem invAt_markChanged {n : Nat} {st : EngineState} {fuel d : Nat}
    (hf : d < fuel) (hd : d < st.drafts.length) (hinv : InvAt n st) :
    InvAt n (markChanged st fuel d) ∧ Evolves n st (markChanged st fuel d) ∧
      (markChanged st fuel d).drafts.length = st.drafts.length := by
  obtain ⟨hplt, hmi, hok, hch, hn⟩ := hinv
  refine ⟨⟨parentLT_markChanged hplt, modInv_markChanged hf hd hplt hmi,
    heapOK_of_heap_eq hok (markChanged_heap fuel st d)
      (le_of_eq (markChanged_length fuel st d).symm),
    copyHigh_of_copies_eq (fun x => markChanged_copy fuel st d x) hch,
    ?_⟩, ⟨le_of_eq (markChanged_length fuel st d).symm, ?_, ?_⟩,
    markChanged_length fuel st d⟩
  · rw [markChanged_heap]
    exact hn
  · rw [markChanged_heap]
  · intro a ha
    rw [markChanged_heap]

theorem invAt_modifyDraft {n : Nat} {st : EngineState} {d : Nat}
    {f : DraftState → DraftState}
    (hf : ∀ ds, (f ds).parent_ = ds.parent_ ∧ (f ds).modified_ = ds.modified_
      ∧ (f ds).copy_ = ds.copy_)
    (hinv : InvAt n st) :
    InvAt n (st.modifyDraft d f) ∧ Evolves n st (st.modifyDraft d f) ∧
      (st.modifyDraft d f).drafts.length = st.drafts.length ∧
      (st.modifyDraft d f).heap = st.heap := by
  obtain ⟨hplt, hmi, hok, hch, hn⟩ := hinv
  have hpar : ∀ x, ((st.modifyDraft d f).draftAt x).parent_ =
      (st.draftAt x).parent_ := by
    intro x
    rw [draftAt_modifyDraft]
    by_cases h : d = x ∧ d < st.drafts.length
    · rw [if_pos h]
      obtain ⟨rfl, -⟩ := h
      exact (hf _).1
    · rw [if_neg h]
  have hmod : ∀ x, ((st.modifyDraft d f).draftAt x).modified_ =
      (st.draftAt x).modified_ := by
    intro x
    rw [draftAt_modifyDraft]
    by_cases h : d = x ∧ d < st.drafts.length
    · rw [if_pos h]
      obtain ⟨rfl, -⟩ := h
      exact (hf _).2.1
    · rw [if_neg h]
  have hcop : ∀ x, ((st.modifyDraft d f).draftAt x).copy_ =
      (st.draftAt x).copy_ := by
    intro x
    rw [draftAt_modifyDraft]
    by_cases h : d = x ∧ d < st.drafts.length
    · rw [if_pos h]
      obtain ⟨rfl, -⟩ := h
      exact (hf _).2.2
    · rw [if_neg h]
  exact ⟨⟨parentLT_of_parents_eq hpar hplt,
    modInv_of_fields_eq hpar hmod hmi,
    heapOK_of_heap_eq hok rfl (le_of_eq (setDraft_mark_length _ _ _).symm),
    copyHigh_of_copies_eq hcop hch, hn⟩,
    ⟨le_of_eq (setDraft_mark_length _ _ _).symm, Nat.le_refl _,
      fun _ _ => rfl⟩,
    setDraft_mark_length _ _ _, rfl⟩

theorem mapEntriesOf_draftLT {n : Nat} {nd : NodeData}
    (h : nd.draftLT n = true) :
    (mapEntriesOf nd).all
      (fun kv => kv.1.draftLT n && kv.2.draftLT n) = true := by
  cases nd <;> first
    | exact h
    | rfl

theorem setElemsOf_draftLT {n : Nat} {nd : NodeData}
    (h : nd.draftLT n = true) :
    (setElemsOf nd).all (fun v => v.draftLT n) = true := by
  cases nd <;> first
    | exact h
    | rfl

theorem invAt_writeCopy {n : Nat} {st : EngineState} (d : Nat) (k : String)
    {v : Val} (hv : v.draftLT st.drafts.length = true) (hinv : InvAt n st) :
    InvAt n (writeCopy st d k v) ∧ Evolves n st (writeCopy st d k v) ∧
      (writeCopy st d k v).drafts = st.drafts := by
  have hinv' := hinv
  obtain ⟨hplt, hmi, hok, hch, hn⟩ := hinv'
  unfold writeCopy
  cases hc : (st.draftAt d).copy_ with
  | none => exact ⟨hinv, evolves_refl _ _, rfl⟩
  | some c =>
      have hcn : n ≤ c := hch d c hc
      have hok' : HeapOK
          (st.writeData c (writeDataProp (st.nodeAt c).data k v)) :=
        heapOK_writeData hok (writeDataProp_draftLT (hok c) hv)
      refine ⟨invAt_of_drafts_eq hinv rfl hok' ?_,
        writeData_evolves hcn, rfl⟩
      rw [writeData_heap_length]
      exact hn

theorem invAt_deleteCopy {n : Nat} {st : EngineState} (d : Nat) (k : String)
    (hinv : InvAt n st) :
    InvAt n (deleteCopy st d k) ∧ Evolves n st (deleteCopy st d k) ∧
      (deleteCopy st d k).drafts = st.drafts := by
  have hinv' := hinv
  obtain ⟨hplt, hmi, hok, hch, hn⟩ := hinv'
  unfold deleteCopy
  cases hc : (st.draftAt d).copy_ with
  | none => exact ⟨hinv, evolves_refl _ _, rfl⟩
  | some c =>
      have hcn : n ≤ c := hch d c hc
      have hok' : HeapOK
          (st.writeData c (deleteDataProp (st.nodeAt c).data k)) :=
        heapOK_writeData hok (deleteDataProp_draftLT (hok c))
      refine ⟨invAt_of_drafts_eq hinv rfl hok' ?_,
        writeData_evolves hcn, rfl⟩
      rw [writeData_heap_length]
      exact hn

theorem invAt_writeMapCopy {n : Nat} {st : EngineState} (d : Nat) {k v : Val}
    (hk : k.draftLT st.drafts.length = true)
    (hv : v.draftLT st.drafts.length = true) (hinv : InvAt n st) :
    InvAt n (writeMapCopy st d k v) ∧ Evolves n st (writeMapCopy st d k v) ∧
      (writeMapCopy st d k v).drafts = st.drafts := by
  have hinv' := hinv
  obtain ⟨hplt, hmi, hok, hch, hn⟩ := hinv'
  unfold writeMapCopy
  cases hc : (st.draftAt d).copy_ with
  | none => exact ⟨hinv, evolves_refl _ _, rfl⟩
  | some c =>
      have hcn : n ≤ c := hch d c hc
      have hok' : HeapOK (st.writeData c
          (.map (mapSetRaw (mapEntriesOf (st.nodeAt c).data) k v))) :=
        heapOK_writeData hok
          (mapSetRaw_draftLT (mapEntriesOf_draftLT (hok c)) hk hv)
      refine ⟨invAt_of_drafts_eq hinv rfl hok' ?_,
        writeData_evolves hcn, rfl⟩
      rw [writeData_heap_length]
      exact hn

theorem invAt_deleteMapCopy {n : Nat} {st : EngineState} (d : Nat) (k : Val)
    (hinv : InvAt n st) :
    InvAt n (deleteMapCopy st d k) ∧ Evolves n st (deleteMapCopy st d k) ∧
      (deleteMapCopy st d k).drafts = st.drafts := by
  have hinv' := hinv
  obtain ⟨hplt, hmi, hok, hch, hn⟩ := hinv'
  unfold deleteMapCopy
  cases hc : (st.draftAt d).copy_ with
  | none => exact ⟨hinv, evolves_refl _ _, rfl⟩
  | some c =>
      have hcn : n ≤ c := hch d c hc
      have hok' : HeapOK (st.writeData c
          (.map (mapDeleteRaw (mapEntriesOf (st.nodeAt c).data) k))) :=
        heapOK_writeData hok
          (mapDeleteRaw_draftLT (mapEntriesOf_draftLT (hok c)))
      refine ⟨invAt_of_drafts_eq hinv rfl hok' ?_,
        writeData_evolves hcn, rfl⟩
      rw [writeData_heap_length]
      exact hn

theorem invAt_setAssignedS {n : Nat} {st : EngineState} (d : Nat)
    (k : String) (b : Bool) (hinv : InvAt n st) :
    InvAt n (setAssignedS st d k b) ∧ Evolves n st (setAssignedS st d k b) ∧
      (setAssignedS st d k b).drafts.length = st.drafts.length ∧
      (setAssignedS st d k b).heap = st.heap :=
  invAt_modifyDraft (fun _ => ⟨rfl, rfl, rfl⟩) hinv

theorem invAt_removeAssignedS {n : Nat} {st : EngineState} (d : Nat)
    (k : String) (hinv : InvAt n st) :
    InvAt n (removeAssignedS st d k) ∧ Evolves n st (removeAssignedS st d k) ∧
      (removeAssignedS st d k).drafts.length = st.drafts.length ∧
      (removeAssignedS st d k).heap = st.heap :=
  invAt_modifyDraft (fun _ => ⟨rfl, rfl, rfl⟩) hinv

theorem invAt_setAssignedV {n : Nat} {st : EngineState} (d : Nat)
    (k : Val) (b : Bool) (hinv : InvAt n st) :
    InvAt n (setAssignedV st d k b) ∧ Evolves n st (setAssignedV st d k b) ∧
      (setAssignedV st d k b).drafts.length = st.drafts.length ∧
      (setAssignedV st d k b).heap = st.heap :=
  invAt_modifyDraft (fun _ => ⟨rfl, rfl, rfl⟩) hinv

theorem invAt_removeAssignedV {n : Nat} {st : EngineState} (d : Nat)
    (k : Val) (hinv : InvAt n st) :
    InvAt n (removeAssignedV st d k) ∧ Evolves n st (removeAssignedV st d k) ∧
      (removeAssignedV st d k).drafts.length = st.drafts.length ∧
      (removeAssignedV st d k).heap = st.heap :=
  invAt_modifyDraft (fun _ => ⟨rfl, rfl, rfl⟩) hinv

theorem all_draftLT_mono {n m : Nat} (h : n ≤ m) {xs : List Val}
    (hxs : xs.all (fun v => v.draftLT n) = true) :
    xs.all (fun v => v.draftLT m) = true := by
  simp only [List.all_eq_true] at hxs ⊢
  exact fun v hv => Val.draftLT_mono h (hxs v hv)

theorem invAt_modifyDraftC {n : Nat} {st : EngineState} (d : Nat)
    (f : DraftState → DraftState)
    (hf : ∀ ds, (f ds).parent_ = ds.parent_ ∧ (f ds).modified_ = ds.modified_)
    (hfc : ∀ ds c, (f ds).copy_ = some c → ds.copy_ = some c ∨ n ≤ c)
    (hinv : InvAt n st) :
    InvAt n (st.modifyDraft d f) ∧ Evolves n st (st.modifyDraft d f) ∧
      (st.modifyDraft d f).drafts.length = st.drafts.length ∧
      (st.modifyDraft d f).heap = st.heap := by
  obtain ⟨hplt, hmi, hok, hch, hn⟩ := hinv
  have hpar : ∀ x, ((st.modifyDraft d f).draftAt x).parent_ =
      (st.draftAt x).parent_ := by
    intro x
    rw [draftAt_modifyDraft]
    by_cases h : d = x ∧ d < st.drafts.length
    · rw [if_pos h]
      obtain ⟨rfl, -⟩ := h
      exact (hf _).1
    · rw [if_neg h]
  have hmod : ∀ x, ((st.modifyDraft d f).draftAt x).modified_ =
      (st.draftAt x).modified_ := by
    intro x
    rw [draftAt_modifyDraft]
    by_cases h : d = x ∧ d < st.drafts.length
    · rw [if_pos h]
      obtain ⟨rfl, -⟩ := h
      exact (hf _).2
    · rw [if_neg h]
  refine ⟨⟨parentLT_of_parents_eq hpar hplt,
    modInv_of_fields_eq hpar hmod hmi,
    heapOK_of_heap_eq hok rfl (le_of_eq (setDraft_mark_length _ _ _).symm),
    ?_, hn⟩,
    ⟨le_of_eq (setDraft_mark_length _ _ _).symm, Nat.le_refl _,
      fun _ _ => rfl⟩,
    setDraft_mark_length _ _ _, rfl⟩
  intro d' c' hdc
  rw [draftAt_modifyDraft] at hdc
  by_cases h : d = d' ∧ d < st.drafts.length
  · rw [if_pos h] at hdc
    rcases hfc _ _ hdc with h1 | h2
    · obtain ⟨rfl, -⟩ := h
      exact hch _ c' h1
    · exact h2
  · rw [if_neg h] at hdc
    exact hch d' c' hdc

theorem prepareMapCopy_of_some {st : EngineState} {d c : Nat}
    (hc : (st.draftAt d).copy_ = some c) : prepareMapCopy st d = st := by
  unfold prepareMapCopy
  simp only [hc]

theorem prepareMapCopy_of_none {st : EngineState} {d : Nat}
    (hc : (st.draftAt d).copy_ = none) :
    prepareMapCopy st d =
      (st.alloc (st.nodeAt (st.draftAt d).base_).data).1.modifyDraft d
        (fun ds1 =>
          { ds1 with copy_ := some st.heap.length, assignedV := [] }) := by
  unfold prepareMapCopy
  simp only [hc]
  rfl

theorem invAt_prepareMapCopy {n : Nat} {st : EngineState} (d : Nat)
    (hinv : InvAt n st) :
    InvAt n (prepareMapCopy st d) ∧ Evolves n st (prepareMapCopy st d) ∧
      (prepareMapCopy st d).drafts.length = st.drafts.length := by
  obtain ⟨hplt, hmi, hok, hch, hn⟩ := hinv
  cases hc : (st.draftAt d).copy_ with
  | some c =>
      rw [prepareMapCopy_of_some hc]
      exact ⟨⟨hplt, hmi, hok, hch, hn⟩, evolves_refl _ _, rfl⟩
  | none =>
      rw [prepareMapCopy_of_none hc]
      have hok1 : HeapOK (st.alloc (st.nodeAt (st.draftAt d).base_).data).1 :=
        heapOK_alloc hok (hok (st.draftAt d).base_)
      have hinv1 : InvAt n (st.alloc (st.nodeAt (st.draftAt d).base_).data).1 :=
        invAt_of_drafts_eq ⟨hplt, hmi, hok, hch, hn⟩ rfl hok1
          (by show n ≤ (st.heap ++
                [(Node.mk (st.nodeAt (st.draftAt d).base_).data false)]).length
              simp only [List.length_append]
              omega)
      have hstep := invAt_modifyDraftC d
        (fun ds1 =>
          { ds1 with copy_ := some st.heap.length, assignedV := [] })
        (fun _ => ⟨rfl, rfl⟩)
        (fun ds1 c' hdc => by
          right
          cases (show some st.heap.length = some c' from hdc)
          exact hn)
        hinv1
      refine ⟨hstep.1, evolves_trans (alloc_evolves hn) hstep.2.1, ?_⟩
      rw [hstep.2.2.1]
      rfl

theorem setCopyFold_inv {n : Nat} (d : Nat) :
    ∀ (elems : List Val) (s : EngineState) (cs : List Val)
      (dm : List (Val × Val)),
    InvAt n s → d < s.drafts.length →
    cs.all (fun v => v.draftLT s.drafts.length) = true →
    elems.all (fun v => v.draftLT s.drafts.length) = true →
    InvAt n (elems.foldl (setCopyStep d) (s, cs, dm)).1 ∧
    Evolves n s (elems.foldl (setCopyStep d) (s, cs, dm)).1 ∧
    d < (elems.foldl (setCopyStep d) (s, cs, dm)).1.drafts.length ∧
    ((elems.foldl (setCopyStep d) (s, cs, dm)).2.1).all
      (fun v => v.draftLT
        (elems.foldl (setCopyStep d) (s, cs, dm)).1.drafts.length) = true
  | [], s, cs, dm, hinv, hd, hcs, _ => ⟨hinv, evolves_refl _ _, hd, hcs⟩
  | v :: rest, s, cs, dm, hinv, hd, hcs, helems => by
      simp only [List.foldl_cons]
      simp only [List.all_cons, Bool.and_eq_true] at helems
      obtain ⟨hv, hrest⟩ := helems
      cases v with
      | prim p =>
          have hcs' : (cs ++ [Val.prim p]).all
              (fun v => v.draftLT s.drafts.length) = true := by
            simp only [List.all_append, Bool.and_eq_true]
            exact ⟨hcs, by rfl⟩
          exact setCopyFold_inv d rest s (cs ++ [Val.prim p]) dm
            hinv hd hcs' hrest
      | draft i =>
          have hcs' : (cs ++ [Val.draft i]).all
              (fun v => v.draftLT s.drafts.length) = true := by
            simp only [List.all_append, Bool.and_eq_true]
            refine ⟨hcs, ?_⟩
            simpa using hv
          exact setCopyFold_inv d rest s (cs ++ [Val.draft i]) dm
            hinv hd hcs' hrest
      | ref a =>
          by_cases hdr : isDraftableV s.heap (.ref a) = true
          · have hstep : setCopyStep d (s, cs, dm) (.ref a) =
                ((createProxy s a (some d)).1,
                  cs ++ [Val.draft s.drafts.length],
                  dm ++ [(.ref a, Val.draft s.drafts.length)]) := by
              unfold setCopyStep
              simp only [hdr, if_true]
              rfl
            rw [hstep]
            obtain ⟨hinv2, hev2⟩ := invAt_createProxy a (some d)
              (fun p hp => (Option.some_inj.mp hp) ▸ hd) hinv
            have hlen2 : (createProxy s a (some d)).1.drafts.length =
                s.drafts.length + 1 := createProxy_len s a (some d)
            have hcs' : (cs ++ [Val.draft s.drafts.length]).all
                (fun v => v.draftLT
                  (createProxy s a (some d)).1.drafts.length) = true := by
              simp only [List.all_append, Bool.and_eq_true]
              refine ⟨all_draftLT_mono (by omega) hcs, ?_⟩
              simp only [List.all_cons, List.all_nil, Bool.and_true,
                Val.draftLT, decide_eq_true_eq]
              omega
            have hrest' : rest.all (fun v => v.draftLT
                (createProxy s a (some d)).1.drafts.length) = true :=
              all_draftLT_mono (by omega) hrest
            have h1 := setCopyFold_inv d rest (createProxy s a (some d)).1
              (cs ++ [Val.draft s.drafts.length])
              (dm ++ [(.ref a, Val.draft s.drafts.length)])
              hinv2 (by omega) hcs' hrest'
            exact ⟨h1.1, evolves_trans hev2 h1.2.1, h1.2.2.1, h1.2.2.2⟩
          · have hstep : setCopyStep d (s, cs, dm) (.ref a) =
                (s, cs ++ [Val.ref a], dm) := by
              unfold setCopyStep
              simp only
              rw [if_neg hdr]
            rw [hstep]
            have hcs' : (cs ++ [Val.ref a]).all
                (fun v => v.draftLT s.drafts.length) = true := by
              simp only [List.all_append, Bool.and_eq_true]
              exact ⟨hcs, by rfl⟩
            exact setCopyFold_inv d rest s (cs ++ [Val.ref a]) dm
              hinv hd hcs' hrest

theorem invAt_setCopyTail {n : Nat} (d : Nat) (elems : List Val)
    (st : EngineState)
    (hd : d < st.drafts.length) (hinv : InvAt n st)
    (helems : elems.all (fun v => v.draftLT st.drafts.length) = true) :
    InvAt n (((elems.foldl (setCopyStep d) (st, [], [])).1.alloc
        (.set (elems.foldl (setCopyStep d) (st, [], [])).2.1)).1.modifyDraft d
        (fun ds1 => { ds1 with
          copy_ := some ((elems.foldl (setCopyStep d) (st, [], [])).1.alloc
            (.set (elems.foldl (setCopyStep d) (st, [], [])).2.1)).2,
          setDrafts := ds1.setDrafts ++
            (elems.foldl (setCopyStep d) (st, [], [])).2.2 })) ∧
    Evolves n st
      (((elems.foldl (setCopyStep d) (st, [], [])).1.alloc
        (.set (elems.foldl (setCopyStep d) (st, [], [])).2.1)).1.modifyDraft d
        (fun ds1 => { ds1 with
          copy_ := some ((elems.foldl (setCopyStep d) (st, [], [])).1.alloc
            (.set (elems.foldl (setCopyStep d) (st, [], [])).2.1)).2,
          setDrafts := ds1.setDrafts ++
            (elems.foldl (setCopyStep d) (st, [], [])).2.2 })) ∧
    d < (((elems.foldl (setCopyStep d) (st, [], [])).1.alloc
        (.set (elems.foldl (setCopyStep d) (st, [], [])).2.1)).1.modifyDraft d
        (fun ds1 => { ds1 with
          copy_ := some ((elems.foldl (setCopyStep d) (st, [], [])).1.alloc
            (.set (elems.foldl (setCopyStep d) (st, [], [])).2.1)).2,
          setDrafts := ds1.setDrafts ++
            (elems.foldl (setCopyStep d) (st, [], [])).2.2 })).drafts.length
    := by
  obtain ⟨hinv1, hev1, hd1, hcs1⟩ :=
    setCopyFold_inv d elems st [] [] hinv hd rfl helems
  have hok2 : HeapOK ((elems.foldl (setCopyStep d) (st, [], [])).1.alloc
      (.set (elems.foldl (setCopyStep d) (st, [], [])).2.1)).1 :=
    heapOK_alloc hinv1.2.2.1 hcs1
  have hn1 : n ≤ (elems.foldl (setCopyStep d) (st, [], [])).1.heap.length :=
    hinv1.2.2.2.2
  have hinv2 : InvAt n ((elems.foldl (setCopyStep d) (st, [], [])).1.alloc
      (.set (elems.foldl (setCopyStep d) (st, [], [])).2.1)).1 :=
    invAt_of_drafts_eq hinv1 rfl hok2
      (by
        show n ≤ ((elems.foldl (setCopyStep d) (st, [], [])).1.heap ++
          [(Node.mk (.set (elems.foldl (setCopyStep d)
            (st, [], [])).2.1) false)]).length
        simp only [List.length_append]
        omega)
  have hstep := invAt_modifyDraftC d
    (fun ds1 => { ds1 with
      copy_ := some ((elems.foldl (setCopyStep d) (st, [], [])).1.alloc
        (.set (elems.foldl (setCopyStep d) (st, [], [])).2.1)).2,
      setDrafts := ds1.setDrafts ++
        (elems.foldl (setCopyStep d) (st, [], [])).2.2 })
    (fun _ => ⟨rfl, rfl⟩)
    (fun ds1 c' hdc => by
      right
      cases (show some ((elems.foldl (setCopyStep d) (st, [], [])).1.alloc
        (.set (elems.foldl (setCopyStep d) (st, [], [])).2.1)).2 = some c'
        from hdc)
      exact hn1)
    hinv2
  refine ⟨hstep.1, ?_, ?_⟩
  · exact evolves_trans hev1 (evolves_trans (alloc_evolves hn1) hstep.2.1)
  · rw [hstep.2.2.1]
    exact hd1

theorem invAt_prepareSetCopy {n : Nat} {st : EngineState} {d : Nat}
    (hd : d < st.drafts.length) (hinv : InvAt n st) :
    InvAt n (prepareSetCopy st d) ∧ Evolves n st (prepareSetCopy st d) ∧
      d < (prepareSetCopy st d).drafts.length := by
  cases hc : (st.draftAt d).copy_ with
  | some c =>
      have heq : prepareSetCopy st d = st := by
        unfold prepareSetCopy
        simp only [hc]
      rw [heq]
      exact ⟨hinv, evolves_refl _ _, hd⟩
  | none =>
      have hbase := hinv.2.2.1 (st.draftAt d).base_
      unfold prepareSetCopy
      cases hdata : (st.nodeAt (st.draftAt d).base_).data with
      | set xs =>
          rw [hdata] at hbase
          simp only [hc, hdata]
          exact invAt_setCopyTail d xs st hd hinv hbase
      | obj fs =>
          simp only [hc, hdata]
          exact invAt_setCopyTail d [] st hd hinv rfl
      | arr xs =>
          simp only [hc, hdata]
          exact invAt_setCopyTail d [] st hd hinv rfl
      | map es =>
          simp only [hc, hdata]
          exact invAt_setCopyTail d [] st hd hinv rfl
      | opaq =>
          simp only [hc, hdata]
          exact invAt_setCopyTail d [] st hd hinv rfl

/-! ## Literal allocation facts -/

theorem list_draftLT_of_zero {xs : List Val}
    (h : xs.all (fun v => v.draftLT 0) = true) :
    ∀ m, xs.all (fun v => v.draftLT m) = true :=
  fun _ => all_draftLT_mono (Nat.zero_le _) h

theorem obj_draftLT_of_zero {fields : List (String × Val)}
    (h : fields.all (fun kv => kv.2.draftLT 0) = true) :
    ∀ m, (NodeData.obj fields).draftLT m = true := fun m => by
  simp only [NodeData.draftLT, List.all_eq_true] at h ⊢
  exact fun kv hkv => Val.draftLT_mono (Nat.zero_le _) (h kv hkv)

theorem entries_draftLT_of_zero {es : List (Val × Val)}
    (h : es.all (fun kv => kv.1.draftLT 0 && kv.2.draftLT 0) = true) :
    ∀ m, es.all (fun kv => kv.1.draftLT m && kv.2.draftLT m) = true :=
  fun m => by
    simp only [List.all_eq_true, Bool.and_eq_true] at h ⊢
    exact fun kv hkv => ⟨Val.draftLT_mono (Nat.zero_le _) (h kv hkv).1,
      Val.draftLT_mono (Nat.zero_le _) (h kv hkv).2⟩

theorem arr_draftLT_of_zero {xs : List Val}
    (h : xs.all (fun v => v.draftLT 0) = true) :
    ∀ m, (NodeData.arr xs).draftLT m = true :=
  fun m => list_draftLT_of_zero h m

theorem setnd_draftLT_of_zero {xs : List Val}
    (h : xs.all (fun v => v.draftLT 0) = true) :
    ∀ m, (NodeData.set xs).draftLT m = true :=
  fun m => list_draftLT_of_zero h m

theorem map_draftLT_of_zero {es : List (Val × Val)}
    (h : es.all (fun kv => kv.1.draftLT 0 && kv.2.draftLT 0) = true) :
    ∀ m, (NodeData.map es).draftLT m = true :=
  fun m => entries_draftLT_of_zero h m

theorem allocStep_facts {st0 st1 : EngineState} {nd : NodeData}
    (hdr : st1.drafts = st0.drafts)
    (hlen : st0.heap.length ≤ st1.heap.length)
    (hlow : ∀ a, a < st0.heap.length →
      st1.heap.nodeAt a = st0.heap.nodeAt a)
    (hok : HeapOK st0 → HeapOK st1)
    (hnd : ∀ m, nd.draftLT m = true) :
    (st1.alloc nd).1.drafts = st0.drafts ∧
    st0.heap.length ≤ (st1.alloc nd).1.heap.length ∧
    (∀ a, a < st0.heap.length →
      (st1.alloc nd).1.heap.nodeAt a = st0.heap.nodeAt a) ∧
    (HeapOK st0 → HeapOK (st1.alloc nd).1) := by
  have hlen1 : (st1.alloc nd).1.heap.length = st1.heap.length + 1 := by
    simp [EngineState.alloc]
  refine ⟨hdr, by omega, ?_, fun h0 => heapOK_alloc (hok h0) (hnd _)⟩
  intro a ha
  show (st1.heap ++ [(Node.mk nd false)]).nodeAt a = st0.heap.nodeAt a
  rw [nodeAt_append, if_neg (by omega)]
  exact hlow a ha

mutual

theorem allocTree_facts : ∀ (t : RTree) (st : EngineState),
    (allocTree st t).1.drafts = st.drafts ∧
    st.heap.length ≤ (allocTree st t).1.heap.length ∧
    (∀ a, a < st.heap.length →
      (allocTree st t).1.heap.nodeAt a = st.heap.nodeAt a) ∧
    (HeapOK st → HeapOK (allocTree st t).1) ∧
    (allocTree st t).2.draftLT 0 = true
  | .prim p, st => ⟨rfl, Nat.le_refl _, fun _ _ => rfl, id, rfl⟩
  | .obj fs, st => by
      have hf := allocFields_facts fs st
      have hs := allocStep_facts hf.1 hf.2.1 hf.2.2.1 hf.2.2.2.1
        (obj_draftLT_of_zero hf.2.2.2.2)
      exact ⟨hs.1, hs.2.1, hs.2.2.1, hs.2.2.2, rfl⟩
  | .arr xs, st => by
      have hf := allocList_facts xs st
      have hs := allocStep_facts hf.1 hf.2.1 hf.2.2.1 hf.2.2.2.1
        (arr_draftLT_of_zero hf.2.2.2.2)
      exact ⟨hs.1, hs.2.1, hs.2.2.1, hs.2.2.2, rfl⟩
  | .rmap es, st => by
      have hf := allocEntries_facts es st
      have hs := allocStep_facts hf.1 hf.2.1 hf.2.2.1 hf.2.2.2.1
        (map_draftLT_of_zero hf.2.2.2.2)
      exact ⟨hs.1, hs.2.1, hs.2.2.1, hs.2.2.2, rfl⟩
  | .rset xs, st => by
      have hf := allocList_facts xs st
      have hs := allocStep_facts hf.1 hf.2.1 hf.2.2.1 hf.2.2.2.1
        (setnd_draftLT_of_zero hf.2.2.2.2)
      exact ⟨hs.1, hs.2.1, hs.2.2.1, hs.2.2.2, rfl⟩
  | .opaq, st => by
      have hs := allocStep_facts (show st.drafts = st.drafts from rfl)
        (Nat.le_refl st.heap.length) (fun _ _ => rfl) id
        (fun m => show NodeData.draftLT m .opaq = true from rfl)
      exact ⟨hs.1, hs.2.1, hs.2.2.1, hs.2.2.2, rfl⟩

theorem allocFields_facts : ∀ (fs : List (String × RTree))
    (st : EngineState),
    (allocTree.allocFields st fs).1.drafts = st.drafts ∧
    st.heap.length ≤ (allocTree.allocFields st fs).1.heap.length ∧
    (∀ a, a < st.heap.length →
      (allocTree.allocFields st fs).1.heap.nodeAt a = st.heap.nodeAt a) ∧
    (HeapOK st → HeapOK (allocTree.allocFields st fs).1) ∧
    ((allocTree.allocFields st fs).2).all
      (fun kv => kv.2.draftLT 0) = true
  | [], st => ⟨rfl, Nat.le_refl _, fun _ _ => rfl, id, rfl⟩
  | (k, t) :: rest, st => by
      have h1 := allocTree_facts t st
      have h2 := allocFields_facts rest (allocTree st t).1
      refine ⟨?_, ?_, ?_, ?_, ?_⟩
      · show (allocTree.allocFields (allocTree st t).1 rest).1.drafts
          = st.drafts
        rw [h2.1, h1.1]
      · show st.heap.length ≤
          (allocTree.allocFields (allocTree st t).1 rest).1.heap.length
        have ha := h1.2.1
        have hb := h2.2.1
        omega
      · intro a ha
        show (allocTree.allocFields (allocTree st t).1 rest).1.heap.nodeAt a
          = st.heap.nodeAt a
        rw [h2.2.2.1 a (by have := h1.2.1; omega), h1.2.2.1 a ha]
      · intro hok0
        show HeapOK (allocTree.allocFields (allocTree st t).1 rest).1
        exact h2.2.2.2.1 (h1.2.2.2.1 hok0)
      · show ((k, (allocTree st t).2) ::
          (allocTree.allocFields (allocTree st t).1 rest).2).all
            (fun kv => kv.2.draftLT 0) = true
        simp only [List.all_cons, Bool.and_eq_true]
        exact ⟨h1.2.2.2.2, h2.2.2.2.2⟩

theorem allocList_facts : ∀ (xs : List RTree) (st : EngineState),
    (allocTree.allocList st xs).1.drafts = st.drafts ∧
    st.heap.length ≤ (allocTree.allocList st xs).1.heap.length ∧
    (∀ a, a < st.heap.length →
      (allocTree.allocList st xs).1.heap.nodeAt a = st.heap.nodeAt a) ∧
    (HeapOK st → HeapOK (allocTree.allocList st xs).1) ∧
    ((allocTree.allocList st xs).2).all (fun v => v.draftLT 0) = true
  | [], st => ⟨rfl, Nat.le_refl _, fun _ _ => rfl, id, rfl⟩
  | t :: rest, st => by
      have h1 := allocTree_facts t st
      have h2 := allocList_facts rest (allocTree st t).1
      refine ⟨?_, ?_, ?_, ?_, ?_⟩
      · show (allocTree.allocList (allocTree st t).1 rest).1.drafts
          = st.drafts
        rw [h2.1, h1.1]
      · show st.heap.length ≤
          (allocTree.allocList (allocTree st t).1 rest).1.heap.length
        have ha := h1.2.1
        have hb := h2.2.1
        omega
      · intro a ha
        show (allocTree.allocList (allocTree st t).1 rest).1.heap.nodeAt a
          = st.heap.nodeAt a
        rw [h2.2.2.1 a (by have := h1.2.1; omega), h1.2.2.1 a ha]
      · intro hok0
        show HeapOK (allocTree.allocList (allocTree st t).1 rest).1
        exact h2.2.2.2.1 (h1.2.2.2.1 hok0)
      · show ((allocTree st t).2 ::
          (allocTree.allocList (allocTree st t).1 rest).2).all
            (fun v => v.draftLT 0) = true
        simp only [List.all_cons, Bool.and_eq_true]
        exact ⟨h1.2.2.2.2, h2.2.2.2.2⟩

theorem allocEntries_facts : ∀ (es : List (Prim × RTree))
    (st : EngineState),
    (allocTree.allocEntries st es).1.drafts = st.drafts ∧
    st.heap.length ≤ (allocTree.allocEntries st es).1.heap.length ∧
    (∀ a, a < st.heap.length →
      (allocTree.allocEntries st es).1.heap.nodeAt a = st.heap.nodeAt a) ∧
    (HeapOK st → HeapOK (allocTree.allocEntries st es).1) ∧
    ((allocTree.allocEntries st es).2).all
      (fun kv => kv.1.draftLT 0 && kv.2.draftLT 0) = true
  | [], st => ⟨rfl, Nat.le_refl _, fun _ _ => rfl, id, rfl⟩
  | (k, t) :: rest, st => by
      have h1 := allocTree_facts t st
      have h2 := allocEntries_facts rest (allocTree st t).1
      refine ⟨?_, ?_, ?_, ?_, ?_⟩
      · show (allocTree.allocEntries (allocTree st t).1 rest).1.drafts
          = st.drafts
        rw [h2.1, h1.1]
      · show st.heap.length ≤
          (allocTree.allocEntries (allocTree st t).1 rest).1.heap.length
        have ha := h1.2.1
        have hb := h2.2.1
        omega
      · intro a ha
        show (allocTree.allocEntries (allocTree st t).1 rest).1.heap.nodeAt a
          = st.heap.nodeAt a
        rw [h2.2.2.1 a (by have := h1.2.1; omega), h1.2.2.1 a ha]
      · intro hok0
        show HeapOK (allocTree.allocEntries (allocTree st t).1 rest).1
        exact h2.2.2.2.1 (h1.2.2.2.1 hok0)
      · show ((Val.prim k, (allocTree st t).2) ::
          (allocTree.allocEntries (allocTree st t).1 rest).2).all
            (fun kv => kv.1.draftLT 0 && kv.2.draftLT 0) = true
        simp only [List.all_cons, Bool.and_eq_true]
        refine ⟨⟨rfl, h1.2.2.2.2⟩, h2.2.2.2.2⟩

end

/-- `allocTree` preserves the run invariant and never returns a draft. -/
theorem invAt_allocTree {n : Nat} {st : EngineState} (t : RTree)
    (hinv : InvAt n st) :
    InvAt n (allocTree st t).1 ∧ Evolves n st (allocTree st t).1 ∧
      (allocTree st t).1.drafts = st.drafts ∧
      (∀ m, (allocTree st t).2.draftLT m = true) := by
  obtain ⟨hplt, hmi, hok, hch, hn⟩ := hinv
  have hf := allocTree_facts t st
  refine ⟨invAt_of_drafts_eq ⟨hplt, hmi, hok, hch, hn⟩ hf.1
      (hf.2.2.2.1 hok) (by have := hf.2.1; omega),
    ⟨le_of_eq (by rw [hf.1]), hf.2.1, ?_⟩, hf.1, ?_⟩
  · intro a ha
    rw [hf.2.2.1 a (by omega)]
  · intro m
    exact Val.draftLT_mono (Nat.zero_le _) hf.2.2.2.2

/-! ## Trap-level preservation -/

theorem invAt_proxyGet {n : Nat} {st st' : EngineState} {d : Nat}
    {k : String} {v : Val}
    (hd : d < st.drafts.length) (hinv : InvAt n st)
    (hrun : proxyGet st d k = .ok (st', v)) :
    InvAt n st' ∧ Evolves n st st' ∧ d < st'.drafts.length ∧
      v.draftLT st'.drafts.length = true := by
  simp only [proxyGet] at hrun
  split at hrun
  · cases hrun
  · split at hrun
    · simp only [Except.ok.injEq, Prod.mk.injEq] at hrun
      obtain ⟨rfl, rfl⟩ := hrun
      exact ⟨hinv, evolves_refl _ _, hd, rfl⟩
    · next value hfound =>
      split at hrun
      · simp only [Except.ok.injEq, Prod.mk.injEq] at hrun
        obtain ⟨rfl, rfl⟩ := hrun
        exact ⟨hinv, evolves_refl _ _, hd,
          objGetRaw_draftLT (hinv.2.2.1 _) hfound⟩
      · split at hrun
        · cases value with
          | prim p =>
              simp only [Except.ok.injEq, Prod.mk.injEq] at hrun
              obtain ⟨rfl, rfl⟩ := hrun
              exact ⟨hinv, evolves_refl _ _, hd,
                objGetRaw_draftLT (hinv.2.2.1 _) hfound⟩
          | draft i =>
              simp only [Except.ok.injEq, Prod.mk.injEq] at hrun
              obtain ⟨rfl, rfl⟩ := hrun
              exact ⟨hinv, evolves_refl _ _, hd,
                objGetRaw_draftLT (hinv.2.2.1 _) hfound⟩
          | ref a =>
            simp only [Except.ok.injEq, Prod.mk.injEq] at hrun
            obtain ⟨rfl, rfl⟩ := hrun
            obtain ⟨hinv1, hev1, hlen1⟩ := invAt_prepareCopy d hinv
            have hd1 : d < (prepareCopy st d).drafts.length := by
              rw [hlen1]
              exact hd
            obtain ⟨hinv2, hev2⟩ := invAt_createProxy a (some d)
              (fun p hp => (Option.some_inj.mp hp) ▸ hd1) hinv1
            have hv2 : (Val.draft
                (createProxy (prepareCopy st d) a (some d)).2).draftLT
                (createProxy (prepareCopy st d) a
                  (some d)).1.drafts.length = true := by
              simp only [Val.draftLT, decide_eq_true_eq, createProxy_len,
                createProxy_snd]
              omega
            obtain ⟨hinv3, hev3, hdr3⟩ := invAt_writeCopy d k hv2 hinv2
            refine ⟨hinv3, evolves_trans hev1 (evolves_trans hev2 hev3),
              ?_, ?_⟩
            · show d < (writeCopy (createProxy (prepareCopy st d) a
                (some d)).1 d k _).drafts.length
              rw [hdr3, createProxy_len]
              omega
            · show (Val.draft (createProxy (prepareCopy st d) a
                (some d)).2).draftLT (writeCopy _ d k _).drafts.length = true
              rw [hdr3]
              exact hv2
        · simp only [Except.ok.injEq, Prod.mk.injEq] at hrun
          obtain ⟨rfl, rfl⟩ := hrun
          exact ⟨hinv, evolves_refl _ _, hd,
            objGetRaw_draftLT (hinv.2.2.1 _) hfound⟩

theorem invAt_assignWrite {n : Nat} {st : EngineState} (d : Nat)
    (k : String) {v : Val} (b : Bool)
    (hv : v.draftLT st.drafts.length = true) (hinv : InvAt n st) :
    InvAt n (setAssignedS (writeCopy st d k v) d k b) ∧
      Evolves n st (setAssignedS (writeCopy st d k v) d k b) := by
  obtain ⟨h1, he1, hdr1⟩ := invAt_writeCopy d k hv hinv
  obtain ⟨h2, he2, hl2, hh2⟩ := invAt_setAssignedS d k b h1
  exact ⟨h2, evolves_trans he1 he2⟩

theorem invAt_proxySet {n : Nat} {st st' : EngineState} {d : Nat}
    {k : String} {v : Val}
    (hd : d < st.drafts.length) (hv : v.draftLT st.drafts.length = true)
    (hinv : InvAt n st) (hrun : proxySet st d k v = .ok st') :
    InvAt n st' ∧ Evolves n st st' := by
  simp only [proxySet] at hrun
  split at hrun
  · cases hrun
  · split at hrun
    · cases hrun
    · split at hrun
      · simp only [Except.ok.injEq] at hrun
        subst hrun
        split
        · exact ⟨hinv, evolves_refl _ _⟩
        · exact invAt_assignWrite d k true hv hinv
      · split at hrun
        · simp only [Except.ok.injEq] at hrun
          subst hrun
          exact invAt_assignWrite d k false hv hinv
        · split at hrun
          · simp only [Except.ok.injEq] at hrun
            subst hrun
            exact ⟨hinv, evolves_refl _ _⟩
          · simp only [Except.ok.injEq] at hrun
            subst hrun
            obtain ⟨h1, he1, hl1⟩ := invAt_prepareCopy d hinv
            have hd1 : d < (prepareCopy st d).drafts.length := by
              rw [hl1]
              exact hd
            obtain ⟨h2, he2, hl2⟩ := invAt_markChanged hd hd1 h1
            have hv2 : v.draftLT (markChanged (prepareCopy st d)
                st.drafts.length d).drafts.length = true := by
              rw [hl2, hl1]
              exact hv
            split
            · exact ⟨h2, evolves_trans he1 he2⟩
            · have h3 := invAt_assignWrite d k true hv2 h2
              exact ⟨h3.1, evolves_trans he1 (evolves_trans he2 h3.2)⟩

theorem invAt_proxyDelete {n : Nat} {st st' : EngineState} {d : Nat}
    {k : String}
    (hd : d < st.drafts.length) (hinv : InvAt n st)
    (hrun : proxyDelete st d k = .ok st') :
    InvAt n st' ∧ Evolves n st st' := by
  simp only [proxyDelete] at hrun
  split at hrun
  · cases hrun
  · split at hrun
    · split at hrun
      · cases hrun
      · exact invAt_proxySet hd (by rfl) hinv hrun
    · simp only [Except.ok.injEq] at hrun
      subst hrun
      split
      · obtain ⟨h1, he1, hl1, hh1⟩ := invAt_setAssignedS d k false hinv
        obtain ⟨h2, he2, hl2⟩ := invAt_prepareCopy d h1
        have hd2 : d < (prepareCopy (setAssignedS st d k false)
            d).drafts.length := by
          rw [hl2, hl1]
          exact hd
        obtain ⟨h3, he3, hl3⟩ := invAt_markChanged hd hd2 h2
        obtain ⟨h4, he4, hdr4⟩ := invAt_deleteCopy d k h3
        exact ⟨h4, evolves_trans he1
          (evolves_trans he2 (evolves_trans he3 he4))⟩
      · obtain ⟨h1, he1, hl1, hh1⟩ := invAt_removeAssignedS d k hinv
        obtain ⟨h4, he4, hdr4⟩ := invAt_deleteCopy d k h1
        exact ⟨h4, evolves_trans he1 he4⟩

theorem mapFindD_draftLT {n : Nat} {es : List (Val × Val)} {k : Val}
    (hes : es.all (fun kv => kv.1.draftLT n && kv.2.draftLT n) = true) :
    ((mapFind es k).getD (.prim .undef)).draftLT n = true := by
  cases hf : mapFind es k with
  | none => rfl
  | some w => exact mapFind_draftLT hes hf

theorem invAt_writeDataAt {n : Nat} {st : EngineState} (a : Nat)
    (nd : NodeData)
    (ha : n ≤ a) (hnd : nd.draftLT st.drafts.length = true)
    (hinv : InvAt n st) :
    InvAt n (st.writeData a nd) ∧ Evolves n st (st.writeData a nd) ∧
      (st.writeData a nd).drafts = st.drafts :=
  ⟨invAt_of_drafts_eq hinv rfl (heapOK_writeData hinv.2.2.1 hnd)
      (by rw [writeData_heap_length]; exact hinv.2.2.2.2),
    writeData_evolves ha, rfl⟩

theorem invAt_draftMapGet {n : Nat} {st st' : EngineState} {d : Nat}
    {k v : Val}
    (hd : d < st.drafts.length) (hk : k.draftLT st.drafts.length = true)
    (hinv : InvAt n st) (hrun : draftMapGet st d k = .ok (st', v)) :
    InvAt n st' ∧ Evolves n st st' ∧ d < st'.drafts.length ∧
      v.draftLT st'.drafts.length = true := by
  simp only [draftMapGet] at hrun
  split at hrun
  · cases hrun
  · split at hrun
    · simp only [Except.ok.injEq, Prod.mk.injEq] at hrun
      obtain ⟨rfl, rfl⟩ := hrun
      exact ⟨hinv, evolves_refl _ _, hd,
        mapFindD_draftLT (mapEntriesOf_draftLT (hinv.2.2.1 _))⟩
    · split at hrun
      · simp only [Except.ok.injEq, Prod.mk.injEq] at hrun
        obtain ⟨rfl, rfl⟩ := hrun
        exact ⟨hinv, evolves_refl _ _, hd,
          mapFindD_draftLT (mapEntriesOf_draftLT (hinv.2.2.1 _))⟩
      · split at hrun
        · rename_i a ha
          simp only [Except.ok.injEq, Prod.mk.injEq] at hrun
          obtain ⟨rfl, rfl⟩ := hrun
          obtain ⟨h1, he1⟩ := invAt_createProxy a (some d)
            (fun p hp => (Option.some_inj.mp hp) ▸ hd) hinv
          obtain ⟨h2, he2, hl2⟩ := invAt_prepareMapCopy d h1
          have hlen2 : (prepareMapCopy (createProxy st a
              (some d)).1 d).drafts.length = st.drafts.length + 1 := by
            rw [hl2, createProxy_len]
          have hv2 : (Val.draft (createProxy st a (some d)).2).draftLT
              (prepareMapCopy (createProxy st a
                (some d)).1 d).drafts.length = true := by
            simp only [Val.draftLT, decide_eq_true_eq, hlen2,
              createProxy_snd]
            omega
          have hk2 : k.draftLT (prepareMapCopy (createProxy st a
              (some d)).1 d).drafts.length = true :=
            Val.draftLT_mono (by omega) hk
          obtain ⟨h3, he3, hdr3⟩ := invAt_writeMapCopy d hk2 hv2 h2
          refine ⟨h3, evolves_trans he1 (evolves_trans he2 he3), ?_, ?_⟩
          · show d < (writeMapCopy _ d k _).drafts.length
            rw [hdr3, hl2, createProxy_len]
            omega
          · show (Val.draft (createProxy st a
              (some d)).2).draftLT (writeMapCopy _ d k _).drafts.length
              = true
            rw [hdr3]
            exact hv2
        · simp only [Except.ok.injEq, Prod.mk.injEq] at hrun
          obtain ⟨rfl, rfl⟩ := hrun
          exact ⟨hinv, evolves_refl _ _, hd,
            mapFindD_draftLT (mapEntriesOf_draftLT (hinv.2.2.1 _))⟩

theorem invAt_draftMapSet {n : Nat} {st st' : EngineState} {d : Nat}
    {k v : Val}
    (hd : d < st.drafts.length) (hk : k.draftLT st.drafts.length = true)
    (hv : v.draftLT st.drafts.length = true)
    (hinv : InvAt n st) (hrun : draftMapSet st d k v = .ok st') :
    InvAt n st' ∧ Evolves n st st' := by
  simp only [draftMapSet] at hrun
  split at hrun
  · cases hrun
  · split at hrun
    · simp only [Except.ok.injEq] at hrun
      subst hrun
      obtain ⟨h1, he1, hl1⟩ := invAt_prepareMapCopy d hinv
      have hd1 : d < (prepareMapCopy st d).drafts.length := by
        rw [hl1]
        exact hd
      obtain ⟨h2, he2, hl2⟩ := invAt_markChanged hd hd1 h1
      have hlen2 : (markChanged (prepareMapCopy st d) st.drafts.length
          d).drafts.length = st.drafts.length := by
        rw [hl2, hl1]
      obtain ⟨h3, he3, hl3, hh3⟩ := invAt_setAssignedV d k true h2
      have hlen3 : (setAssignedV (markChanged (prepareMapCopy st d)
          st.drafts.length d) d k true).drafts.length
          = st.drafts.length := by
        rw [hl3, hlen2]
      obtain ⟨h4, he4, hdr4⟩ := invAt_writeMapCopy d
        (Val.draftLT_mono (le_of_eq hlen3.symm) hk)
        (Val.draftLT_mono (le_of_eq hlen3.symm) hv) h3
      exact ⟨h4, evolves_trans he1
        (evolves_trans he2 (evolves_trans he3 he4))⟩
    · simp only [Except.ok.injEq] at hrun
      subst hrun
      exact ⟨hinv, evolves_refl _ _⟩

theorem invAt_draftMapDelete {n : Nat} {st st' : EngineState} {d : Nat}
    {k : Val} {b : Bool}
    (hd : d < st.drafts.length) (hinv : InvAt n st)
    (hrun : draftMapDelete st d k = .ok (st', b)) :
    InvAt n st' ∧ Evolves n st st' := by
  simp only [draftMapDelete] at hrun
  split at hrun
  · simp only [Except.ok.injEq, Prod.mk.injEq] at hrun
    obtain ⟨rfl, rfl⟩ := hrun
    exact ⟨hinv, evolves_refl _ _⟩
  · split at hrun
    · cases hrun
    · simp only [Except.ok.injEq, Prod.mk.injEq] at hrun
      obtain ⟨rfl, rfl⟩ := hrun
      obtain ⟨h1, he1, hl1⟩ := invAt_prepareMapCopy d hinv
      have hd1 : d < (prepareMapCopy st d).drafts.length := by
        rw [hl1]
        exact hd
      obtain ⟨h2, he2, hl2⟩ := invAt_markChanged hd hd1 h1
      split
      · obtain ⟨h3, he3, hl3, hh3⟩ := invAt_setAssignedV d k false h2
        obtain ⟨h4, he4, hdr4⟩ := invAt_deleteMapCopy d k h3
        exact ⟨h4, evolves_trans he1
          (evolves_trans he2 (evolves_trans he3 he4))⟩
      · obtain ⟨h3, he3, hl3, hh3⟩ := invAt_removeAssignedV d k h2
        obtain ⟨h4, he4, hdr4⟩ := invAt_deleteMapCopy d k h3
        exact ⟨h4, evolves_trans he1
          (evolves_trans he2 (evolves_trans he3 he4))⟩

theorem invAt_setAssignedList {n : Nat} {st : EngineState} (d : Nat)
    (l : List (Val × Bool)) (hinv : InvAt n st) :
    InvAt n (st.modifyDraft d (fun ds1 => { ds1 with assignedV := l })) ∧
      Evolves n st
        (st.modifyDraft d (fun ds1 => { ds1 with assignedV := l })) ∧
      (st.modifyDraft d
        (fun ds1 => { ds1 with assignedV := l })).drafts.length
        = st.drafts.length ∧
      (st.modifyDraft d (fun ds1 => { ds1 with assignedV := l })).heap
        = st.heap :=
  invAt_modifyDraft (fun _ => ⟨rfl, rfl, rfl⟩) hinv

theorem invAt_draftMapClear {n : Nat} {st st' : EngineState} {d : Nat}
    (hd : d < st.drafts.length) (hinv : InvAt n st)
    (hrun : draftMapClear st d = .ok st') :
    InvAt n st' ∧ Evolves n st st' := by
  simp only [draftMapClear] at hrun
  split at hrun
  · cases hrun
  · split at hrun
    · obtain ⟨h1, he1, hl1⟩ := invAt_prepareMapCopy d hinv
      have hd1 : d < (prepareMapCopy st d).drafts.length := by
        rw [hl1]
        exact hd
      obtain ⟨h2, he2, hl2⟩ := invAt_markChanged hd hd1 h1
      obtain ⟨h3, he3, hl3, hh3⟩ := invAt_setAssignedList d
        (((mapEntriesOf ((markChanged (prepareMapCopy st d)
          st.drafts.length d).nodeAt (st.draftAt d).base_).data).map
            (fun kv => kv.1)).map (fun k => (k, false))) h2
      split at hrun
      · rename_i c hc
        simp only [Except.ok.injEq] at hrun
        subst hrun
        obtain ⟨h4, he4, hdr4⟩ := invAt_writeDataAt c (.map [])
          (h3.2.2.2.1 d c hc) rfl h3
        exact ⟨h4, evolves_trans he1
          (evolves_trans he2 (evolves_trans he3 he4))⟩
      · simp only [Except.ok.injEq] at hrun
        subst hrun
        exact ⟨h3, evolves_trans he1 (evolves_trans he2 he3)⟩
    · simp only [Except.ok.injEq] at hrun
      subst hrun
      exact ⟨hinv, evolves_refl _ _⟩

theorem invAt_draftSetValues {n : Nat} {st st' : EngineState} {d : Nat}
    {xs : List Val}
    (hd : d < st.drafts.length) (hinv : InvAt n st)
    (hrun : draftSetValues st d = .ok (st', xs)) :
    InvAt n st' ∧ Evolves n st st' ∧ d < st'.drafts.length ∧
      xs.all (fun v => v.draftLT st'.drafts.length) = true := by
  simp only [draftSetValues] at hrun
  split at hrun
  · cases hrun
  · obtain ⟨h1, he1, hd1⟩ := invAt_prepareSetCopy hd hinv
    split at hrun
    · simp only [Except.ok.injEq, Prod.mk.injEq] at hrun
      obtain ⟨rfl, rfl⟩ := hrun
      exact ⟨h1, he1, hd1, setElemsOf_draftLT (h1.2.2.1 _)⟩
    · simp only [Except.ok.injEq, Prod.mk.injEq] at hrun
      obtain ⟨rfl, rfl⟩ := hrun
      exact ⟨h1, he1, hd1, rfl⟩

theorem invAt_draftSetAdd {n : Nat} {st st' : EngineState} {d : Nat}
    {v : Val}
    (hd : d < st.drafts.length) (hv : v.draftLT st.drafts.length = true)
    (hinv : InvAt n st) (hrun : draftSetAdd st d v = .ok st') :
    InvAt n st' ∧ Evolves n st st' := by
  simp only [draftSetAdd] at hrun
  split at hrun
  · cases hrun
  · split at hrun
    · simp only [Except.ok.injEq] at hrun
      subst hrun
      exact ⟨hinv, evolves_refl _ _⟩
    · obtain ⟨h1, he1, hd1⟩ := invAt_prepareSetCopy hd hinv
      obtain ⟨h2, he2, hl2⟩ := invAt_markChanged hd hd1 h1
      have hd2 : d < (markChanged (prepareSetCopy st d) st.drafts.length
          d).drafts.length := by
        rw [hl2]
        exact hd1
      split at hrun
      · rename_i c hc
        simp only [Except.ok.injEq] at hrun
        subst hrun
        have hvm : v.draftLT (markChanged (prepareSetCopy st d)
            st.drafts.length d).drafts.length = true := by
          refine Val.draftLT_mono ?_ hv
          rw [hl2]
          exact he1.1
        obtain ⟨h4, he4, hdr4⟩ := invAt_writeDataAt c
          (.set (setAddRaw (setElemsOf ((markChanged (prepareSetCopy st d)
            st.drafts.length d).nodeAt c).data) v))
          (h2.2.2.2.1 d c hc)
          (setAddRaw_draftLT (setElemsOf_draftLT (h2.2.2.1 _)) hvm) h2
        exact ⟨h4, evolves_trans he1 (evolves_trans he2 he4)⟩
      · simp only [Except.ok.injEq] at hrun
        subst hrun
        exact ⟨h2, evolves_trans he1 he2⟩

theorem invAt_draftSetDelete {n : Nat} {st st' : EngineState} {d : Nat}
    {v : Val} {b : Bool}
    (hd : d < st.drafts.length) (hinv : InvAt n st)
    (hrun : draftSetDelete st d v = .ok (st', b)) :
    InvAt n st' ∧ Evolves n st st' := by
  simp only [draftSetDelete, draftSetHas] at hrun
  split at hrun
  · cases hrun
  · simp only [ebind_ok] at hrun
    split at hrun
    · simp only [Except.ok.injEq, Prod.mk.injEq] at hrun
      obtain ⟨rfl, rfl⟩ := hrun
      exact ⟨hinv, evolves_refl _ _⟩
    · obtain ⟨h1, he1, hd1⟩ := invAt_prepareSetCopy hd hinv
      obtain ⟨h2, he2, hl2⟩ := invAt_markChanged hd hd1 h1
      split at hrun
      · rename_i c hc
        split at hrun
        · simp only [Except.ok.injEq, Prod.mk.injEq] at hrun
          obtain ⟨rfl, rfl⟩ := hrun
          obtain ⟨h4, he4, hdr4⟩ := invAt_writeDataAt c
            (.set (setDeleteRaw (setElemsOf ((markChanged
              (prepareSetCopy st d) st.drafts.length
                d).nodeAt c).data) v))
            (h2.2.2.2.1 d c hc)
            (setDeleteRaw_draftLT (setElemsOf_draftLT (h2.2.2.1 _))) h2
          exact ⟨h4, evolves_trans he1 (evolves_trans he2 he4)⟩
        · split at hrun
          · rename_i dv hdv
            simp only [Except.ok.injEq, Prod.mk.injEq] at hrun
            obtain ⟨rfl, rfl⟩ := hrun
            obtain ⟨h4, he4, hdr4⟩ := invAt_writeDataAt c
              (.set (setDeleteRaw (setElemsOf ((markChanged
                (prepareSetCopy st d) st.drafts.length
                  d).nodeAt c).data) dv))
              (h2.2.2.2.1 d c hc)
              (setDeleteRaw_draftLT (setElemsOf_draftLT (h2.2.2.1 _))) h2
            exact ⟨h4, evolves_trans he1 (evolves_trans he2 he4)⟩
          · simp only [Except.ok.injEq, Prod.mk.injEq] at hrun
            obtain ⟨rfl, rfl⟩ := hrun
            exact ⟨h2, evolves_trans he1 he2⟩
      · simp only [Except.ok.injEq, Prod.mk.injEq] at hrun
        obtain ⟨rfl, rfl⟩ := hrun
        exact ⟨h2, evolves_trans he1 he2⟩

theorem invAt_draftSetClear {n : Nat} {st st' : EngineState} {d : Nat}
    (hd : d < st.drafts.length) (hinv : InvAt n st)
    (hrun : draftSetClear st d = .ok st') :
    InvAt n st' ∧ Evolves n st st' := by
  simp only [draftSetClear] at hrun
  split at hrun
  · cases hrun
  · split at hrun
    · obtain ⟨h1, he1, hd1⟩ := invAt_prepareSetCopy hd hinv
      obtain ⟨h2, he2, hl2⟩ := invAt_markChanged hd hd1 h1
      split at hrun
      · rename_i c hc
        simp only [Except.ok.injEq] at hrun
        subst hrun
        obtain ⟨h4, he4, hdr4⟩ := invAt_writeDataAt c (.set [])
          (h2.2.2.2.1 d c hc) rfl h2
        exact ⟨h4, evolves_trans he1 (evolves_trans he2 he4)⟩
      · simp only [Except.ok.injEq] at hrun
        subst hrun
        exact ⟨h2, evolves_trans he1 he2⟩
    · simp only [Except.ok.injEq] at hrun
      subst hrun
      exact ⟨hinv, evolves_refl _ _⟩

/-! ## Recipe-level preservation -/

theorem invAt_navigate {n : Nat} {st st' : EngineState} {d : Nat}
    {seg : Seg} {v : Val}
    (hd : d < st.drafts.length) (hinv : InvAt n st)
    (hrun : navigate st d seg = .ok (st', v)) :
    InvAt n st' ∧ Evolves n st st' ∧ d < st'.drafts.length ∧
      v.draftLT st'.drafts.length = true := by
  cases seg with
  | prop k =>
      simp only [navigate] at hrun
      split at hrun
      · exact invAt_proxyGet hd hinv hrun
      · exact invAt_proxyGet hd hinv hrun
      · simp only [Except.ok.injEq, Prod.mk.injEq] at hrun
        obtain ⟨rfl, rfl⟩ := hrun
        exact ⟨hinv, evolves_refl _ _, hd, rfl⟩
  | mkey k =>
      simp only [navigate] at hrun
      split at hrun
      · exact invAt_draftMapGet hd (by rfl) hinv hrun
      · simp only [Except.ok.injEq, Prod.mk.injEq] at hrun
        obtain ⟨rfl, rfl⟩ := hrun
        exact ⟨hinv, evolves_refl _ _, hd, rfl⟩
  | selem i =>
      simp only [navigate] at hrun
      split at hrun
      · cases hsv : draftSetValues st d with
        | error e =>
            rw [hsv] at hrun
            simp only [ebind_error] at hrun
            cases hrun
        | ok p =>
            obtain ⟨st1, xs⟩ := p
            rw [hsv] at hrun
            simp only [ebind_ok, Except.ok.injEq, Prod.mk.injEq] at hrun
            obtain ⟨rfl, rfl⟩ := hrun
            obtain ⟨h1, he1, hd1, hxs⟩ := invAt_draftSetValues hd hinv hsv
            exact ⟨h1, he1, hd1, all_draftLT_getD hxs rfl⟩
      · simp only [Except.ok.injEq, Prod.mk.injEq] at hrun
        obtain ⟨rfl, rfl⟩ := hrun
        exact ⟨hinv, evolves_refl _ _, hd, rfl⟩

theorem invAt_walkDraft {n : Nat} :
    ∀ (path : List Seg) (st : EngineState) (d : Nat)
      {st' : EngineState} {d2 : Nat},
    d < st.drafts.length → InvAt n st →
    walkDraft st d path = .ok (st', d2) →
    InvAt n st' ∧ Evolves n st st' ∧ d2 < st'.drafts.length
  | [], st, d, st', d2, hd, hinv, hrun => by
      simp only [walkDraft, Except.ok.injEq, Prod.mk.injEq] at hrun
      obtain ⟨rfl, rfl⟩ := hrun
      exact ⟨hinv, evolves_refl _ _, hd⟩
  | seg :: rest, st, d, st', d2, hd, hinv, hrun => by
      simp only [walkDraft] at hrun
      cases hnav : navigate st d seg with
      | error e =>
          rw [hnav] at hrun
          simp only [ebind_error] at hrun
          cases hrun
      | ok p =>
          obtain ⟨st1, v⟩ := p
          rw [hnav] at hrun
          simp only [ebind_ok] at hrun
          obtain ⟨h1, he1, hd1, hv1⟩ := invAt_navigate hd hinv hnav
          cases v with
          | draft dd =>
              have hdd : dd < st1.drafts.length := by
                simpa [Val.draftLT] using hv1
              obtain ⟨h2, he2, hd2⟩ :=
                invAt_walkDraft rest st1 dd hdd h1 hrun
              exact ⟨h2, evolves_trans he1 he2, hd2⟩
          | prim p => cases hrun
          | ref a => cases hrun

theorem invAt_execRead {n : Nat} :
    ∀ (path : List Seg) (st : EngineState) (d : Nat) {st' : EngineState},
    d < st.drafts.length → InvAt n st →
    execRead st d path = .ok st' →
    InvAt n st' ∧ Evolves n st st'
  | [], st, d, st', hd, hinv, hrun => by
      simp only [execRead, Except.ok.injEq] at hrun
      subst hrun
      exact ⟨hinv, evolves_refl _ _⟩
  | seg :: rest, st, d, st', hd, hinv, hrun => by
      simp only [execRead] at hrun
      cases hnav : navigate st d seg with
      | error e =>
          rw [hnav] at hrun
          simp only [ebind_error] at hrun
          cases hrun
      | ok p =>
          obtain ⟨st1, v⟩ := p
          rw [hnav] at hrun
          simp only [ebind_ok] at hrun
          obtain ⟨h1, he1, hd1, hv1⟩ := invAt_navigate hd hinv hnav
          cases v with
          | draft dd =>
              have hdd : dd < st1.drafts.length := by
                simpa [Val.draftLT] using hv1
              obtain ⟨h2, he2⟩ := invAt_execRead rest st1 dd hdd h1 hrun
              exact ⟨h2, evolves_trans he1 he2⟩
          | prim p =>
              simp only [Except.ok.injEq] at hrun
              subst hrun
              exact ⟨h1, he1⟩
          | ref a =>
              simp only [Except.ok.injEq] at hrun
              subst hrun
              exact ⟨h1, he1⟩

theorem invAt_execCmd {n : Nat} {st st' : EngineState} {c : Cmd}
    (h0 : 0 < st.drafts.length) (hinv : InvAt n st)
    (hrun : execCmd st c = .ok st') :
    InvAt n st' ∧ Evolves n st st' := by
  cases c with
  | get path =>
      simp only [execCmd] at hrun
      exact invAt_execRead path st 0 h0 hinv hrun
  | setProp path k v =>
      simp only [execCmd] at hrun
      cases hw : walkDraft st 0 path with
      | error e =>
          rw [hw] at hrun
          simp only [ebind_error] at hrun
          cases hrun
      | ok p =>
          obtain ⟨st1, d⟩ := p
          rw [hw] at hrun
          simp only [ebind_ok] at hrun
          obtain ⟨h1, he1, hd1⟩ := invAt_walkDraft path st 0 h0 hinv hw
          split at hrun
          · obtain ⟨h2, he2, hdr2, hw2⟩ := invAt_allocTree v h1
            have hd2 : d < (allocTree st1 v).1.drafts.length := by
              rw [hdr2]
              exact hd1
            obtain ⟨h3, he3⟩ := invAt_proxySet hd2 (hw2 _) h2 hrun
            exact ⟨h3, evolves_trans he1 (evolves_trans he2 he3)⟩
          · obtain ⟨h2, he2, hdr2, hw2⟩ := invAt_allocTree v h1
            have hd2 : d < (allocTree st1 v).1.drafts.length := by
              rw [hdr2]
              exact hd1
            obtain ⟨h3, he3⟩ := invAt_proxySet hd2 (hw2 _) h2 hrun
            exact ⟨h3, evolves_trans he1 (evolves_trans he2 he3)⟩
          · cases hrun
  | delProp path k =>
      simp only [execCmd] at hrun
      cases hw : walkDraft st 0 path with
      | error e =>
          rw [hw] at hrun
          simp only [ebind_error] at hrun
          cases hrun
      | ok p =>
          obtain ⟨st1, d⟩ := p
          rw [hw] at hrun
          simp only [ebind_ok] at hrun
          obtain ⟨h1, he1, hd1⟩ := invAt_walkDraft path st 0 h0 hinv hw
          split at hrun
          · obtain ⟨h3, he3⟩ := invAt_proxyDelete hd1 h1 hrun
            exact ⟨h3, evolves_trans he1 he3⟩
          · obtain ⟨h3, he3⟩ := invAt_proxyDelete hd1 h1 hrun
            exact ⟨h3, evolves_trans he1 he3⟩
          · cases hrun
  | mapSet path k v =>
      simp only [execCmd] at hrun
      cases hw : walkDraft st 0 path with
      | error e =>
          rw [hw] at hrun
          simp only [ebind_error] at hrun
          cases hrun
      | ok p =>
          obtain ⟨st1, d⟩ := p
          rw [hw] at hrun
          simp only [ebind_ok] at hrun
          obtain ⟨h1, he1, hd1⟩ := invAt_walkDraft path st 0 h0 hinv hw
          split at hrun
          · obtain ⟨h2, he2, hdr2, hw2⟩ := invAt_allocTree v h1
            have hd2 : d < (allocTree st1 v).1.drafts.length := by
              rw [hdr2]
              exact hd1
            obtain ⟨h3, he3⟩ := invAt_draftMapSet hd2 (by rfl) (hw2 _)
              h2 hrun
            exact ⟨h3, evolves_trans he1 (evolves_trans he2 he3)⟩
          · cases hrun
  | mapDelete path k =>
      simp only [execCmd] at hrun
      cases hw : walkDraft st 0 path with
      | error e =>
          rw [hw] at hrun
          simp only [ebind_error] at hrun
          cases hrun
      | ok p =>
          obtain ⟨st1, d⟩ := p
          rw [hw] at hrun
          simp only [ebind_ok] at hrun
          obtain ⟨h1, he1, hd1⟩ := invAt_walkDraft path st 0 h0 hinv hw
          split at hrun
          · cases hdel : draftMapDelete st1 d (.prim k) with
            | error e =>
                rw [hdel] at hrun
                simp only [ebind_error] at hrun
                cases hrun
            | ok q =>
                obtain ⟨st2, b⟩ := q
                rw [hdel] at hrun
                simp only [ebind_ok, Except.ok.injEq] at hrun
                subst hrun
                obtain ⟨h3, he3⟩ := invAt_draftMapDelete hd1 h1 hdel
                exact ⟨h3, evolves_trans he1 he3⟩
          · cases hrun
  | mapClear path =>
      simp only [execCmd] at hrun
      cases hw : walkDraft st 0 path with
      | error e =>
          rw [hw] at hrun
          simp only [ebind_error] at hrun
          cases hrun
      | ok p =>
          obtain ⟨st1, d⟩ := p
          rw [hw] at hrun
          simp only [ebind_ok] at hrun
          obtain ⟨h1, he1, hd1⟩ := invAt_walkDraft path st 0 h0 hinv hw
          split at hrun
          · obtain ⟨h3, he3⟩ := invAt_draftMapClear hd1 h1 hrun
            exact ⟨h3, evolves_trans he1 he3⟩
          · cases hrun
  | setAdd path v =>
      simp only [execCmd] at hrun
      cases hw : walkDraft st 0 path with
      | error e =>
          rw [hw] at hrun
          simp only [ebind_error] at hrun
          cases hrun
      | ok p =>
          obtain ⟨st1, d⟩ := p
          rw [hw] at hrun
          simp only [ebind_ok] at hrun
          obtain ⟨h1, he1, hd1⟩ := invAt_walkDraft path st 0 h0 hinv hw
          split at hrun
          · obtain ⟨h2, he2, hdr2, hw2⟩ := invAt_allocTree v h1
            have hd2 : d < (allocTree st1 v).1.drafts.length := by
              rw [hdr2]
              exact hd1
            obtain ⟨h3, he3⟩ := invAt_draftSetAdd hd2 (hw2 _) h2 hrun
            exact ⟨h3, evolves_trans he1 (evolves_trans he2 he3)⟩
          · cases hrun
  | setDelete path v =>
      simp only [execCmd] at hrun
      cases hw : walkDraft st 0 path with
      | error e =>
          rw [hw] at hrun
          simp only [ebind_error] at hrun
          cases hrun
      | ok p =>
          obtain ⟨st1, d⟩ := p
          rw [hw] at hrun
          simp only [ebind_ok] at hrun
          obtain ⟨h1, he1, hd1⟩ := invAt_walkDraft path st 0 h0 hinv hw
          split at hrun
          · cases hdel : draftSetDelete st1 d (.prim v) with
            | error e =>
                rw [hdel] at hrun
                simp only [ebind_error] at hrun
                cases hrun
            | ok q =>
                obtain ⟨st2, b⟩ := q
                rw [hdel] at hrun
                simp only [ebind_ok, Except.ok.injEq] at hrun
                subst hrun
                obtain ⟨h3, he3⟩ := invAt_draftSetDelete hd1 h1 hdel
                exact ⟨h3, evolves_trans he1 he3⟩
          · cases hrun
  | setClear path =>
      simp only [execCmd] at hrun
      cases hw : walkDraft st 0 path with
      | error e =>
          rw [hw] at hrun
          simp only [ebind_error] at hrun
          cases hrun
      | ok p =>
          obtain ⟨st1, d⟩ := p
          rw [hw] at hrun
          simp only [ebind_ok] at hrun
          obtain ⟨h1, he1, hd1⟩ := invAt_walkDraft path st 0 h0 hinv hw
          split at hrun
          · obtain ⟨h3, he3⟩ := invAt_draftSetClear hd1 h1 hrun
            exact ⟨h3, evolves_trans he1 he3⟩
          · cases hrun

theorem invAt_execCmds {n : Nat} :
    ∀ (cs : List Cmd) (st : EngineState),
    0 < st.drafts.length → InvAt n st →
    InvAt n (execCmds st cs).1 ∧ Evolves n st (execCmds st cs).1
  | [], st, _, hinv => ⟨hinv, evolves_refl _ _⟩
  | c :: cs, st, h0, hinv => by
      simp only [execCmds]
      cases hc : execCmd st c with
      | ok st1 =>
          obtain ⟨h1, he1⟩ := invAt_execCmd h0 hinv hc
          have h01 : 0 < st1.drafts.length := by
            have := he1.1
            omega
          obtain ⟨h2, he2⟩ := invAt_execCmds cs st1 h01 h1
          exact ⟨h2, evolves_trans he1 he2⟩
      | error e => exact ⟨hinv, evolves_refl _ _⟩

theorem heapOK_mk {h : Heap} (hnd : heapNoDrafts h = true)
    {st : EngineState} (hh : st.heap = h) : HeapOK st := by
  intro a
  have hsame : st.nodeAt a = h.nodeAt a := by
    unfold EngineState.nodeAt
    rw [hh]
  rw [hsame]
  refine NodeData.draftLT_monoND (Nat.zero_le _) ?_
  unfold Heap.nodeAt
  rw [List.getD_eq_getElem?_getD]
  cases hx : h[a]? with
  | none => rfl
  | some node =>
      obtain ⟨hlt, rfl⟩ := List.getElem?_eq_some.mp hx
      simp only [heapNoDrafts, List.all_eq_true] at hnd
      simpa using hnd _ (List.getElem_mem hlt)

theorem modInv_ancestor {st : EngineState} (hmi : ModInv st) :
    ∀ d p, IsAncestor st p d → (st.draftAt d).modified_ = true →
      (st.draftAt p).modified_ = true := by
  intro d p hanc
  induction hanc with
  | parent hp => exact fun hd => hmi _ _ hd hp
  | trans hp hanc ih => exact fun hd => ih (hmi _ _ hd hp)

/-- C5: whenever a draft's modified flag is true, every ancestor draft
along the parent links is modified too — and this holds at every point
during the recipe's execution (after every prefix of the command list),
because every mutating operation of all four container kinds propagates
the flag eagerly through `markChanged`. -/
theorem modified_ancestor_modified (h : Heap) (baseAddr : Nat)
    (auto : Bool) (cmds : List Cmd) (m : Nat)
    (hnd : heapNoDrafts h = true) :
    ∀ d p, IsAncestor (produceRunPoint h baseAddr auto cmds m) p d →
      ((produceRunPoint h baseAddr auto cmds m).draftAt d).modified_
        = true →
      ((produceRunPoint h baseAddr auto cmds m).draftAt p).modified_
        = true := by
  intro d p hanc hd
  have hinv0 : InvAt 0
      ({ heap := h, drafts := [], patchesOn := false, patches := [],
         inversePatches := [], canAutoFreeze := true, unfinalized := 0,
         autoFreeze := auto } : EngineState) := by
    refine ⟨?_, ?_, heapOK_mk hnd rfl, ?_, Nat.zero_le _⟩
    · intro d' p' hp'
      rw [draftAt_oob (by simp)] at hp'
      cases hp'
    · intro d' p' hm' hp'
      rw [draftAt_oob (by simp)] at hm'
      cases hm'
    · intro d' c hc
      rw [draftAt_oob (by simp)] at hc
      cases hc
  obtain ⟨hinv1, hev1⟩ := invAt_createProxy baseAddr none
    (fun q hq => by cases hq) hinv0
  have h01 : 0 < (createProxy
      ({ heap := h, drafts := [], patchesOn := false, patches := [],
         inversePatches := [], canAutoFreeze := true, unfinalized := 0,
         autoFreeze := auto } : EngineState)
      baseAddr none).1.drafts.length := by
    rw [createProxy_len]
    omega
  obtain ⟨hinvM, hevM⟩ := invAt_execCmds (cmds.take m) _ h01 hinv1
  exact modInv_ancestor hinvM.2.1 d p hanc hd

/-- Concrete instance of C5: a one-command run over `{a: 1}`. -/
theorem modified_ancestor_modified_witness :
    heapNoDrafts
      [{ data := .obj [("a", Val.prim (.num 1))], frozen := false }]
      = true ∧
    (∀ d p, IsAncestor (produceRunPoint
        [{ data := .obj [("a", Val.prim (.num 1))], frozen := false }]
        0 false [Cmd.setProp [] "b" (.prim (.num 2))] 1) p d →
      ((produceRunPoint
        [{ data := .obj [("a", Val.prim (.num 1))], frozen := false }]
        0 false [Cmd.setProp [] "b" (.prim (.num 2))] 1).draftAt
          d).modified_ = true →
      ((produceRunPoint
        [{ data := .obj [("a", Val.prim (.num 1))], frozen := false }]
        0 false [Cmd.setProp [] "b" (.prim (.num 2))] 1).draftAt
          p).modified_ = true) :=
  ⟨rfl, modified_ancestor_modified _ 0 false _ 1 rfl⟩

/-! ## Read-only runs: frame lemmas -/

theorem readFrame_refl (st : EngineState) : ReadFrame st st :=
  ⟨rfl, rfl, rfl⟩

theorem readFrame_trans {s1 s2 s3 : EngineState}
    (h12 : ReadFrame s1 s2) (h23 : ReadFrame s2 s3) : ReadFrame s1 s3 :=
  ⟨h23.1.trans h12.1, h23.2.1.trans h12.2.1, h23.2.2.trans h12.2.2⟩

theorem freezeVal_frame : ∀ (fuel : Nat) (st : EngineState) (v : Val)
    (deep : Bool),
    (freezeVal fuel st v deep).drafts = st.drafts ∧
    (freezeVal fuel st v deep).patches = st.patches ∧
    (freezeVal fuel st v deep).inversePatches = st.inversePatches
  | 0, st, v, deep => ⟨rfl, rfl, rfl⟩
  | fuel + 1, st, v, deep => by
      unfold freezeVal
      split
      · exact ⟨rfl, rfl, rfl⟩
      · split
        · split
          · have hfold : ∀ (l : List Val) (s : EngineState),
                ((l.foldl (fun s c => freezeVal fuel s c true) s).drafts
                  = s.drafts) ∧
                ((l.foldl (fun s c => freezeVal fuel s c true) s).patches
                  = s.patches) ∧
                ((l.foldl (fun s c =>
                  freezeVal fuel s c true) s).inversePatches
                  = s.inversePatches) := by
              intro l
              induction l with
              | nil => exact fun s => ⟨rfl, rfl, rfl⟩
              | cons c rest ih =>
                  intro s
                  simp only [List.foldl_cons]
                  have h1 := freezeVal_frame fuel s c true
                  have h2 := ih (freezeVal fuel s c true)
                  exact ⟨h2.1.trans h1.1, h2.2.1.trans h1.2.1,
                    h2.2.2.trans h1.2.2⟩
            exact hfold _ _
          · exact ⟨rfl, rfl, rfl⟩
        · exact ⟨rfl, rfl, rfl⟩

theorem maybeFreeze_frame (st : EngineState) (v : Val) (deep : Bool) :
    (maybeFreeze st v deep).drafts = st.drafts ∧
    (maybeFreeze st v deep).patches = st.patches ∧
    (maybeFreeze st v deep).inversePatches = st.inversePatches := by
  unfold maybeFreeze
  split
  · exact freezeVal_frame _ _ _ _
  · exact ⟨rfl, rfl, rfl⟩

theorem read_of_drafts_eq {st st' : EngineState}
    (hd : st'.drafts = st.drafts) (hp : st'.patches = st.patches)
    (hip : st'.inversePatches = st.inversePatches) :
    (AllUnmodified st → AllUnmodified st') ∧
    (NoneRevoked st → NoneRevoked st') ∧ ReadFrame st st' := by
  refine ⟨fun h x => ?_, fun h x => ?_, ?_, hp, hip⟩
  · rw [draftAt_congr hd]
    exact h x
  · rw [draftAt_congr hd]
    exact h x
  · rw [draftAt_congr hd]

theorem allUnmodified_setDraft {st : EngineState} {d : Nat}
    {ds : DraftState} (h : AllUnmodified st) (hm : ds.modified_ = false) :
    AllUnmodified (st.setDraft d ds) := by
  intro x
  rw [draftAt_setDraft]
  by_cases hc : d = x ∧ d < st.drafts.length
  · rw [if_pos hc]
    exact hm
  · rw [if_neg hc]
    exact h x

theorem noneRevoked_setDraft {st : EngineState} {d : Nat}
    {ds : DraftState} (h : NoneRevoked st) (hm : ds.revoked_ = false) :
    NoneRevoked (st.setDraft d ds) := by
  intro x
  rw [draftAt_setDraft]
  by_cases hc : d = x ∧ d < st.drafts.length
  · rw [if_pos hc]
    exact hm
  · rw [if_neg hc]
    exact h x

theorem base0_setDraft {st st0 : EngineState} {d : Nat} {ds : DraftState}
    (hst : st.drafts = st0.drafts)
    (hb : ds.base_ = (st0.draftAt d).base_) :
    ((st.setDraft d ds).draftAt 0).base_ = (st0.draftAt 0).base_ := by
  rw [draftAt_setDraft]
  by_cases hc : d = 0 ∧ d < st.drafts.length
  · rw [if_pos hc]
    obtain ⟨rfl, -⟩ := hc
    exact hb
  · rw [if_neg hc, draftAt_congr hst]

theorem read_createProxy {st : EngineState} (a : Nat) (par : Option Nat)
    (hlen : 0 < st.drafts.length)
    (hum : AllUnmodified st) (hrev : NoneRevoked st) :
    AllUnmodified (createProxy st a par).1 ∧
    NoneRevoked (createProxy st a par).1 ∧
    ReadFrame st (createProxy st a par).1 := by
  refine ⟨fun x => ?_, fun x => ?_, ?_, rfl, rfl⟩
  · rw [createProxy_draftAt]
    by_cases hc : x = st.drafts.length
    · rw [if_pos hc]
    · rw [if_neg hc]
      exact hum x
  · rw [createProxy_draftAt]
    by_cases hc : x = st.drafts.length
    · rw [if_pos hc]
    · rw [if_neg hc]
      exact hrev x
  · rw [createProxy_draftAt, if_neg (by omega)]

theorem read_prepareCopy {st : EngineState} (d : Nat)
    (hum : AllUnmodified st) (hrev : NoneRevoked st) :
    AllUnmodified (prepareCopy st d) ∧ NoneRevoked (prepareCopy st d) ∧
    ReadFrame st (prepareCopy st d) := by
  cases hc : (st.draftAt d).copy_ with
  | some c =>
      rw [prepareCopy_of_some hc]
      exact ⟨hum, hrev, readFrame_refl st⟩
  | none =>
      rw [prepareCopy_of_none hc]
      have hum1 : AllUnmodified (st.alloc
          (st.nodeAt (st.draftAt d).base_).data).1 := hum
      have hrev1 : NoneRevoked (st.alloc
          (st.nodeAt (st.draftAt d).base_).data).1 := hrev
      refine ⟨allUnmodified_setDraft hum1 (hum d),
        noneRevoked_setDraft hrev1 (hrev d), ?_, rfl, rfl⟩
      exact base0_setDraft rfl rfl

theorem read_prepareMapCopy {st : EngineState} (d : Nat)
    (hum : AllUnmodified st) (hrev : NoneRevoked st) :
    AllUnmodified (prepareMapCopy st d) ∧
    NoneRevoked (prepareMapCopy st d) ∧
    ReadFrame st (prepareMapCopy st d) := by
  cases hc : (st.draftAt d).copy_ with
  | some c =>
      rw [prepareMapCopy_of_some hc]
      exact ⟨hum, hrev, readFrame_refl st⟩
  | none =>
      rw [prepareMapCopy_of_none hc]
      have hum1 : AllUnmodified (st.alloc
          (st.nodeAt (st.draftAt d).base_).data).1 := hum
      have hrev1 : NoneRevoked (st.alloc
          (st.nodeAt (st.draftAt d).base_).data).1 := hrev
      refine ⟨allUnmodified_setDraft hum1 (hum d),
        noneRevoked_setDraft hrev1 (hrev d), ?_, rfl, rfl⟩
      exact base0_setDraft rfl rfl

theorem read_setCopyFold (d : Nat) :
    ∀ (elems : List Val) (s : EngineState) (cs : List Val)
      (dm : List (Val × Val)),
    0 < s.drafts.length → AllUnmodified s → NoneRevoked s →
    0 < (elems.foldl (setCopyStep d) (s, cs, dm)).1.drafts.length ∧
    AllUnmodified (elems.foldl (setCopyStep d) (s, cs, dm)).1 ∧
    NoneRevoked (elems.foldl (setCopyStep d) (s, cs, dm)).1 ∧
    ReadFrame s (elems.foldl (setCopyStep d) (s, cs, dm)).1
  | [], s, cs, dm, hlen, hum, hrev => ⟨hlen, hum, hrev, readFrame_refl s⟩
  | v :: rest, s, cs, dm, hlen, hum, hrev => by
      simp only [List.foldl_cons]
      cases v with
      | prim p => exact read_setCopyFold d rest s _ _ hlen hum hrev
      | draft i => exact read_setCopyFold d rest s _ _ hlen hum hrev
      | ref a =>
          by_cases hdr : isDraftableV s.heap (.ref a) = true
          · have hstep : setCopyStep d (s, cs, dm) (.ref a) =
                ((createProxy s a (some d)).1,
                  cs ++ [Val.draft s.drafts.length],
                  dm ++ [(.ref a, Val.draft s.drafts.length)]) := by
              unfold setCopyStep
              simp only [hdr, if_true]
              rfl
            rw [hstep]
            obtain ⟨hum2, hrev2, hf2⟩ :=
              read_createProxy a (some d) hlen hum hrev
            have hlen2 : 0 < (createProxy s a (some d)).1.drafts.length := by
              rw [createProxy_len]
              omega
            have h := read_setCopyFold d rest (createProxy s a (some d)).1
              (cs ++ [Val.draft s.drafts.length])
              (dm ++ [(.ref a, Val.draft s.drafts.length)])
              hlen2 hum2 hrev2
            exact ⟨h.1, h.2.1, h.2.2.1, readFrame_trans hf2 h.2.2.2⟩
          · have hstep : setCopyStep d (s, cs, dm) (.ref a) =
                (s, cs ++ [Val.ref a], dm) := by
              unfold setCopyStep
              simp only
              rw [if_neg hdr]
            rw [hstep]
            exact read_setCopyFold d rest s _ _ hlen hum hrev

theorem read_setCopyTail (d : Nat) (elems : List Val) (st : EngineState)
    (hlen : 0 < st.drafts.length)
    (hum : AllUnmodified st) (hrev : NoneRevoked st) :
    AllUnmodified (((elems.foldl (setCopyStep d) (st, [], [])).1.alloc
        (.set (elems.foldl (setCopyStep d) (st, [], [])).2.1)).1.modifyDraft d
        (fun ds1 => { ds1 with
          copy_ := some ((elems.foldl (setCopyStep d) (st, [], [])).1.alloc
            (.set (elems.foldl (setCopyStep d) (st, [], [])).2.1)).2,
          setDrafts := ds1.setDrafts ++
            (elems.foldl (setCopyStep d) (st, [], [])).2.2 })) ∧
    NoneRevoked (((elems.foldl (setCopyStep d) (st, [], [])).1.alloc
        (.set (elems.foldl (setCopyStep d) (st, [], [])).2.1)).1.modifyDraft d
        (fun ds1 => { ds1 with
          copy_ := some ((elems.foldl (setCopyStep d) (st, [], [])).1.alloc
            (.set (elems.foldl (setCopyStep d) (st, [], [])).2.1)).2,
          setDrafts := ds1.setDrafts ++
            (elems.foldl (setCopyStep d) (st, [], [])).2.2 })) ∧
    ReadFrame st
      (((elems.foldl (setCopyStep d) (st, [], [])).1.alloc
        (.set (elems.foldl (setCopyStep d) (st, [], [])).2.1)).1.modifyDraft d
        (fun ds1 => { ds1 with
          copy_ := some ((elems.foldl (setCopyStep d) (st, [], [])).1.alloc
            (.set (elems.foldl (setCopyStep d) (st, [], [])).2.1)).2,
          setDrafts := ds1.setDrafts ++
            (elems.foldl (setCopyStep d) (st, [], [])).2.2 })) := by
  obtain ⟨hl1, hum1, hrev1, hf1⟩ :=
    read_setCopyFold d elems st [] [] hlen hum hrev
  refine ⟨allUnmodified_setDraft hum1 (hum1 d),
    noneRevoked_setDraft hrev1 (hrev1 d),
    readFrame_trans hf1 ⟨?_, rfl, rfl⟩⟩
  exact base0_setDraft rfl rfl

theorem read_prepareSetCopy (d : Nat) {st : EngineState}
    (hlen : 0 < st.drafts.length)
    (hum : AllUnmodified st) (hrev : NoneRevoked st) :
    AllUnmodified (prepareSetCopy st d) ∧
    NoneRevoked (prepareSetCopy st d) ∧
    ReadFrame st (prepareSetCopy st d) := by
  cases hc : (st.draftAt d).copy_ with
  | some c =>
      have heq : prepareSetCopy st d = st := by
        unfold prepareSetCopy
        simp only [hc]
      rw [heq]
      exact ⟨hum, hrev, readFrame_refl st⟩
  | none =>
      unfold prepareSetCopy
      cases hdata : (st.nodeAt (st.draftAt d).base_).data with
      | set xs =>
          simp only [hc, hdata]
          exact read_setCopyTail d xs st hlen hum hrev
      | obj fs =>
          simp only [hc, hdata]
          exact read_setCopyTail d [] st hlen hum hrev
      | arr xs =>
          simp only [hc, hdata]
          exact read_setCopyTail d [] st hlen hum hrev
      | map es =>
          simp only [hc, hdata]
          exact read_setCopyTail d [] st hlen hum hrev
      | opaq =>
          simp only [hc, hdata]
          exact read_setCopyTail d [] st hlen hum hrev

theorem proxyGet_error_revoked {st : EngineState} {d : Nat} {k : String}
    {e : Err} (h : proxyGet st d k = .error e) :
    (st.draftAt d).revoked_ = true := by
  simp only [proxyGet] at h
  split at h
  · assumption
  · repeat' split at h
    all_goals cases h

theorem draftMapGet_error_revoked {st : EngineState} {d : Nat} {k : Val}
    {e : Err} (h : draftMapGet st d k = .error e) :
    (st.draftAt d).revoked_ = true := by
  simp only [draftMapGet] at h
  split at h
  · assumption
  · repeat' split at h
    all_goals cases h

theorem draftSetValues_error_revoked {st : EngineState} {d : Nat}
    {e : Err} (h : draftSetValues st d = .error e) :
    (st.draftAt d).revoked_ = true := by
  simp only [draftSetValues] at h
  split at h
  · assumption
  · repeat' split at h
    all_goals cases h

theorem prepareCopy_drafts_length (st : EngineState) (d : Nat) :
    (prepareCopy st d).drafts.length = st.drafts.length := by
  cases hc : (st.draftAt d).copy_ with
  | some c => rw [prepareCopy_of_some hc]
  | none =>
      rw [prepareCopy_of_none hc]
      exact setDraft_mark_length _ _ _

theorem prepareMapCopy_drafts_length (st : EngineState) (d : Nat) :
    (prepareMapCopy st d).drafts.length = st.drafts.length := by
  cases hc : (st.draftAt d).copy_ with
  | some c => rw [prepareMapCopy_of_some hc]
  | none =>
      rw [prepareMapCopy_of_none hc]
      exact setDraft_mark_length _ _ _

theorem setCopyFold_len_ge (d : Nat) :
    ∀ (elems : List Val) (s : EngineState) (cs : List Val)
      (dm : List (Val × Val)),
    s.drafts.length ≤
      (elems.foldl (setCopyStep d) (s, cs, dm)).1.drafts.length
  | [], s, cs, dm => Nat.le_refl _
  | v :: rest, s, cs, dm => by
      simp only [List.foldl_cons]
      cases v with
      | prim p => exact setCopyFold_len_ge d rest s _ _
      | draft i => exact setCopyFold_len_ge d rest s _ _
      | ref a =>
          by_cases hdr : isDraftableV s.heap (.ref a) = true
          · have hstep : setCopyStep d (s, cs, dm) (.ref a) =
                ((createProxy s a (some d)).1,
                  cs ++ [Val.draft s.drafts.length],
                  dm ++ [(.ref a, Val.draft s.drafts.length)]) := by
              unfold setCopyStep
              simp only [hdr, if_true]
              rfl
            rw [hstep]
            have h := setCopyFold_len_ge d rest (createProxy s a (some d)).1
              (cs ++ [Val.draft s.drafts.length])
              (dm ++ [(.ref a, Val.draft s.drafts.length)])
            have h2 := createProxy_len s a (some d)
            omega
          · have hstep : setCopyStep d (s, cs, dm) (.ref a) =
                (s, cs ++ [Val.ref a], dm) := by
              unfold setCopyStep
              simp only
              rw [if_neg hdr]
            rw [hstep]
            exact setCopyFold_len_ge d rest s _ _

theorem prepareSetCopy_len_pos {st : EngineState} (d : Nat)
    (hlen : 0 < st.drafts.length) :
    0 < (prepareSetCopy st d).drafts.length := by
  cases hc : (st.draftAt d).copy_ with
  | some c =>
      have heq : prepareSetCopy st d = st := by
        unfold prepareSetCopy
        simp only [hc]
      rw [heq]
      exact hlen
  | none =>
      unfold prepareSetCopy
      have hmd : ∀ (s : EngineState) (f : DraftState → DraftState),
          (s.modifyDraft d f).drafts.length = s.drafts.length :=
        fun s f => setDraft_mark_length _ _ _
      cases hdata : (st.nodeAt (st.draftAt d).base_).data with
      | set xs =>
          simp only [hc, hdata]
          rw [hmd]
          have h := setCopyFold_len_ge d xs st [] []
          show 0 < (xs.foldl (setCopyStep d) (st, [], [])).1.drafts.length
          omega
      | obj fs =>
          simp only [hc, hdata]
          rw [hmd]
          exact hlen
      | arr xs =>
          simp only [hc, hdata]
          rw [hmd]
          exact hlen
      | map es =>
          simp only [hc, hdata]
          rw [hmd]
          exact hlen
      | opaq =>
          simp only [hc, hdata]
          rw [hmd]
          exact hlen

theorem writeCopy_frame (st : EngineState) (d : Nat) (k : String)
    (v : Val) :
    (writeCopy st d k v).drafts = st.drafts ∧
    (writeCopy st d k v).patches = st.patches ∧
    (writeCopy st d k v).inversePatches = st.inversePatches := by
  unfold writeCopy
  split <;> exact ⟨rfl, rfl, rfl⟩

theorem writeMapCopy_frame (st : EngineState) (d : Nat) (k v : Val) :
    (writeMapCopy st d k v).drafts = st.drafts ∧
    (writeMapCopy st d k v).patches = st.patches ∧
    (writeMapCopy st d k v).inversePatches = st.inversePatches := by
  unfold writeMapCopy
  split <;> exact ⟨rfl, rfl, rfl⟩

theorem read_proxyGet {st st' : EngineState} {d : Nat} {k : String}
    {v : Val}
    (hlen : 0 < st.drafts.length) (hum : AllUnmodified st)
    (hrev : NoneRevoked st) (hrun : proxyGet st d k = .ok (st', v)) :
    0 < st'.drafts.length ∧ AllUnmodified st' ∧ NoneRevoked st' ∧
      ReadFrame st st' := by
  simp only [proxyGet] at hrun
  split at hrun
  · cases hrun
  · split at hrun
    · simp only [Except.ok.injEq, Prod.mk.injEq] at hrun
      obtain ⟨rfl, rfl⟩ := hrun
      exact ⟨hlen, hum, hrev, readFrame_refl st⟩
    · next value hfound =>
      split at hrun
      · simp only [Except.ok.injEq, Prod.mk.injEq] at hrun
        obtain ⟨rfl, rfl⟩ := hrun
        exact ⟨hlen, hum, hrev, readFrame_refl st⟩
      · split at hrun
        · cases value with
          | prim p =>
              simp only [Except.ok.injEq, Prod.mk.injEq] at hrun
              obtain ⟨rfl, rfl⟩ := hrun
              exact ⟨hlen, hum, hrev, readFrame_refl st⟩
          | draft i =>
              simp only [Except.ok.injEq, Prod.mk.injEq] at hrun
              obtain ⟨rfl, rfl⟩ := hrun
              exact ⟨hlen, hum, hrev, readFrame_refl st⟩
          | ref a =>
              simp only [Except.ok.injEq, Prod.mk.injEq] at hrun
              obtain ⟨rfl, rfl⟩ := hrun
              obtain ⟨humP, hrevP, hfP⟩ := read_prepareCopy d hum hrev
              have hlenP : 0 < (prepareCopy st d).drafts.length := by
                rw [prepareCopy_drafts_length]
                exact hlen
              obtain ⟨humC, hrevC, hfC⟩ :=
                read_createProxy a (some d) hlenP humP hrevP
              have hlenC : 0 < (createProxy (prepareCopy st d) a
                  (some d)).1.drafts.length := by
                rw [createProxy_len]
                omega
              have hwf := writeCopy_frame (createProxy (prepareCopy st d) a
                (some d)).1 d k
                (Val.draft (createProxy (prepareCopy st d) a (some d)).2)
              have ht := read_of_drafts_eq hwf.1 hwf.2.1 hwf.2.2
              refine ⟨?_, ht.1 humC, ht.2.1 hrevC,
                readFrame_trans hfP (readFrame_trans hfC ht.2.2)⟩
              rw [show (writeCopy (createProxy (prepareCopy st d) a
                (some d)).1 d k (Val.draft (createProxy (prepareCopy st d)
                  a (some d)).2)).drafts = _ from hwf.1]
              exact hlenC
        · simp only [Except.ok.injEq, Prod.mk.injEq] at hrun
          obtain ⟨rfl, rfl⟩ := hrun
          exact ⟨hlen, hum, hrev, readFrame_refl st⟩

theorem read_draftMapGet {st st' : EngineState} {d : Nat} {k v : Val}
    (hlen : 0 < st.drafts.length) (hum : AllUnmodified st)
    (hrev : NoneRevoked st) (hrun : draftMapGet st d k = .ok (st', v)) :
    0 < st'.drafts.length ∧ AllUnmodified st' ∧ NoneRevoked st' ∧
      ReadFrame st st' := by
  simp only [draftMapGet] at hrun
  split at hrun
  · cases hrun
  · split at hrun
    · simp only [Except.ok.injEq, Prod.mk.injEq] at hrun
      obtain ⟨rfl, rfl⟩ := hrun
      exact ⟨hlen, hum, hrev, readFrame_refl st⟩
    · split at hrun
      · simp only [Except.ok.injEq, Prod.mk.injEq] at hrun
        obtain ⟨rfl, rfl⟩ := hrun
        exact ⟨hlen, hum, hrev, readFrame_refl st⟩
      · split at hrun
        · rename_i a ha
          simp only [Except.ok.injEq, Prod.mk.injEq] at hrun
          obtain ⟨rfl, rfl⟩ := hrun
          obtain ⟨humC, hrevC, hfC⟩ :=
            read_createProxy a (some d) hlen hum hrev
          have hlenC : 0 < (createProxy st a
              (some d)).1.drafts.length := by
            rw [createProxy_len]
            omega
          obtain ⟨humP, hrevP, hfP⟩ := read_prepareMapCopy d humC hrevC
          have hlenP : 0 < (prepareMapCopy (createProxy st a
              (some d)).1 d).drafts.length := by
            rw [prepareMapCopy_drafts_length]
            exact hlenC
          have hwf := writeMapCopy_frame (prepareMapCopy (createProxy st a
            (some d)).1 d) d k
            (Val.draft (createProxy st a (some d)).2)
          have ht := read_of_drafts_eq hwf.1 hwf.2.1 hwf.2.2
          refine ⟨?_, ht.1 humP, ht.2.1 hrevP,
            readFrame_trans hfC (readFrame_trans hfP ht.2.2)⟩
          rw [show (writeMapCopy (prepareMapCopy (createProxy st a
            (some d)).1 d) d k (Val.draft (createProxy st a
              (some d)).2)).drafts = _ from hwf.1]
          exact hlenP
        · simp only [Except.ok.injEq, Prod.mk.injEq] at hrun
          obtain ⟨rfl, rfl⟩ := hrun
          exact ⟨hlen, hum, hrev, readFrame_refl st⟩

theorem read_draftSetValues {st st' : EngineState} {d : Nat}
    {xs : List Val}
    (hlen : 0 < st.drafts.length) (hum : AllUnmodified st)
    (hrev : NoneRevoked st) (hrun : draftSetValues st d = .ok (st', xs)) :
    0 < st'.drafts.length ∧ AllUnmodified st' ∧ NoneRevoked st' ∧
      ReadFrame st st' := by
  simp only [draftSetValues] at hrun
  split at hrun
  · cases hrun
  · obtain ⟨humS, hrevS, hfS⟩ := read_prepareSetCopy d hlen hum hrev
    have hlenS := prepareSetCopy_len_pos d hlen
    split at hrun
    · simp only [Except.ok.injEq, Prod.mk.injEq] at hrun
      obtain ⟨rfl, rfl⟩ := hrun
      exact ⟨hlenS, humS, hrevS, hfS⟩
    · simp only [Except.ok.injEq, Prod.mk.injEq] at hrun
      obtain ⟨rfl, rfl⟩ := hrun
      exact ⟨hlenS, humS, hrevS, hfS⟩

theorem read_navigate {st : EngineState} (d : Nat) (seg : Seg)
    (hlen : 0 < st.drafts.length) (hum : AllUnmodified st)
    (hrev : NoneRevoked st) :
    ∃ st' v, navigate st d seg = .ok (st', v) ∧
      0 < st'.drafts.length ∧ AllUnmodified st' ∧ NoneRevoked st' ∧
      ReadFrame st st' := by
  cases hres : navigate st d seg with
  | error e =>
      exfalso
      cases seg with
      | prop k =>
          simp only [navigate] at hres
          split at hres
          · have h1 := hrev d
            rw [proxyGet_error_revoked hres] at h1
            cases h1
          · have h1 := hrev d
            rw [proxyGet_error_revoked hres] at h1
            cases h1
          · cases hres
      | mkey k =>
          simp only [navigate] at hres
          split at hres
          · have h1 := hrev d
            rw [draftMapGet_error_revoked hres] at h1
            cases h1
          · cases hres
      | selem i =>
          simp only [navigate] at hres
          split at hres
          · cases hsv : draftSetValues st d with
            | error e1 =>
                have h1 := hrev d
                rw [draftSetValues_error_revoked hsv] at h1
                cases h1
            | ok p =>
                rw [hsv] at hres
                simp only [ebind_ok] at hres
                cases hres
          · cases hres
  | ok p =>
      obtain ⟨st1, v⟩ := p
      refine ⟨st1, v, rfl, ?_⟩
      cases seg with
      | prop k =>
          simp only [navigate] at hres
          split at hres
          · exact read_proxyGet hlen hum hrev hres
          · exact read_proxyGet hlen hum hrev hres
          · simp only [Except.ok.injEq, Prod.mk.injEq] at hres
            obtain ⟨rfl, rfl⟩ := hres
            exact ⟨hlen, hum, hrev, readFrame_refl st⟩
      | mkey k =>
          simp only [navigate] at hres
          split at hres
          · exact read_draftMapGet hlen hum hrev hres
          · simp only [Except.ok.injEq, Prod.mk.injEq] at hres
            obtain ⟨rfl, rfl⟩ := hres
            exact ⟨hlen, hum, hrev, readFrame_refl st⟩
      | selem i =>
          simp only [navigate] at hres
          split at hres
          · cases hsv : draftSetValues st d with
            | error e1 =>
                rw [hsv] at hres
                simp only [ebind_error] at hres
                cases hres
            | ok q =>
                obtain ⟨st2, xs⟩ := q
                rw [hsv] at hres
                simp only [ebind_ok, Except.ok.injEq, Prod.mk.injEq] at hres
                obtain ⟨rfl, rfl⟩ := hres
                exact read_draftSetValues hlen hum hrev hsv
          · simp only [Except.ok.injEq, Prod.mk.injEq] at hres
            obtain ⟨rfl, rfl⟩ := hres
            exact ⟨hlen, hum, hrev, readFrame_refl st⟩

theorem read_execRead : ∀ (path : List Seg) (st : EngineState) (d : Nat),
    0 < st.drafts.length → AllUnmodified st → NoneRevoked st →
    ∃ st', execRead st d path = .ok st' ∧ 0 < st'.drafts.length ∧
      AllUnmodified st' ∧ NoneRevoked st' ∧ ReadFrame st st'
  | [], st, d, hlen, hum, hrev =>
      ⟨st, rfl, hlen, hum, hrev, readFrame_refl st⟩
  | seg :: rest, st, d, hlen, hum, hrev => by
      obtain ⟨st1, v, hnav, hlen1, hum1, hrev1, hf1⟩ :=
        read_navigate d seg hlen hum hrev
      simp only [execRead]
      rw [hnav]
      simp only [ebind_ok]
      cases v with
      | draft dd =>
          obtain ⟨st2, hrec, hlen2, hum2, hrev2, hf2⟩ :=
            read_execRead rest st1 dd hlen1 hum1 hrev1
          exact ⟨st2, hrec, hlen2, hum2, hrev2, readFrame_trans hf1 hf2⟩
      | prim p => exact ⟨st1, rfl, hlen1, hum1, hrev1, hf1⟩
      | ref a => exact ⟨st1, rfl, hlen1, hum1, hrev1, hf1⟩

theorem read_execCmds : ∀ (cs : List Cmd) (st : EngineState),
    (∀ c ∈ cs, ∃ p, c = Cmd.get p) →
    0 < st.drafts.length → AllUnmodified st → NoneRevoked st →
    (execCmds st cs).2 = none ∧ 0 < (execCmds st cs).1.drafts.length ∧
    AllUnmodified (execCmds st cs).1 ∧ NoneRevoked (execCmds st cs).1 ∧
    ReadFrame st (execCmds st cs).1
  | [], st, _, hlen, hum, hrev => ⟨rfl, hlen, hum, hrev, readFrame_refl st⟩
  | c :: cs, st, hro, hlen, hum, hrev => by
      obtain ⟨p, rfl⟩ := hro c (List.mem_cons_self c cs)
      obtain ⟨st1, hrd, hlen1, hum1, hrev1, hf1⟩ :=
        read_execRead p st 0 hlen hum hrev
      have hcmd : execCmd st (Cmd.get p) = .ok st1 := hrd
      simp only [execCmds, hcmd]
      have h := read_execCmds cs st1
        (fun c hc => hro c (List.mem_cons_of_mem _ hc)) hlen1 hum1 hrev1
      exact ⟨h.1, h.2.1, h.2.2.1, h.2.2.2.1, readFrame_trans hf1 h.2.2.2.2⟩

theorem processResult_readonly {st : EngineState} (resVal : Val)
    (hres : resVal = Val.prim .undef ∨ resVal = Val.draft 0)
    (hum : AllUnmodified st) :
    (processResult st resVal).1 = .ok (.ref (st.draftAt 0).base_) ∧
    (processResult st resVal).2.patches = st.patches ∧
    (processResult st resVal).2.inversePatches = st.inversePatches := by
  have hmod0 : (({ st with unfinalized := st.drafts.length }
      : EngineState).draftAt 0).modified_ = false := hum 0
  have hfin : finalize
      (({ st with unfinalized := st.drafts.length }
        : EngineState).heap.length +
        ({ st with unfinalized := st.drafts.length }
          : EngineState).drafts.length + 1)
      ({ st with unfinalized := st.drafts.length } : EngineState)
      (Val.draft 0) (some []) =
      .ok (maybeFreeze ({ st with unfinalized := st.drafts.length }
          : EngineState)
        (.ref (({ st with unfinalized := st.drafts.length }
          : EngineState).draftAt 0).base_) true,
        .ref (({ st with unfinalized := st.drafts.length }
          : EngineState).draftAt 0).base_) := by
    conv_lhs => unfold finalize
    simp only [isFrozenV, Bool.false_eq_true, if_false, hmod0,
      Bool.not_false, if_true]
  have hmf := maybeFreeze_frame
    ({ st with unfinalized := st.drafts.length } : EngineState)
    (.ref (({ st with unfinalized := st.drafts.length }
      : EngineState).draftAt 0).base_) true
  rcases hres with rfl | rfl
  · have hstep : processResult st (Val.prim .undef) =
        (match finalize
          (({ st with unfinalized := st.drafts.length }
            : EngineState).heap.length +
            ({ st with unfinalized := st.drafts.length }
              : EngineState).drafts.length + 1)
          ({ st with unfinalized := st.drafts.length } : EngineState)
          (Val.draft 0) (some []) with
        | .error e =>
            ((.error e : Except Err Val),
              ({ st with unfinalized := st.drafts.length } : EngineState))
        | .ok (st1, r1) => (.ok r1, revokeScope st1)) := rfl
    rw [hstep, hfin]
    exact ⟨rfl, hmf.2.1, hmf.2.2⟩
  · have hstep : processResult st (Val.draft 0) =
        (match finalize
          (({ st with unfinalized := st.drafts.length }
            : EngineState).heap.length +
            ({ st with unfinalized := st.drafts.length }
              : EngineState).drafts.length + 1)
          ({ st with unfinalized := st.drafts.length } : EngineState)
          (Val.draft 0) (some []) with
        | .error e =>
            ((.error e : Except Err Val),
              ({ st with unfinalized := st.drafts.length } : EngineState))
        | .ok (st1, r1) => (.ok r1, revokeScope st1)) := rfl
    rw [hstep, hfin]
    exact ⟨rfl, hmf.2.1, hmf.2.2⟩

/-- C2: a recipe that performs no writes (only `get` navigations) and
returns `undefined` or the root draft makes `Run` return the base
reference itself, and both patch buffers stay empty. -/
theorem readonly_run_identity (h : Heap) (baseAddr : Nat)
    (cmds : List Cmd) (ret : RRet) (auto withP : Bool)
    (hdr : isDraftableV h (.ref baseAddr) = true)
    (hro : ∀ c ∈ cmds, ∃ p, c = Cmd.get p)
    (hret : ret = RRet.undef ∨ ret = RRet.root) :
    (produceRun h baseAddr ⟨cmds, ret⟩ auto withP).1 =
      .ok (.ref baseAddr) ∧
    (produceRun h baseAddr ⟨cmds, ret⟩ auto withP).2.patches = [] ∧
    (produceRun h baseAddr ⟨cmds, ret⟩ auto withP).2.inversePatches
      = [] := by
  have hum1 : AllUnmodified (createProxy
      ({ heap := h, drafts := [], patchesOn := false, patches := [],
         inversePatches := [], canAutoFreeze := true, unfinalized := 0,
         autoFreeze := auto } : EngineState) baseAddr none).1 := by
    intro x
    cases x with
    | zero => rfl
    | succ m => rfl
  have hrev1 : NoneRevoked (createProxy
      ({ heap := h, drafts := [], patchesOn := false, patches := [],
         inversePatches := [], canAutoFreeze := true, unfinalized := 0,
         autoFreeze := auto } : EngineState) baseAddr none).1 := by
    intro x
    cases x with
    | zero => rfl
    | succ m => rfl
  have hlen1 : 0 < (createProxy
      ({ heap := h, drafts := [], patchesOn := false, patches := [],
         inversePatches := [], canAutoFreeze := true, unfinalized := 0,
         autoFreeze := auto } : EngineState) baseAddr none).1.drafts.length
      := by
    rw [createProxy_len]
    omega
  have hexec := read_execCmds cmds _ hro hlen1 hum1 hrev1
  rcases hresE : execCmds (createProxy
      ({ heap := h, drafts := [], patchesOn := false, patches := [],
         inversePatches := [], canAutoFreeze := true, unfinalized := 0,
         autoFreeze := auto } : EngineState) baseAddr none).1 cmds
    with ⟨st2, oe⟩
  rw [hresE] at hexec
  obtain ⟨hoe, hlen2, hum2, hrev2, hbase2, hpat2, hipat2⟩ := hexec
  have hoe' : oe = none := hoe
  subst hoe'
  have hum3 : AllUnmodified
      (if withP then { st2 with patchesOn := true } else st2) := by
    cases withP
    · exact hum2
    · exact hum2
  have hbase3 : ((if withP then { st2 with patchesOn := true }
      else st2) : EngineState).draftAt 0 = st2.draftAt 0 := by
    cases withP
    · rfl
    · rfl
  have hpat3 : ((if withP then { st2 with patchesOn := true }
      else st2) : EngineState).patches = st2.patches := by
    cases withP
    · rfl
    · rfl
  have hipat3 : ((if withP then { st2 with patchesOn := true }
      else st2) : EngineState).inversePatches = st2.inversePatches := by
    cases withP
    · rfl
    · rfl
  have hbase1 : ((createProxy
      ({ heap := h, drafts := [], patchesOn := false, patches := [],
         inversePatches := [], canAutoFreeze := true, unfinalized := 0,
         autoFreeze := auto } : EngineState) baseAddr
        none).1.draftAt 0).base_ = baseAddr := rfl
  rcases hret with rfl | rfl
  · have hrun : produceRun h baseAddr ⟨cmds, RRet.undef⟩ auto withP =
        processResult (if withP then { st2 with patchesOn := true }
          else st2) (Val.prim .undef) := by
      simp only [produceRun, hdr, if_true, hresE]
    rw [hrun]
    have hpr := processResult_readonly (Val.prim .undef) (Or.inl rfl) hum3
    refine ⟨?_, ?_, ?_⟩
    · rw [hpr.1, hbase3, hbase2, hbase1]
    · rw [hpr.2.1, hpat3, hpat2]
      rfl
    · rw [hpr.2.2, hipat3, hipat2]
      rfl
  · have hrun : produceRun h baseAddr ⟨cmds, RRet.root⟩ auto withP =
        processResult (if withP then { st2 with patchesOn := true }
          else st2) (Val.draft 0) := by
      simp only [produceRun, hdr, if_true, hresE]
    rw [hrun]
    have hpr := processResult_readonly (Val.draft 0) (Or.inr rfl) hum3
    refine ⟨?_, ?_, ?_⟩
    · rw [hpr.1, hbase3, hbase2, hbase1]
    · rw [hpr.2.1, hpat3, hpat2]
      rfl
    · rw [hpr.2.2, hipat3, hipat2]
      rfl

/-- Concrete instance of C2: a two-read recipe over `{a: {b: 1}}`. -/
theorem readonly_run_identity_witness :
    isDraftableV
      [{ data := .obj [("a", Val.ref 1)], frozen := false },
       { data := .obj [("b", Val.prim (.num 1))], frozen := false }]
      (.ref 0) = true ∧
    (produceRun
      [{ data := .obj [("a", Val.ref 1)], frozen := false },
       { data := .obj [("b", Val.prim (.num 1))], frozen := false }]
      0 ⟨[Cmd.get [Seg.prop "a"], Cmd.get [Seg.prop "a", Seg.prop "b"]],
        RRet.root⟩ true true).1 = .ok (.ref 0) ∧
    (produceRun
      [{ data := .obj [("a", Val.ref 1)], frozen := false },
       { data := .obj [("b", Val.prim (.num 1))], frozen := false }]
      0 ⟨[Cmd.get [Seg.prop "a"], Cmd.get [Seg.prop "a", Seg.prop "b"]],
        RRet.root⟩ true true).2.patches = [] ∧
    (produceRun
      [{ data := .obj [("a", Val.ref 1)], frozen := false },
       { data := .obj [("b", Val.prim (.num 1))], frozen := false }]
      0 ⟨[Cmd.get [Seg.prop "a"], Cmd.get [Seg.prop "a", Seg.prop "b"]],
        RRet.root⟩ true true).2.inversePatches = [] := by
  refine ⟨rfl, ?_⟩
  have h := readonly_run_identity
    [{ data := .obj [("a", Val.ref 1)], frozen := false },
     { data := .obj [("b", Val.prim (.num 1))], frozen := false }]
    0 [Cmd.get [Seg.prop "a"], Cmd.get [Seg.prop "a", Seg.prop "b"]]
    RRet.root true true rfl
    (by
      intro c hc
      simp only [List.mem_cons, List.not_mem_nil, or_false] at hc
      rcases hc with rfl | rfl
      · exact ⟨_, rfl⟩
      · exact ⟨_, rfl⟩)
    (Or.inr rfl)
  exact h

/-! ## Replacement of a modified root -/

theorem revokeScope_len (st : EngineState) :
    (revokeScope st).drafts.length = st.drafts.length := by
  simp [revokeScope]

theorem revokeScope_revoked {st : EngineState} {x : Nat}
    (hx : x < st.drafts.length) :
    ((revokeScope st).draftAt x).revoked_ = true := by
  unfold revokeScope EngineState.draftAt
  simp only [List.getD_eq_getElem?_getD, List.getElem?_map]
  cases hg : st.drafts[x]? with
  | none =>
      exfalso
      rw [List.getElem?_eq_none_iff] at hg
      omega
  | some ds => rfl

theorem revokeScope_heap (st : EngineState) :
    (revokeScope st).heap = st.heap := rfl

theorem revokeScope_patches (st : EngineState) :
    (revokeScope st).patches = st.patches := rfl

theorem allocTree_result_ne_undef (st : EngineState) {t : RTree}
    (ht : t ≠ RTree.prim Prim.undef) :
    (allocTree st t).2 ≠ Val.prim Prim.undef := by
  cases t with
  | prim p =>
      intro he
      apply ht
      injection he with h1
      rw [h1]
  | obj fs => exact fun he => Val.noConfusion he
  | arr xs => exact fun he => Val.noConfusion he
  | rmap es => exact fun he => Val.noConfusion he
  | rset xs => exact fun he => Val.noConfusion he
  | opaq => exact fun he => Val.noConfusion he

theorem draftLT_zero_ne_draft {v : Val} (h : v.draftLT 0 = true) :
    ∀ i, v ≠ Val.draft i := by
  intro i he
  subst he
  simp [Val.draftLT] at h

/-- C4: a recipe that modifies the root draft and returns a fresh defined
value makes `Run` fail with the modified-and-returned error; the scope is
revoked in the final state, and the caller's heap keeps its structural
data. -/
theorem replacement_of_modified_fails (h : Heap) (baseAddr : Nat)
    (cmds : List Cmd) (t : RTree) (auto withP : Bool)
    (hdr : isDraftableV h (.ref baseAddr) = true)
    (hnd : heapNoDrafts h = true)
    (ht : t ≠ RTree.prim Prim.undef)
    (hok : (execCmds (createProxy
      ({ heap := h, drafts := [], patchesOn := false, patches := [],
         inversePatches := [], canAutoFreeze := true, unfinalized := 0,
         autoFreeze := auto } : EngineState) baseAddr none).1 cmds).2
      = none)
    (hmod : ((execCmds (createProxy
      ({ heap := h, drafts := [], patchesOn := false, patches := [],
         inversePatches := [], canAutoFreeze := true, unfinalized := 0,
         autoFreeze := auto } : EngineState) baseAddr
        none).1 cmds).1.draftAt 0).modified_ = true) :
    (produceRun h baseAddr ⟨cmds, .val t⟩ auto withP).1 =
      .error .modifiedAndReturned ∧
    (∀ x, x < (produceRun h baseAddr ⟨cmds, .val t⟩
        auto withP).2.drafts.length →
      (((produceRun h baseAddr ⟨cmds, .val t⟩
        auto withP).2.draftAt x).revoked_ = true)) ∧
    (∀ a, a < h.length →
      (((produceRun h baseAddr ⟨cmds, .val t⟩
        auto withP).2.heap.nodeAt a).data = (h.nodeAt a).data)) := by
  rcases hresE : execCmds (createProxy
      ({ heap := h, drafts := [], patchesOn := false, patches := [],
         inversePatches := [], canAutoFreeze := true, unfinalized := 0,
         autoFreeze := auto } : EngineState) baseAddr none).1 cmds
    with ⟨st2, oe⟩
  rw [hresE] at hok hmod
  have hoe : oe = none := hok
  subst hoe
  have hmod2 : (st2.draftAt 0).modified_ = true := hmod
  have hrun : produceRun h baseAddr ⟨cmds, .val t⟩ auto withP =
      processResult (allocTree (if withP then
        { st2 with patchesOn := true } else st2) t).1
        (allocTree (if withP then
          { st2 with patchesOn := true } else st2) t).2 := by
    simp only [produceRun, hdr, if_true, hresE]
  have hfacts := allocTree_facts t (if withP then
    { st2 with patchesOn := true } else st2)
  have hmod4 : ((allocTree (if withP then
      { st2 with patchesOn := true } else st2) t).1.draftAt 0).modified_
      = true := by
    rw [draftAt_congr hfacts.1]
    cases withP
    · exact hmod2
    · exact hmod2
  have hne1 := allocTree_result_ne_undef
    (if withP then { st2 with patchesOn := true } else st2) ht
  have hne2 := draftLT_zero_ne_draft hfacts.2.2.2.2 0
  have hrep : (!decide ((allocTree (if withP then
      { st2 with patchesOn := true } else st2) t).2 = Val.prim .undef) &&
      !decide ((allocTree (if withP then
        { st2 with patchesOn := true } else st2) t).2 = Val.draft 0))
      = true := by
    simp [hne1, hne2]
  have hstep : processResult (allocTree (if withP then
      { st2 with patchesOn := true } else st2) t).1
      (allocTree (if withP then
        { st2 with patchesOn := true } else st2) t).2 =
      (.error .modifiedAndReturned,
        revokeScope { (allocTree (if withP then
          { st2 with patchesOn := true } else st2) t).1 with
          unfinalized := (allocTree (if withP then
            { st2 with patchesOn := true } else st2) t).1.drafts.length })
      := by
    unfold processResult
    simp only [hrep, if_true]
    have hmod5 : (({ (allocTree (if withP then
        { st2 with patchesOn := true } else st2) t).1 with
        unfinalized := (allocTree (if withP then
          { st2 with patchesOn := true } else st2) t).1.drafts.length }
        : EngineState).draftAt 0).modified_ = true := hmod4
    simp only [hmod5, if_true]
  rw [hrun, hstep]
  refine ⟨rfl, ?_, ?_⟩
  · intro x hx
    refine revokeScope_revoked ?_
    rw [revokeScope_len] at hx
    exact hx
  · -- heap frame below the caller's heap
    have hinv0 : InvAt h.length
        ({ heap := h, drafts := [], patchesOn := false, patches := [],
           inversePatches := [], canAutoFreeze := true, unfinalized := 0,
           autoFreeze := auto } : EngineState) := by
      refine ⟨?_, ?_, heapOK_mk hnd rfl, ?_, Nat.le_refl _⟩
      · intro d' p' hp'
        rw [draftAt_oob (by simp)] at hp'
        cases hp'
      · intro d' p' hm' hp'
        rw [draftAt_oob (by simp)] at hm'
        cases hm'
      · intro d' c hc
        rw [draftAt_oob (by simp)] at hc
        cases hc
    obtain ⟨hinv1, hev1⟩ := invAt_createProxy baseAddr none
      (fun q hq => by cases hq) hinv0
    have h01 : 0 < (createProxy
        ({ heap := h, drafts := [], patchesOn := false, patches := [],
           inversePatches := [], canAutoFreeze := true, unfinalized := 0,
           autoFreeze := auto } : EngineState)
        baseAddr none).1.drafts.length := by
      rw [createProxy_len]
      omega
    obtain ⟨hinv2, hev2⟩ := invAt_execCmds cmds _ h01 hinv1
    rw [hresE] at hinv2 hev2
    intro a ha
    have hlow2 : (st2.heap.nodeAt a).data = (h.nodeAt a).data := by
      have e1 := hev1.2.2 a ha
      have e2 := hev2.2.2 a ha
      rw [e2, e1]
    have hlen2 : h.length ≤ st2.heap.length :=
      Nat.le_trans hev1.2.1 hev2.2.1
    have hlen3 : h.length ≤ ((if withP then
        { st2 with patchesOn := true } else st2)
        : EngineState).heap.length := by
      cases withP
      · exact hlen2
      · exact hlen2
    have hlow3 : (((if withP then { st2 with patchesOn := true }
        else st2) : EngineState).heap.nodeAt a).data
        = (h.nodeAt a).data := by
      cases withP
      · exact hlow2
      · exact hlow2
    have hlow4 := hfacts.2.2.1 a (Nat.lt_of_lt_of_le ha hlen3)
    show (((allocTree (if withP then { st2 with patchesOn := true }
      else st2) t).1.heap.nodeAt a)).data = (h.nodeAt a).data
    rw [hlow4, hlow3]

/-- Concrete instance of C4: write `a := 2`, return a fresh object. -/
theorem replacement_of_modified_fails_witness :
    ((produceRun [{ data := .obj [("a", Val.prim (.num 1))], frozen := false }]
      0 ⟨[Cmd.setProp [] "a" (.prim (.num 2))], .val (.obj [])⟩
      false false).1 = .error .modifiedAndReturned) ∧
    (∀ x, x < (produceRun [{ data := .obj [("a", Val.prim (.num 1))], frozen := false }]
      0 ⟨[Cmd.setProp [] "a" (.prim (.num 2))], .val (.obj [])⟩
      false false).2.drafts.length →
      (((produceRun [{ data := .obj [("a", Val.prim (.num 1))], frozen := false }]
      0 ⟨[Cmd.setProp [] "a" (.prim (.num 2))], .val (.obj [])⟩
      false false).2.draftAt x).revoked_ = true)) ∧
    (∀ a, a < ([{ data := .obj [("a", Val.prim (.num 1))], frozen := false }] : Heap).length →
      (((produceRun [{ data := .obj [("a", Val.prim (.num 1))], frozen := false }]
      0 ⟨[Cmd.setProp [] "a" (.prim (.num 2))], .val (.obj [])⟩
      false false).2.heap.nodeAt a).data =
        (Heap.nodeAt
          [{ data := .obj [("a", Val.prim (.num 1))], frozen := false }]
          a).data)) :=
  replacement_of_modified_fails
    [{ data := .obj [("a", Val.prim (.num 1))], frozen := false }]
    0 [Cmd.setProp [] "a" (.prim (.num 2))] (.obj []) false false
    rfl rfl (fun he => RTree.noConfusion he) rfl rfl

/-! ## Claim C10 — auto-freeze of an unmodified run's base -/

theorem nodeAt_oob {h : Heap} {a : Nat} (ha : h.length ≤ a) :
    h.nodeAt a = { data := .opaq, frozen := false } := by
  unfold Heap.nodeAt
  exact List.getD_eq_default h { data := .opaq, frozen := false } (by omega)

theorem draftable_ref_lt {h : Heap} {a : Nat}
    (hdr : isDraftableV h (.ref a) = true) : a < h.length := by
  by_contra hge
  have hno : h.nodeAt a = { data := .opaq, frozen := false } :=
    nodeAt_oob (by omega)
  simp [isDraftableV, hno] at hdr

theorem heapUnfrozen_nodeAt {h : Heap} (hu : heapUnfrozen h = true)
    (a : Nat) : (h.nodeAt a).frozen = false := by
  by_cases ha : a < h.length
  · have hmem : h.nodeAt a ∈ h := by
      unfold Heap.nodeAt
      rw [List.getD_eq_getElem h _ ha]
      exact List.getElem_mem ha
    have := (List.all_eq_true.mp hu) (h.nodeAt a) hmem
    simpa using this
  · rw [nodeAt_oob (by omega)]

theorem isDraftableV_ref_congr {h h' : Heap} {a : Nat}
    (hd : (h'.nodeAt a).data = (h.nodeAt a).data) :
    isDraftableV h' (.ref a) = isDraftableV h (.ref a) := by
  simp only [isDraftableV, hd]

theorem freezeFrame_refl (st : EngineState) : FreezeFrame st st :=
  ⟨fun _ => rfl, rfl, rfl⟩

theorem freezeFrame_trans {s1 s2 s3 : EngineState}
    (h12 : FreezeFrame s1 s2) (h23 : FreezeFrame s2 s3) :
    FreezeFrame s1 s3 :=
  ⟨fun a => (h23.1 a).trans (h12.1 a), h23.2.1.trans h12.2.1,
    h23.2.2.trans h12.2.2⟩

theorem ff_heap_eq {s1 s2 : EngineState} (hh : s2.heap = s1.heap)
    (hc : s2.canAutoFreeze = s1.canAutoFreeze)
    (ha : s2.autoFreeze = s1.autoFreeze) : FreezeFrame s1 s2 :=
  ⟨fun a => by rw [hh], hc, ha⟩

theorem ff_alloc (st : EngineState) (nd : NodeData) :
    FreezeFrame st (st.alloc nd).1 := by
  refine ⟨fun a => ?_, rfl, rfl⟩
  show (Heap.nodeAt (st.heap ++ [Node.mk nd false]) a).frozen = _
  rw [nodeAt_append]
  by_cases hx : a = st.heap.length
  · rw [if_pos hx, hx, nodeAt_oob (Nat.le_refl _)]
  · rw [if_neg hx]

theorem ff_writeData (st : EngineState) (a : Nat) (nd : NodeData) :
    FreezeFrame st (st.writeData a nd) := by
  refine ⟨fun x => ?_, rfl, rfl⟩
  show (Heap.nodeAt (st.heap.set a
    (Node.mk nd (st.heap.nodeAt a).frozen)) x).frozen = _
  rw [nodeAt_set]
  by_cases hc : a = x ∧ a < st.heap.length
  · rw [if_pos hc]
    exact congrArg (fun q => (Heap.nodeAt st.heap q).frozen) hc.1
  · rw [if_neg hc]

theorem ff_prepareCopy (st : EngineState) (d : Nat) :
    FreezeFrame st (prepareCopy st d) := by
  cases hc : (st.draftAt d).copy_ with
  | some c =>
      rw [prepareCopy_of_some hc]
      exact freezeFrame_refl st
  | none =>
      rw [prepareCopy_of_none hc]
      exact freezeFrame_trans (ff_alloc st _) (ff_heap_eq rfl rfl rfl)

theorem ff_prepareMapCopy (st : EngineState) (d : Nat) :
    FreezeFrame st (prepareMapCopy st d) := by
  cases hc : (st.draftAt d).copy_ with
  | some c =>
      rw [prepareMapCopy_of_some hc]
      exact freezeFrame_refl st
  | none =>
      rw [prepareMapCopy_of_none hc]
      exact freezeFrame_trans (ff_alloc st _) (ff_heap_eq rfl rfl rfl)

theorem ff_writeCopy (st : EngineState) (d : Nat) (k : String) (v : Val) :
    FreezeFrame st (writeCopy st d k v) := by
  unfold writeCopy
  split
  · exact ff_writeData st _ _
  · exact freezeFrame_refl st

theorem ff_writeMapCopy (st : EngineState) (d : Nat) (k v : Val) :
    FreezeFrame st (writeMapCopy st d k v) := by
  unfold writeMapCopy
  split
  · exact ff_writeData st _ _
  · exact freezeFrame_refl st

theorem ff_setCopyFold (d : Nat) :
    ∀ (elems : List Val) (s : EngineState) (cs : List Val)
      (dm : List (Val × Val)),
    FreezeFrame s (elems.foldl (setCopyStep d) (s, cs, dm)).1
  | [], s, cs, dm => freezeFrame_refl s
  | v :: rest, s, cs, dm => by
      simp only [List.foldl_cons]
      cases v with
      | prim p => exact ff_setCopyFold d rest s _ _
      | draft i => exact ff_setCopyFold d rest s _ _
      | ref a =>
          by_cases hdr : isDraftableV s.heap (.ref a) = true
          · have hstep : setCopyStep d (s, cs, dm) (.ref a) =
                ((createProxy s a (some d)).1,
                  cs ++ [Val.draft s.drafts.length],
                  dm ++ [(.ref a, Val.draft s.drafts.length)]) := by
              unfold setCopyStep
              simp only [hdr, if_true]
              rfl
            rw [hstep]
            exact freezeFrame_trans (ff_heap_eq rfl rfl rfl)
              (ff_setCopyFold d rest (createProxy s a (some d)).1 _ _)
          · have hstep : setCopyStep d (s, cs, dm) (.ref a) =
                (s, cs ++ [Val.ref a], dm) := by
              unfold setCopyStep
              simp only
              rw [if_neg hdr]
            rw [hstep]
            exact ff_setCopyFold d rest s _ _

theorem ff_prepareSetCopy (st : EngineState) (d : Nat) :
    FreezeFrame st (prepareSetCopy st d) := by
  cases hc : (st.draftAt d).copy_ with
  | some c =>
      have heq : prepareSetCopy st d = st := by
        unfold prepareSetCopy
        simp only [hc]
      rw [heq]
      exact freezeFrame_refl st
  | none =>
      unfold prepareSetCopy
      cases hdata : (st.nodeAt (st.draftAt d).base_).data with
      | set xs =>
          simp only [hc, hdata]
          exact freezeFrame_trans (ff_setCopyFold d xs st [] [])
            (freezeFrame_trans (ff_alloc _ _) (ff_heap_eq rfl rfl rfl))
      | obj fs =>
          simp only [hc, hdata]
          exact freezeFrame_trans (ff_setCopyFold d [] st [] [])
            (freezeFrame_trans (ff_alloc _ _) (ff_heap_eq rfl rfl rfl))
      | arr xs =>
          simp only [hc, hdata]
          exact freezeFrame_trans (ff_setCopyFold d [] st [] [])
            (freezeFrame_trans (ff_alloc _ _) (ff_heap_eq rfl rfl rfl))
      | map es =>
          simp only [hc, hdata]
          exact freezeFrame_trans (ff_setCopyFold d [] st [] [])
            (freezeFrame_trans (ff_alloc _ _) (ff_heap_eq rfl rfl rfl))
      | opaq =>
          simp only [hc, hdata]
          exact freezeFrame_trans (ff_setCopyFold d [] st [] [])
            (freezeFrame_trans (ff_alloc _ _) (ff_heap_eq rfl rfl rfl))

theorem ff_proxyGet {st st1 : EngineState} {d : Nat} {k : String}
    {v : Val} (hrun : proxyGet st d k = .ok (st1, v)) :
    FreezeFrame st st1 := by
  simp only [proxyGet] at hrun
  split at hrun
  · cases hrun
  · split at hrun
    · simp only [Except.ok.injEq, Prod.mk.injEq] at hrun
      obtain ⟨rfl, rfl⟩ := hrun
      exact freezeFrame_refl st
    · next value hfound =>
      split at hrun
      · simp only [Except.ok.injEq, Prod.mk.injEq] at hrun
        obtain ⟨rfl, rfl⟩ := hrun
        exact freezeFrame_refl st
      · split at hrun
        · cases value with
          | prim p =>
              simp only [Except.ok.injEq, Prod.mk.injEq] at hrun
              obtain ⟨rfl, rfl⟩ := hrun
              exact freezeFrame_refl st
          | draft i =>
              simp only [Except.ok.injEq, Prod.mk.injEq] at hrun
              obtain ⟨rfl, rfl⟩ := hrun
              exact freezeFrame_refl st
          | ref a =>
              simp only [Except.ok.injEq, Prod.mk.injEq] at hrun
              obtain ⟨rfl, rfl⟩ := hrun
              exact freezeFrame_trans (ff_prepareCopy st d)
                (freezeFrame_trans (ff_heap_eq rfl rfl rfl)
                  (ff_writeCopy (createProxy (prepareCopy st d) a
                    (some d)).1 d k
                    (Val.draft (createProxy (prepareCopy st d) a
                      (some d)).2)))
        · simp only [Except.ok.injEq, Prod.mk.injEq] at hrun
          obtain ⟨rfl, rfl⟩ := hrun
          exact freezeFrame_refl st

theorem ff_draftMapGet {st st1 : EngineState} {d : Nat} {k v : Val}
    (hrun : draftMapGet st d k = .ok (st1, v)) : FreezeFrame st st1 := by
  simp only [draftMapGet] at hrun
  split at hrun
  · cases hrun
  · split at hrun
    · simp only [Except.ok.injEq, Prod.mk.injEq] at hrun
      obtain ⟨rfl, rfl⟩ := hrun
      exact freezeFrame_refl st
    · split at hrun
      · simp only [Except.ok.injEq, Prod.mk.injEq] at hrun
        obtain ⟨rfl, rfl⟩ := hrun
        exact freezeFrame_refl st
      · split at hrun
        · rename_i a ha
          simp only [Except.ok.injEq, Prod.mk.injEq] at hrun
          obtain ⟨rfl, rfl⟩ := hrun
          exact freezeFrame_trans (ff_heap_eq rfl rfl rfl)
            (freezeFrame_trans
              (ff_prepareMapCopy (createProxy st a (some d)).1 d)
              (ff_writeMapCopy (prepareMapCopy (createProxy st a
                (some d)).1 d) d k
                (Val.draft (createProxy st a (some d)).2)))
        · simp only [Except.ok.injEq, Prod.mk.injEq] at hrun
          obtain ⟨rfl, rfl⟩ := hrun
          exact freezeFrame_refl st

theorem ff_draftSetValues {st st1 : EngineState} {d : Nat}
    {xs : List Val} (hrun : draftSetValues st d = .ok (st1, xs)) :
    FreezeFrame st st1 := by
  simp only [draftSetValues] at hrun
  split at hrun
  · cases hrun
  · split at hrun
    · simp only [Except.ok.injEq, Prod.mk.injEq] at hrun
      obtain ⟨rfl, rfl⟩ := hrun
      exact ff_prepareSetCopy st d
    · simp only [Except.ok.injEq, Prod.mk.injEq] at hrun
      obtain ⟨rfl, rfl⟩ := hrun
      exact ff_prepareSetCopy st d

theorem ff_navigate {st st1 : EngineState} {v : Val} (d : Nat)
    (seg : Seg) (hrun : navigate st d seg = .ok (st1, v)) :
    FreezeFrame st st1 := by
  cases seg with
  | prop k =>
      simp only [navigate] at hrun
      split at hrun
      · exact ff_proxyGet hrun
      · exact ff_proxyGet hrun
      · simp only [Except.ok.injEq, Prod.mk.injEq] at hrun
        obtain ⟨rfl, rfl⟩ := hrun
        exact freezeFrame_refl st
  | mkey k =>
      simp only [navigate] at hrun
      split at hrun
      · exact ff_draftMapGet hrun
      · simp only [Except.ok.injEq, Prod.mk.injEq] at hrun
        obtain ⟨rfl, rfl⟩ := hrun
        exact freezeFrame_refl st
  | selem i =>
      simp only [navigate] at hrun
      split at hrun
      · cases hsv : draftSetValues st d with
        | error e1 =>
            rw [hsv] at hrun
            simp only [ebind_error] at hrun
            cases hrun
        | ok q =>
            obtain ⟨st2, ys⟩ := q
            rw [hsv] at hrun
            simp only [ebind_ok, Except.ok.injEq, Prod.mk.injEq] at hrun
            obtain ⟨rfl, rfl⟩ := hrun
            exact ff_draftSetValues hsv
      · simp only [Except.ok.injEq, Prod.mk.injEq] at hrun
        obtain ⟨rfl, rfl⟩ := hrun
        exact freezeFrame_refl st

theorem ff_execRead : ∀ (path : List Seg) (st : EngineState) (d : Nat)
    (st1 : EngineState), execRead st d path = .ok st1 →
    FreezeFrame st st1
  | [], st, d, st1, h => by
      simp only [execRead, Except.ok.injEq] at h
      subst h
      exact freezeFrame_refl st
  | seg :: rest, st, d, st1, h => by
      simp only [execRead] at h
      cases hnav : navigate st d seg with
      | error e =>
          rw [hnav] at h
          simp only [ebind_error] at h
          cases h
      | ok q =>
          obtain ⟨st2, v⟩ := q
          rw [hnav] at h
          simp only [ebind_ok] at h
          have hf1 : FreezeFrame st st2 := ff_navigate d seg hnav
          cases v with
          | draft d2 =>
              exact freezeFrame_trans hf1 (ff_execRead rest st2 d2 st1 h)
          | prim p =>
              simp only [Except.ok.injEq] at h
              subst h
              exact hf1
          | ref a =>
              simp only [Except.ok.injEq] at h
              subst h
              exact hf1

theorem ff_execCmds : ∀ (cs : List Cmd) (st : EngineState),
    (∀ c ∈ cs, ∃ p, c = Cmd.get p) →
    FreezeFrame st (execCmds st cs).1
  | [], st, _ => freezeFrame_refl st
  | c :: cs, st, hro => by
      obtain ⟨p, rfl⟩ := hro c (List.mem_cons_self c cs)
      cases hcmd : execCmd st (Cmd.get p) with
      | ok st2 =>
          simp only [execCmds, hcmd]
          exact freezeFrame_trans (ff_execRead p st 0 st2 hcmd)
            (ff_execCmds cs st2 (fun c hc => hro c
              (List.mem_cons_of_mem _ hc)))
      | error e =>
          simp only [execCmds, hcmd]
          exact freezeFrame_refl st

theorem countP_range_update (p q : Nat → Bool) :
    ∀ (n a : Nat), a < n → p a = false → q a = true →
    (∀ x, x ≠ a → q x = p x) →
    (List.range n).countP q = (List.range n).countP p + 1
  | 0, a, ha, _, _, _ => absurd ha (Nat.not_lt_zero a)
  | n + 1, a, ha, hold, hnew, hoth => by
      rw [List.range_succ, List.countP_append, List.countP_append]
      by_cases han : a = n
      · subst han
        have hrest : (List.range a).countP q = (List.range a).countP p :=
          List.countP_congr (fun x hx => by
            rw [hoth x (by have := List.mem_range.mp hx; omega)])
        rw [hrest]
        simp [List.countP_cons, hold, hnew]
      · have ha2 : a < n := by omega
        rw [countP_range_update p q n a ha2 hold hnew hoth]
        have hn : q n = p n := hoth n (by omega)
        simp [List.countP_cons, hn]
        omega

theorem frozenCount_le_length (h : Heap) : frozenCount h ≤ h.length := by
  unfold frozenCount
  calc (List.range h.length).countP (fun a => (h.nodeAt a).frozen)
      ≤ (List.range h.length).length := List.countP_le_length _
    _ = h.length := List.length_range h.length

theorem frozenCount_mono {h h2 : Heap} (hlen : h2.length = h.length)
    (hm : ∀ a, (h.nodeAt a).frozen = true → (h2.nodeAt a).frozen = true) :
    frozenCount h ≤ frozenCount h2 := by
  unfold frozenCount
  rw [hlen]
  exact List.countP_mono_left (fun x _ hx => hm x hx)

theorem freezeNode_len (st : EngineState) (a : Nat) :
    (st.freezeNode a).heap.length = st.heap.length := by
  show (st.heap.set a _).length = _
  exact List.length_set st.heap a _

theorem freezeNode_data (st : EngineState) (a : Nat) (x : Nat) :
    ((st.freezeNode a).heap.nodeAt x).data = (st.heap.nodeAt x).data := by
  show (Heap.nodeAt (st.heap.set a
    (Node.mk (st.heap.nodeAt a).data true)) x).data = _
  rw [nodeAt_set]
  by_cases hc : a = x ∧ a < st.heap.length
  · rw [if_pos hc]
    exact congrArg (fun q => (Heap.nodeAt st.heap q).data) hc.1
  · rw [if_neg hc]

theorem freezeNode_frozen_self (st : EngineState) (a : Nat)
    (ha : a < st.heap.length) :
    ((st.freezeNode a).heap.nodeAt a).frozen = true := by
  show (Heap.nodeAt (st.heap.set a
    (Node.mk (st.heap.nodeAt a).data true)) a).frozen = true
  rw [nodeAt_set, if_pos ⟨rfl, ha⟩]

theorem freezeNode_frozen_mono (st : EngineState) (a x : Nat)
    (hx : (st.heap.nodeAt x).frozen = true) :
    ((st.freezeNode a).heap.nodeAt x).frozen = true := by
  show (Heap.nodeAt (st.heap.set a
    (Node.mk (st.heap.nodeAt a).data true)) x).frozen = true
  rw [nodeAt_set]
  by_cases hc : a = x ∧ a < st.heap.length
  · rw [if_pos hc]
  · rw [if_neg hc]
    exact hx

theorem freezeNode_frozen_ne (st : EngineState) (a x : Nat)
    (hne : ¬ a = x) :
    ((st.freezeNode a).heap.nodeAt x).frozen =
      (st.heap.nodeAt x).frozen := by
  show (Heap.nodeAt (st.heap.set a
    (Node.mk (st.heap.nodeAt a).data true)) x).frozen = _
  rw [nodeAt_set, if_neg (fun hc => hne hc.1)]

theorem frozenCount_freezeNode {st : EngineState} {a : Nat}
    (ha : a < st.heap.length)
    (hfz : (st.heap.nodeAt a).frozen = false) :
    frozenCount (st.freezeNode a).heap = frozenCount st.heap + 1 := by
  unfold frozenCount
  rw [freezeNode_len]
  exact countP_range_update (fun x => (st.heap.nodeAt x).frozen)
    (fun x => ((st.freezeNode a).heap.nodeAt x).frozen) st.heap.length a
    ha hfz (freezeNode_frozen_self st a ha)
    (fun x hx => freezeNode_frozen_ne st a x (fun he => hx he.symm))

theorem freezeVal_prim_eq (fuel : Nat) (st : EngineState) (p : Prim)
    (deep : Bool) : freezeVal (fuel + 1) st (.prim p) deep = st := rfl

theorem freezeVal_draft_eq (fuel : Nat) (st : EngineState) (d : Nat)
    (deep : Bool) : freezeVal (fuel + 1) st (.draft d) deep = st := rfl

theorem freezeVal_ref_eq (fuel : Nat) (st : EngineState) (a : Nat)
    (deep : Bool) :
    freezeVal (fuel + 1) st (Val.ref a) deep =
      (if (st.heap.nodeAt a).frozen || !isDraftableV st.heap (Val.ref a)
       then st
       else if deep then
        (deepFreezeValues ((st.freezeNode a).nodeAt a).data).foldl
          (fun s c => freezeVal fuel s c true) (st.freezeNode a)
       else st.freezeNode a) := by
  conv_lhs => unfold freezeVal
  cases hfz : (st.heap.nodeAt a).frozen with
  | true => simp [isFrozenV, hfz]
  | false =>
      cases hdv : isDraftableV st.heap (Val.ref a) with
      | false => simp [isFrozenV, hfz, hdv]
      | true => simp [isFrozenV, hfz, hdv]

theorem freezeVal_heap_facts : ∀ (fuel : Nat) (st : EngineState)
    (v : Val) (deep : Bool),
    (freezeVal fuel st v deep).heap.length = st.heap.length ∧
    (∀ a, ((freezeVal fuel st v deep).heap.nodeAt a).data
      = (st.heap.nodeAt a).data) ∧
    (∀ a, (st.heap.nodeAt a).frozen = true →
      ((freezeVal fuel st v deep).heap.nodeAt a).frozen = true)
  | 0, st, v, deep => ⟨rfl, fun _ => rfl, fun _ h => h⟩
  | fuel + 1, st, v, deep => by
      cases v with
      | prim p => exact ⟨rfl, fun _ => rfl, fun _ h => h⟩
      | draft i => exact ⟨rfl, fun _ => rfl, fun _ h => h⟩
      | ref a =>
          rw [freezeVal_ref_eq]
          by_cases hg : ((st.heap.nodeAt a).frozen
              || !isDraftableV st.heap (Val.ref a)) = true
          · rw [if_pos hg]
            exact ⟨rfl, fun _ => rfl, fun _ h => h⟩
          · rw [if_neg hg]
            cases deep with
            | false =>
                rw [if_neg (by decide)]
                exact ⟨freezeNode_len st a, fun x => freezeNode_data st a x,
                  fun x hx => freezeNode_frozen_mono st a x hx⟩
            | true =>
                rw [if_pos rfl]
                have hfold : ∀ (l : List Val) (s : EngineState),
                    ((l.foldl (fun s c =>
                      freezeVal fuel s c true) s).heap.length
                      = s.heap.length) ∧
                    (∀ x, (((l.foldl (fun s c =>
                      freezeVal fuel s c true) s).heap.nodeAt x).data
                      = (s.heap.nodeAt x).data)) ∧
                    (∀ x, (s.heap.nodeAt x).frozen = true →
                      (((l.foldl (fun s c =>
                        freezeVal fuel s c true) s).heap.nodeAt x).frozen
                        = true)) := by
                  intro l
                  induction l with
                  | nil => exact fun s => ⟨rfl, fun _ => rfl, fun _ h => h⟩
                  | cons c rest ih =>
                      intro s
                      simp only [List.foldl_cons]
                      have h1 := freezeVal_heap_facts fuel s c true
                      have h2 := ih (freezeVal fuel s c true)
                      exact ⟨h2.1.trans h1.1,
                        fun x => (h2.2.1 x).trans (h1.2.1 x),
                        fun x hx => h2.2.2 x (h1.2.2 x hx)⟩
                have hf := hfold
                  (deepFreezeValues ((st.freezeNode a).nodeAt a).data)
                  (st.freezeNode a)
                exact ⟨hf.1.trans (freezeNode_len st a),
                  fun x => (hf.2.1 x).trans (freezeNode_data st a x),
                  fun x hx => hf.2.2 x (freezeNode_frozen_mono st a x hx)⟩

theorem freezeVal_closure : ∀ (fuel : Nat) (st : EngineState) (v : Val)
    (X : Nat → Val → Prop),
    FrozenClosedX X st.heap →
    st.heap.length < fuel + frozenCount st.heap →
    FrozenClosedX X (freezeVal fuel st v true).heap ∧
    (∀ a, v = Val.ref a → isDraftableV st.heap v = true →
      ((freezeVal fuel st v true).heap.nodeAt a).frozen = true)
  | 0, st, v, X, hX, hcnt =>
      absurd hcnt (by have := frozenCount_le_length st.heap; omega)
  | fuel + 1, st, v, X, hX, hcnt => by
      cases v with
      | prim p =>
          rw [freezeVal_prim_eq]
          exact ⟨hX, fun a hva => nomatch hva⟩
      | draft i =>
          rw [freezeVal_draft_eq]
          exact ⟨hX, fun a hva => nomatch hva⟩
      | ref a =>
          rw [freezeVal_ref_eq]
          by_cases hfz : (st.heap.nodeAt a).frozen = true
          · rw [if_pos (by rw [hfz]; rfl)]
            refine ⟨hX, fun a2 hva _ => ?_⟩
            cases hva
            exact hfz
          · have hfz0 : (st.heap.nodeAt a).frozen = false := by
              cases hb : (st.heap.nodeAt a).frozen
              · rfl
              · exact absurd hb hfz
            by_cases hdv : isDraftableV st.heap (Val.ref a) = true
            · have ha : a < st.heap.length := draftable_ref_lt hdv
              rw [if_neg (by rw [hfz0, hdv]; decide), if_pos rfl]
              have hX1 : FrozenClosedX (fun b w => X b w ∨
                  (b = a ∧ w ∈ deepFreezeValues
                    ((st.freezeNode a).nodeAt a).data))
                  (st.freezeNode a).heap := by
                intro b w c2 hbf hwm hwd hnx hwc
                obtain ⟨hnx1, hnx2⟩ := not_or.mp hnx
                by_cases hba : b = a
                · subst hba
                  exact absurd ⟨rfl, hwm⟩ hnx2
                · have hbf0 : (st.heap.nodeAt b).frozen = true := by
                    rw [← freezeNode_frozen_ne st a b
                      (fun he => hba he.symm)]
                    exact hbf
                  have hedge : w ∈ deepFreezeValues
                      (st.heap.nodeAt b).data := by
                    rw [← freezeNode_data st a b]
                    exact hwm
                  have hwd0 : isDraftableV st.heap w = true := by
                    cases w with
                    | ref cc =>
                        rw [← isDraftableV_ref_congr
                          (freezeNode_data st a cc)]
                        exact hwd
                    | prim p => cases hwc
                    | draft dd => exact hwd
                  have hfr := hX b w c2 hbf0 hedge hwd0 hnx1 hwc
                  exact freezeNode_frozen_mono st a c2 hfr
              have hcnt1 : (st.freezeNode a).heap.length <
                  fuel + frozenCount (st.freezeNode a).heap := by
                rw [freezeNode_len, frozenCount_freezeNode ha hfz0]
                omega
              have hfold : ∀ (l : List Val) (s : EngineState),
                  FrozenClosedX (fun b w => X b w ∨ (b = a ∧ w ∈ l))
                    s.heap →
                  s.heap.length < fuel + frozenCount s.heap →
                  FrozenClosedX X (l.foldl (fun s c =>
                    freezeVal fuel s c true) s).heap ∧
                  (∀ q, (s.heap.nodeAt q).frozen = true →
                    (((l.foldl (fun s c =>
                      freezeVal fuel s c true) s).heap.nodeAt q).frozen
                      = true)) := by
                intro l
                induction l with
                | nil =>
                    intro s hc hcnt2
                    refine ⟨?_, fun q hq => hq⟩
                    intro b w c2 h1 h2 h3 h4 h5
                    refine hc b w c2 h1 h2 h3 ?_ h5
                    intro hor
                    rcases hor with hx | ⟨_, hmem⟩
                    · exact h4 hx
                    · exact List.not_mem_nil w hmem
                | cons c rest ih =>
                    intro s hc hcnt2
                    simp only [List.foldl_cons]
                    have hstep := freezeVal_closure fuel s c
                      (fun b w => X b w ∨ (b = a ∧ w ∈ c :: rest))
                      hc hcnt2
                    have hf := freezeVal_heap_facts fuel s c true
                    have hc1 : FrozenClosedX (fun b w => X b w ∨
                        (b = a ∧ w ∈ rest))
                        (freezeVal fuel s c true).heap := by
                      intro b w c2 hbf hwm hwd hnx hwc
                      by_cases hwceq : w = c
                      · subst hwceq
                        have hd0 : isDraftableV s.heap w = true := by
                          cases w with
                          | ref cc =>
                              rw [← isDraftableV_ref_congr (hf.2.1 cc)]
                              exact hwd
                          | prim p => cases hwc
                          | draft dd => exact hwd
                        exact hstep.2 c2 hwc hd0
                      · refine hstep.1 b w c2 hbf hwm hwd ?_ hwc
                        intro hor
                        rcases hor with hx | ⟨hba, hmem⟩
                        · exact hnx (Or.inl hx)
                        · rcases List.mem_cons.mp hmem with hh | ht
                          · exact hwceq hh
                          · exact hnx (Or.inr ⟨hba, ht⟩)
                    have hcnt3 : (freezeVal fuel s c true).heap.length <
                        fuel + frozenCount (freezeVal fuel s c true).heap
                        := by
                      have hm := frozenCount_mono hf.1 hf.2.2
                      rw [hf.1]
                      omega
                    have hrest := ih (freezeVal fuel s c true) hc1 hcnt3
                    exact ⟨hrest.1,
                      fun q hq => hrest.2 q (hf.2.2 q hq)⟩
              have hgo := hfold
                (deepFreezeValues ((st.freezeNode a).nodeAt a).data)
                (st.freezeNode a) hX1 hcnt1
              refine ⟨hgo.1, fun a2 hva _ => ?_⟩
              cases hva
              exact hgo.2 a (freezeNode_frozen_self st a ha)
            · have hdv0 : isDraftableV st.heap (Val.ref a) = false := by
                cases hb : isDraftableV st.heap (Val.ref a)
                · rfl
                · exact absurd hb hdv
              rw [if_pos (by rw [hdv0]; cases hbb : (st.heap.nodeAt a).frozen <;> decide)]
              exact ⟨hX, fun a2 hva hd => absurd hd hdv⟩

theorem freeze_deep_of_unfrozen {h : Heap} {baseAddr : Nat}
    (st : EngineState)
    (hdata : ∀ a, a < h.length →
      (st.heap.nodeAt a).data = (h.nodeAt a).data)
    (hfz : ∀ a, (st.heap.nodeAt a).frozen = false)
    (hdr : isDraftableV h (.ref baseAddr) = true) :
    ∀ b, DeepReach h baseAddr b →
      ((freezeVal (st.heap.length + 1) st (Val.ref baseAddr)
        true).heap.nodeAt b).frozen = true := by
  have hfcx : FrozenClosedX (fun _ _ => False) st.heap := by
    intro b v c hbf _ _ _ _
    rw [hfz b] at hbf
    exact absurd hbf Bool.false_ne_true
  have hcl := freezeVal_closure (st.heap.length + 1) st
    (Val.ref baseAddr) (fun _ _ => False) hfcx (by omega)
  have hb0 : baseAddr < h.length := draftable_ref_lt hdr
  have hdrS : isDraftableV st.heap (Val.ref baseAddr) = true := by
    rw [isDraftableV_ref_congr (hdata baseAddr hb0)]
    exact hdr
  have hroot := hcl.2 baseAddr rfl hdrS
  have hf := freezeVal_heap_facts (st.heap.length + 1) st
    (Val.ref baseAddr) true
  intro b hreach
  induction hreach with
  | refl => exact hroot
  | step b2 c hr hmem hdrf ihb =>
      have hb2 : b2 < h.length := by
        by_contra hnb
        rw [nodeAt_oob (by omega)] at hmem
        simp [deepFreezeValues] at hmem
      have hc : c < h.length := draftable_ref_lt hdrf
      have hmem2 : Val.ref c ∈ deepFreezeValues
          (((freezeVal (st.heap.length + 1) st (Val.ref baseAddr)
            true).heap.nodeAt b2)).data := by
        rw [hf.2.1 b2, hdata b2 hb2]
        exact hmem
      have hdrf2 : isDraftableV (freezeVal (st.heap.length + 1) st
          (Val.ref baseAddr) true).heap (Val.ref c) = true := by
        rw [isDraftableV_ref_congr ((hf.2.1 c).trans (hdata c hc))]
        exact hdrf
      exact hcl.1 b2 (Val.ref c) c ihb hmem2 hdrf2 (fun f => f) rfl

theorem maybeFreeze_on {st : EngineState} (v : Val) (deep : Bool)
    (h1 : st.autoFreeze = true) (h2 : st.canAutoFreeze = true) :
    maybeFreeze st v deep = freezeVal (st.heap.length + 1) st v deep := by
  unfold maybeFreeze
  rw [h1, h2]
  rfl

theorem processResult_unmodified {st : EngineState} (resVal : Val)
    (hres : resVal = Val.prim .undef ∨ resVal = Val.draft 0)
    (hmod0 : (st.draftAt 0).modified_ = false) :
    processResult st resVal =
      (.ok (.ref (st.draftAt 0).base_),
       revokeScope (maybeFreeze
         ({ st with unfinalized := st.drafts.length } : EngineState)
         (.ref (st.draftAt 0).base_) true)) := by
  have hmod1 : (({ st with unfinalized := st.drafts.length }
      : EngineState).draftAt 0).modified_ = false := hmod0
  have hfin : finalize
      (({ st with unfinalized := st.drafts.length }
        : EngineState).heap.length +
        ({ st with unfinalized := st.drafts.length }
          : EngineState).drafts.length + 1)
      ({ st with unfinalized := st.drafts.length } : EngineState)
      (Val.draft 0) (some []) =
      .ok (maybeFreeze ({ st with unfinalized := st.drafts.length }
          : EngineState)
        (.ref (({ st with unfinalized := st.drafts.length }
          : EngineState).draftAt 0).base_) true,
        .ref (({ st with unfinalized := st.drafts.length }
          : EngineState).draftAt 0).base_) := by
    conv_lhs => unfold finalize
    simp only [isFrozenV, Bool.false_eq_true, if_false, hmod1,
      Bool.not_false, if_true]
  rcases hres with rfl | rfl
  · have hstep : processResult st (Val.prim .undef) =
        (match finalize
          (({ st with unfinalized := st.drafts.length }
            : EngineState).heap.length +
            ({ st with unfinalized := st.drafts.length }
              : EngineState).drafts.length + 1)
          ({ st with unfinalized := st.drafts.length } : EngineState)
          (Val.draft 0) (some []) with
        | .error e =>
            ((.error e : Except Err Val),
              ({ st with unfinalized := st.drafts.length } : EngineState))
        | .ok (st1, r1) => (.ok r1, revokeScope st1)) := rfl
    rw [hstep, hfin]
    rfl
  · have hstep : processResult st (Val.draft 0) =
        (match finalize
          (({ st with unfinalized := st.drafts.length }
            : EngineState).heap.length +
            ({ st with unfinalized := st.drafts.length }
              : EngineState).drafts.length + 1)
          ({ st with unfinalized := st.drafts.length } : EngineState)
          (Val.draft 0) (some []) with
        | .error e =>
            ((.error e : Except Err Val),
              ({ st with unfinalized := st.drafts.length } : EngineState))
        | .ok (st1, r1) => (.ok r1, revokeScope st1)) := rfl
    rw [hstep, hfin]
    rfl

/-- C10 counterexample: with auto-freeze on and an untouched root draft,
`Run` returns the base record and freezes it, but the non-draftable
(class-instance) value stored under the base's enumerable string key
`a` is left unfrozen — `freeze` skips non-draftable children, so not
every nested value reachable through enumerable string-keyed properties
ends up frozen. -/
theorem autofreeze_skips_opaque_child :
    (produceRun
      [{ data := .obj [("a", Val.ref 1)], frozen := false },
       { data := .opaq, frozen := false }]
      0 ⟨[], .undef⟩ true false).1 = .ok (.ref 0) ∧
    ((produceRun
      [{ data := .obj [("a", Val.ref 1)], frozen := false },
       { data := .opaq, frozen := false }]
      0 ⟨[], .undef⟩ true false).2.heap.nodeAt 0).frozen = true ∧
    ((produceRun
      [{ data := .obj [("a", Val.ref 1)], frozen := false },
       { data := .opaq, frozen := false }]
      0 ⟨[], .undef⟩ true false).2.heap.nodeAt 1).frozen = false :=
  ⟨rfl, rfl, rfl⟩

/-- C10 (amended): with auto-freeze enabled, a recipe of pure `get`
navigations that returns `undefined` or the root draft makes `Run` hand
back the caller's base reference and deep-freeze the base in place:
starting from a fully unfrozen, draft-free heap, every node reachable
from the base through the enumerable string-keyed own properties
(`Object.values`: record fields and sequence elements) of draftable
nodes is frozen in the final state.  Freezing stops at non-draftable,
draft and already-frozen values. -/
theorem unmodified_autofreeze_deep (h : Heap) (baseAddr : Nat)
    (cmds : List Cmd) (ret : RRet) (withP : Bool)
    (hdr : isDraftableV h (.ref baseAddr) = true)
    (hnd : heapNoDrafts h = true)
    (hro : ∀ c ∈ cmds, ∃ p, c = Cmd.get p)
    (hret : ret = RRet.undef ∨ ret = RRet.root)
    (hunf : heapUnfrozen h = true) :
    (produceRun h baseAddr ⟨cmds, ret⟩ true withP).1 =
      .ok (.ref baseAddr) ∧
    (∀ b, DeepReach h baseAddr b →
      ((produceRun h baseAddr ⟨cmds, ret⟩ true
        withP).2.heap.nodeAt b).frozen = true) := by
  have hum1 : AllUnmodified (createProxy
      ({ heap := h, drafts := [], patchesOn := false, patches := [],
         inversePatches := [], canAutoFreeze := true, unfinalized := 0,
         autoFreeze := true } : EngineState) baseAddr none).1 := by
    intro x
    cases x with
    | zero => rfl
    | succ m => rfl
  have hrev1 : NoneRevoked (createProxy
      ({ heap := h, drafts := [], patchesOn := false, patches := [],
         inversePatches := [], canAutoFreeze := true, unfinalized := 0,
         autoFreeze := true } : EngineState) baseAddr none).1 := by
    intro x
    cases x with
    | zero => rfl
    | succ m => rfl
  have hlen1 : 0 < (createProxy
      ({ heap := h, drafts := [], patchesOn := false, patches := [],
         inversePatches := [], canAutoFreeze := true, unfinalized := 0,
         autoFreeze := true } : EngineState) baseAddr none).1.drafts.length
      := by
    rw [createProxy_len]
    omega
  have hexec := read_execCmds cmds _ hro hlen1 hum1 hrev1
  have hff := ff_execCmds cmds (createProxy
      ({ heap := h, drafts := [], patchesOn := false, patches := [],
         inversePatches := [], canAutoFreeze := true, unfinalized := 0,
         autoFreeze := true } : EngineState) baseAddr none).1 hro
  have hinv0 : InvAt h.length
      ({ heap := h, drafts := [], patchesOn := false, patches := [],
         inversePatches := [], canAutoFreeze := true, unfinalized := 0,
         autoFreeze := true } : EngineState) := by
    refine ⟨?_, ?_, heapOK_mk hnd rfl, ?_, Nat.le_refl _⟩
    · intro d2 p2 hp2
      rw [draftAt_oob (by simp)] at hp2
      cases hp2
    · intro d2 p2 hm2 hp2
      rw [draftAt_oob (by simp)] at hm2
      cases hm2
    · intro d2 c hc
      rw [draftAt_oob (by simp)] at hc
      cases hc
  obtain ⟨hinv1, hev1⟩ := invAt_createProxy baseAddr none
    (fun q hq => by cases hq) hinv0
  obtain ⟨hinv2, hev2⟩ := invAt_execCmds cmds _ hlen1 hinv1
  rcases hresE : execCmds (createProxy
      ({ heap := h, drafts := [], patchesOn := false, patches := [],
         inversePatches := [], canAutoFreeze := true, unfinalized := 0,
         autoFreeze := true } : EngineState) baseAddr none).1 cmds
    with ⟨st2, oe⟩
  rw [hresE] at hexec hff hinv2 hev2
  obtain ⟨hoe, hlen2, hum2, hrev2, hbase2, hpat2, hipat2⟩ := hexec
  have hoe2 : oe = none := hoe
  subst hoe2
  have hum3 : AllUnmodified
      (if withP then { st2 with patchesOn := true } else st2) := by
    cases withP
    · exact hum2
    · exact hum2
  have hbase3 : ((if withP then { st2 with patchesOn := true }
      else st2) : EngineState).draftAt 0 = st2.draftAt 0 := by
    cases withP
    · rfl
    · rfl
  have hbase1 : ((createProxy
      ({ heap := h, drafts := [], patchesOn := false, patches := [],
         inversePatches := [], canAutoFreeze := true, unfinalized := 0,
         autoFreeze := true } : EngineState) baseAddr
        none).1.draftAt 0).base_ = baseAddr := rfl
  have hbaseF : (((if withP then { st2 with patchesOn := true }
      else st2) : EngineState).draftAt 0).base_ = baseAddr := by
    rw [hbase3, hbase2, hbase1]
  have hauto2 : st2.autoFreeze = true := by
    rw [hff.2.2]
    rfl
  have hcan2 : st2.canAutoFreeze = true := by
    rw [hff.2.1]
    rfl
  have hautoU : (({ (if withP then { st2 with patchesOn := true }
      else st2) with unfinalized := ((if withP then
        { st2 with patchesOn := true } else st2)
        : EngineState).drafts.length } : EngineState)).autoFreeze
      = true := by
    cases withP
    · exact hauto2
    · exact hauto2
  have hcanU : (({ (if withP then { st2 with patchesOn := true }
      else st2) with unfinalized := ((if withP then
        { st2 with patchesOn := true } else st2)
        : EngineState).drafts.length } : EngineState)).canAutoFreeze
      = true := by
    cases withP
    · exact hcan2
    · exact hcan2
  have hfz2 : ∀ a, (st2.heap.nodeAt a).frozen = false := by
    intro a
    rw [hff.1 a]
    exact heapUnfrozen_nodeAt hunf a
  have hfzU : ∀ a, ((({ (if withP then { st2 with patchesOn := true }
      else st2) with unfinalized := ((if withP then
        { st2 with patchesOn := true } else st2)
        : EngineState).drafts.length }
      : EngineState)).heap.nodeAt a).frozen = false := by
    cases withP
    · exact hfz2
    · exact hfz2
  have hdata2 : ∀ a, a < h.length →
      (st2.heap.nodeAt a).data = (h.nodeAt a).data := by
    intro a ha
    have e1 := hev1.2.2 a ha
    have e2 := hev2.2.2 a ha
    rw [e2, e1]
  have hdataU : ∀ a, a < h.length →
      ((({ (if withP then { st2 with patchesOn := true }
        else st2) with unfinalized := ((if withP then
          { st2 with patchesOn := true } else st2)
          : EngineState).drafts.length }
        : EngineState)).heap.nodeAt a).data = (h.nodeAt a).data := by
    cases withP
    · exact hdata2
    · exact hdata2
  have hdeep := freeze_deep_of_unfrozen
    ({ (if withP then { st2 with patchesOn := true }
      else st2) with unfinalized := ((if withP then
        { st2 with patchesOn := true } else st2)
        : EngineState).drafts.length } : EngineState)
    hdataU hfzU hdr
  rcases hret with rfl | rfl
  · have hrun : produceRun h baseAddr ⟨cmds, RRet.undef⟩ true withP =
        processResult (if withP then { st2 with patchesOn := true }
          else st2) (Val.prim .undef) := by
      simp only [produceRun, hdr, if_true, hresE]
    have hpru := processResult_unmodified (Val.prim .undef)
      (Or.inl rfl) (hum3 0)
    refine ⟨?_, ?_⟩
    · rw [hrun, hpru, hbaseF]
    · intro b hreach
      rw [hrun, hpru, hbaseF]
      show ((revokeScope (maybeFreeze _ _ _)).heap.nodeAt b).frozen = true
      rw [revokeScope_heap, maybeFreeze_on _ _ hautoU hcanU]
      exact hdeep b hreach
  · have hrun : produceRun h baseAddr ⟨cmds, RRet.root⟩ true withP =
        processResult (if withP then { st2 with patchesOn := true }
          else st2) (Val.draft 0) := by
      simp only [produceRun, hdr, if_true, hresE]
    have hpru := processResult_unmodified (Val.draft 0)
      (Or.inr rfl) (hum3 0)
    refine ⟨?_, ?_⟩
    · rw [hrun, hpru, hbaseF]
    · intro b hreach
      rw [hrun, hpru, hbaseF]
      show ((revokeScope (maybeFreeze _ _ _)).heap.nodeAt b).frozen = true
      rw [revokeScope_heap, maybeFreeze_on _ _ hautoU hcanU]
      exact hdeep b hreach

/-- Concrete instance of the amended C10: a two-node base `{a: {b: 1}}`,
auto-freeze on, empty recipe — the base comes back and its whole
reachable graph is frozen. -/
theorem unmodified_autofreeze_deep_witness :
    isDraftableV
      [{ data := .obj [("a", Val.ref 1)], frozen := false },
       { data := .obj [("b", Val.prim (.num 1))], frozen := false }]
      (.ref 0) = true ∧
    heapNoDrafts
      [{ data := .obj [("a", Val.ref 1)], frozen := false },
       { data := .obj [("b", Val.prim (.num 1))], frozen := false }]
      = true ∧
    heapUnfrozen
      [{ data := .obj [("a", Val.ref 1)], frozen := false },
       { data := .obj [("b", Val.prim (.num 1))], frozen := false }]
      = true ∧
    ((produceRun
      [{ data := .obj [("a", Val.ref 1)], frozen := false },
       { data := .obj [("b", Val.prim (.num 1))], frozen := false }]
      0 ⟨[], RRet.undef⟩ true false).1 = .ok (.ref 0) ∧
     (∀ b, DeepReach
        [{ data := .obj [("a", Val.ref 1)], frozen := false },
         { data := .obj [("b", Val.prim (.num 1))], frozen := false }]
        0 b →
       ((produceRun
         [{ data := .obj [("a", Val.ref 1)], frozen := false },
          { data := .obj [("b", Val.prim (.num 1))], frozen := false }]
         0 ⟨[], RRet.undef⟩ true false).2.heap.nodeAt b).frozen
         = true)) :=
  ⟨rfl, rfl, rfl,
    unmodified_autofreeze_deep
      [{ data := .obj [("a", Val.ref 1)], frozen := false },
       { data := .obj [("b", Val.prim (.num 1))], frozen := false }]
      0 [] RRet.undef false rfl rfl (fun c hc => nomatch hc)
      (Or.inl rfl) rfl⟩

theorem finalize_succ (fuel : Nat) (st : EngineState) (value : Val)
    (path : Option (List Tree)) :
    finalize (fuel + 1) st value path =
      (if isFrozenV st.heap value then .ok (st, value)
       else
        match value with
        | .prim _ => .ok (st, value)
        | .ref a => do
            let st1 ← finPropsD fuel st none a
              (entriesOf (st.nodeAt a).data) path false
            .ok (st1, value)
        | .draft d =>
            let ds := st.draftAt d
            if !ds.modified_ then
              .ok (maybeFreeze st (.ref ds.base_) true, .ref ds.base_)
            else if ds.finalized_ then
              .ok (st, .ref (ds.copy_.getD ds.base_))
            else
              let st1 := st.setDraft d { ds with finalized_ := true }
              let st2 := { st1 with unfinalized := st1.unfinalized - 1 }
              let copyAddr := ds.copy_.getD ds.base_
              let isSet := ds.type_ = ArchType.set
              let entries := entriesOf (st2.nodeAt copyAddr).data
              let st3 :=
                if isSet then st2.writeData copyAddr (.set []) else st2
              do
                let st4 ← finPropsD fuel st3 (some d) copyAddr entries
                  path isSet
                let st5 := maybeFreeze st4 (.ref copyAddr) false
                let st6 :=
                  match path with
                  | some p =>
                      if st5.patchesOn then generatePatches st5 d p
                      else st5
                  | none => st5
                .ok (st6, .ref copyAddr)) := rfl

/-! ## Claim C1 — the base heap frame -/

theorem mc_of_drafts_eq {st st2 : EngineState} (h : st2.drafts = st.drafts)
    (hmc : ModCopy st) : ModCopy st2 := by
  constructor
  · intro d p hp
    rw [draftAt_congr h] at hp
    rw [draftAt_congr h]
    exact hmc.1 d p hp
  · intro d hm
    rw [draftAt_congr h] at hm
    rw [draftAt_congr h]
    exact hmc.2 d hm

theorem mc_modifyDraft (st : EngineState) (d : Nat)
    (f : DraftState → DraftState)
    (hpar : ∀ ds, (f ds).parent_ = ds.parent_)
    (hmod : ∀ ds, (f ds).modified_ = ds.modified_)
    (hcop : ∀ ds, (ds.copy_).isSome = true → ((f ds).copy_).isSome = true)
    (hmc : ModCopy st) : ModCopy (st.modifyDraft d f) := by
  unfold EngineState.modifyDraft
  constructor
  · intro x p hp
    rw [draftAt_setDraft] at hp
    rw [draftAt_setDraft]
    by_cases hpd : d = p ∧ d < st.drafts.length
    · rw [if_pos hpd]
      refine hcop _ ?_
      by_cases hx : d = x ∧ d < st.drafts.length
      · rw [if_pos hx] at hp
        rw [hpar] at hp
        rw [hpd.1]
        exact hmc.1 d p hp
      · rw [if_neg hx] at hp
        rw [hpd.1]
        exact hmc.1 x p hp
    · rw [if_neg hpd]
      by_cases hx : d = x ∧ d < st.drafts.length
      · rw [if_pos hx] at hp
        rw [hpar] at hp
        exact hmc.1 d p hp
      · rw [if_neg hx] at hp
        exact hmc.1 x p hp
  · intro x hm
    rw [draftAt_setDraft] at hm
    rw [draftAt_setDraft]
    by_cases hx : d = x ∧ d < st.drafts.length
    · rw [if_pos hx] at hm
      rw [if_pos hx]
      rw [hmod] at hm
      exact hcop _ (hmc.2 d hm)
    · rw [if_neg hx] at hm
      rw [if_neg hx]
      exact hmc.2 x hm

theorem mc_prepareCopy {st : EngineState} (d : Nat) (hmc : ModCopy st) :
    ModCopy (prepareCopy st d) := by
  cases hc : (st.draftAt d).copy_ with
  | some c =>
      rw [prepareCopy_of_some hc]
      exact hmc
  | none =>
      rw [prepareCopy_of_none hc]
      exact mc_modifyDraft
        (st.alloc (st.nodeAt (st.draftAt d).base_).data).1 d
        (fun ds => { ds with copy_ := some st.heap.length })
        (fun ds => rfl) (fun ds => rfl) (fun ds h => rfl)
        (mc_of_drafts_eq rfl hmc)

theorem mc_prepareMapCopy {st : EngineState} (d : Nat) (hmc : ModCopy st) :
    ModCopy (prepareMapCopy st d) := by
  cases hc : (st.draftAt d).copy_ with
  | some c =>
      rw [prepareMapCopy_of_some hc]
      exact hmc
  | none =>
      rw [prepareMapCopy_of_none hc]
      exact mc_modifyDraft
        (st.alloc (st.nodeAt (st.draftAt d).base_).data).1 d
        (fun ds => { ds with copy_ := some st.heap.length, assignedV := [] })
        (fun ds => rfl) (fun ds => rfl) (fun ds h => rfl)
        (mc_of_drafts_eq rfl hmc)

theorem prepareCopy_copy_isSome {st : EngineState} {d : Nat}
    (hd : d < st.drafts.length) :
    (((prepareCopy st d).draftAt d).copy_).isSome = true := by
  cases hc : (st.draftAt d).copy_ with
  | some c =>
      rw [prepareCopy_of_some hc, hc]
      rfl
  | none =>
      rw [prepareCopy_of_none hc, draftAt_setDraft,
        if_pos ⟨rfl, show d < st.drafts.length from hd⟩]
      rfl

theorem prepareMapCopy_copy_isSome {st : EngineState} {d : Nat}
    (hd : d < st.drafts.length) :
    (((prepareMapCopy st d).draftAt d).copy_).isSome = true := by
  cases hc : (st.draftAt d).copy_ with
  | some c =>
      rw [prepareMapCopy_of_some hc, hc]
      rfl
  | none =>
      rw [prepareMapCopy_of_none hc]
      show (((st.alloc (st.nodeAt (st.draftAt d).base_).data).1.setDraft d
        { (st.alloc (st.nodeAt (st.draftAt d).base_).data).1.draftAt d with
          copy_ := some st.heap.length,
          assignedV := [] }).draftAt d).copy_.isSome = true
      rw [draftAt_setDraft,
        if_pos ⟨rfl, show d < st.drafts.length from hd⟩]
      rfl

theorem mc_markChanged : ∀ (fuel : Nat) (st : EngineState) (d : Nat),
    (d < st.drafts.length → ((st.draftAt d).copy_).isSome = true) →
    ModCopy st → ModCopy (markChanged st fuel d)
  | 0, st, d, _, hmc => hmc
  | fuel + 1, st, d, hd, hmc => by
      by_cases hm : (st.draftAt d).modified_ = true
      · rw [markChanged_of_modified fuel hm]
        exact hmc
      · have hmc1 : ModCopy (st.setDraft d
            { st.draftAt d with modified_ := true }) := by
          constructor
          · intro x p hp
            rw [draftAt_setDraft] at hp
            rw [draftAt_setDraft]
            by_cases hpd : d = p ∧ d < st.drafts.length
            · rw [if_pos hpd]
              show ((st.draftAt d).copy_).isSome = true
              exact hd hpd.2
            · rw [if_neg hpd]
              by_cases hx : d = x ∧ d < st.drafts.length
              · rw [if_pos hx] at hp
                exact hmc.1 d p hp
              · rw [if_neg hx] at hp
                exact hmc.1 x p hp
          · intro x hm2
            rw [draftAt_setDraft] at hm2
            rw [draftAt_setDraft]
            by_cases hx : d = x ∧ d < st.drafts.length
            · rw [if_pos hx]
              show ((st.draftAt d).copy_).isSome = true
              exact hd hx.2
            · rw [if_neg hx] at hm2
              rw [if_neg hx]
              exact hmc.2 x hm2
        cases hpar : (st.draftAt d).parent_ with
        | none =>
            rw [markChanged_of_root fuel hm hpar]
            exact hmc1
        | some p =>
            rw [markChanged_of_parent fuel hm hpar]
            refine mc_markChanged fuel _ p ?_ hmc1
            intro hplen
            rw [draftAt_setDraft]
            by_cases hpd : d = p ∧ d < st.drafts.length
            · rw [if_pos hpd]
              show ((st.draftAt d).copy_).isSome = true
              exact hd hpd.2
            · rw [if_neg hpd]
              exact hmc.1 d p hpar

theorem mc_createProxy {st : EngineState} (a : Nat) (par : Option Nat)
    (hpar : ∀ p, par = some p → ((st.draftAt p).copy_).isSome = true)
    (hmc : ModCopy st) : ModCopy (createProxy st a par).1 := by
  have hoob : ∀ p, ((st.draftAt p).copy_).isSome = true →
      ¬ p = st.drafts.length := by
    intro p hps hpe
    rw [hpe, draftAt_oob (Nat.le_refl _)] at hps
    cases hps
  constructor
  · intro x p hp
    rw [createProxy_draftAt] at hp
    rw [createProxy_draftAt]
    by_cases hx : x = st.drafts.length
    · rw [if_pos hx] at hp
      have hps := hpar p hp
      rw [if_neg (hoob p hps)]
      exact hps
    · rw [if_neg hx] at hp
      have hps := hmc.1 x p hp
      rw [if_neg (hoob p hps)]
      exact hps
  · intro x hm
    rw [createProxy_draftAt] at hm
    rw [createProxy_draftAt]
    by_cases hx : x = st.drafts.length
    · rw [if_pos hx] at hm
      cases hm
    · rw [if_neg hx] at hm
      rw [if_neg hx]
      exact hmc.2 x hm

theorem setCopyFold_drafts (d : Nat) :
    ∀ (elems : List Val) (s : EngineState) (cs : List Val)
      (dm : List (Val × Val)),
    s.drafts.length ≤
      (elems.foldl (setCopyStep d) (s, cs, dm)).1.drafts.length ∧
    (∀ x, x < s.drafts.length →
      (elems.foldl (setCopyStep d) (s, cs, dm)).1.draftAt x
        = s.draftAt x) ∧
    (∀ x, s.drafts.length ≤ x →
      ((((elems.foldl (setCopyStep d) (s, cs, dm)).1.draftAt x).parent_
          = some d ∧
        (((elems.foldl (setCopyStep d) (s, cs, dm)).1.draftAt
          x)).modified_ = false) ∨
       (elems.foldl (setCopyStep d) (s, cs, dm)).1.draftAt x = default))
  | [], s, cs, dm =>
      ⟨Nat.le_refl _, fun _ _ => rfl, fun x hx => Or.inr (draftAt_oob hx)⟩
  | v :: rest, s, cs, dm => by
      simp only [List.foldl_cons]
      cases v with
      | prim p => exact setCopyFold_drafts d rest s _ _
      | draft i => exact setCopyFold_drafts d rest s _ _
      | ref a =>
          by_cases hdr : isDraftableV s.heap (.ref a) = true
          · have hstep : setCopyStep d (s, cs, dm) (.ref a) =
                ((createProxy s a (some d)).1,
                  cs ++ [Val.draft s.drafts.length],
                  dm ++ [(.ref a, Val.draft s.drafts.length)]) := by
              unfold setCopyStep
              simp only [hdr, if_true]
              rfl
            rw [hstep]
            have h2 := setCopyFold_drafts d rest (createProxy s a
              (some d)).1 (cs ++ [Val.draft s.drafts.length])
              (dm ++ [(.ref a, Val.draft s.drafts.length)])
            refine ⟨?_, ?_, ?_⟩
            · have := h2.1
              rw [createProxy_len] at this
              omega
            · intro x hx
              rw [h2.2.1 x (by rw [createProxy_len]; omega),
                createProxy_draftAt, if_neg (by omega)]
            · intro x hx
              by_cases hxe : x = s.drafts.length
              · rw [h2.2.1 x (by rw [createProxy_len]; omega),
                  createProxy_draftAt, if_pos hxe]
                exact Or.inl ⟨rfl, rfl⟩
              · exact h2.2.2 x (by rw [createProxy_len]; omega)
          · have hstep : setCopyStep d (s, cs, dm) (.ref a) =
                (s, cs ++ [Val.ref a], dm) := by
              unfold setCopyStep
              simp only
              rw [if_neg hdr]
            rw [hstep]
            exact setCopyFold_drafts d rest s _ _

theorem copy_isSome_lt {st : EngineState} {p : Nat}
    (hps : ((st.draftAt p).copy_).isSome = true) :
    p < st.drafts.length := by
  by_contra hge
  rw [draftAt_oob (by omega)] at hps
  cases hps

theorem mc_setCopyTail (d : Nat) (elems : List Val) (st : EngineState)
    (hd : d < st.drafts.length) (hmc : ModCopy st) :
    ModCopy (((elems.foldl (setCopyStep d) (st, [], [])).1.alloc
        (.set (elems.foldl (setCopyStep d) (st, [], [])).2.1)).1.modifyDraft
        d (fun ds1 => { ds1 with
          copy_ := some ((elems.foldl (setCopyStep d) (st, [], [])).1.alloc
            (.set (elems.foldl (setCopyStep d) (st, [], [])).2.1)).2,
          setDrafts := ds1.setDrafts ++
            (elems.foldl (setCopyStep d) (st, [], [])).2.2 })) := by
  have hF := setCopyFold_drafts d elems st [] []
  have hdF : d < (elems.foldl (setCopyStep d)
      (st, [], [])).1.drafts.length := by
    have := hF.1
    omega
  unfold EngineState.modifyDraft
  constructor
  · intro x p hp
    rw [draftAt_setDraft] at hp
    rw [draftAt_setDraft]
    by_cases hpd : d = p ∧ d < ((elems.foldl (setCopyStep d)
        (st, [], [])).1.alloc
        (.set (elems.foldl (setCopyStep d)
          (st, [], [])).2.1)).1.drafts.length
    · rw [if_pos hpd]
      rfl
    · rw [if_neg hpd]
      have hdp : ¬ d = p := by
        intro he
        exact hpd ⟨he, hdF⟩
      have hp2 : (((elems.foldl (setCopyStep d)
          (st, [], [])).1.draftAt x).parent_ = some p) ∨
          ((st.draftAt x).parent_ = some p ∧ x < st.drafts.length) := by
        by_cases hx : d = x ∧ d < ((elems.foldl (setCopyStep d)
            (st, [], [])).1.alloc
            (.set (elems.foldl (setCopyStep d)
              (st, [], [])).2.1)).1.drafts.length
        · rw [if_pos hx] at hp
          left
          rw [← hx.1]
          exact hp
        · rw [if_neg hx] at hp
          left
          exact hp
      have hcopyP : ((st.draftAt p).copy_).isSome = true := by
        rcases hp2 with hp3 | ⟨hp3, hx3⟩
        · by_cases hxs : x < st.drafts.length
          · rw [hF.2.1 x hxs] at hp3
            exact hmc.1 x p hp3
          · rcases hF.2.2 x (by omega) with ⟨hpar2, _⟩ | hdef
            · rw [hp3] at hpar2
              cases hpar2
              exact absurd rfl hdp
            · rw [hdef] at hp3
              cases hp3
        · exact hmc.1 x p hp3
      have hplt := copy_isSome_lt hcopyP
      show (((elems.foldl (setCopyStep d)
        (st, [], [])).1.draftAt p).copy_).isSome = true
      rw [hF.2.1 p hplt]
      exact hcopyP
  · intro x hm
    rw [draftAt_setDraft] at hm
    rw [draftAt_setDraft]
    by_cases hx : d = x ∧ d < ((elems.foldl (setCopyStep d)
        (st, [], [])).1.alloc
        (.set (elems.foldl (setCopyStep d)
          (st, [], [])).2.1)).1.drafts.length
    · rw [if_pos hx]
      rfl
    · rw [if_neg hx] at hm
      rw [if_neg hx]
      have hm2 : (((elems.foldl (setCopyStep d)
          (st, [], [])).1.draftAt x)).modified_ = true := hm
      show (((elems.foldl (setCopyStep d)
        (st, [], [])).1.draftAt x).copy_).isSome = true
      by_cases hxs : x < st.drafts.length
      · rw [hF.2.1 x hxs] at hm2
        rw [hF.2.1 x hxs]
        exact hmc.2 x hm2
      · rcases hF.2.2 x (by omega) with ⟨_, hmod2⟩ | hdef
        · rw [hmod2] at hm2
          cases hm2
        · rw [hdef] at hm2
          cases hm2

theorem mc_prepareSetCopy {st : EngineState} {d : Nat}
    (hd : d < st.drafts.length) (hmc : ModCopy st) :
    ModCopy (prepareSetCopy st d) := by
  cases hc : (st.draftAt d).copy_ with
  | some c =>
      have heq : prepareSetCopy st d = st := by
        unfold prepareSetCopy
        simp only [hc]
      rw [heq]
      exact hmc
  | none =>
      unfold prepareSetCopy
      cases hdata : (st.nodeAt (st.draftAt d).base_).data with
      | set xs =>
          simp only [hc, hdata]
          exact mc_setCopyTail d xs st hd hmc
      | obj fs =>
          simp only [hc, hdata]
          exact mc_setCopyTail d [] st hd hmc
      | arr xs =>
          simp only [hc, hdata]
          exact mc_setCopyTail d [] st hd hmc
      | map es =>
          simp only [hc, hdata]
          exact mc_setCopyTail d [] st hd hmc
      | opaq =>
          simp only [hc, hdata]
          exact mc_setCopyTail d [] st hd hmc

theorem setCopyTail_copy_isSome (d : Nat) (elems : List Val)
    (st : EngineState) (hd : d < st.drafts.length) :
    (((((elems.foldl (setCopyStep d) (st, [], [])).1.alloc
        (.set (elems.foldl (setCopyStep d) (st, [], [])).2.1)).1.modifyDraft
        d (fun ds1 => { ds1 with
          copy_ := some ((elems.foldl (setCopyStep d) (st, [], [])).1.alloc
            (.set (elems.foldl (setCopyStep d) (st, [], [])).2.1)).2,
          setDrafts := ds1.setDrafts ++
            (elems.foldl (setCopyStep d)
              (st, [], [])).2.2 })).draftAt d).copy_).isSome = true := by
  have hF := setCopyFold_drafts d elems st [] []
  unfold EngineState.modifyDraft
  rw [draftAt_setDraft, if_pos ⟨rfl,
    show d < (elems.foldl (setCopyStep d) (st, [], [])).1.drafts.length
      from by have := hF.1; omega⟩]
  rfl

theorem prepareSetCopy_copy_isSome {st : EngineState} {d : Nat}
    (hd : d < st.drafts.length) :
    (((prepareSetCopy st d).draftAt d).copy_).isSome = true := by
  cases hc : (st.draftAt d).copy_ with
  | some c =>
      have heq : prepareSetCopy st d = st := by
        unfold prepareSetCopy
        simp only [hc]
      rw [heq, hc]
      rfl
  | none =>
      unfold prepareSetCopy
      cases hdata : (st.nodeAt (st.draftAt d).base_).data with
      | set xs =>
          simp only [hc, hdata]
          exact setCopyTail_copy_isSome d xs st hd
      | obj fs =>
          simp only [hc, hdata]
          exact setCopyTail_copy_isSome d [] st hd
      | arr xs =>
          simp only [hc, hdata]
          exact setCopyTail_copy_isSome d [] st hd
      | map es =>
          simp only [hc, hdata]
          exact setCopyTail_copy_isSome d [] st hd
      | opaq =>
          simp only [hc, hdata]
          exact setCopyTail_copy_isSome d [] st hd

theorem mc_setAssignedS (st : EngineState) (d : Nat) (k : String)
    (b : Bool) (hmc : ModCopy st) : ModCopy (setAssignedS st d k b) :=
  mc_modifyDraft st d _ (fun _ => rfl) (fun _ => rfl) (fun _ h => h) hmc

theorem mc_setAssignedV (st : EngineState) (d : Nat) (k : Val) (b : Bool)
    (hmc : ModCopy st) : ModCopy (setAssignedV st d k b) :=
  mc_modifyDraft st d _ (fun _ => rfl) (fun _ => rfl) (fun _ h => h) hmc

theorem mc_removeAssignedS (st : EngineState) (d : Nat) (k : String)
    (hmc : ModCopy st) : ModCopy (removeAssignedS st d k) :=
  mc_modifyDraft st d _ (fun _ => rfl) (fun _ => rfl) (fun _ h => h) hmc

theorem mc_removeAssignedV (st : EngineState) (d : Nat) (k : Val)
    (hmc : ModCopy st) : ModCopy (removeAssignedV st d k) :=
  mc_modifyDraft st d _ (fun _ => rfl) (fun _ => rfl) (fun _ h => h) hmc

theorem mc_writeCopy (st : EngineState) (d : Nat) (k : String) (v : Val)
    (hmc : ModCopy st) : ModCopy (writeCopy st d k v) := by
  unfold writeCopy
  split
  · exact mc_of_drafts_eq rfl hmc
  · exact hmc

theorem mc_deleteCopy (st : EngineState) (d : Nat) (k : String)
    (hmc : ModCopy st) : ModCopy (deleteCopy st d k) := by
  unfold deleteCopy
  split
  · exact mc_of_drafts_eq rfl hmc
  · exact hmc

theorem mc_writeMapCopy (st : EngineState) (d : Nat) (k v : Val)
    (hmc : ModCopy st) : ModCopy (writeMapCopy st d k v) := by
  unfold writeMapCopy
  split
  · exact mc_of_drafts_eq rfl hmc
  · exact hmc

theorem mc_deleteMapCopy (st : EngineState) (d : Nat) (k : Val)
    (hmc : ModCopy st) : ModCopy (deleteMapCopy st d k) := by
  unfold deleteMapCopy
  split
  · exact mc_of_drafts_eq rfl hmc
  · exact hmc

theorem mc_proxyGet {st st1 : EngineState} {d : Nat} {k : String}
    {v : Val} (hd : d < st.drafts.length) (hmc : ModCopy st)
    (hrun : proxyGet st d k = .ok (st1, v)) : ModCopy st1 := by
  simp only [proxyGet] at hrun
  split at hrun
  · cases hrun
  · split at hrun
    · simp only [Except.ok.injEq, Prod.mk.injEq] at hrun
      obtain ⟨rfl, rfl⟩ := hrun
      exact hmc
    · next value hfound =>
      split at hrun
      · simp only [Except.ok.injEq, Prod.mk.injEq] at hrun
        obtain ⟨rfl, rfl⟩ := hrun
        exact hmc
      · split at hrun
        · cases value with
          | prim p =>
              simp only [Except.ok.injEq, Prod.mk.injEq] at hrun
              obtain ⟨rfl, rfl⟩ := hrun
              exact hmc
          | draft i =>
              simp only [Except.ok.injEq, Prod.mk.injEq] at hrun
              obtain ⟨rfl, rfl⟩ := hrun
              exact hmc
          | ref a =>
              simp only [Except.ok.injEq, Prod.mk.injEq] at hrun
              obtain ⟨rfl, rfl⟩ := hrun
              exact mc_writeCopy _ d k _
                (mc_createProxy a (some d)
                  (fun p hp => by
                    cases hp
                    exact prepareCopy_copy_isSome hd)
                  (mc_prepareCopy d hmc))
        · simp only [Except.ok.injEq, Prod.mk.injEq] at hrun
          obtain ⟨rfl, rfl⟩ := hrun
          exact hmc

theorem mc_assignWrite (st : EngineState) (d : Nat) (k : String) (v : Val)
    (b : Bool) (hmc : ModCopy st) :
    ModCopy (setAssignedS (writeCopy st d k v) d k b) :=
  mc_setAssignedS _ d k b (mc_writeCopy st d k v hmc)

theorem mc_proxySet {st st1 : EngineState} {d : Nat} {k : String}
    {v : Val} (hd : d < st.drafts.length) (hmc : ModCopy st)
    (hrun : proxySet st d k v = .ok st1) : ModCopy st1 := by
  simp only [proxySet] at hrun
  split at hrun
  · cases hrun
  · split at hrun
    · cases hrun
    · split at hrun
      · simp only [Except.ok.injEq] at hrun
        subst hrun
        split
        · exact hmc
        · exact mc_assignWrite st d k v true hmc
      · split at hrun
        · simp only [Except.ok.injEq] at hrun
          subst hrun
          exact mc_assignWrite st d k v false hmc
        · split at hrun
          · simp only [Except.ok.injEq] at hrun
            subst hrun
            exact hmc
          · simp only [Except.ok.injEq] at hrun
            subst hrun
            have hmc2 : ModCopy (markChanged (prepareCopy st d)
                st.drafts.length d) :=
              mc_markChanged st.drafts.length (prepareCopy st d) d
                (fun _ => prepareCopy_copy_isSome hd)
                (mc_prepareCopy d hmc)
            split
            · exact hmc2
            · exact mc_assignWrite _ d k v true hmc2

theorem mc_proxyDelete {st st1 : EngineState} {d : Nat} {k : String}
    (hd : d < st.drafts.length) (hmc : ModCopy st)
    (hrun : proxyDelete st d k = .ok st1) : ModCopy st1 := by
  simp only [proxyDelete] at hrun
  split at hrun
  · cases hrun
  · split at hrun
    · split at hrun
      · cases hrun
      · exact mc_proxySet hd hmc hrun
    · simp only [Except.ok.injEq] at hrun
      subst hrun
      split
      · refine mc_deleteCopy _ d k ?_
        refine mc_markChanged st.drafts.length _ d ?_
          (mc_prepareCopy d (mc_setAssignedS st d k false hmc))
        intro hlen
        refine prepareCopy_copy_isSome ?_
        show d < (setAssignedS st d k false).drafts.length
        unfold setAssignedS EngineState.modifyDraft EngineState.setDraft
        simp only [List.length_set]
        exact hd
      · exact mc_deleteCopy _ d k (mc_removeAssignedS st d k hmc)

theorem mc_cpPrepMap {st : EngineState} (a : Nat) {d : Nat}
    (hd : d < st.drafts.length) (hmc : ModCopy st) :
    ModCopy (prepareMapCopy (createProxy st a (some d)).1 d) := by
  by_cases hcp : ((st.draftAt d).copy_).isSome = true
  · refine mc_prepareMapCopy d (mc_createProxy a (some d) ?_ hmc)
    intro p hp
    cases hp
    exact hcp
  · have hcpn : (st.draftAt d).copy_ = none := by
      cases hcv : (st.draftAt d).copy_ with
      | none => rfl
      | some c =>
          rw [hcv] at hcp
          exact absurd rfl hcp
    have hcC : (((createProxy st a (some d)).1).draftAt d).copy_
        = none := by
      rw [createProxy_draftAt, if_neg (by omega)]
      exact hcpn
    rw [prepareMapCopy_of_none hcC]
    unfold EngineState.modifyDraft
    constructor
    · intro x p hp
      rw [draftAt_setDraft] at hp
      rw [draftAt_setDraft]
      by_cases hpd : d = p ∧ d < (((createProxy st a (some d)).1.alloc
          ((createProxy st a (some d)).1.nodeAt
            (((createProxy st a
              (some d)).1.draftAt d)).base_).data)).1.drafts.length
      · rw [if_pos hpd]
        rfl
      · rw [if_neg hpd]
        have hdA : d < (((createProxy st a (some d)).1.alloc
            ((createProxy st a (some d)).1.nodeAt
              (((createProxy st a
                (some d)).1.draftAt d)).base_).data)).1.drafts.length := by
          show d < (createProxy st a (some d)).1.drafts.length
          rw [createProxy_len]
          omega
        have hdp : ¬ d = p := fun he => hpd ⟨he, hdA⟩
        have hpC : (((createProxy st a
            (some d)).1.draftAt x).parent_ = some p) := by
          by_cases hx : d = x ∧ d < (((createProxy st a (some d)).1.alloc
              ((createProxy st a (some d)).1.nodeAt
                (((createProxy st a
                  (some d)).1.draftAt d)).base_).data)).1.drafts.length
          · rw [if_pos hx] at hp
            rw [← hx.1]
            exact hp
          · rw [if_neg hx] at hp
            exact hp
        show (((createProxy st a
          (some d)).1.draftAt p).copy_).isSome = true
        rw [createProxy_draftAt] at hpC
        by_cases hxl : x = st.drafts.length
        · rw [if_pos hxl] at hpC
          cases hpC
          exact absurd rfl hdp
        · rw [if_neg hxl] at hpC
          have hcps := hmc.1 x p hpC
          have hplt := copy_isSome_lt hcps
          rw [createProxy_draftAt, if_neg (by omega)]
          exact hcps
    · intro x hm
      rw [draftAt_setDraft] at hm
      rw [draftAt_setDraft]
      by_cases hx : d = x ∧ d < (((createProxy st a (some d)).1.alloc
          ((createProxy st a (some d)).1.nodeAt
            (((createProxy st a
              (some d)).1.draftAt d)).base_).data)).1.drafts.length
      · rw [if_pos hx]
        rfl
      · rw [if_neg hx] at hm
        rw [if_neg hx]
        have hmC : (((createProxy st a
            (some d)).1.draftAt x)).modified_ = true := hm
        rw [createProxy_draftAt] at hmC
        show (((createProxy st a
          (some d)).1.draftAt x).copy_).isSome = true
        by_cases hxl : x = st.drafts.length
        · rw [if_pos hxl] at hmC
          cases hmC
        · rw [if_neg hxl] at hmC
          have h2 := hmc.2 x hmC
          rw [createProxy_draftAt, if_neg hxl]
          exact h2

theorem mc_draftMapGet {st st1 : EngineState} {d : Nat} {k v : Val}
    (hd : d < st.drafts.length) (hmc : ModCopy st)
    (hrun : draftMapGet st d k = .ok (st1, v)) : ModCopy st1 := by
  simp only [draftMapGet] at hrun
  split at hrun
  · cases hrun
  · split at hrun
    · simp only [Except.ok.injEq, Prod.mk.injEq] at hrun
      obtain ⟨rfl, rfl⟩ := hrun
      exact hmc
    · split at hrun
      · simp only [Except.ok.injEq, Prod.mk.injEq] at hrun
        obtain ⟨rfl, rfl⟩ := hrun
        exact hmc
      · split at hrun
        · rename_i a ha
          simp only [Except.ok.injEq, Prod.mk.injEq] at hrun
          obtain ⟨rfl, rfl⟩ := hrun
          exact mc_writeMapCopy _ d k _ (mc_cpPrepMap a hd hmc)
        · simp only [Except.ok.injEq, Prod.mk.injEq] at hrun
          obtain ⟨rfl, rfl⟩ := hrun
          exact hmc

theorem mc_draftMapSet {st st1 : EngineState} {d : Nat} {k v : Val}
    (hd : d < st.drafts.length) (hmc : ModCopy st)
    (hrun : draftMapSet st d k v = .ok st1) : ModCopy st1 := by
  simp only [draftMapSet] at hrun
  split at hrun
  · cases hrun
  · split at hrun
    · simp only [Except.ok.injEq] at hrun
      subst hrun
      exact mc_writeMapCopy _ d k v
        (mc_setAssignedV _ d k true
          (mc_markChanged st.drafts.length (prepareMapCopy st d) d
            (fun _ => prepareMapCopy_copy_isSome hd)
            (mc_prepareMapCopy d hmc)))
    · simp only [Except.ok.injEq] at hrun
      subst hrun
      exact hmc

theorem mc_draftMapDelete {st st1 : EngineState} {d : Nat} {k : Val}
    {b : Bool} (hd : d < st.drafts.length) (hmc : ModCopy st)
    (hrun : draftMapDelete st d k = .ok (st1, b)) : ModCopy st1 := by
  simp only [draftMapDelete] at hrun
  split at hrun
  · simp only [Except.ok.injEq, Prod.mk.injEq] at hrun
    obtain ⟨rfl, rfl⟩ := hrun
    exact hmc
  · split at hrun
    · cases hrun
    · simp only [Except.ok.injEq, Prod.mk.injEq] at hrun
      obtain ⟨rfl, rfl⟩ := hrun
      have hmc2 : ModCopy (markChanged (prepareMapCopy st d)
          st.drafts.length d) :=
        mc_markChanged st.drafts.length (prepareMapCopy st d) d
          (fun _ => prepareMapCopy_copy_isSome hd)
          (mc_prepareMapCopy d hmc)
      split
      · exact mc_deleteMapCopy _ d k (mc_setAssignedV _ d k false hmc2)
      · exact mc_deleteMapCopy _ d k (mc_removeAssignedV _ d k hmc2)

theorem mc_draftMapClear {st st1 : EngineState} {d : Nat}
    (hd : d < st.drafts.length) (hmc : ModCopy st)
    (hrun : draftMapClear st d = .ok st1) : ModCopy st1 := by
  simp only [draftMapClear] at hrun
  split at hrun
  · cases hrun
  · split at hrun
    · have hmc2 : ModCopy ((markChanged (prepareMapCopy st d)
          st.drafts.length d).modifyDraft d (fun ds1 =>
            { ds1 with assignedV := ((mapEntriesOf ((markChanged
              (prepareMapCopy st d) st.drafts.length
                d).nodeAt (st.draftAt d).base_).data).map
                (fun kv => kv.1)).map (fun k => (k, false)) })) := by
        refine mc_modifyDraft _ d _ (fun _ => rfl) (fun _ => rfl)
          (fun _ h => h) ?_
        exact mc_markChanged st.drafts.length (prepareMapCopy st d) d
          (fun _ => prepareMapCopy_copy_isSome hd)
          (mc_prepareMapCopy d hmc)
      split at hrun
      · simp only [Except.ok.injEq] at hrun
        subst hrun
        exact mc_of_drafts_eq rfl hmc2
      · simp only [Except.ok.injEq] at hrun
        subst hrun
        exact hmc2
    · simp only [Except.ok.injEq] at hrun
      subst hrun
      exact hmc

theorem mc_draftSetValues {st st1 : EngineState} {d : Nat}
    {xs : List Val} (hd : d < st.drafts.length) (hmc : ModCopy st)
    (hrun : draftSetValues st d = .ok (st1, xs)) : ModCopy st1 := by
  simp only [draftSetValues] at hrun
  split at hrun
  · cases hrun
  · split at hrun
    · simp only [Except.ok.injEq, Prod.mk.injEq] at hrun
      obtain ⟨rfl, rfl⟩ := hrun
      exact mc_prepareSetCopy hd hmc
    · simp only [Except.ok.injEq, Prod.mk.injEq] at hrun
      obtain ⟨rfl, rfl⟩ := hrun
      exact mc_prepareSetCopy hd hmc

theorem mc_draftSetAdd {st st1 : EngineState} {d : Nat} {v : Val}
    (hd : d < st.drafts.length) (hmc : ModCopy st)
    (hrun : draftSetAdd st d v = .ok st1) : ModCopy st1 := by
  simp only [draftSetAdd] at hrun
  split at hrun
  · cases hrun
  · split at hrun
    · simp only [Except.ok.injEq] at hrun
      subst hrun
      exact hmc
    · have hmc2 : ModCopy (markChanged (prepareSetCopy st d)
          st.drafts.length d) :=
        mc_markChanged st.drafts.length (prepareSetCopy st d) d
          (fun _ => prepareSetCopy_copy_isSome hd)
          (mc_prepareSetCopy hd hmc)
      split at hrun
      · simp only [Except.ok.injEq] at hrun
        subst hrun
        exact mc_of_drafts_eq rfl hmc2
      · simp only [Except.ok.injEq] at hrun
        subst hrun
        exact hmc2

theorem mc_draftSetDelete {st st1 : EngineState} {d : Nat} {v : Val}
    {b : Bool} (hd : d < st.drafts.length) (hmc : ModCopy st)
    (hrun : draftSetDelete st d v = .ok (st1, b)) : ModCopy st1 := by
  simp only [draftSetDelete, draftSetHas] at hrun
  split at hrun
  · cases hrun
  · simp only [ebind_ok] at hrun
    split at hrun
    · simp only [Except.ok.injEq, Prod.mk.injEq] at hrun
      obtain ⟨rfl, rfl⟩ := hrun
      exact hmc
    · have hmc2 : ModCopy (markChanged (prepareSetCopy st d)
          st.drafts.length d) :=
        mc_markChanged st.drafts.length (prepareSetCopy st d) d
          (fun _ => prepareSetCopy_copy_isSome hd)
          (mc_prepareSetCopy hd hmc)
      split at hrun
      · split at hrun
        · simp only [Except.ok.injEq, Prod.mk.injEq] at hrun
          obtain ⟨rfl, rfl⟩ := hrun
          exact mc_of_drafts_eq rfl hmc2
        · split at hrun
          · simp only [Except.ok.injEq, Prod.mk.injEq] at hrun
            obtain ⟨rfl, rfl⟩ := hrun
            exact mc_of_drafts_eq rfl hmc2
          · simp only [Except.ok.injEq, Prod.mk.injEq] at hrun
            obtain ⟨rfl, rfl⟩ := hrun
            exact hmc2
      · simp only [Except.ok.injEq, Prod.mk.injEq] at hrun
        obtain ⟨rfl, rfl⟩ := hrun
        exact hmc2

theorem mc_draftSetClear {st st1 : EngineState} {d : Nat}
    (hd : d < st.drafts.length) (hmc : ModCopy st)
    (hrun : draftSetClear st d = .ok st1) : ModCopy st1 := by
  simp only [draftSetClear] at hrun
  split at hrun
  · cases hrun
  · split at hrun
    · have hmc2 : ModCopy (markChanged (prepareSetCopy st d)
          st.drafts.length d) :=
        mc_markChanged st.drafts.length (prepareSetCopy st d) d
          (fun _ => prepareSetCopy_copy_isSome hd)
          (mc_prepareSetCopy hd hmc)
      split at hrun
      · simp only [Except.ok.injEq] at hrun
        subst hrun
        exact mc_of_drafts_eq rfl hmc2
      · simp only [Except.ok.injEq] at hrun
        subst hrun
        exact hmc2
    · simp only [Except.ok.injEq] at hrun
      subst hrun
      exact hmc

theorem mc_navigate {st st1 : EngineState} {d : Nat} {seg : Seg}
    {v : Val} (hd : d < st.drafts.length) (hmc : ModCopy st)
    (hrun : navigate st d seg = .ok (st1, v)) : ModCopy st1 := by
  cases seg with
  | prop k =>
      simp only [navigate] at hrun
      split at hrun
      · exact mc_proxyGet hd hmc hrun
      · exact mc_proxyGet hd hmc hrun
      · simp only [Except.ok.injEq, Prod.mk.injEq] at hrun
        obtain ⟨rfl, rfl⟩ := hrun
        exact hmc
  | mkey k =>
      simp only [navigate] at hrun
      split at hrun
      · exact mc_draftMapGet hd hmc hrun
      · simp only [Except.ok.injEq, Prod.mk.injEq] at hrun
        obtain ⟨rfl, rfl⟩ := hrun
        exact hmc
  | selem i =>
      simp only [navigate] at hrun
      split at hrun
      · cases hsv : draftSetValues st d with
        | error e =>
            rw [hsv] at hrun
            simp only [ebind_error] at hrun
            cases hrun
        | ok p =>
            obtain ⟨st2, xs⟩ := p
            rw [hsv] at hrun
            simp only [ebind_ok, Except.ok.injEq, Prod.mk.injEq] at hrun
            obtain ⟨rfl, rfl⟩ := hrun
            exact mc_draftSetValues hd hmc hsv
      · simp only [Except.ok.injEq, Prod.mk.injEq] at hrun
        obtain ⟨rfl, rfl⟩ := hrun
        exact hmc

theorem mc_walkDraft {n : Nat} :
    ∀ (path : List Seg) (st : EngineState) (d : Nat)
      {st1 : EngineState} {d2 : Nat},
    d < st.drafts.length → InvAt n st → ModCopy st →
    walkDraft st d path = .ok (st1, d2) → ModCopy st1
  | [], st, d, st1, d2, hd, hinv, hmc, hrun => by
      simp only [walkDraft, Except.ok.injEq, Prod.mk.injEq] at hrun
      obtain ⟨rfl, rfl⟩ := hrun
      exact hmc
  | seg :: rest, st, d, st1, d2, hd, hinv, hmc, hrun => by
      simp only [walkDraft] at hrun
      cases hnav : navigate st d seg with
      | error e =>
          rw [hnav] at hrun
          simp only [ebind_error] at hrun
          cases hrun
      | ok p =>
          obtain ⟨st2, v⟩ := p
          rw [hnav] at hrun
          simp only [ebind_ok] at hrun
          obtain ⟨h1, he1, hd1, hv1⟩ := invAt_navigate hd hinv hnav
          have hmc1 := mc_navigate hd hmc hnav
          cases v with
          | draft dd =>
              have hdd : dd < st2.drafts.length := by
                simpa [Val.draftLT] using hv1
              exact mc_walkDraft rest st2 dd hdd h1 hmc1 hrun
          | prim p2 => cases hrun
          | ref a => cases hrun

theorem mc_execRead {n : Nat} :
    ∀ (path : List Seg) (st : EngineState) (d : Nat) {st1 : EngineState},
    d < st.drafts.length → InvAt n st → ModCopy st →
    execRead st d path = .ok st1 → ModCopy st1
  | [], st, d, st1, hd, hinv, hmc, hrun => by
      simp only [execRead, Except.ok.injEq] at hrun
      subst hrun
      exact hmc
  | seg :: rest, st, d, st1, hd, hinv, hmc, hrun => by
      simp only [execRead] at hrun
      cases hnav : navigate st d seg with
      | error e =>
          rw [hnav] at hrun
          simp only [ebind_error] at hrun
          cases hrun
      | ok p =>
          obtain ⟨st2, v⟩ := p
          rw [hnav] at hrun
          simp only [ebind_ok] at hrun
          obtain ⟨h1, he1, hd1, hv1⟩ := invAt_navigate hd hinv hnav
          have hmc1 := mc_navigate hd hmc hnav
          cases v with
          | draft dd =>
              have hdd : dd < st2.drafts.length := by
                simpa [Val.draftLT] using hv1
              exact mc_execRead rest st2 dd hdd h1 hmc1 hrun
          | prim p2 =>
              simp only [Except.ok.injEq] at hrun
              subst hrun
              exact hmc1
          | ref a =>
              simp only [Except.ok.injEq] at hrun
              subst hrun
              exact hmc1

theorem mc_execCmd {n : Nat} {st st1 : EngineState} {c : Cmd}
    (h0 : 0 < st.drafts.length) (hinv : InvAt n st) (hmc : ModCopy st)
    (hrun : execCmd st c = .ok st1) : ModCopy st1 := by
  cases c with
  | get path =>
      simp only [execCmd] at hrun
      exact mc_execRead path st 0 h0 hinv hmc hrun
  | setProp path k v =>
      simp only [execCmd] at hrun
      cases hw : walkDraft st 0 path with
      | error e =>
          rw [hw] at hrun
          simp only [ebind_error] at hrun
          cases hrun
      | ok p =>
          obtain ⟨st2, d⟩ := p
          rw [hw] at hrun
          simp only [ebind_ok] at hrun
          obtain ⟨h1, he1, hd1⟩ := invAt_walkDraft path st 0 h0 hinv hw
          have hmc1 := mc_walkDraft path st 0 h0 hinv hmc hw
          split at hrun
          · obtain ⟨h2, he2, hdr2, hw2⟩ := invAt_allocTree v h1
            have hd2 : d < (allocTree st2 v).1.drafts.length := by
              rw [hdr2]
              exact hd1
            exact mc_proxySet hd2 (mc_of_drafts_eq hdr2 hmc1) hrun
          · obtain ⟨h2, he2, hdr2, hw2⟩ := invAt_allocTree v h1
            have hd2 : d < (allocTree st2 v).1.drafts.length := by
              rw [hdr2]
              exact hd1
            exact mc_proxySet hd2 (mc_of_drafts_eq hdr2 hmc1) hrun
          · cases hrun
  | delProp path k =>
      simp only [execCmd] at hrun
      cases hw : walkDraft st 0 path with
      | error e =>
          rw [hw] at hrun
          simp only [ebind_error] at hrun
          cases hrun
      | ok p =>
          obtain ⟨st2, d⟩ := p
          rw [hw] at hrun
          simp only [ebind_ok] at hrun
          obtain ⟨h1, he1, hd1⟩ := invAt_walkDraft path st 0 h0 hinv hw
          have hmc1 := mc_walkDraft path st 0 h0 hinv hmc hw
          split at hrun
          · exact mc_proxyDelete hd1 hmc1 hrun
          · exact mc_proxyDelete hd1 hmc1 hrun
          · cases hrun
  | mapSet path k v =>
      simp only [execCmd] at hrun
      cases hw : walkDraft st 0 path with
      | error e =>
          rw [hw] at hrun
          simp only [ebind_error] at hrun
          cases hrun
      | ok p =>
          obtain ⟨st2, d⟩ := p
          rw [hw] at hrun
          simp only [ebind_ok] at hrun
          obtain ⟨h1, he1, hd1⟩ := invAt_walkDraft path st 0 h0 hinv hw
          have hmc1 := mc_walkDraft path st 0 h0 hinv hmc hw
          split at hrun
          · obtain ⟨h2, he2, hdr2, hw2⟩ := invAt_allocTree v h1
            have hd2 : d < (allocTree st2 v).1.drafts.length := by
              rw [hdr2]
              exact hd1
            exact mc_draftMapSet hd2 (mc_of_drafts_eq hdr2 hmc1) hrun
          · cases hrun
  | mapDelete path k =>
      simp only [execCmd] at hrun
      cases hw : walkDraft st 0 path with
      | error e =>
          rw [hw] at hrun
          simp only [ebind_error] at hrun
          cases hrun
      | ok p =>
          obtain ⟨st2, d⟩ := p
          rw [hw] at hrun
          simp only [ebind_ok] at hrun
          obtain ⟨h1, he1, hd1⟩ := invAt_walkDraft path st 0 h0 hinv hw
          have hmc1 := mc_walkDraft path st 0 h0 hinv hmc hw
          split at hrun
          · cases hdel : draftMapDelete st2 d (.prim k) with
            | error e =>
                rw [hdel] at hrun
                simp only [ebind_error] at hrun
                cases hrun
            | ok q =>
                obtain ⟨st3, b⟩ := q
                rw [hdel] at hrun
                simp only [ebind_ok, Except.ok.injEq] at hrun
                subst hrun
                exact mc_draftMapDelete hd1 hmc1 hdel
          · cases hrun
  | mapClear path =>
      simp only [execCmd] at hrun
      cases hw : walkDraft st 0 path with
      | error e =>
          rw [hw] at hrun
          simp only [ebind_error] at hrun
          cases hrun
      | ok p =>
          obtain ⟨st2, d⟩ := p
          rw [hw] at hrun
          simp only [ebind_ok] at hrun
          obtain ⟨h1, he1, hd1⟩ := invAt_walkDraft path st 0 h0 hinv hw
          have hmc1 := mc_walkDraft path st 0 h0 hinv hmc hw
          split at hrun
          · exact mc_draftMapClear hd1 hmc1 hrun
          · cases hrun
  | setAdd path v =>
      simp only [execCmd] at hrun
      cases hw : walkDraft st 0 path with
      | error e =>
          rw [hw] at hrun
          simp only [ebind_error] at hrun
          cases hrun
      | ok p =>
          obtain ⟨st2, d⟩ := p
          rw [hw] at hrun
          simp only [ebind_ok] at hrun
          obtain ⟨h1, he1, hd1⟩ := invAt_walkDraft path st 0 h0 hinv hw
          have hmc1 := mc_walkDraft path st 0 h0 hinv hmc hw
          split at hrun
          · obtain ⟨h2, he2, hdr2, hw2⟩ := invAt_allocTree v h1
            have hd2 : d < (allocTree st2 v).1.drafts.length := by
              rw [hdr2]
              exact hd1
            exact mc_draftSetAdd hd2 (mc_of_drafts_eq hdr2 hmc1) hrun
          · cases hrun
  | setDelete path v =>
      simp only [execCmd] at hrun
      cases hw : walkDraft st 0 path with
      | error e =>
          rw [hw] at hrun
          simp only [ebind_error] at hrun
          cases hrun
      | ok p =>
          obtain ⟨st2, d⟩ := p
          rw [hw] at hrun
          simp only [ebind_ok] at hrun
          obtain ⟨h1, he1, hd1⟩ := invAt_walkDraft path st 0 h0 hinv hw
          have hmc1 := mc_walkDraft path st 0 h0 hinv hmc hw
          split at hrun
          · cases hdel : draftSetDelete st2 d (.prim v) with
            | error e =>
                rw [hdel] at hrun
                simp only [ebind_error] at hrun
                cases hrun
            | ok q =>
                obtain ⟨st3, b⟩ := q
                rw [hdel] at hrun
                simp only [ebind_ok, Except.ok.injEq] at hrun
                subst hrun
                exact mc_draftSetDelete hd1 hmc1 hdel
          · cases hrun
  | setClear path =>
      simp only [execCmd] at hrun
      cases hw : walkDraft st 0 path with
      | error e =>
          rw [hw] at hrun
          simp only [ebind_error] at hrun
          cases hrun
      | ok p =>
          obtain ⟨st2, d⟩ := p
          rw [hw] at hrun
          simp only [ebind_ok] at hrun
          obtain ⟨h1, he1, hd1⟩ := invAt_walkDraft path st 0 h0 hinv hw
          have hmc1 := mc_walkDraft path st 0 h0 hinv hmc hw
          split at hrun
          · exact mc_draftSetClear hd1 hmc1 hrun
          · cases hrun

theorem mc_execCmds {n : Nat} :
    ∀ (cs : List Cmd) (st : EngineState),
    0 < st.drafts.length → InvAt n st → ModCopy st →
    ModCopy (execCmds st cs).1
  | [], st, _, _, hmc => hmc
  | c :: cs, st, h0, hinv, hmc => by
      cases hcmd : execCmd st c with
      | ok st2 =>
          simp only [execCmds, hcmd]
          obtain ⟨h1, he1⟩ := invAt_execCmd h0 hinv hcmd
          have h02 : 0 < st2.drafts.length := by
            have := he1.1
            omega
          exact mc_execCmds cs st2 h02 h1 (mc_execCmd h0 hinv hmc hcmd)
      | error e =>
          simp only [execCmds, hcmd]
          exact hmc

theorem lowHeapEq_of_heap_eq {n : Nat} {s1 s2 : EngineState}
    (h : s2.heap = s1.heap) : LowHeapEq n s1 s2 :=
  fun a _ => by rw [h]

theorem lownd_of_lowHeapEq {n : Nat} {s1 s2 : EngineState}
    (h : LowHeapEq n s1 s2) (hl : LowND n s1) : LowND n s2 :=
  fun a ha => by
    rw [h a ha]
    exact hl a ha

theorem copyHigh_of_drafts_eq {n : Nat} {s1 s2 : EngineState}
    (h : s2.drafts = s1.drafts) (hch : CopyHigh n s1) : CopyHigh n s2 :=
  fun d c hc => hch d c (by rw [draftAt_congr h] at hc; exact hc)

theorem copyHigh_modifyDraft {n : Nat} (st : EngineState) (d : Nat)
    (f : DraftState → DraftState)
    (hcop : ∀ ds, (f ds).copy_ = ds.copy_) (hch : CopyHigh n st) :
    CopyHigh n (st.modifyDraft d f) := by
  intro x c hc
  unfold EngineState.modifyDraft at hc
  rw [draftAt_setDraft] at hc
  by_cases hx : d = x ∧ d < st.drafts.length
  · rw [if_pos hx, hcop] at hc
    exact hch d c hc
  · rw [if_neg hx] at hc
    exact hch x c hc

theorem writeData_lowheap {n : Nat} (st : EngineState) (a : Nat)
    (nd : NodeData) (ha : n ≤ a) : LowHeapEq n st (st.writeData a nd) := by
  intro x hx
  have hne : ¬ (a = x ∧ a < st.heap.length) := by
    rintro ⟨rfl, h2⟩
    omega
  show (Heap.nodeAt (st.heap.set a
    (Node.mk nd (st.heap.nodeAt a).frozen)) x).data = _
  rw [nodeAt_set, if_neg hne]

theorem setUtil_drafts (st : EngineState) (a : Nat) (prop : EKey)
    (v : Val) : (setUtil st a prop v).drafts = st.drafts := by
  unfold setUtil
  repeat' split
  all_goals rfl

theorem setUtil_lowheap {n : Nat} (st : EngineState) (a : Nat)
    (prop : EKey) (v : Val) (ha : n ≤ a) :
    LowHeapEq n st (setUtil st a prop v) := by
  unfold setUtil
  repeat' split
  all_goals first
    | exact writeData_lowheap st a _ ha
    | exact lowHeapEq_refl n st

theorem setUtilAdd_drafts (st : EngineState) (a : Nat) (v : Val) :
    (setUtilAdd st a v).drafts = st.drafts := by
  unfold setUtilAdd
  split
  all_goals rfl

theorem setUtilAdd_lowheap {n : Nat} (st : EngineState) (a : Nat)
    (v : Val) (ha : n ≤ a) : LowHeapEq n st (setUtilAdd st a v) := by
  unfold setUtilAdd
  split
  all_goals first
    | exact writeData_lowheap st a _ ha
    | exact lowHeapEq_refl n st

theorem maybeFreeze_hd (st : EngineState) (v : Val) (deep : Bool) :
    (maybeFreeze st v deep).drafts = st.drafts ∧
    (∀ a, ((maybeFreeze st v deep).heap.nodeAt a).data
      = (st.heap.nodeAt a).data) := by
  unfold maybeFreeze
  split
  · exact ⟨(freezeVal_frame _ _ _ _).1, (freezeVal_heap_facts _ _ _ _).2.1⟩
  · exact ⟨rfl, fun _ => rfl⟩

theorem foldl_hd_eq {α : Type} :
    ∀ (l : List α) (f : EngineState → α → EngineState) (s : EngineState),
    (∀ s2 x, (f s2 x).heap = s2.heap ∧ (f s2 x).drafts = s2.drafts) →
    (l.foldl f s).heap = s.heap ∧ (l.foldl f s).drafts = s.drafts
  | [], f, s, hf => ⟨rfl, rfl⟩
  | x :: rest, f, s, hf => by
      simp only [List.foldl_cons]
      have h1 := hf s x
      have h2 := foldl_hd_eq rest f (f s x) hf
      exact ⟨h2.1.trans h1.1, h2.2.trans h1.2⟩

theorem generatePatchesObj_frame (st : EngineState) (d : Nat)
    (bp : List Tree) :
    (generatePatchesObj st d bp).heap = st.heap ∧
    (generatePatchesObj st d bp).drafts = st.drafts := by
  unfold generatePatchesObj
  refine foldl_hd_eq _ _ _ ?_
  intro s2 kb
  rcases kb with ⟨key, av⟩
  dsimp only
  repeat' split
  all_goals exact ⟨rfl, rfl⟩

theorem generatePatchesMap_frame (st : EngineState) (d : Nat)
    (bp : List Tree) :
    (generatePatchesMap st d bp).heap = st.heap ∧
    (generatePatchesMap st d bp).drafts = st.drafts := by
  unfold generatePatchesMap
  refine foldl_hd_eq _ _ _ ?_
  intro s2 kb
  rcases kb with ⟨key, av⟩
  dsimp only
  repeat' split
  all_goals exact ⟨rfl, rfl⟩

theorem generateArrayPatches_frame (st : EngineState) (d : Nat)
    (bp : List Tree) :
    (generateArrayPatches st d bp).heap = st.heap ∧
    (generateArrayPatches st d bp).drafts = st.drafts := by
  unfold generateArrayPatches
  dsimp only
  repeat' split
  all_goals exact ⟨rfl, rfl⟩

theorem generateSetPatches_frame (st : EngineState) (d : Nat)
    (bp : List Tree) :
    (generateSetPatches st d bp).heap = st.heap ∧
    (generateSetPatches st d bp).drafts = st.drafts := by
  unfold generateSetPatches
  dsimp only
  have hstep : ∀ (f : EngineState → Nat × Val → EngineState)
      (l : List (Nat × Val)) (s : EngineState),
      (∀ s2 p, (f s2 p).heap = s2.heap ∧ (f s2 p).drafts = s2.drafts) →
      (l.foldl f s).heap = s.heap ∧ (l.foldl f s).drafts = s.drafts :=
    fun f l s hf => foldl_hd_eq l f s hf
  refine ⟨?_, ?_⟩
  · refine ((hstep _ _ _ ?_).1).trans ((hstep _ _ _ ?_).1)
    · intro s2 p
      rcases p with ⟨i, value⟩
      dsimp only
      repeat' split
      all_goals exact ⟨rfl, rfl⟩
    · intro s2 p
      rcases p with ⟨i, value⟩
      dsimp only
      repeat' split
      all_goals exact ⟨rfl, rfl⟩
  · refine ((hstep _ _ _ ?_).2).trans ((hstep _ _ _ ?_).2)
    · intro s2 p
      rcases p with ⟨i, value⟩
      dsimp only
      repeat' split
      all_goals exact ⟨rfl, rfl⟩
    · intro s2 p
      rcases p with ⟨i, value⟩
      dsimp only
      repeat' split
      all_goals exact ⟨rfl, rfl⟩

theorem generatePatches_frame (st : EngineState) (d : Nat)
    (bp : List Tree) :
    (generatePatches st d bp).heap = st.heap ∧
    (generatePatches st d bp).drafts = st.drafts := by
  unfold generatePatches
  split
  · exact generatePatchesObj_frame st d bp
  · exact generatePatchesMap_frame st d bp
  · exact generateArrayPatches_frame st d bp
  · exact generateSetPatches_frame st d bp

theorem entriesOf_val_draftLT {nd : NodeData} (h : nd.draftLT 0 = true) :
    ∀ e ∈ entriesOf nd, ((e.2 : Val).draftLT 0) = true := by
  intro e he
  cases nd with
  | obj fs =>
      simp only [entriesOf, List.mem_map] at he
      obtain ⟨kv, hkv, rfl⟩ := he
      simp only [NodeData.draftLT, List.all_eq_true] at h
      exact h kv hkv
  | arr xs =>
      simp only [entriesOf, List.mem_map] at he
      obtain ⟨p, hp, rfl⟩ := he
      simp only [NodeData.draftLT, List.all_eq_true] at h
      exact h p.2 (List.snd_mem_of_mem_enum hp)
  | map es =>
      simp only [entriesOf, List.mem_map] at he
      obtain ⟨kv, hkv, rfl⟩ := he
      simp only [NodeData.draftLT, List.all_eq_true,
        Bool.and_eq_true] at h
      exact (h kv hkv).2
  | set xs =>
      simp only [entriesOf, List.mem_map] at he
      obtain ⟨x, hx, rfl⟩ := he
      simp only [NodeData.draftLT, List.all_eq_true] at h
      exact h x hx
  | opaq =>
      simp only [entriesOf, List.not_mem_nil] at he

theorem finalize_frame {n : Nat} : ∀ (fuel : Nat) (st : EngineState)
    (value : Val) (path : Option (List Tree)) {st2 : EngineState}
    {r1 : Val},
    finalize fuel st value path = .ok (st2, r1) →
    ModCopy st → CopyHigh n st → LowND n st →
    (ModCopy st2 ∧ CopyHigh n st2 ∧ LowND n st2) ∧ LowHeapEq n st st2
  | 0, st, value, path, st2, r1, hrun, _, _, _ => by
      rw [show finalize 0 st value path = .error .fuel from rfl] at hrun
      cases hrun
  | fuel + 1, st, value, path, st2, r1, hrun, hmc, hch, hln => by
      have htail : ∀ (s : EngineState) (ta : Nat) (prop : EKey)
          (cv : Val) (s2 : EngineState),
          finPropTailD fuel s ta prop cv = .ok s2 →
          ModCopy s → CopyHigh n s → LowND n s →
          (ModCopy s2 ∧ CopyHigh n s2 ∧ LowND n s2) ∧ LowHeapEq n s s2 := by
        intro s ta prop cv s2 hrt hmcS hchS hlnS
        unfold finPropTailD at hrt
        split at hrt
        · split at hrt
          · simp only [Except.ok.injEq] at hrt
            subst hrt
            exact ⟨⟨hmcS, hchS, hlnS⟩, lowHeapEq_refl n s⟩
          · cases hfin : finalize fuel s cv none with
            | error e =>
                rw [hfin] at hrt
                simp only [ebind_error] at hrt
                cases hrt
            | ok q =>
                obtain ⟨sA, r⟩ := q
                rw [hfin] at hrt
                simp only [ebind_ok] at hrt
                have hF := finalize_frame fuel s cv none hfin
                  hmcS hchS hlnS
                split at hrt
                · simp only [Except.ok.injEq] at hrt
                  subst hrt
                  have hmf := maybeFreeze_hd sA cv false
                  refine ⟨⟨mc_of_drafts_eq hmf.1 hF.1.1,
                    copyHigh_of_drafts_eq hmf.1 hF.1.2.1,
                    lownd_of_lowHeapEq (fun a _ => hmf.2 a) hF.1.2.2⟩,
                    lowHeapEq_trans hF.2 (fun a _ => hmf.2 a)⟩
                · simp only [Except.ok.injEq] at hrt
                  subst hrt
                  exact ⟨hF.1, hF.2⟩
        · simp only [Except.ok.injEq] at hrt
          subst hrt
          exact ⟨⟨hmcS, hchS, hlnS⟩, lowHeapEq_refl n s⟩
      have hdraft : ∀ (s : EngineState) (cd : Nat)
          (sp : Option (List Tree)) (ta : Nat) (prop : EKey) (cv : Val)
          (s2 : EngineState),
          ((do
            let (st1, res) ← finalize fuel s (.draft cd) sp
            let st3 := setUtil st1 ta prop res
            match res with
            | .draft _ =>
                finPropTailD fuel { st3 with canAutoFreeze := false }
                  ta prop cv
            | _ => .ok st3) = Except.ok s2) →
          n ≤ ta →
          ModCopy s → CopyHigh n s → LowND n s →
          (ModCopy s2 ∧ CopyHigh n s2 ∧ LowND n s2) ∧ LowHeapEq n s s2 := by
        intro s cd sp ta prop cv s2 hr hta hmcS hchS hlnS
        cases hfin : finalize fuel s (Val.draft cd) sp with
        | error e =>
            rw [hfin] at hr
            simp only [ebind_error] at hr
            cases hr
        | ok q =>
            obtain ⟨sA, res⟩ := q
            rw [hfin] at hr
            simp only [ebind_ok] at hr
            have hF := finalize_frame fuel s (Val.draft cd) sp hfin
              hmcS hchS hlnS
            have hsu_d := setUtil_drafts sA ta prop res
            have hsu_l := setUtil_lowheap sA ta prop res hta
            have hP2 : ModCopy (setUtil sA ta prop res) ∧
                CopyHigh n (setUtil sA ta prop res) ∧
                LowND n (setUtil sA ta prop res) :=
              ⟨mc_of_drafts_eq hsu_d hF.1.1,
                copyHigh_of_drafts_eq hsu_d hF.1.2.1,
                lownd_of_lowHeapEq hsu_l hF.1.2.2⟩
            have hL2 : LowHeapEq n s (setUtil sA ta prop res) :=
              lowHeapEq_trans hF.2 hsu_l
            cases res with
            | draft dd =>
                have hrec := htail { setUtil sA ta prop (Val.draft dd)
                    with canAutoFreeze := false } ta prop cv s2 hr
                  (mc_of_drafts_eq rfl hP2.1)
                  (copyHigh_of_drafts_eq rfl hP2.2.1)
                  (lownd_of_lowHeapEq (lowHeapEq_of_heap_eq rfl) hP2.2.2)
                exact ⟨hrec.1, lowHeapEq_trans hL2
                  (lowHeapEq_trans (lowHeapEq_of_heap_eq rfl) hrec.2)⟩
            | prim p =>
                simp only [Except.ok.injEq] at hr
                subst hr
                exact ⟨hP2, hL2⟩
            | ref a =>
                simp only [Except.ok.injEq] at hr
                subst hr
                exact ⟨hP2, hL2⟩
      have hprop : ∀ (s : EngineState) (par : Option Nat) (ta : Nat)
          (prop : EKey) (cv : Val) (rp : Option (List Tree)) (tis : Bool)
          (s2 : EngineState),
          finPropD fuel s par ta prop cv rp tis = .ok s2 →
          (ta < n → cv.draftLT 0 = true) →
          (tis = true → n ≤ ta) →
          ModCopy s → CopyHigh n s → LowND n s →
          (ModCopy s2 ∧ CopyHigh n s2 ∧ LowND n s2) ∧ LowHeapEq n s s2 := by
        intro s par ta prop cv rp tis s2 hrp hsafe htis hmcS hchS hlnS
        unfold finPropD at hrp
        split at hrp
        · cases hrp
        · split at hrp
          · rename_i cd hne
            have hta : n ≤ ta := by
              by_contra hlt
              have h2 := hsafe (by omega)
              simp [Val.draftLT] at h2
            exact hdraft s cd _ ta prop (Val.draft cd) s2 hrp hta
              hmcS hchS hlnS
          · cases tis with
            | true =>
                have hta := htis rfl
                have hsd := setUtilAdd_drafts s ta cv
                have hsl := setUtilAdd_lowheap s ta cv hta
                rw [if_pos rfl] at hrp
                have hrec := htail (setUtilAdd s ta cv) ta prop cv s2 hrp
                  (mc_of_drafts_eq hsd hmcS)
                  (copyHigh_of_drafts_eq hsd hchS)
                  (lownd_of_lowHeapEq hsl hlnS)
                exact ⟨hrec.1, lowHeapEq_trans hsl hrec.2⟩
            | false =>
                rw [if_neg Bool.false_ne_true] at hrp
                exact htail s ta prop cv s2 hrp hmcS hchS hlnS
      have hprops : ∀ (entries : List (EKey × Val)) (s : EngineState)
          (par : Option Nat) (ta : Nat) (rp : Option (List Tree))
          (tis : Bool) (s2 : EngineState),
          finPropsD fuel s par ta entries rp tis = .ok s2 →
          (∀ e ∈ entries, ta < n → ((e.2 : Val).draftLT 0) = true) →
          (tis = true → n ≤ ta) →
          ModCopy s → CopyHigh n s → LowND n s →
          (ModCopy s2 ∧ CopyHigh n s2 ∧ LowND n s2) ∧ LowHeapEq n s s2 := by
        intro entries
        induction entries with
        | nil =>
            intro s par ta rp tis s2 hr hsafe htis hmcS hchS hlnS
            simp only [finPropsD, List.foldlM_nil] at hr
            cases hr
            exact ⟨⟨hmcS, hchS, hlnS⟩, lowHeapEq_refl n s⟩
        | cons e rest ih =>
            intro s par ta rp tis s2 hr hsafe htis hmcS hchS hlnS
            simp only [finPropsD, List.foldlM_cons] at hr
            cases hstep : finPropD fuel s par ta e.1 e.2 rp tis with
            | error e2 =>
                rw [hstep] at hr
                simp only [ebind_error] at hr
                cases hr
            | ok sB =>
                rw [hstep] at hr
                simp only [ebind_ok] at hr
                have h1 := hprop s par ta e.1 e.2 rp tis sB hstep
                  (fun hlt => hsafe e (List.mem_cons_self e rest) hlt)
                  htis hmcS hchS hlnS
                have h2 := ih sB par ta rp tis s2 hr
                  (fun e2 he2 hlt =>
                    hsafe e2 (List.mem_cons_of_mem _ he2) hlt)
                  htis h1.1.1 h1.1.2.1 h1.1.2.2
                exact ⟨h2.1, lowHeapEq_trans h1.2 h2.2⟩
      rw [finalize_succ] at hrun
      split at hrun
      · simp only [Except.ok.injEq, Prod.mk.injEq] at hrun
        obtain ⟨rfl, rfl⟩ := hrun
        exact ⟨⟨hmc, hch, hln⟩, lowHeapEq_refl n st⟩
      · split at hrun
        · simp only [Except.ok.injEq, Prod.mk.injEq] at hrun
          obtain ⟨rfl, rfl⟩ := hrun
          exact ⟨⟨hmc, hch, hln⟩, lowHeapEq_refl n st⟩
        · rename_i a hfz
          cases hps : finPropsD fuel st none a
              (entriesOf (st.nodeAt a).data) path false with
          | error e =>
              rw [hps] at hrun
              simp only [ebind_error] at hrun
              cases hrun
          | ok sA =>
              rw [hps] at hrun
              simp only [ebind_ok, Except.ok.injEq, Prod.mk.injEq] at hrun
              obtain ⟨rfl, rfl⟩ := hrun
              exact hprops _ st none a path false sA hps
                (fun e he hlt => entriesOf_val_draftLT (hln a hlt) e he)
                (fun h => nomatch h) hmc hch hln
        · rename_i d hfz2
          by_cases hmodB : (st.draftAt d).modified_ = true
          case neg =>
            have hg : (!(st.draftAt d).modified_) = true := by
              cases hb : (st.draftAt d).modified_
              · rfl
              · exact absurd hb hmodB
            rw [if_pos hg] at hrun
            simp only [Except.ok.injEq, Prod.mk.injEq] at hrun
            obtain ⟨rfl, rfl⟩ := hrun
            have hmf := maybeFreeze_hd st
              (.ref (st.draftAt d).base_) true
            exact ⟨⟨mc_of_drafts_eq hmf.1 hmc,
              copyHigh_of_drafts_eq hmf.1 hch,
              lownd_of_lowHeapEq (fun a _ => hmf.2 a) hln⟩,
              fun a ha => hmf.2 a⟩
          case pos =>
            have hg : ¬ ((!(st.draftAt d).modified_) = true) := by
              intro hc
              rw [hmodB] at hc
              exact Bool.noConfusion (show false = true from hc)
            rw [if_neg hg] at hrun
            by_cases hfinB : (st.draftAt d).finalized_ = true
            · rw [if_pos hfinB] at hrun
              simp only [Except.ok.injEq, Prod.mk.injEq] at hrun
              obtain ⟨rfl, rfl⟩ := hrun
              exact ⟨⟨hmc, hch, hln⟩, lowHeapEq_refl n st⟩
            · rw [if_neg hfinB] at hrun
              have hmod : (st.draftAt d).modified_ = true := hmodB
              obtain ⟨c, hc⟩ : ∃ c, (st.draftAt d).copy_ = some c := by
                have h2 := hmc.2 d hmod
                cases hcv : (st.draftAt d).copy_ with
                | some c => exact ⟨c, rfl⟩
                | none =>
                    rw [hcv] at h2
                    cases h2
              have hcn : n ≤ (st.draftAt d).copy_.getD
                  (st.draftAt d).base_ := by
                rw [hc, Option.getD_some]
                exact hch d c hc
              have hP1 : ModCopy (st.setDraft d
                  { st.draftAt d with finalized_ := true }) :=
                mc_modifyDraft st d
                  (fun ds => { ds with finalized_ := true })
                  (fun _ => rfl) (fun _ => rfl) (fun _ h => h) hmc
              have hC1 : CopyHigh n (st.setDraft d
                  { st.draftAt d with finalized_ := true }) :=
                copyHigh_modifyDraft st d
                  (fun ds => { ds with finalized_ := true })
                  (fun _ => rfl) hch
              have hN1 : LowND n (st.setDraft d
                  { st.draftAt d with finalized_ := true }) :=
                lownd_of_lowHeapEq (lowHeapEq_of_heap_eq rfl) hln
              simp only [] at hrun
              by_cases hset : (st.draftAt d).type_ = ArchType.set
              · -- set draft: the copy node is cleared before re-adding
                rw [if_pos hset] at hrun
                obtain ⟨sA, hps, hrun⟩ := ebind_eq_ok hrun
                have hA := hprops _ _ _ _ _ _ sA hps
                  (fun _ _ hlt => absurd hlt (Nat.not_lt.mpr hcn))
                  (fun _ => hcn)
                  (mc_of_drafts_eq rfl hP1)
                  (copyHigh_of_drafts_eq rfl hC1)
                  (lownd_of_lowHeapEq
                    (writeData_lowheap _ _ (.set []) hcn) hN1)
                have hmf := maybeFreeze_hd sA
                  (.ref ((st.draftAt d).copy_.getD (st.draftAt d).base_)) false
                have hL3 : LowHeapEq n st sA :=
                  lowHeapEq_trans (lowHeapEq_trans
                    (lowHeapEq_of_heap_eq rfl)
                    (writeData_lowheap _ _ (.set []) hcn)) hA.2
                cases path with
                | none =>
                    simp only [Except.ok.injEq, Prod.mk.injEq] at hrun
                    obtain ⟨rfl, rfl⟩ := hrun
                    exact ⟨⟨mc_of_drafts_eq hmf.1 hA.1.1,
                      copyHigh_of_drafts_eq hmf.1 hA.1.2.1,
                      lownd_of_lowHeapEq (fun a _ => hmf.2 a) hA.1.2.2⟩,
                      lowHeapEq_trans hL3 (fun a _ => hmf.2 a)⟩
                | some p =>
                    simp only [] at hrun
                    by_cases hpo : (maybeFreeze sA
                        (.ref ((st.draftAt d).copy_.getD (st.draftAt d).base_))
                        false).patchesOn = true
                    · rw [if_pos hpo] at hrun
                      simp only [Except.ok.injEq, Prod.mk.injEq] at hrun
                      obtain ⟨rfl, rfl⟩ := hrun
                      have hgp := generatePatches_frame
                        (maybeFreeze sA
                          (.ref ((st.draftAt d).copy_.getD (st.draftAt d).base_)) false) d p
                      refine ⟨⟨?_, ?_, ?_⟩, ?_⟩
                      · exact mc_of_drafts_eq
                          (hgp.2.trans hmf.1) hA.1.1
                      · exact copyHigh_of_drafts_eq
                          (hgp.2.trans hmf.1) hA.1.2.1
                      · refine lownd_of_lowHeapEq ?_ hA.1.2.2
                        exact lowHeapEq_trans (fun a _ => hmf.2 a)
                          (lowHeapEq_of_heap_eq hgp.1)
                      · exact lowHeapEq_trans hL3
                          (lowHeapEq_trans (fun a _ => hmf.2 a)
                            (lowHeapEq_of_heap_eq hgp.1))
                    · rw [if_neg hpo] at hrun
                      simp only [Except.ok.injEq, Prod.mk.injEq] at hrun
                      obtain ⟨rfl, rfl⟩ := hrun
                      exact ⟨⟨mc_of_drafts_eq hmf.1 hA.1.1,
                        copyHigh_of_drafts_eq hmf.1 hA.1.2.1,
                        lownd_of_lowHeapEq (fun a _ => hmf.2 a)
                          hA.1.2.2⟩,
                        lowHeapEq_trans hL3 (fun a _ => hmf.2 a)⟩
              · -- not a set draft: the copy node is finalized in place
                rw [if_neg hset] at hrun
                obtain ⟨sA, hps, hrun⟩ := ebind_eq_ok hrun
                have hA := hprops _ _ _ _ _ _ sA hps
                  (fun _ _ hlt => absurd hlt (Nat.not_lt.mpr hcn))
                  (fun _ => hcn)
                  (mc_of_drafts_eq rfl hP1)
                  (copyHigh_of_drafts_eq rfl hC1)
                  (lownd_of_lowHeapEq (lowHeapEq_of_heap_eq rfl) hN1)
                have hmf := maybeFreeze_hd sA
                  (.ref ((st.draftAt d).copy_.getD (st.draftAt d).base_)) false
                have hL3 : LowHeapEq n st sA :=
                  lowHeapEq_trans (lowHeapEq_of_heap_eq rfl) hA.2
                cases path with
                | none =>
                    simp only [Except.ok.injEq, Prod.mk.injEq] at hrun
                    obtain ⟨rfl, rfl⟩ := hrun
                    exact ⟨⟨mc_of_drafts_eq hmf.1 hA.1.1,
                      copyHigh_of_drafts_eq hmf.1 hA.1.2.1,
                      lownd_of_lowHeapEq (fun a _ => hmf.2 a) hA.1.2.2⟩,
                      lowHeapEq_trans hL3 (fun a _ => hmf.2 a)⟩
                | some p =>
                    simp only [] at hrun
                    by_cases hpo : (maybeFreeze sA
                        (.ref ((st.draftAt d).copy_.getD (st.draftAt d).base_))
                        false).patchesOn = true
                    · rw [if_pos hpo] at hrun
                      simp only [Except.ok.injEq, Prod.mk.injEq] at hrun
                      obtain ⟨rfl, rfl⟩ := hrun
                      have hgp := generatePatches_frame
                        (maybeFreeze sA
                          (.ref ((st.draftAt d).copy_.getD (st.draftAt d).base_)) false) d p
                      refine ⟨⟨?_, ?_, ?_⟩, ?_⟩
                      · exact mc_of_drafts_eq
                          (hgp.2.trans hmf.1) hA.1.1
                      · exact copyHigh_of_drafts_eq
                          (hgp.2.trans hmf.1) hA.1.2.1
                      · refine lownd_of_lowHeapEq ?_ hA.1.2.2
                        exact lowHeapEq_trans (fun a _ => hmf.2 a)
                          (lowHeapEq_of_heap_eq hgp.1)
                      · exact lowHeapEq_trans hL3
                          (lowHeapEq_trans (fun a _ => hmf.2 a)
                            (lowHeapEq_of_heap_eq hgp.1))
                    · rw [if_neg hpo] at hrun
                      simp only [Except.ok.injEq, Prod.mk.injEq] at hrun
                      obtain ⟨rfl, rfl⟩ := hrun
                      exact ⟨⟨mc_of_drafts_eq hmf.1 hA.1.1,
                        copyHigh_of_drafts_eq hmf.1 hA.1.2.1,
                        lownd_of_lowHeapEq (fun a _ => hmf.2 a)
                          hA.1.2.2⟩,
                        lowHeapEq_trans hL3 (fun a _ => hmf.2 a)⟩

theorem generateReplacementPatches_heap (st : EngineState)
    (baseValue result : Tree) :
    (generateReplacementPatches st baseValue result).heap = st.heap :=
  rfl

theorem lownd_mk {h : Heap} {n : Nat} (hnd : heapNoDrafts h = true)
    {st : EngineState} (hh : st.heap = h) : LowND n st := by
  intro a _
  rw [hh]
  unfold Heap.nodeAt
  rw [List.getD_eq_getElem?_getD]
  cases hx : h[a]? with
  | none => rfl
  | some node =>
      obtain ⟨hlt, rfl⟩ := List.getElem?_eq_some.mp hx
      simp only [heapNoDrafts, List.all_eq_true] at hnd
      simpa using hnd _ (List.getElem_mem hlt)

theorem processResult_frame {n : Nat} (st : EngineState) (result : Val)
    (hmc : ModCopy st) (hch : CopyHigh n st) (hln : LowND n st) :
    LowHeapEq n st (processResult st result).2 := by
  have hmc1 : ModCopy ({ st with unfinalized := st.drafts.length } : EngineState) := mc_of_drafts_eq rfl hmc
  have hch1 : CopyHigh n ({ st with unfinalized := st.drafts.length } : EngineState) :=
    copyHigh_of_drafts_eq rfl hch
  have hln1 : LowND n ({ st with unfinalized := st.drafts.length } : EngineState) :=
    lownd_of_lowHeapEq (lowHeapEq_of_heap_eq rfl) hln
  have hstep : processResult st result =
      (if (!decide (result = Val.prim .undef) &&
          !decide (result = Val.draft 0)) = true then
        if (({ st with unfinalized := st.drafts.length } : EngineState).draftAt 0).modified_ = true then
          ((.error .modifiedAndReturned : Except Err Val),
            revokeScope ({ st with unfinalized := st.drafts.length } : EngineState))
        else
          match
            (if isDraftableV ({ st with unfinalized := st.drafts.length } : EngineState).heap result = true then
              match finalize (({ st with unfinalized := st.drafts.length } : EngineState).heap.length +
                  ({ st with unfinalized := st.drafts.length } : EngineState).drafts.length + 1)
                  ({ st with unfinalized := st.drafts.length } : EngineState) result none with
              | .error e => (.error e : Except Err (EngineState × Val))
              | .ok (st1, r1) => .ok (maybeFreeze st1 r1 false, r1)
            else .ok (({ st with unfinalized := st.drafts.length } : EngineState), result)) with
          | .error e => ((.error e : Except Err Val), ({ st with unfinalized := st.drafts.length } : EngineState))
          | .ok (st1, r1) =>
              (.ok r1, revokeScope
                (if st1.patchesOn = true then
                  generateReplacementPatches st1
                    (readbackV (st1.heap.length + 1) st1
                      (.ref (st1.draftAt 0).base_))
                    (readbackV (st1.heap.length + 1) st1 r1)
                else st1))
      else
        match finalize (({ st with unfinalized := st.drafts.length } : EngineState).heap.length +
            ({ st with unfinalized := st.drafts.length } : EngineState).drafts.length + 1) ({ st with unfinalized := st.drafts.length } : EngineState)
            (Val.draft 0) (some []) with
        | .error e => ((.error e : Except Err Val), ({ st with unfinalized := st.drafts.length } : EngineState))
        | .ok (st1, r1) => (.ok r1, revokeScope st1)) := rfl
  rw [hstep]
  by_cases hrep : (!decide (result = Val.prim .undef) &&
      !decide (result = Val.draft 0)) = true
  · rw [if_pos hrep]
    by_cases hm0 : (({ st with unfinalized := st.drafts.length } : EngineState).draftAt 0).modified_ = true
    · rw [if_pos hm0]
      exact lowHeapEq_of_heap_eq (revokeScope_heap _)
    · rw [if_neg hm0]
      by_cases hdr : isDraftableV ({ st with unfinalized := st.drafts.length } : EngineState).heap result = true
      · rw [if_pos hdr]
        cases hfin : finalize (({ st with unfinalized := st.drafts.length } : EngineState).heap.length +
            ({ st with unfinalized := st.drafts.length } : EngineState).drafts.length + 1) ({ st with unfinalized := st.drafts.length } : EngineState)
            result none with
        | error e =>
            exact lowHeapEq_of_heap_eq rfl
        | ok pr =>
            obtain ⟨st1, r1⟩ := pr
            have hF := finalize_frame _ _ result none hfin hmc1 hch1 hln1
            have hmf := maybeFreeze_hd st1 r1 false
            simp only []
            intro a ha
            rw [revokeScope_heap]
            by_cases hpo : (maybeFreeze st1 r1 false).patchesOn = true
            · rw [if_pos hpo, generateReplacementPatches_heap, hmf.2 a]
              exact hF.2 a ha
            · rw [if_neg hpo, hmf.2 a]
              exact hF.2 a ha
      · rw [if_neg hdr]
        simp only []
        intro a ha
        rw [revokeScope_heap]
        by_cases hpo : st.patchesOn = true
        · rw [if_pos hpo, generateReplacementPatches_heap]
        · rw [if_neg hpo]
  · rw [if_neg hrep]
    cases hfin : finalize (({ st with unfinalized := st.drafts.length } : EngineState).heap.length +
        ({ st with unfinalized := st.drafts.length } : EngineState).drafts.length + 1) ({ st with unfinalized := st.drafts.length } : EngineState)
        (Val.draft 0) (some []) with
    | error e =>
        exact lowHeapEq_of_heap_eq rfl
    | ok pr =>
        obtain ⟨st1, r1⟩ := pr
        have hF := finalize_frame _ _ (Val.draft 0) (some [])
          hfin hmc1 hch1 hln1
        simp only []
        intro a ha
        rw [revokeScope_heap]
        exact hF.2 a ha

/-- C1: the caller's base value is structurally unchanged by `Run`,
whether the run returns a value or fails with an error: every node of
the caller's heap keeps its exact structural data (keys, elements, map
entries, set elements) in the final engine state — all writes go to
lazily allocated shallow copies living past the caller's heap; only the
non-structural `frozen` bit may change. -/
theorem produce_base_unchanged (h : Heap) (baseAddr : Nat)
    (cmds : List Cmd) (ret : RRet) (auto withP : Bool)
    (hnd : heapNoDrafts h = true) :
    ∀ a, a < h.length →
      (((produceRun h baseAddr ⟨cmds, ret⟩ auto withP).2.heap.nodeAt
        a).data = (h.nodeAt a).data) := by
  by_cases hdr : isDraftableV h (.ref baseAddr) = true
  case neg =>
    intro a ha
    simp only [produceRun, if_neg hdr]
  case pos =>
    rcases hresE : execCmds (createProxy
        ({ heap := h, drafts := [], patchesOn := false, patches := [],
           inversePatches := [], canAutoFreeze := true, unfinalized := 0,
           autoFreeze := auto } : EngineState) baseAddr none).1 cmds
      with ⟨st2, oe⟩
    have hinv0 : InvAt h.length ({ heap := h, drafts := [], patchesOn := false, patches := [], inversePatches := [], canAutoFreeze := true, unfinalized := 0, autoFreeze := auto } : EngineState) := by
      refine ⟨?_, ?_, heapOK_mk hnd rfl, ?_, Nat.le_refl _⟩
      · intro d' p' hp'
        rw [draftAt_oob (by simp)] at hp'
        cases hp'
      · intro d' p' hm' hp'
        rw [draftAt_oob (by simp)] at hm'
        cases hm'
      · intro d' c hc
        rw [draftAt_oob (by simp)] at hc
        cases hc
    have hmc0 : ModCopy ({ heap := h, drafts := [], patchesOn := false, patches := [], inversePatches := [], canAutoFreeze := true, unfinalized := 0, autoFreeze := auto } : EngineState) := by
      constructor
      · intro d' p' hp'
        rw [draftAt_oob (by simp)] at hp'
        cases hp'
      · intro d' hm'
        rw [draftAt_oob (by simp)] at hm'
        cases hm'
    obtain ⟨hinv1, hev1⟩ := invAt_createProxy baseAddr none
      (fun q hq => by cases hq) hinv0
    have hmcP : ModCopy (createProxy ({ heap := h, drafts := [], patchesOn := false, patches := [], inversePatches := [], canAutoFreeze := true, unfinalized := 0, autoFreeze := auto } : EngineState) baseAddr none).1 :=
      mc_createProxy baseAddr none (fun p hp => by cases hp) hmc0
    have h01 : 0 < (createProxy ({ heap := h, drafts := [], patchesOn := false, patches := [], inversePatches := [], canAutoFreeze := true, unfinalized := 0, autoFreeze := auto } : EngineState) baseAddr none).1.drafts.length := by
      rw [createProxy_len]
      omega
    obtain ⟨hinv2, hev2⟩ := invAt_execCmds cmds _ h01 hinv1
    have hmc2 := mc_execCmds cmds _ h01 hinv1 hmcP
    rw [hresE] at hinv2 hev2 hmc2
    have hln0 : LowND h.length ({ heap := h, drafts := [], patchesOn := false, patches := [], inversePatches := [], canAutoFreeze := true, unfinalized := 0, autoFreeze := auto } : EngineState) := lownd_mk hnd rfl
    have hlow02 : LowHeapEq h.length ({ heap := h, drafts := [], patchesOn := false, patches := [], inversePatches := [], canAutoFreeze := true, unfinalized := 0, autoFreeze := auto } : EngineState) st2 :=
      lowHeapEq_trans hev1.2.2 hev2.2.2
    have hln2 : LowND h.length st2 := lownd_of_lowHeapEq hlow02 hln0
    cases oe with
    | some e =>
        intro a ha
        have hpr : produceRun h baseAddr ⟨cmds, ret⟩ auto withP =
            (.error e, revokeScope st2) := by
          simp only [produceRun, hdr, if_true, hresE]
        rw [hpr, revokeScope_heap]
        exact hlow02 a ha
    | none =>
        have hd3 : ((if withP then { st2 with patchesOn := true }
            else st2) : EngineState).drafts = st2.drafts := by
          cases withP
          · rfl
          · rfl
        have hh3 : ((if withP then { st2 with patchesOn := true }
            else st2) : EngineState).heap = st2.heap := by
          cases withP
          · rfl
          · rfl
        have hmc3 : ModCopy (if withP then
            { st2 with patchesOn := true } else st2) :=
          mc_of_drafts_eq hd3 hmc2
        have hch3 : CopyHigh h.length (if withP then
            { st2 with patchesOn := true } else st2) :=
          copyHigh_of_drafts_eq hd3 hinv2.2.2.2.1
        have hln3 : LowND h.length (if withP then
            { st2 with patchesOn := true } else st2) :=
          lownd_of_lowHeapEq (lowHeapEq_of_heap_eq hh3) hln2
        have hlow03 : LowHeapEq h.length ({ heap := h, drafts := [], patchesOn := false, patches := [], inversePatches := [], canAutoFreeze := true, unfinalized := 0, autoFreeze := auto } : EngineState) (if withP then
            { st2 with patchesOn := true } else st2) :=
          lowHeapEq_trans hlow02 (lowHeapEq_of_heap_eq hh3)
        cases ret with
        | undef =>
            have hpr : produceRun h baseAddr ⟨cmds, .undef⟩ auto withP =
                processResult (if withP then
                  { st2 with patchesOn := true } else st2)
                  (Val.prim .undef) := by
              simp only [produceRun, hdr, if_true, hresE]
            rw [hpr]
            intro a ha
            rw [processResult_frame _ _ hmc3 hch3 hln3 a ha]
            exact hlow03 a ha
        | root =>
            have hpr : produceRun h baseAddr ⟨cmds, .root⟩ auto withP =
                processResult (if withP then
                  { st2 with patchesOn := true } else st2)
                  (Val.draft 0) := by
              simp only [produceRun, hdr, if_true, hresE]
            rw [hpr]
            intro a ha
            rw [processResult_frame _ _ hmc3 hch3 hln3 a ha]
            exact hlow03 a ha
        | val t =>
            have hfacts := allocTree_facts t (if withP then
              { st2 with patchesOn := true } else st2)
            have hlen3 : h.length ≤ ((if withP then
                { st2 with patchesOn := true } else st2)
                : EngineState).heap.length := by
              rw [hh3]
              exact Nat.le_trans hev1.2.1 hev2.2.1
            have hlow34 : LowHeapEq h.length (if withP then
                { st2 with patchesOn := true } else st2)
                (allocTree (if withP then { st2 with patchesOn := true }
                  else st2) t).1 := by
              intro a ha
              rw [hfacts.2.2.1 a (Nat.lt_of_lt_of_le ha hlen3)]
            have hmc4 : ModCopy (allocTree (if withP then
                { st2 with patchesOn := true } else st2) t).1 :=
              mc_of_drafts_eq hfacts.1 hmc3
            have hch4 : CopyHigh h.length (allocTree (if withP then
                { st2 with patchesOn := true } else st2) t).1 :=
              copyHigh_of_drafts_eq hfacts.1 hch3
            have hln4 : LowND h.length (allocTree (if withP then
                { st2 with patchesOn := true } else st2) t).1 :=
              lownd_of_lowHeapEq hlow34 hln3
            have hpr : produceRun h baseAddr ⟨cmds, .val t⟩ auto withP =
                processResult (allocTree (if withP then
                  { st2 with patchesOn := true } else st2) t).1
                  (allocTree (if withP then
                    { st2 with patchesOn := true } else st2) t).2 := by
              simp only [produceRun, hdr, if_true, hresE]
            rw [hpr]
            intro a ha
            rw [processResult_frame _ _ hmc4 hch4 hln4 a ha]
            rw [hlow34 a ha]
            exact hlow03 a ha

/-- Witness for C1: a run that overwrites key `a` of the base record
leaves the base node's structural data untouched in the final state. -/
theorem produce_base_unchanged_witness :
    heapNoDrafts
      [{ data := .obj [("a", Val.prim (.num 1))], frozen := false }]
      = true ∧
    (((produceRun
        [{ data := .obj [("a", Val.prim (.num 1))], frozen := false }] 0
        ⟨[Cmd.setProp [] "a" (.prim (.num 2))], .undef⟩ false
        true).2.heap.nodeAt 0).data =
      (Heap.nodeAt
        [{ data := .obj [("a", Val.prim (.num 1))], frozen := false }]
        0).data) :=
  ⟨rfl, produce_base_unchanged
    [{ data := .obj [("a", Val.prim (.num 1))], frozen := false }] 0
    [Cmd.setProp [] "a" (.prim (.num 2))] .undef false true rfl 0
    (by decide)⟩

end Immer
